import Mathlib

/-!
# A user-space FTL over a zoned namespace: `src/m23-ftl/zns_device.cpp`

The development embeds the translation layer of `zns_device.cpp` and settles
statements about it.

Conventions of the embedding.

* The file-scope variables of the source (`log_mapping`, `data_mapping`,
  `zns_dev`, `zns_dev_ex`) are the fields of one record, `FtlState`, passed
  explicitly.  The declarations of `struct user_zns_device` and
  `struct zns_device_extra_info` live in `zns_device.h`, which is not among the
  sources; their integer fields are held as naturals (the watermark as an
  integer).  Locals and parameters whose width the `.cpp` file fixes carry
  that width where a value can leave it.
* A byte buffer (`void *buffer`, `char buffer[...]`) is a function from the
  byte index to the byte.
* `std::unordered_map<int64_t, int64_t>` is a list of (key, value) nodes with
  distinct keys, keys and values held as 64-bit patterns.  The list order is
  the iteration order `begin() .. end()`; a node for a new key is linked at the
  head of the list.  The C++ standard leaves that order open.
* The NVMe commands of libnvme act on `Nvme`, a zoned namespace whose zones
  have as many blocks as their capacity: blocks are written at the write
  pointer of a zone, a reset zone reads as zero bytes, and every command the
  device receives is recorded in `trace` together with its status.
-/

namespace ZnsDevice

/-! ## Constants and macros of the source -/

/-- The source's `ENTRY_INVALID`, `(1L << 63)`, as a 64-bit pattern. -/
def ENTRY_INVALID : Nat := 2 ^ 63

/-- The source's `EMPTY` zone state. -/
def EMPTY : Nat := 1

/-- The source's `FULL` zone state. -/
def FULL : Nat := 14

/-- The source's `MDTS`, `(64 * 4096)` bytes. -/
def MDTS : Nat := 64 * 4096

/-- The source's `roundup(x, y)`: `(((x) + (y - 1)) / y) * y`. -/
def roundup (x y : Nat) : Nat := ((x + (y - 1)) / y) * y

/-- A byte buffer: byte index to byte. -/
abbrev Buf := Nat → Nat

/-- A buffer of zero bytes (`= {0}`). -/
def zero_buf : Buf := fun _ => 0

/-- The value of a 32-bit pattern read as `int` / `int32_t`. -/
def int32_of (n : Nat) : Int :=
  if n % 2 ^ 32 < 2 ^ 31 then ((n % 2 ^ 32 : Nat) : Int) else ((n % 2 ^ 32 : Nat) : Int) - 2 ^ 32

/-- The 64-bit pattern of an integer (`int64_t` passed as `__u64`). -/
def u64_of (x : Int) : Nat := (x % 2 ^ 64).toNat

/-! ## `std::unordered_map` -/

/-- The node list of an `unordered_map` with integer keys, in iteration order. -/
abbrev UMap (α : Type) := List (Nat × α)

/-- The value at `key` (`map.find(key)`), if the map has the key. -/
def map_find {α : Type} : UMap α → Nat → Option α
  | [], _ => none
  | (k, v) :: m, key => if k = key then some v else map_find m key

/-- The source's `map_contains(map, key)`: `map.find(key) != map.end()`. -/
def map_contains {α : Type} (m : UMap α) (key : Nat) : Bool := (map_find m key).isSome

/-- The value at `key` as `map[key]` reads it: a missing key reads as the default. -/
def map_get (m : UMap Nat) (key : Nat) : Nat := (map_find m key).getD 0

/-- Overwrites the value of the node of `key`, leaving the node where it is. -/
def map_set {α : Type} : UMap α → Nat → α → UMap α
  | [], _, _ => []
  | (k, v) :: m, key, x => if k = key then (k, x) :: m else (k, v) :: map_set m key x

/-- The assignment `map[key] = x`: overwrites the node of `key`, or links a new node. -/
def map_assign {α : Type} (m : UMap α) (key : Nat) (x : α) : UMap α :=
  if map_contains m key then map_set m key x else (key, x) :: m

/-- The call `map.insert(pair(key, x))`: links a new node unless the key is there. -/
def map_insert {α : Type} (m : UMap α) (key : Nat) (x : α) : UMap α :=
  if map_contains m key then m else (key, x) :: m

/-! ## The zoned namespace behind libnvme -/

/-- The commands the translation layer sends. -/
inductive Opcode where
  | read
  | write
  | append
  | reset
deriving DecidableEq, Repr

/-- One command as the device received it, with the status it returned. -/
structure Cmd where
  op : Opcode
  slba : Nat
  nlb : Nat
  len : Nat
  ret : Int
deriving DecidableEq, Repr

/-- A zoned namespace: `nr_zones` zones of `zsze` blocks of `lba_size` bytes.
`mem l o` is byte `o` of block `l`, `wp z` the number of blocks written in zone
`z`, `trace` the commands received so far, the latest first. -/
structure Nvme where
  nr_zones : Nat
  zsze : Nat
  lba_size : Nat
  mem : Nat → Nat → Nat
  wp : Nat → Nat
  trace : List Cmd

/-- NVMe status: invalid field in command. -/
def NVME_SC_INVALID_FIELD : Int := 0x2

/-- NVMe status: LBA out of range. -/
def NVME_SC_LBA_RANGE : Int := 0x80

/-- NVMe status: zone boundary error. -/
def NVME_SC_ZNS_BOUNDARY_ERROR : Int := 0x1b8

/-- NVMe status: zone is full. -/
def NVME_SC_ZNS_FULL : Int := 0x1b9

/-- NVMe status: zone invalid write (not at the write pointer). -/
def NVME_SC_ZNS_INVALID_WRITE : Int := 0x1bc

/-- Records a command in the trace. -/
def Nvme.log (dev : Nvme) (op : Opcode) (slba nlb len : Nat) (ret : Int) : Nvme :=
  { dev with trace := { op := op, slba := slba, nlb := nlb, len := len, ret := ret } :: dev.trace }

/-- The status the device gives a read of `nlb + 1` blocks from `slba`. -/
def read_status (dev : Nvme) (slba nlb data_len : Nat) : Int :=
  if dev.nr_zones * dev.zsze < slba + nlb + 1 then NVME_SC_LBA_RANGE
  else if data_len ≠ (nlb + 1) * dev.lba_size then NVME_SC_INVALID_FIELD
  else 0

/-- The libnvme call `nvme_read(fd, nsid, slba, nlb, .., data_len, data, ..)`, `data`
being `buf + off`: on success bytes `off .. off + data_len` of the buffer
receive the blocks from `slba` on. -/
def nvme_read (dev : Nvme) (slba nlb data_len : Nat) (buf : Buf) (off : Nat) :
    Int × Buf × Nvme :=
  let ret := read_status dev slba nlb data_len
  let dev' := dev.log Opcode.read slba nlb data_len ret
  if ret ≠ 0 then (ret, buf, dev')
  else
    (0,
     fun k =>
       if off ≤ k ∧ k < off + data_len then
         dev.mem (slba + (k - off) / dev.lba_size) ((k - off) % dev.lba_size)
       else buf k,
     dev')

/-- The status the device gives a write of `nlb + 1` blocks at `slba`: a zone is
written at its write pointer only and not past its end. -/
def write_status (dev : Nvme) (slba nlb data_len : Nat) : Int :=
  if dev.zsze = 0 ∨ dev.nr_zones * dev.zsze < slba + nlb + 1 then NVME_SC_LBA_RANGE
  else if data_len ≠ (nlb + 1) * dev.lba_size then NVME_SC_INVALID_FIELD
  else if slba ≠ slba / dev.zsze * dev.zsze + dev.wp (slba / dev.zsze) then
    NVME_SC_ZNS_INVALID_WRITE
  else if dev.zsze < dev.wp (slba / dev.zsze) + nlb + 1 then NVME_SC_ZNS_BOUNDARY_ERROR
  else 0

/-- The blocks `lo .. lo + n` of the device filled from the buffer at `off`. -/
def mem_store (dev : Nvme) (lo n : Nat) (buf : Buf) (off : Nat) : Nat → Nat → Nat :=
  fun l o =>
    if lo ≤ l ∧ l < lo + n ∧ o < dev.lba_size then buf (off + (l - lo) * dev.lba_size + o)
    else dev.mem l o

/-- The libnvme call `nvme_write(fd, nsid, slba, nlb, .., data_len, data, ..)`, `data`
being `buf + off`. -/
def nvme_write (dev : Nvme) (slba nlb data_len : Nat) (buf : Buf) (off : Nat) : Int × Nvme :=
  let ret := write_status dev slba nlb data_len
  let dev' := dev.log Opcode.write slba nlb data_len ret
  if ret ≠ 0 then (ret, dev')
  else
    (0,
     { dev' with
       mem := mem_store dev slba (nlb + 1) buf off
       wp := fun z => if z = slba / dev.zsze then dev.wp z + (nlb + 1) else dev.wp z })

/-- The status the device gives an append of `nlb + 1` blocks to the zone that
starts at `zslba`. -/
def append_status (dev : Nvme) (zslba nlb data_len : Nat) : Int :=
  if dev.zsze = 0 ∨ dev.nr_zones * dev.zsze ≤ zslba then NVME_SC_LBA_RANGE
  else if zslba % dev.zsze ≠ 0 then NVME_SC_INVALID_FIELD
  else if data_len ≠ (nlb + 1) * dev.lba_size then NVME_SC_INVALID_FIELD
  else if dev.wp (zslba / dev.zsze) = dev.zsze then NVME_SC_ZNS_FULL
  else if dev.zsze < dev.wp (zslba / dev.zsze) + nlb + 1 then NVME_SC_ZNS_BOUNDARY_ERROR
  else 0

/-- The libnvme call `nvme_zns_append(fd, nsid, zslba, nlb, .., data_len, data, .., &result)`:
the blocks are written at the write pointer of the zone and `result` is the LBA
of the first of them.  The components are the status, `result` and the device. -/
def nvme_zns_append (dev : Nvme) (zslba nlb data_len : Nat) (buf : Buf) : Int × Nat × Nvme :=
  let ret := append_status dev zslba nlb data_len
  let dev' := dev.log Opcode.append zslba nlb data_len ret
  if ret ≠ 0 then (ret, 0, dev')
  else
    let res := zslba + dev.wp (zslba / dev.zsze)
    (0, res,
     { dev' with
       mem := mem_store dev res (nlb + 1) buf 0
       wp := fun z => if z = zslba / dev.zsze then dev.wp z + (nlb + 1) else dev.wp z })

/-- The status the device gives a reset of the zone that starts at `slba`. -/
def reset_status (dev : Nvme) (slba : Nat) (select_all : Bool) : Int :=
  if select_all then 0
  else if dev.zsze = 0 ∨ dev.nr_zones * dev.zsze ≤ slba then NVME_SC_LBA_RANGE
  else if slba % dev.zsze ≠ 0 then NVME_SC_INVALID_FIELD
  else 0

/-- The libnvme call `nvme_zns_mgmt_send(fd, nsid, slba, select_all, NVME_ZNS_ZSA_RESET, 0, NULL)`:
the zone (every zone, with `select_all`) is emptied. -/
def nvme_zns_mgmt_send (dev : Nvme) (slba : Nat) (select_all : Bool) : Int × Nvme :=
  let ret := reset_status dev slba select_all
  let dev' := dev.log Opcode.reset slba 0 0 ret
  if ret ≠ 0 then (ret, dev')
  else if select_all then (0, { dev' with mem := fun _ _ => 0, wp := fun _ => 0 })
  else
    (0,
     { dev' with
       mem := fun l o => if l / dev.zsze = slba / dev.zsze then 0 else dev.mem l o
       wp := fun z => if z = slba / dev.zsze then 0 else dev.wp z })

/-! ## The state of the translation layer -/

/-- The variables of the translation layer: the fields of `struct user_zns_device`
and `struct zns_device_extra_info` the source uses, the two file-scope maps,
and the GC mutex as a flag (`gc_mutex = true`: held). -/
structure FtlState where
  lba_size_bytes : Nat
  capacity_bytes : Nat
  zns_num_zones : Nat
  blocks_per_zone : Nat
  log_zone_num_config : Nat
  gc_watermark : Int
  mdts : Nat
  log_zone_start : Nat
  log_zone_end : Nat
  data_zone_start : Nat
  data_zone_end : Nat
  zone_states : Nat → Nat
  log_mapping : UMap Nat
  data_mapping : UMap Nat
  do_gc : Bool
  gc_thread_stop : Bool
  gc_mutex : Bool

/-- What a call that can suspend its thread does: it returns, or the thread
stays suspended (on the mutex or on a condition variable) with the state as
`blocked` holds it, until another thread acts. -/
inductive Outcome (α : Type) where
  | returned (a : α)
  | blocked (st : FtlState)

/-- The source's `address_2_zone(addr)`: `((addr) / (blocks_per_zone * lba_size_bytes)) + log_zone_num_config`. -/
def address_2_zone (st : FtlState) (addr : Nat) : Nat :=
  addr / (st.blocks_per_zone * st.lba_size_bytes) + st.log_zone_num_config

/-- The source's `address_2_offset(addr)`: `((addr) % (blocks_per_zone * lba_size_bytes) / lba_size_bytes)`. -/
def address_2_offset (st : FtlState) (addr : Nat) : Nat :=
  addr % (st.blocks_per_zone * st.lba_size_bytes) / st.lba_size_bytes

/-- The source's `zone_2_address(zone_no)`: `(zone_no - log_zone_num_config) * (blocks_per_zone * lba_size_bytes)`. -/
def zone_2_address (st : FtlState) (zone_no : Nat) : Nat :=
  (zone_no - st.log_zone_num_config) * (st.blocks_per_zone * st.lba_size_bytes)

/-- The capacity `init_ss_zns_device` computes,
`(report.nr_zones - params->log_zones - 1) * zns_zone_capacity` with
`zns_zone_capacity = blocks_per_zone * lba_size_bytes`; the zone count is a
`__u64`, so the difference is taken modulo `2 ^ 64`. -/
def init_capacity_bytes (nr_zones log_zones blocks_per_zone lba_size_bytes : Nat) : Nat :=
  (nr_zones + 2 ^ 64 - log_zones % 2 ^ 64 - 1) % 2 ^ 64 * (blocks_per_zone * lba_size_bytes)

/-- A zero-based block count as the `__u16 nlb` argument of libnvme receives
`blocks - 1` computed in `uint32_t`. -/
def nlb_of (blocks : Nat) : Nat := (blocks + 65535) % 65536

/-- Stores `x` at index `i` of the `zone_states` array. -/
def set_state (zs : Nat → Nat) (i x : Nat) : Nat → Nat := fun j => if j = i then x else zs j

/-! ## Transfers in chunks of `mdts` bytes -/

/-- The loop of `ss_nvme_device_io_with_mdts`, with `fuel` iterations at most;
`none` stands for a loop that has not ended within them. -/
def mdts_loop (st : FtlState) (read : Bool) :
    Nat → Nvme → Buf → Nat → Nat → Nat → Int → Option (Int × Buf × Nvme)
  | 0, _, _, _, _, _, _ => none
  | fuel + 1, dev, buffer, size_left, ptr, wp, ret =>
    if size_left > 0 then
      let io_num := if st.mdts < size_left then st.mdts else size_left
      let lba_num :=
        (io_num / st.lba_size_bytes + 2 ^ 64 - (if io_num % st.lba_size_bytes = 0 then 1 else 0))
          % 2 ^ 64
      let r : Int × Buf × Nvme :=
        if read then nvme_read dev wp (lba_num % 65536) io_num buffer ptr
        else
          let w := nvme_write dev wp (lba_num % 65536) io_num buffer ptr
          (w.1, buffer, w.2)
      if r.1 ≠ 0 then some r
      else mdts_loop st read fuel r.2.2 r.2.1 (size_left - io_num) (ptr + io_num)
        ((wp + lba_num + 1) % 2 ^ 64) r.1
    else some (ret, buffer, dev)

/-- The source's `ss_nvme_device_io_with_mdts(slba, buffer, buf_size, read)`.  A chunk
takes at least one byte when `mdts` is positive, so the loop is over after
`buf_size + 1` iterations; with `mdts = 0` the loop of the source does not end.
The source returns `ret` unset when `buf_size` is 0; it reads as 0 here. -/
def ss_nvme_device_io_with_mdts (st : FtlState) (dev : Nvme) (slba : Nat) (buffer : Buf)
    (buf_size : Nat) (read : Bool) : Option (Int × Buf × Nvme) :=
  mdts_loop st read (buf_size + 1) dev buffer buf_size 0 slba 0

/-! ## The metadata zone -/

/-- The source's `metadata_write(info, buffer, size)`: resets the last zone and appends
the buffer to it. -/
def metadata_write (st : FtlState) (dev : Nvme) (buffer : Buf) (size : Nat) : Int × Nvme :=
  let blocks := size / st.lba_size_bytes
  let last_zone := st.zns_num_zones - 1
  if size % st.lba_size_bytes ≠ 0 then (-1, dev)
  else
    let r := nvme_zns_mgmt_send dev (last_zone * st.blocks_per_zone) false
    if r.1 ≠ 0 then r
    else
      let a := nvme_zns_append r.2 (last_zone * st.blocks_per_zone) (nlb_of blocks) size buffer
      if a.1 ≠ 0 then (a.1, a.2.2) else (0, a.2.2)

/-- The source's `metadata_read(info, buffer, size)`: reads the first `size` bytes of the
last zone. -/
def metadata_read (st : FtlState) (dev : Nvme) (buffer : Buf) (size : Nat) : Int × Buf × Nvme :=
  let blocks := size / st.lba_size_bytes
  if size % st.lba_size_bytes ≠ 0 then (-1, buffer, dev)
  else
    let r := nvme_read dev ((st.zns_num_zones - 1) * st.blocks_per_zone) (nlb_of blocks) size
      buffer 0
    if r.1 ≠ 0 then r else (0, r.2.1, r.2.2)

/-! ## Free log zones and empty data zones -/

/-- The source's `get_free_lz_num(offset)`:
`log_zone_num_config - (log_zone_end - log_zone_start + offset) / blocks_per_zone`,
the division truncating as in C. -/
def get_free_lz_num (st : FtlState) (offset : Int) : Int :=
  (st.log_zone_num_config : Int)
    - Int.tdiv ((st.log_zone_end : Int) - (st.log_zone_start : Int) + offset)
        (st.blocks_per_zone : Int)

/-- The loop of `find_next_empty_zone` over the zones `i .. i + n`. -/
def find_empty_from (st : FtlState) : Nat → Nat → Int
  | 0, _ => -1
  | n + 1, i =>
    if st.zone_states i = EMPTY then int32_of (i * st.blocks_per_zone)
    else find_empty_from st n (i + 1)

/-- The source's `find_next_empty_zone()`: the first block of the first zone `i` with
`log_zone_num_config <= i < zns_num_zones - 1` in state `EMPTY`, as an `int`;
`-1` when there is none. -/
def find_next_empty_zone (st : FtlState) : Int :=
  find_empty_from st (st.zns_num_zones - 1 - st.log_zone_num_config) st.log_zone_num_config

/-! ## Reading -/

/-- The call `memset(buffer + p, c, n)`. -/
def memset (buffer : Buf) (p c n : Nat) : Buf :=
  fun k => if p ≤ k ∧ k < p + n then c else buffer k

/-- The source's `~ENTRY_INVALID` as a 64-bit pattern. -/
def ENTRY_MASK : Nat := 2 ^ 64 - 1 - ENTRY_INVALID

/-- The body of the loop of `zns_udevice_read` for the slice at logical address
`i`, the output position being `num_read`: the status of the block read (0 for
a slice filled with zeros), the buffer and the device. -/
def read_slice (st : FtlState) (dev : Nvme) (buffer : Buf) (num_read i : Nat) :
    Int × Buf × Nvme :=
  let lba_s := st.lba_size_bytes
  let read_data : Bool :=
    if map_contains st.log_mapping i then
      decide (map_get st.log_mapping i &&& ENTRY_INVALID ≠ 0)
    else true
  if read_data then
    let zone_no := address_2_zone st i
    if !map_contains st.data_mapping zone_no then (0, memset buffer num_read 0 lba_s, dev)
    else
      let entry := (map_get st.data_mapping zone_no + address_2_offset st i) % 2 ^ 64
      nvme_read dev (entry &&& ENTRY_MASK) 0 lba_s buffer num_read
  else
    let entry := map_get st.log_mapping i
    nvme_read dev (entry &&& ENTRY_MASK) 0 lba_s buffer num_read

/-- The loop `for (i = address; i < address + blocks * lba_s; i += lba_s)` of
`zns_udevice_read`, `n` being the number of iterations left to the bound. -/
def read_loop (st : FtlState) : Nat → Nvme → Buf → Nat → Nat → Nat → Int × Buf × Nvme
  | 0, dev, buffer, _, _, _ => (0, buffer, dev)
  | n + 1, dev, buffer, i, bound, num_read =>
    if i < bound then
      let r := read_slice st dev buffer num_read i
      if r.1 ≠ 0 then r
      else read_loop st n r.2.2 r.2.1 (i + st.lba_size_bytes) bound (num_read + st.lba_size_bytes)
    else (0, buffer, dev)

/-- The source's `zns_udevice_read(my_dev, address, buffer, size)`: the status, the
buffer and the device.  The bound `address + blocks * lba_s` is a `uint64_t`;
the loop runs `blocks` times when the bound does not wrap and not at all when
it does. -/
def zns_udevice_read (st : FtlState) (dev : Nvme) (address : Nat) (buffer : Buf) (size : Nat) :
    Int × Buf × Nvme :=
  if size % st.lba_size_bytes ≠ 0 then (-1, buffer, dev)
  else
    let blocks := size / st.lba_size_bytes
    read_loop st blocks dev buffer address ((address + blocks * st.lba_size_bytes) % 2 ^ 64) 0

/-! ## Writing -/

/-- The loop `for (i = 0; i < blocks; i++) log_mapping[address + i * lba_size_bytes] = lz_end_before + i`
of `zns_udevice_write`, from `i` on for `n` iterations.  The sum
`lz_end_before + i` is an `int32_t` plus a `uint32_t`. -/
def write_log_entries (lba_size address lz_end_before : Nat) : Nat → Nat → UMap Nat → UMap Nat
  | 0, _, m => m
  | n + 1, i, m =>
    write_log_entries lba_size address lz_end_before n (i + 1)
      (map_assign m ((address + i * lba_size) % 2 ^ 64) ((lz_end_before + i) % 2 ^ 32))

/-- The part of `zns_udevice_write` after the alignment check, from
`pthread_mutex_lock` on.  The thread stays suspended in `pthread_mutex_lock`
while the mutex is held, and in `pthread_cond_wait(&gc_sleep, ..)`, having set
`do_gc`, while `get_free_lz_num(blocks) <= gc_watermark`; the wait releases
the mutex, and the thread starts over at the test of the loop when it is woken. -/
def write_locked (st : FtlState) (dev : Nvme) (address : Nat) (buffer : Buf) (size : Nat) :
    Outcome (Int × FtlState × Nvme) :=
  let blocks := size / st.lba_size_bytes
  if st.gc_mutex then Outcome.blocked st
  else if get_free_lz_num st (int32_of blocks) ≤ st.gc_watermark then
    Outcome.blocked { st with do_gc := true }
  else
    let lz_end_before := st.log_zone_end
    let z_no := int32_of (st.log_zone_end / st.blocks_per_zone)
    let r := nvme_zns_append dev (u64_of (z_no * (st.blocks_per_zone : Int))) (nlb_of blocks)
      size buffer
    if r.1 ≠ 0 then Outcome.returned (r.1, { st with gc_mutex := true }, r.2.2)
    else
      Outcome.returned
        (0,
         { st with
           log_zone_end := r.2.1 + 1
           log_mapping :=
             write_log_entries st.lba_size_bytes address lz_end_before blocks 0 st.log_mapping
           gc_mutex := false },
         r.2.2)

/-- The source's `zns_udevice_write(my_dev, address, buffer, size)`: the call returns a
status with the state and the device it leaves, or its thread stays suspended. -/
def zns_udevice_write (st : FtlState) (dev : Nvme) (address : Nat) (buffer : Buf) (size : Nat) :
    Outcome (Int × FtlState × Nvme) :=
  if size % st.lba_size_bytes ≠ 0 then Outcome.returned (-1, st, dev)
  else write_locked st dev address buffer size

/-! ## Garbage collection -/

/-- The staging loop of `gc_loop` as it builds `zone_sets`: every entry of the
log map is inserted, under the offset of its address, into the set of the
zone of its address. -/
def gc_stage (st : FtlState) : UMap Nat → UMap (UMap Nat) → UMap (UMap Nat)
  | [], zone_sets => zone_sets
  | (addr, pba) :: rest, zone_sets =>
    let zone_no := address_2_zone st addr
    let zone_sets1 :=
      if map_contains zone_sets zone_no then zone_sets else map_assign zone_sets zone_no []
    let set := (map_find zone_sets1 zone_no).getD []
    gc_stage st rest (map_set zone_sets1 zone_no (map_insert set (address_2_offset st addr) pba))

/-- The staging loop of `gc_loop` as it rewrites the log map:
`iter->second &= ENTRY_INVALID` on every entry. -/
def gc_tag (m : UMap Nat) : UMap Nat := m.map (fun e => (e.1, e.2 &&& ENTRY_INVALID))

/-- The value of a 64-bit pattern read as `int64_t`. -/
def int64_of (n : Nat) : Int :=
  if n % 2 ^ 64 < 2 ^ 63 then ((n % 2 ^ 64 : Nat) : Int) else ((n % 2 ^ 64 : Nat) : Int) - 2 ^ 64

/-- The index `x / nlb` of `zone_states[x / nlb]` for `int64_t` operands.  A
negative index is outside the array in the source; it is 0 here. -/
def state_index (x : Int) (nlb : Nat) : Nat := (Int.tdiv x (nlb : Int)).toNat

/-- The inner loop of `do_merge`: every staged block is read from the log into
the image at its offset. -/
def merge_overlay (st : FtlState) : UMap Nat → Nvme → Buf → Int × Buf × Nvme
  | [], dev, buffer => (0, buffer, dev)
  | (off, pba) :: rest, dev, buffer =>
    let r := nvme_read dev pba 0 st.lba_size_bytes buffer (st.lba_size_bytes * off)
    if r.1 ≠ 0 then r else merge_overlay st rest r.2.2 r.2.1

/-- The last part of one iteration of `do_merge`, from `if (used_log)` on. -/
def merge_persist (st : FtlState) (dev : Nvme) (buffer : Buf) (lz : Nat) (zone_no old_zone : Int)
    (used_log : Bool) : Option (Int × FtlState × Nvme) :=
  let nlb := st.blocks_per_zone
  let lsb := st.lba_size_bytes
  if used_log then
    let d := (nvme_zns_mgmt_send dev (u64_of old_zone) false).2
    match ss_nvme_device_io_with_mdts st d (u64_of old_zone) buffer (nlb * lsb) false with
    | none => none
    | some w =>
      if w.1 ≠ 0 then some (w.1, st, w.2.2)
      else
        some (0, { st with zone_states := set_state st.zone_states (state_index old_zone nlb) FULL },
          w.2.2)
  else
    match ss_nvme_device_io_with_mdts st dev (u64_of zone_no) buffer (nlb * lsb) false with
    | none => none
    | some w =>
      if w.1 ≠ 0 then some (w.1, st, w.2.2)
      else
        let st' :=
          { st with
            data_mapping := map_assign st.data_mapping lz (u64_of zone_no)
            zone_states := set_state st.zone_states (state_index zone_no nlb) FULL }
        if old_zone ≠ -1 then some (0, st', (nvme_zns_mgmt_send w.2.2 (u64_of old_zone) false).2)
        else some (0, st', w.2.2)

/-- The first part of one iteration of `do_merge`, up to the inner loop: if the data
map has the logical zone `lz`, its image is read into the buffer and its zone
is marked `EMPTY`.  The components are the status, the state, the device, the
buffer and `old_zone` (-1 without an image). -/
def merge_old_image (st : FtlState) (dev : Nvme) (buffer : Buf) (lz : Nat) :
    Option (Int × FtlState × Nvme × Buf × Int) :=
  let nlb := st.blocks_per_zone
  let lsb := st.lba_size_bytes
  if map_contains st.data_mapping lz then
    match ss_nvme_device_io_with_mdts st dev (map_get st.data_mapping lz) buffer (nlb * lsb)
      true with
    | none => none
    | some r =>
      if r.1 ≠ 0 then some (r.1, st, r.2.2, r.2.1, -1)
      else
        some (0,
          { st with
            zone_states :=
              set_state st.zone_states
                (state_index (int64_of (map_get st.data_mapping lz)) nlb) EMPTY },
          r.2.2, r.2.1, int64_of (map_get st.data_mapping lz))
  else some (0, st, dev, buffer, -1)

/-- One iteration of the outer loop of `do_merge`, for the logical zone `lz` and its
staged set: the status (non-zero: `do_merge` returns it), the state, the device
and the image buffer.  `find_next_empty_zone` is called first, as in the source. -/
def merge_zone (st : FtlState) (dev : Nvme) (buffer : Buf) (lz : Nat) (set : UMap Nat) :
    Option (Int × FtlState × Nvme × Buf) :=
  let nlb := st.blocks_per_zone
  let found := find_next_empty_zone st
  let used_log : Bool := decide (found = -1)
  let zone_no : Int :=
    if used_log then ((st.log_zone_num_config : Int) - 1) * (nlb : Int) else found
  match merge_old_image st dev buffer lz with
  | none => none
  | some (ret, st1, dev1, buffer1, old_zone) =>
    if ret ≠ 0 then some (ret, st1, dev1, buffer1)
    else
      let o := merge_overlay st1 set dev1 buffer1
      if o.1 ≠ 0 then some (o.1, st1, o.2.2, o.2.1)
      else
        match merge_persist st1 o.2.2 o.2.1 lz zone_no old_zone used_log with
        | none => none
        | some p => some (p.1, p.2.1, p.2.2, o.2.1)

/-- The outer loop of `do_merge` over `zone_set`; the image buffer is declared
before the loop and is the same array in every iteration. -/
def do_merge_loop : UMap (UMap Nat) → FtlState → Nvme → Buf → Option (Int × FtlState × Nvme × Buf)
  | [], st, dev, buffer => some (0, st, dev, buffer)
  | (lz, set) :: rest, st, dev, buffer =>
    match merge_zone st dev buffer lz set with
    | none => none
    | some r => if r.1 ≠ 0 then some r else do_merge_loop rest r.2.1 r.2.2.1 r.2.2.2

/-- The source's `do_merge(zone_sets_ptr)`: the status, the state and the device;
`none` when a chunked transfer does not end. -/
def do_merge (st : FtlState) (dev : Nvme) (zone_sets : UMap (UMap Nat)) :
    Option (Int × FtlState × Nvme) :=
  match do_merge_loop zone_sets st dev zero_buf with
  | none => none
  | some r => some (r.1, r.2.1, r.2.2.1)

/-- The loop of `gc_loop` that resets the log zones `i .. i + n`. -/
def reset_log_zones (st : FtlState) : Nat → Nat → Nvme → Nvme
  | 0, _, dev => dev
  | n + 1, i, dev =>
    reset_log_zones st n (i + 1) (nvme_zns_mgmt_send dev (i * st.blocks_per_zone) false).2

/-- One pass of `gc_loop`, from the declaration of `zone_sets` to
`pthread_mutex_unlock`: staging, `do_merge`, the reset of the log zones, the
clearing of the log map.  The components are the status of `do_merge`, the
state and the device. -/
def gc_pass (st : FtlState) (dev : Nvme) : Option (Int × FtlState × Nvme) :=
  let zone_sets := gc_stage st st.log_mapping []
  match do_merge { st with log_mapping := gc_tag st.log_mapping } dev zone_sets with
  | none => none
  | some r =>
    some (r.1,
      { r.2.1 with
        log_zone_end := r.2.1.log_zone_start
        log_mapping := []
        do_gc := false
        gc_mutex := false },
      reset_log_zones r.2.1 r.2.1.log_zone_num_config 0 r.2.2)

/-- What one turn of the `while (1)` of `gc_loop` does. -/
inductive GcTurn where
  | suspended
  | stopped
  | pass (r : Option (Int × FtlState × Nvme))

/-- One turn of the `while (1)` of `gc_loop`: the thread stays suspended while the
mutex is held or while neither `gc_thread_stop` nor `do_gc` is set; it leaves
the loop on `gc_thread_stop`; otherwise it runs one pass. -/
def gc_loop (st : FtlState) (dev : Nvme) : GcTurn :=
  if st.gc_mutex then GcTurn.suspended
  else if !st.gc_thread_stop && !st.do_gc then GcTurn.suspended
  else if st.gc_thread_stop then GcTurn.stopped
  else GcTurn.pass (gc_pass st dev)

/-! ## The metadata checkpoint -/

/-- Stores the low `n` bytes of `v` at `p`, least significant first
(`*(uintN_t *)(buffer + p) = v`). -/
def store_le (n : Nat) (buffer : Buf) (p v : Nat) : Buf :=
  fun k => if p ≤ k ∧ k < p + n then v / 256 ^ (k - p) % 256 else buffer k

/-- Loads the `n` bytes at `p`, least significant first (`*(uintN_t *)(buffer + p)`). -/
def load_le : Nat → Buf → Nat → Nat
  | 0, _, _ => 0
  | n + 1, buffer, p => buffer p + 256 * load_le n buffer (p + 1)

/-- The loop of `restore_descriptor` that stores the states of the zones
`i .. i + n`, one byte each, from `ptr` on. -/
def restore_states (st : FtlState) : Nat → Nat → Nat → Buf → Buf × Nat
  | 0, _, ptr, buffer => (buffer, ptr)
  | n + 1, i, ptr, buffer =>
    restore_states st n (i + 1) (ptr + 1) (store_le 1 buffer ptr (st.zone_states i))

/-- A loop of `restore_descriptor` over a map: key and value of every node, eight
bytes each, from `ptr` on. -/
def restore_pairs : UMap Nat → Nat → Buf → Buf × Nat
  | [], ptr, buffer => (buffer, ptr)
  | (key, value) :: rest, ptr, buffer =>
    restore_pairs rest (ptr + 16) (store_le 8 (store_le 8 buffer ptr key) (ptr + 8) value)

/-- The buffer `restore_descriptor` builds and the final `ptr`, the record's
`total_bytes`.  `ptr` is held as a natural; it is the `uint32_t` of the source
while the record is shorter than `2 ^ 32` bytes. -/
def descriptor_buffer (st : FtlState) : Buf × Nat :=
  let b1 := store_le 4 zero_buf 4 st.log_zone_start
  let b2 := store_le 4 b1 8 st.log_zone_end
  let b3 := store_le 4 b2 12 st.data_zone_start
  let b4 := store_le 4 b3 16 st.data_zone_end
  let s := restore_states st (st.zns_num_zones - 1 - st.log_zone_num_config)
    st.log_zone_num_config 20 b4
  let b5 := store_le 4 s.1 s.2 st.log_mapping.length
  let b6 := store_le 4 b5 (s.2 + 4) st.data_mapping.length
  let l := restore_pairs st.log_mapping (s.2 + 8) b6
  let d := restore_pairs st.data_mapping l.2 l.1
  (store_le 4 d.1 0 d.2, d.2)

/-- The source's `restore_descriptor(info)`: writes the checkpoint to the metadata zone.
The status of `metadata_write` is dropped, as in the source. -/
def restore_descriptor (st : FtlState) (dev : Nvme) : Int × Nvme :=
  let b := descriptor_buffer st
  (0, (metadata_write st dev b.1 (roundup b.2 st.lba_size_bytes % 2 ^ 32)).2)

/-- The loop of `init_descriptor` that loads the states of the zones `i .. i + n`. -/
def init_states (buffer : Buf) : Nat → Nat → Nat → (Nat → Nat) → (Nat → Nat) × Nat
  | 0, _, ptr, zs => (zs, ptr)
  | n + 1, i, ptr, zs =>
    init_states buffer n (i + 1) (ptr + 1) (set_state zs i (load_le 1 buffer ptr))

/-- A loop of `init_descriptor` over the `n` pairs of a map section: `map[key] = value`. -/
def init_pairs (buffer : Buf) : Nat → Nat → UMap Nat → UMap Nat × Nat
  | 0, ptr, m => (m, ptr)
  | n + 1, ptr, m =>
    init_pairs buffer n (ptr + 16)
      (map_assign m (load_le 8 buffer ptr) (load_le 8 buffer (ptr + 8)))

/-- The part of `init_descriptor` after the second `metadata_read`: the fields of the
record in `buffer` are stored into the state. -/
def load_descriptor (st : FtlState) (buffer : Buf) : FtlState :=
  let s := init_states buffer (st.zns_num_zones - 1 - st.log_zone_num_config)
    st.log_zone_num_config 20 st.zone_states
  let log_mapping_size := load_le 4 buffer s.2
  let data_mapping_size := load_le 4 buffer (s.2 + 4)
  let l := init_pairs buffer log_mapping_size (s.2 + 8) st.log_mapping
  let d := init_pairs buffer data_mapping_size l.2 st.data_mapping
  { st with
    log_zone_start := load_le 4 buffer 4
    log_zone_end := load_le 4 buffer 8
    data_zone_start := load_le 4 buffer 12
    data_zone_end := load_le 4 buffer 16
    zone_states := s.1
    log_mapping := l.1
    data_mapping := d.1 }

/-- The source's `init_descriptor(info)`: restores the checkpoint unless the metadata
zone is `EMPTY` or the record's `total_bytes` is 0.  The statuses of the two
calls of `metadata_read` are dropped, as in the source; `size_char`, which the
source leaves uninitialised, starts as zero bytes. -/
def init_descriptor (st : FtlState) (dev : Nvme) : Int × FtlState × Nvme :=
  let lsb := st.lba_size_bytes
  if st.zone_states (st.zns_num_zones - 1) = EMPTY then (0, st, dev)
  else
    let r1 := metadata_read st dev zero_buf (lsb % 2 ^ 32)
    let size := load_le 4 r1.2.1 0
    if size = 0 then (0, st, r1.2.2)
    else
      let r2 := metadata_read st r1.2.2 zero_buf (roundup size lsb % 2 ^ 32)
      (0, load_descriptor st r2.2.1, r2.2.2)

/-! ## Initialisation -/

/-- The source's `struct zdev_init_params`, without the device name. -/
structure zdev_init_params where
  log_zones : Nat
  gc_wmark : Int
  force_reset : Bool

/-- The state of zone `i` as the zone report gives it (`entries[i].zs >> 4`): 1 for
an empty zone, 14 for a full one, 2 (implicitly opened) otherwise. -/
def zone_report_state (dev : Nvme) (i : Nat) : Nat :=
  if dev.wp i = 0 then 1 else if dev.wp i = dev.zsze then 14 else 2

/-- The source's `init_ss_zns_device(params, my_dev)` on a device that opens and
identifies: the optional reset of all zones, the geometry and the zone states
read from the device, and `init_descriptor`.  The memory of both records comes
from `calloc`, so every field the source does not set is 0. -/
def init_ss_zns_device (params : zdev_init_params) (dev : Nvme) : Int × FtlState × Nvme :=
  let r := if params.force_reset then nvme_zns_mgmt_send dev 0 true else (0, dev)
  let st : FtlState :=
    { lba_size_bytes := r.2.lba_size
      capacity_bytes :=
        init_capacity_bytes r.2.nr_zones params.log_zones r.2.zsze r.2.lba_size
      zns_num_zones := r.2.nr_zones
      blocks_per_zone := r.2.zsze
      log_zone_num_config := params.log_zones
      gc_watermark := params.gc_wmark
      mdts := MDTS
      log_zone_start := 0
      log_zone_end := 0
      data_zone_start := 0
      data_zone_end := 0
      zone_states :=
        fun i => if params.log_zones ≤ i ∧ i < r.2.nr_zones then zone_report_state r.2 i else 0
      log_mapping := []
      data_mapping := []
      do_gc := false
      gc_thread_stop := false
      gc_mutex := false }
  if r.1 ≠ 0 then (r.1, st, r.2)
  else
    let d := init_descriptor st r.2
    (0, d.2.1, d.2.2)


/-! ## The boundary configuration of the specification

`L = 3` log zones, `B = 4` blocks a zone, 4096-byte blocks, `Z = 8` zones,
watermark 1. -/

/-- An empty namespace of 8 zones of 4 blocks of 4096 bytes. -/
def scn_dev : Nvme :=
  { nr_zones := 8, zsze := 4, lba_size := 4096, mem := fun _ _ => 0, wp := fun _ => 0, trace := [] }

/-- The parameters of the boundary configuration, with `force_reset`. -/
def scn_params : zdev_init_params := { log_zones := 3, gc_wmark := 1, force_reset := true }

/-- The state `init_ss_zns_device` leaves for the boundary configuration. -/
def scn_state : FtlState := (init_ss_zns_device scn_params scn_dev).2.1

/-- The device `init_ss_zns_device` leaves for the boundary configuration. -/
def scn_nvme : Nvme := (init_ss_zns_device scn_params scn_dev).2.2

/-- A data buffer: byte `k` is `tag + k / 4096`, so every 4096-byte block of it
has its own value. -/
def scn_data (tag : Nat) : Buf := fun k => tag + k / 4096

/-- The state and device after a call of `zns_udevice_write`; a suspended call
leaves the device as it was. -/
def after_write (x : FtlState × Nvme) (address : Nat) (buffer : Buf) (size : Nat) :
    FtlState × Nvme :=
  match zns_udevice_write x.1 x.2 address buffer size with
  | Outcome.returned r => r.2
  | Outcome.blocked st => (st, x.2)

/-- The status of a call of `zns_udevice_write`, if it returns. -/
def write_status_of (x : FtlState × Nvme) (address : Nat) (buffer : Buf) (size : Nat) :
    Option Int :=
  match zns_udevice_write x.1 x.2 address buffer size with
  | Outcome.returned r => some r.1
  | Outcome.blocked _ => none

/-- The state and device after a pass of `gc_pass`. -/
def after_gc (x : FtlState × Nvme) : FtlState × Nvme :=
  match gc_pass x.1 x.2 with
  | some r => r.2
  | none => x

/-- The status of a read of `size` bytes at `address` and byte `k` of what it
returns, the output buffer starting as bytes of value 255. -/
def read_byte (x : FtlState × Nvme) (address size k : Nat) : Int × Nat :=
  let r := zns_udevice_read x.1 x.2 address (fun _ => 255) size
  (r.1, r.2.1 k)


/-! ## Predicates used in the statements -/

/-- What `restore_descriptor` can hold in the fields of the record: the four
pointers in 32 bits, keys and values in 64 bits, the states of the data zones
in a byte each, every key once, and a record shorter than `2 ^ 32` bytes. -/
def storable (st : FtlState) : Prop :=
  st.log_zone_start < 2 ^ 32 ∧ st.log_zone_end < 2 ^ 32 ∧
  st.data_zone_start < 2 ^ 32 ∧ st.data_zone_end < 2 ^ 32 ∧
  (∀ e ∈ st.log_mapping, e.1 < 2 ^ 64 ∧ e.2 < 2 ^ 64) ∧
  (∀ e ∈ st.data_mapping, e.1 < 2 ^ 64 ∧ e.2 < 2 ^ 64) ∧
  (st.log_mapping.map Prod.fst).Nodup ∧ (st.data_mapping.map Prod.fst).Nodup ∧
  (∀ i, st.log_zone_num_config ≤ i → i < st.zns_num_zones - 1 → st.zone_states i < 256) ∧
  (descriptor_buffer st).2 < 2 ^ 32

/-- The device has the geometry the state holds. -/
def same_geometry (st : FtlState) (dev : Nvme) : Prop :=
  dev.nr_zones = st.zns_num_zones ∧ dev.zsze = st.blocks_per_zone ∧
  dev.lba_size = st.lba_size_bytes

/-- The boundary configuration after a write of address 0, a GC pass and a second
write of address 0: the data map holds logical zone 3 and the log map holds
address 0. -/
def scn_saved : FtlState × Nvme :=
  after_write (after_gc (after_write (scn_state, scn_nvme) 0 (scn_data 0xa0) 4096)) 0
    (scn_data 0xb0) 4096

/-- The state `init_ss_zns_device` passes to `init_descriptor` at the boundary
configuration when the metadata zone holds a record: empty maps, and the
metadata zone reported as opened (2). -/
def scn_restart : FtlState :=
  { scn_state with zone_states := fun i => if i = 7 then 2 else scn_state.zone_states i }

/-- The `n` pairs of a map section of a record, from `ptr` on, in the order of the
record. -/
def record_pairs (m : Buf) : Nat → Nat → UMap Nat
  | 0, _ => []
  | n + 1, ptr => (load_le 8 m ptr, load_le 8 m (ptr + 8)) :: record_pairs m n (ptr + 16)

/-- A well-formed record for `nz` data zones, laid out as section 4.5 of the
specification has it: `total_bytes` is not 0 and is the length the layout gives
for the two map sizes of the record, the record is made of bytes, the buffer is
zero after it, and no key occurs twice in a map section. -/
def record_wf (nz : Nat) (m : Buf) : Prop :=
  load_le 4 m 0 =
    28 + nz + 16 * load_le 4 m (20 + nz) + 16 * load_le 4 m (20 + nz + 4) ∧
  load_le 4 m 0 ≠ 0 ∧
  (∀ k, k < load_le 4 m 0 → m k < 256) ∧
  (∀ k, load_le 4 m 0 ≤ k → m k = 0) ∧
  ((record_pairs m (load_le 4 m (20 + nz)) (20 + nz + 8)).map Prod.fst).Nodup ∧
  ((record_pairs m (load_le 4 m (20 + nz + 4))
    (20 + nz + 8 + 16 * load_le 4 m (20 + nz))).map Prod.fst).Nodup

/-- The metadata zone of the device holds the record in `m`, block after block:
the blocks that `total_bytes`, the first field of `m`, rounds up to. -/
def metadata_zone_holds (st : FtlState) (dev : Nvme) (m : Buf) : Prop :=
  ∀ j o, j < (load_le 4 m 0 + (st.lba_size_bytes - 1)) / st.lba_size_bytes →
    o < st.lba_size_bytes →
    dev.mem ((st.zns_num_zones - 1) * st.blocks_per_zone + j) o = m (j * st.lba_size_bytes + o)

/-- The boundary configuration after two writes of one block, at addresses 0 and
4096: the log map holds two entries. -/
def scn_two : FtlState × Nvme :=
  after_write (after_write (scn_state, scn_nvme) 0 (scn_data 0xa0) 4096) 4096 (scn_data 0xb0) 4096

/-- The record `restore_descriptor` builds for `scn_two`; its log section holds the
pairs (4096, 1) and (0, 0), in this order. -/
def scn_record : Buf := (descriptor_buffer scn_two.1).1

/-- The device after `restore_descriptor` has written the record of `scn_two`. -/
def scn_record_dev : Nvme := (restore_descriptor scn_two.1 scn_two.2).2

/-! ## Reachable states -/

/-- The configurations the statements on reachable states are about: the device is
reset at initialisation, its block size is at least 4 bytes and divides `MDTS`
(so a chunk of `MDTS` bytes is at most 65536 blocks), the log zones and the
metadata zone fit the device, block addresses fit an `int`, and the watermark
is not negative. -/
def well_configured (params : zdev_init_params) (dev : Nvme) : Prop :=
  params.force_reset = true ∧ 4 ≤ dev.lba_size ∧ dev.lba_size ∣ MDTS ∧ 0 < dev.zsze ∧
  params.log_zones + 1 ≤ dev.nr_zones ∧ dev.nr_zones * dev.zsze < 2 ^ 31 ∧
  0 ≤ params.gc_wmark

/-- The logical addresses of the blocks of a write of `size` bytes at `address`. -/
def written_blocks (lba_size address size : Nat) : List Nat :=
  (List.range (size / lba_size)).map (fun i => address + i * lba_size)

/-- The states reachable from `init_ss_zns_device` on the device `dev0` by calls of
`zns_udevice_write` at block-aligned addresses that end below `capacity_bytes`
(returning any status, or suspended) and by GC passes.  The list holds the
logical addresses of the blocks written by the writes that returned 0. -/
inductive Reachable (params : zdev_init_params) (dev0 : Nvme) :
    FtlState → Nvme → List Nat → Prop where
  | init (st : FtlState) (dev : Nvme) :
      init_ss_zns_device params dev0 = (0, st, dev) → Reachable params dev0 st dev []
  | write (st : FtlState) (dev : Nvme) (W : List Nat) (address : Nat) (buffer : Buf)
      (size : Nat) (ret : Int) (st' : FtlState) (dev' : Nvme) :
      Reachable params dev0 st dev W →
      address % st.lba_size_bytes = 0 → address + size ≤ st.capacity_bytes →
      zns_udevice_write st dev address buffer size = Outcome.returned (ret, st', dev') →
      Reachable params dev0 st' dev'
        (if ret = 0 then written_blocks st.lba_size_bytes address size ++ W else W)
  | wait (st : FtlState) (dev : Nvme) (W : List Nat) (address : Nat) (buffer : Buf)
      (size : Nat) (st' : FtlState) :
      Reachable params dev0 st dev W →
      zns_udevice_write st dev address buffer size = Outcome.blocked st' →
      Reachable params dev0 st' dev W
  | gc (st : FtlState) (dev : Nvme) (W : List Nat) (ret : Int) (st' : FtlState) (dev' : Nvme) :
      Reachable params dev0 st dev W →
      gc_pass st dev = some (ret, st', dev') →
      Reachable params dev0 st' dev' W

/-- The configuration part of the invariant of reachable states. -/
structure Cfg (st : FtlState) (dev : Nvme) : Prop where
  geo : same_geometry st dev
  lsb4 : 4 ≤ st.lba_size_bytes
  lsb_dvd : st.lba_size_bytes ∣ st.mdts
  mdts_pos : 0 < st.mdts
  mdts_blocks : st.mdts / st.lba_size_bytes ≤ 65536
  bpz_pos : 0 < st.blocks_per_zone
  zones_fit : st.log_zone_num_config + 1 ≤ st.zns_num_zones
  small : st.zns_num_zones * st.blocks_per_zone < 2 ^ 31
  wmark : 0 ≤ st.gc_watermark
  cap : st.capacity_bytes =
    (st.zns_num_zones - st.log_zone_num_config - 1) * (st.blocks_per_zone * st.lba_size_bytes)
  start0 : st.log_zone_start = 0

/-- The part of the invariant on the data map, the zone states and the write
pointers of the data zones: the data map is injective, its values are first
blocks of data zones in state `FULL`, and a data zone is either `EMPTY` and
reset or `FULL` and the value of a data-map entry. -/
structure DataInv (st : FtlState) (dev : Nvme) : Prop where
  keys : (st.data_mapping.map Prod.fst).Nodup
  vals : (st.data_mapping.map Prod.snd).Nodup
  entries : ∀ e ∈ st.data_mapping,
    st.log_zone_num_config ≤ e.1 ∧ e.1 < st.zns_num_zones - 1 ∧
    ∃ j, e.2 = j * st.blocks_per_zone ∧ st.log_zone_num_config ≤ j ∧
      j < st.zns_num_zones - 1 ∧ st.zone_states j = FULL
  zones : ∀ j, st.log_zone_num_config ≤ j → j < st.zns_num_zones - 1 →
    (st.zone_states j = EMPTY ∧ dev.wp j = 0) ∨
    (st.zone_states j = FULL ∧ j * st.blocks_per_zone ∈ st.data_mapping.map Prod.snd)

/-- The part of the invariant on the log: the log pointer stays in the log
region, and the log map sends block-aligned addresses below `capacity_bytes`
to blocks of the log region. -/
structure LogInv (st : FtlState) : Prop where
  log_end : st.log_zone_end ≤ st.log_zone_num_config * st.blocks_per_zone
  keys : (st.log_mapping.map Prod.fst).Nodup
  entries : ∀ e ∈ st.log_mapping,
    e.1 % st.lba_size_bytes = 0 ∧ e.1 < st.capacity_bytes ∧
    e.2 < st.log_zone_num_config * st.blocks_per_zone

/-- Every address of the list is block-aligned, below `capacity_bytes`, and in the
log map or in a logical zone of the data map. -/
def Covers (st : FtlState) (W : List Nat) : Prop :=
  ∀ a ∈ W, a % st.lba_size_bytes = 0 ∧ a < st.capacity_bytes ∧
    (map_contains st.log_mapping a = true ∨
      map_contains st.data_mapping (address_2_zone st a) = true)

/-- The device `dev'` holds what `dev` holds: same geometry, blocks and write
pointers (the traces may differ). -/
def same_data (dev dev' : Nvme) : Prop :=
  dev'.nr_zones = dev.nr_zones ∧ dev'.zsze = dev.zsze ∧ dev'.lba_size = dev.lba_size ∧
  dev'.mem = dev.mem ∧ dev'.wp = dev.wp

/-- The block staged for offset `off` of logical zone `z` in `zone_sets`. -/
def staged (zone_sets : UMap (UMap Nat)) (z off : Nat) : Option Nat :=
  (map_find zone_sets z).bind (fun set => map_find set off)

/-- The block that holds offset `off` of logical zone `z` while the zones of
`zone_sets` are still to be merged: the staged log block, or else the block of
the image the data map gives. -/
def merge_source (st : FtlState) (zone_sets : UMap (UMap Nat)) (z off : Nat) : Option Nat :=
  match staged zone_sets z off with
  | some v => some v
  | none =>
    match map_find st.data_mapping z with
    | some p => some (p + off)
    | none => none

/-- The value of the first entry of a log map whose address lies in logical zone
`z` at offset `off`. -/
def find_staged (st : FtlState) : UMap Nat → Nat → Nat → Option Nat
  | [], _, _ => none
  | (k, v) :: rest, z, off =>
    if address_2_zone st k = z ∧ address_2_offset st k = off then some v
    else find_staged st rest z off

/-- A staged set is well formed: every offset occurs once and lies in the zone,
and every staged block lies in the log region. -/
def set_ok (st : FtlState) (set : UMap Nat) : Prop :=
  (set.map Prod.fst).Nodup ∧
  ∀ e ∈ set, e.1 < st.blocks_per_zone ∧ e.2 < st.log_zone_num_config * st.blocks_per_zone

/-- The staged sets of a pass are well formed: every logical zone occurs once and
is a data zone, and every set is well formed. -/
def zone_sets_ok (st : FtlState) (zone_sets : UMap (UMap Nat)) : Prop :=
  (zone_sets.map Prod.fst).Nodup ∧
  ∀ e ∈ zone_sets, st.log_zone_num_config ≤ e.1 ∧ e.1 < st.zns_num_zones - 1 ∧ set_ok st e.2

/-- What one iteration of `do_merge` for the logical zone `lz` establishes, from the
state `st`, the device `dev` and the image buffer `buffer` to `st'` and `dev'`:
the invariant holds again, only the data map and the zone states change, the
log region of the device is untouched, the data map sends `lz` to an image
that holds at every offset the staged block, or else the block of the old
image, or else what the buffer held; the images of the other logical zones are
untouched. -/
def merge_post (st : FtlState) (dev : Nvme) (buffer : Buf) (lz : Nat) (set : UMap Nat)
    (st' : FtlState) (dev' : Nvme) : Prop :=
  Cfg st' dev' ∧ DataInv st' dev' ∧
  st' = { st with data_mapping := st'.data_mapping, zone_states := st'.zone_states } ∧
  (∀ l o, l < st.log_zone_num_config * st.blocks_per_zone → dev'.mem l o = dev.mem l o) ∧
  (∃ p', map_find st'.data_mapping lz = some p' ∧
    ∀ off o, off < st.blocks_per_zone → o < st.lba_size_bytes →
      dev'.mem (p' + off) o =
        match map_find set off with
        | some v => dev.mem v o
        | none =>
          match map_find st.data_mapping lz with
          | some p => dev.mem (p + off) o
          | none => buffer (off * st.lba_size_bytes + o)) ∧
  (∀ z, z ≠ lz → map_find st'.data_mapping z = map_find st.data_mapping z) ∧
  (∀ z p, z ≠ lz → map_find st.data_mapping z = some p →
    ∀ off o, off < st.blocks_per_zone → dev'.mem (p + off) o = dev.mem (p + off) o)

/-- The block that holds the data of the block-aligned logical address `a`: the
block of the log the log map gives, or else the block at the offset of `a` in
the image the data map gives for the zone of `a`. -/
def backing_block (st : FtlState) (a : Nat) : Option Nat :=
  match map_find st.log_mapping a with
  | some v => some v
  | none =>
    match map_find st.data_mapping (address_2_zone st a) with
    | some p => some (p + address_2_offset st a)
    | none => none

/-- The invariant of reachable states. -/
def Invariant (st : FtlState) (dev : Nvme) : Prop :=
  Cfg st dev ∧ DataInv st dev ∧ LogInv st ∧ st.mdts = MDTS

/-- The specification's `free_log_zones(pending_blocks)`, in its words:
`L − ceil((log_zone_end − log_zone_start + pending_blocks) / B)`, the quotient
taken in the rationals. -/
def free_log_zones (st : FtlState) (pending_blocks : Int) : Int :=
  (st.log_zone_num_config : Int) -
    ⌈((((st.log_zone_end : Int) - (st.log_zone_start : Int) + pending_blocks : Int) : ℚ) /
      ((st.blocks_per_zone : Nat) : ℚ))⌉

/-- The boundary configuration with the metadata zone marked `FULL`. -/
def scn_marked : FtlState :=
  { scn_state with zone_states := set_state scn_state.zone_states 7 FULL }

/-- The device of the boundary configuration with a record in the metadata zone
whose first field, `total_bytes`, is 20000 (bytes `0x20 0x4e 0 0`), more than
the `4 * 4096` bytes of a zone. -/
def scn_oversized : Nvme :=
  { scn_nvme with
    mem := fun l o => if l = 28 ∧ o = 0 then 0x20 else if l = 28 ∧ o = 1 then 0x4e else 0 }

/-- The state `st'` differs from `st` in the data map and the zone states at most. -/
def same_config (st st' : FtlState) : Prop :=
  st' = { st with data_mapping := st'.data_mapping, zone_states := st'.zone_states }

/-- The device `dev'` has the geometry of `dev`. -/
def same_shape (dev dev' : Nvme) : Prop :=
  dev'.nr_zones = dev.nr_zones ∧ dev'.zsze = dev.zsze ∧ dev'.lba_size = dev.lba_size

/-- The device of the boundary configuration after a write of one block at address
0, with the write pointer of data zone 3 moved to 1: the zone is `EMPTY` in
`zone_states`, and the device rejects a write at its start. -/
def scn_stale_zone : Nvme :=
  { (after_write (scn_state, scn_nvme) 0 (scn_data 0xa0) 4096).2 with
    wp := fun z => if z = 3 then 1 else
      (after_write (scn_state, scn_nvme) 0 (scn_data 0xa0) 4096).2.wp z }

/-- The boundary configuration after one write of one block (bytes 0xa0) at
address 0. -/
def scn_one : FtlState × Nvme := after_write (scn_state, scn_nvme) 0 (scn_data 0xa0) 4096

/-- The states reachable from `init_ss_zns_device` on the device `dev0` by calls of
`zns_udevice_write` with any address and any size a `uint32_t` holds
(returning any status, or suspended) and by GC passes, whatever their status. -/
inductive Runs (params : zdev_init_params) (dev0 : Nvme) : FtlState → Nvme → Prop where
  | init (st : FtlState) (dev : Nvme) :
      init_ss_zns_device params dev0 = (0, st, dev) → Runs params dev0 st dev
  | write (st : FtlState) (dev : Nvme) (address : Nat) (buffer : Buf)
      (size : Nat) (ret : Int) (st' : FtlState) (dev' : Nvme) :
      Runs params dev0 st dev → size < 2 ^ 32 →
      zns_udevice_write st dev address buffer size = Outcome.returned (ret, st', dev') →
      Runs params dev0 st' dev'
  | wait (st : FtlState) (dev : Nvme) (address : Nat) (buffer : Buf)
      (size : Nat) (st' : FtlState) :
      Runs params dev0 st dev →
      zns_udevice_write st dev address buffer size = Outcome.blocked st' →
      Runs params dev0 st' dev
  | gc (st : FtlState) (dev : Nvme) (ret : Int) (st' : FtlState) (dev' : Nvme) :
      Runs params dev0 st dev →
      gc_pass st dev = some (ret, st', dev') →
      Runs params dev0 st' dev'

/-- The bound on the log pointer kept by every call: the configuration is sound
and `log_zone_end` is at most the end of the log region. -/
def LogBound (st : FtlState) (dev : Nvme) : Prop :=
  Cfg st dev ∧ st.log_zone_end ≤ st.log_zone_num_config * st.blocks_per_zone

/-- The bytes of one chunk of `ss_nvme_device_io_with_mdts`,
`io_num = mdts_size < size_left ? mdts_size : size_left`. -/
def chunk_bytes (st : FtlState) (size_left : Nat) : Nat :=
  if st.mdts < size_left then st.mdts else size_left

/-- The block count of one chunk of `ss_nvme_device_io_with_mdts`,
`lba_num = io_num / lba_size - ((io_num % lba_size) == 0 ? 1 : 0)` in `uint64_t`. -/
def chunk_lba_num (lba_size io_num : Nat) : Nat :=
  (io_num / lba_size + 2 ^ 64 - (if io_num % lba_size = 0 then 1 else 0)) % 2 ^ 64

/-- The command of one chunk of `ss_nvme_device_io_with_mdts`: `nvme_read` or `nvme_write`
of `io_num` bytes at `wp`, the buffer at `ptr`, with the block count `lba_num`
passed as `__u16`. -/
def chunk_command (read : Bool) (dev : Nvme) (buffer : Buf) (ptr wp lba_num io_num : Nat) :
    Int × Buf × Nvme :=
  if read then nvme_read dev wp (lba_num % 65536) io_num buffer ptr
  else
    let w := nvme_write dev wp (lba_num % 65536) io_num buffer ptr
    (w.1, buffer, w.2)

/-- The number of (zone, offset) pairs `zone_sets` holds: the sum of the sizes of
its sets. -/
def staged_pairs (zone_sets : UMap (UMap Nat)) : Nat :=
  (zone_sets.map (fun e => e.2.length)).sum

/-- The boundary configuration after a write of one block at address 0 (logical
zone 3, offset 0, bytes 0xa0) and one at address 20480 (logical zone 4,
offset 1, bytes 0xb0). -/
def scn_zones : FtlState × Nvme :=
  after_write scn_one 20480 (scn_data 0xb0) 4096

/-- A state of a device of 1024 zones of 4 blocks of 4096 bytes with 511 log zones,
after 1023 writes of one block at the addresses `0, 4096, ..`: the log map
holds 1023 entries (the log has room for 2044 blocks) and the data map none. -/
def scn_large : FtlState :=
  { lba_size_bytes := 4096
    capacity_bytes := 512 * (4 * 4096)
    zns_num_zones := 1024
    blocks_per_zone := 4
    log_zone_num_config := 511
    gc_watermark := 0
    mdts := MDTS
    log_zone_start := 0
    log_zone_end := 1023
    data_zone_start := 0
    data_zone_end := 0
    zone_states := fun i => if 511 ≤ i ∧ i < 1024 then EMPTY else 0
    log_mapping := (List.range 1023).map (fun i => (i * 4096, i))
    data_mapping := []
    do_gc := false
    gc_thread_stop := false
    gc_mutex := false }

/-- The device of `scn_saved` with the write pointer of zone 4, the first `EMPTY`
data zone, at block 1 of the zone: a write of an image at the first block of
zone 4 fails. -/
def scn_saved_stale : Nvme :=
  { scn_saved.2 with wp := fun z => if z = 4 then 1 else scn_saved.2.wp z }

/-- Byte `o` of block `off` of the image one iteration of `do_merge` builds for the
logical zone `lz` from the staged set `set`: the byte of the staged log block,
or else the byte of the old image the data map gives, or else what the image
buffer held. -/
def merged_image (st : FtlState) (dev : Nvme) (buffer : Buf) (lz : Nat) (set : UMap Nat)
    (off o : Nat) : Nat :=
  match map_find set off with
  | some v => dev.mem v o
  | none =>
    match map_find st.data_mapping lz with
    | some p => dev.mem (p + off) o
    | none => buffer (off * st.lba_size_bytes + o)

/-- The end of a pass of `gc_loop`, after `do_merge`: the log zones are reset, the
log pointer goes back to `log_zone_start`, the log map is cleared, `do_gc` is
cleared and the mutex is released. -/
def pass_end (st : FtlState) (dev : Nvme) : FtlState × Nvme :=
  ({ st with
     log_zone_end := st.log_zone_start
     log_mapping := []
     do_gc := false
     gc_mutex := false },
   reset_log_zones st st.log_zone_num_config 0 dev)

/-- The boundary configuration with every data zone `FULL` and one block in the
log: a write of one block to each of the four logical zones, a GC pass, and a
second write of address 0. -/
def scn_full : FtlState × Nvme :=
  after_write
    (after_gc
      (after_write
        (after_write
          (after_write (after_write (scn_state, scn_nvme) 0 (scn_data 0xa0) 4096) 16384
            (scn_data 0xa1) 4096)
          32768 (scn_data 0xa2) 4096)
        49152 (scn_data 0xa3) 4096))
    0 (scn_data 0xb0) 4096

/-- One chunk of `ss_nvme_device_io_with_mdts`: the values of `ptr`, `wp`, `lba_num`
and `io_num` at its command. -/
structure Chunk where
  ptr : Nat
  wp : Nat
  lba_num : Nat
  io_num : Nat
deriving DecidableEq, Repr

/-- The chunks the loop of `ss_nvme_device_io_with_mdts` goes through from `size_left`,
`ptr` and `wp` when no command fails, with `fuel` iterations at most: the loop
without its commands. -/
def chunk_plan (st : FtlState) : Nat → Nat → Nat → Nat → List Chunk
  | 0, _, _, _ => []
  | fuel + 1, size_left, ptr, wp =>
    if size_left > 0 then
      { ptr := ptr, wp := wp,
        lba_num := chunk_lba_num st.lba_size_bytes (chunk_bytes st size_left),
        io_num := chunk_bytes st size_left } ::
        chunk_plan st fuel (size_left - chunk_bytes st size_left)
          (ptr + chunk_bytes st size_left)
          ((wp + chunk_lba_num st.lba_size_bytes (chunk_bytes st size_left) + 1) % 2 ^ 64)
    else []

/-- The commands of a list of chunks, sent in order until one fails (`if (ret != 0)
return ret;`); `ret` is the status the loop holds before them. -/
def run_chunks (read : Bool) : List Chunk → Nvme → Buf → Int → Int × Buf × Nvme
  | [], dev, buffer, ret => (ret, buffer, dev)
  | c :: rest, dev, buffer, _ =>
    let r := chunk_command read dev buffer c.ptr c.wp c.lba_num c.io_num
    if r.1 ≠ 0 then r else run_chunks read rest r.2.2 r.2.1 r.1

/-- The command of a chunk as the device records it, with the status `ret`. -/
def chunk_cmd (read : Bool) (ret : Int) (c : Chunk) : Cmd :=
  { op := if read then Opcode.read else Opcode.write, slba := c.wp, nlb := c.lba_num % 65536,
    len := c.io_num, ret := ret }

/-- The boundary configuration with `mdts` of two blocks. -/
def scn_small_mdts : FtlState := { scn_state with mdts := 8192 }

/-- The chunks of `ss_nvme_device_io_with_mdts(slba, buffer, buf_size, read)`: the loop
starts with `size_left = buf_size`, `ptr = 0` and `wp = slba`. -/
def io_chunks (st : FtlState) (slba buf_size : Nat) : List Chunk :=
  chunk_plan st (buf_size + 1) buf_size 0 slba

/-- The part of the invariant on the log that writes at any address keep: the log
pointer stays in the log region, and the log map sends addresses below
`capacity_bytes`, each once, to blocks of the log region. -/
structure LogRange (st : FtlState) : Prop where
  log_end : st.log_zone_end ≤ st.log_zone_num_config * st.blocks_per_zone
  keys : (st.log_mapping.map Prod.fst).Nodup
  entries : ∀ e ∈ st.log_mapping,
    e.1 < st.capacity_bytes ∧ e.2 < st.log_zone_num_config * st.blocks_per_zone

/-- The invariant of the states reached by writes below `capacity_bytes`, at
addresses block-aligned or not. -/
def RangeInv (st : FtlState) (dev : Nvme) : Prop :=
  Cfg st dev ∧ DataInv st dev ∧ LogRange st ∧ st.mdts = MDTS

/-- The states reachable from `init_ss_zns_device` on the device `dev0` by calls of
`zns_udevice_write` whose blocks all lie below `capacity_bytes`
(`address + size <= capacity_bytes`; the address block-aligned or not; the call
returning any status, or suspended) and by GC passes. -/
inductive Reached (params : zdev_init_params) (dev0 : Nvme) : FtlState → Nvme → Prop where
  | init (st : FtlState) (dev : Nvme) :
      init_ss_zns_device params dev0 = (0, st, dev) → Reached params dev0 st dev
  | write (st : FtlState) (dev : Nvme) (address : Nat) (buffer : Buf)
      (size : Nat) (ret : Int) (st' : FtlState) (dev' : Nvme) :
      Reached params dev0 st dev → address + size ≤ st.capacity_bytes →
      zns_udevice_write st dev address buffer size = Outcome.returned (ret, st', dev') →
      Reached params dev0 st' dev'
  | wait (st : FtlState) (dev : Nvme) (address : Nat) (buffer : Buf)
      (size : Nat) (st' : FtlState) :
      Reached params dev0 st dev →
      zns_udevice_write st dev address buffer size = Outcome.blocked st' →
      Reached params dev0 st' dev
  | gc (st : FtlState) (dev : Nvme) (ret : Int) (st' : FtlState) (dev' : Nvme) :
      Reached params dev0 st dev →
      gc_pass st dev = some (ret, st', dev') →
      Reached params dev0 st' dev'

/-- The boundary configuration after a write of one block to each of the four
logical zones and a write of two blocks at address 61440, the last block of
the capacity (65536 bytes): the second block of that write lies at
`capacity_bytes`, in logical zone 7. -/
def scn_past_capacity : FtlState × Nvme :=
  after_write
    (after_write
      (after_write
        (after_write (after_write (scn_state, scn_nvme) 0 (scn_data 0xa0) 4096) 16384
          (scn_data 0xa1) 4096)
        32768 (scn_data 0xa2) 4096)
      49152 (scn_data 0xa3) 4096)
    61440 (scn_data 0xa4) 8192

/-- The result of the first `k` slices of a read at `address`: slice `j` is the
body of the loop of `zns_udevice_read` at the logical address
`address + j * lba_size`, its block going to the output at `j * lba_size`; the
status, the buffer and the device are those of the last slice made, and no
slice is made after one that returned a non-zero status. -/
def read_slices (st : FtlState) (dev : Nvme) (buffer : Buf) (address : Nat) :
    Nat → Int × Buf × Nvme
  | 0 => (0, buffer, dev)
  | k + 1 =>
    if (read_slices st dev buffer address k).1 ≠ 0 then read_slices st dev buffer address k
    else
      read_slice st (read_slices st dev buffer address k).2.2
        (read_slices st dev buffer address k).2.1 (k * st.lba_size_bytes)
        (address + k * st.lba_size_bytes)

/-! ## Facts about the invalid bit -/

theorem and_invalid_eq_zero_iff (v : Nat) : v &&& ENTRY_INVALID = 0 ↔ v.testBit 63 = false := by
  unfold ENTRY_INVALID
  constructor
  · intro h
    have h1 : (v &&& 2 ^ 63).testBit 63 = false := by rw [h]; simp
    rw [Nat.testBit_and, Nat.testBit_two_pow_self] at h1
    simpa using h1
  · intro h
    apply Nat.eq_of_testBit_eq
    intro i
    rw [Nat.testBit_and, Nat.testBit_two_pow]
    by_cases hi : 63 = i
    · subst hi; simp [h]
    · simp [hi]

theorem lt_of_and_invalid (v : Nat) (hv : v < 2 ^ 64) (h : v &&& ENTRY_INVALID = 0) :
    v < 2 ^ 63 := by
  rw [and_invalid_eq_zero_iff] at h
  apply Nat.lt_pow_two_of_testBit
  intro i hi
  rcases Nat.eq_or_lt_of_le hi with h1 | h1
  · rw [← h1]; exact h
  · apply Nat.testBit_lt_two_pow
    exact lt_of_lt_of_le hv (Nat.pow_le_pow_right (by norm_num) h1)

theorem and_mask_of_lt (v : Nat) (hv : v < 2 ^ 63) : v &&& ENTRY_MASK = v := by
  have : ENTRY_MASK = 2 ^ 63 - 1 := by unfold ENTRY_MASK ENTRY_INVALID; norm_num
  rw [this]
  exact Nat.and_pow_two_sub_one_of_lt_two_pow hv

theorem and_invalid_of_lt (v : Nat) (hv : v < 2 ^ 63) : v &&& ENTRY_INVALID = 0 := by
  rw [and_invalid_eq_zero_iff]
  exact Nat.testBit_lt_two_pow hv

/-! ## Facts about the maps -/

theorem map_contains_eq_false {α : Type} (m : UMap α) (key : Nat) :
    map_contains m key = false ↔ map_find m key = none := by
  unfold map_contains
  cases map_find m key <;> simp

theorem map_contains_of_find {α : Type} (m : UMap α) (key : Nat) (v : α)
    (h : map_find m key = some v) : map_contains m key = true := by
  unfold map_contains
  rw [h]; rfl

theorem map_get_of_find (m : UMap Nat) (key v : Nat) (h : map_find m key = some v) :
    map_get m key = v := by
  unfold map_get
  rw [h]; rfl

/-! ## Reading -/

theorem read_one_block (st : FtlState) (dev : Nvme) (buffer : Buf) (i : Nat)
    (hl : 0 < st.lba_size_bytes) (hi : i + st.lba_size_bytes < 2 ^ 64) :
    zns_udevice_read st dev i buffer st.lba_size_bytes = read_slice st dev buffer 0 i := by
  unfold zns_udevice_read
  have h1 : st.lba_size_bytes % st.lba_size_bytes = 0 := Nat.mod_self _
  have h2 : st.lba_size_bytes / st.lba_size_bytes = 1 := Nat.div_self hl
  simp only [h1, h2, ne_eq, not_true_eq_false, if_false, one_mul]
  rw [Nat.mod_eq_of_lt hi]
  simp only [read_loop]
  rw [if_pos (by omega)]
  by_cases hr : (read_slice st dev buffer 0 i).1 = 0
  · simp only [hr, ne_eq, not_true_eq_false, if_false]
    rw [← hr]
  · simp only [hr, ne_eq, not_false_eq_true, if_true]

/-! ## Facts about the device commands -/

theorem nvme_zns_append_ret (dev : Nvme) (zslba nlb data_len : Nat) (buf : Buf) :
    (nvme_zns_append dev zslba nlb data_len buf).1 = append_status dev zslba nlb data_len := by
  unfold nvme_zns_append
  simp only
  split
  · rfl
  · rename_i h
    simp only [ne_eq, not_not] at h
    simp [h]

theorem nvme_zns_append_trace (dev : Nvme) (zslba nlb data_len : Nat) (buf : Buf) :
    (nvme_zns_append dev zslba nlb data_len buf).2.2.trace =
      { op := Opcode.append, slba := zslba, nlb := nlb, len := data_len,
        ret := append_status dev zslba nlb data_len } :: dev.trace := by
  unfold nvme_zns_append
  simp only
  split <;> rfl

theorem nvme_read_ret (dev : Nvme) (slba nlb data_len : Nat) (buf : Buf) (off : Nat) :
    (nvme_read dev slba nlb data_len buf off).1 = read_status dev slba nlb data_len := by
  unfold nvme_read
  simp only
  split
  · rfl
  · rename_i h
    simp only [ne_eq, not_not] at h
    simp [h]

theorem nvme_read_trace (dev : Nvme) (slba nlb data_len : Nat) (buf : Buf) (off : Nat) :
    (nvme_read dev slba nlb data_len buf off).2.2.trace =
      { op := Opcode.read, slba := slba, nlb := nlb, len := data_len,
        ret := read_status dev slba nlb data_len } :: dev.trace := by
  unfold nvme_read
  simp only
  split <;> rfl
/-! ## Claims on the address macros, alignment and failed writes -/

/-- C10. With `capacity_bytes` as `init_ss_zns_device` computes it and the log zones
and the metadata zone fitting the device (`L + 1 <= Z`), every address below
`capacity_bytes` has `L <= address_2_zone < Z - 1` and
`address_2_offset < blocks_per_zone`: it lands in a data zone, never in a log
zone or in the metadata zone. -/
theorem address_lands_in_data_zone (st : FtlState) (LA : Nat)
    (hL : st.log_zone_num_config + 1 ≤ st.zns_num_zones)
    (hZ : st.zns_num_zones < 2 ^ 64)
    (hcap : st.capacity_bytes =
      init_capacity_bytes st.zns_num_zones st.log_zone_num_config st.blocks_per_zone
        st.lba_size_bytes)
    (hLA : LA < st.capacity_bytes) :
    address_2_zone st LA = LA / (st.blocks_per_zone * st.lba_size_bytes) + st.log_zone_num_config ∧
    st.log_zone_num_config ≤ address_2_zone st LA ∧
    address_2_zone st LA < st.zns_num_zones - 1 ∧
    address_2_offset st LA = LA % (st.blocks_per_zone * st.lba_size_bytes) / st.lba_size_bytes ∧
    address_2_offset st LA < st.blocks_per_zone := by
  have hcap' : st.capacity_bytes =
      (st.zns_num_zones - st.log_zone_num_config - 1) *
        (st.blocks_per_zone * st.lba_size_bytes) := by
    rw [hcap]
    unfold init_capacity_bytes
    have h1 : st.log_zone_num_config % 2 ^ 64 = st.log_zone_num_config :=
      Nat.mod_eq_of_lt (by omega)
    rw [h1]
    have h2 : (st.zns_num_zones + 2 ^ 64 - st.log_zone_num_config - 1) % 2 ^ 64 =
        st.zns_num_zones - st.log_zone_num_config - 1 := by omega
    rw [h2]
  rw [hcap'] at hLA
  have hpos : 0 < st.blocks_per_zone * st.lba_size_bytes := by
    rcases Nat.eq_zero_or_pos (st.blocks_per_zone * st.lba_size_bytes) with h | h
    · rw [h] at hLA; simp at hLA
    · exact h
  have hq : LA / (st.blocks_per_zone * st.lba_size_bytes) <
      st.zns_num_zones - st.log_zone_num_config - 1 := by
    rw [Nat.div_lt_iff_lt_mul hpos]; exact hLA
  have hl : 0 < st.lba_size_bytes := Nat.pos_of_mul_pos_left hpos
  refine ⟨rfl, ?_, ?_, rfl, ?_⟩
  · unfold address_2_zone
    exact Nat.le_add_left _ _
  · unfold address_2_zone
    generalize LA / (st.blocks_per_zone * st.lba_size_bytes) = q at hq
    omega
  · unfold address_2_offset
    rw [Nat.div_lt_iff_lt_mul hl]
    exact Nat.mod_lt _ hpos

/-- C10 at the boundary configuration: address 20480 lies in data zone 4 at offset 1. -/
theorem address_lands_in_data_zone_witness :
    address_2_zone scn_state 20480 = 4 ∧ address_2_offset scn_state 20480 = 1 ∧
    3 ≤ address_2_zone scn_state 20480 ∧ address_2_zone scn_state 20480 < 8 - 1 := by
  have h := address_lands_in_data_zone scn_state 20480 (by decide) (by decide) (by decide)
    (by decide)
  exact ⟨by decide, by decide, h.2.1, h.2.2.1⟩

/-- C7. A size that is not a multiple of `lba_size_bytes` makes `zns_udevice_read` and
`zns_udevice_write` return -1 with the output buffer, the state (both maps, the
zone states, `log_zone_end`) and the device, its command trace included, as
they were; a size that is a multiple passes the check: the read goes on to
its loop and the write to `pthread_mutex_lock`. -/
theorem alignment_rejection (st : FtlState) (dev : Nvme) (address : Nat) (buffer : Buf)
    (size : Nat) (hl : 0 < st.lba_size_bytes) :
    (¬ st.lba_size_bytes ∣ size →
      zns_udevice_read st dev address buffer size = (-1, buffer, dev) ∧
      zns_udevice_write st dev address buffer size = Outcome.returned (-1, st, dev)) ∧
    (st.lba_size_bytes ∣ size →
      zns_udevice_read st dev address buffer size =
        read_loop st (size / st.lba_size_bytes) dev buffer address
          ((address + size / st.lba_size_bytes * st.lba_size_bytes) % 2 ^ 64) 0 ∧
      zns_udevice_write st dev address buffer size = write_locked st dev address buffer size) := by
  have _ := hl
  constructor
  · intro h
    have h' : size % st.lba_size_bytes ≠ 0 := fun h0 => h (Nat.dvd_of_mod_eq_zero h0)
    unfold zns_udevice_read zns_udevice_write
    simp [h']
  · intro h
    have h' : size % st.lba_size_bytes = 0 := Nat.mod_eq_zero_of_dvd h
    unfold zns_udevice_read zns_udevice_write
    simp [h']

/-- C7 at the boundary configuration: a read and a write of 100 bytes are rejected. -/
theorem alignment_rejection_witness :
    zns_udevice_read scn_state scn_nvme 0 (scn_data 160) 100 = (-1, scn_data 160, scn_nvme) ∧
    zns_udevice_write scn_state scn_nvme 0 (scn_data 160) 100 =
      Outcome.returned (-1, scn_state, scn_nvme) :=
  (alignment_rejection scn_state scn_nvme 0 (scn_data 160) 100 (by decide)).1 (by decide)

/-- C8. If the zone append that `zns_udevice_write` issued returned a non-zero status,
the call returns that status, and `log_mapping`, `data_mapping`, `zone_states`
and `log_zone_end` are what they were before the call. -/
theorem write_failure_atomic (st : FtlState) (dev : Nvme) (address : Nat) (buffer : Buf)
    (size : Nat) (ret : Int) (st' : FtlState) (dev' : Nvme) (c : Cmd)
    (h : zns_udevice_write st dev address buffer size = Outcome.returned (ret, st', dev'))
    (hc : dev'.trace = c :: dev.trace) (hop : c.op = Opcode.append) (hret : c.ret ≠ 0) :
    ret = c.ret ∧ st'.log_mapping = st.log_mapping ∧ st'.data_mapping = st.data_mapping ∧
    st'.zone_states = st.zone_states ∧ st'.log_zone_end = st.log_zone_end := by
  have _ := hop
  unfold zns_udevice_write at h
  split at h
  · simp only [Outcome.returned.injEq, Prod.mk.injEq] at h
    obtain ⟨-, -, h3⟩ := h
    rw [← h3] at hc
    exact absurd (congrArg List.length hc) (by simp)
  · unfold write_locked at h
    simp only at h
    split at h
    · exact absurd h (by simp)
    · split at h
      · exact absurd h (by simp)
      · generalize hr : nvme_zns_append dev
          (u64_of (int32_of (st.log_zone_end / st.blocks_per_zone) * (st.blocks_per_zone : Int)))
          (nlb_of (size / st.lba_size_bytes)) size buffer = r at h
        have ht := nvme_zns_append_trace dev
          (u64_of (int32_of (st.log_zone_end / st.blocks_per_zone) * (st.blocks_per_zone : Int)))
          (nlb_of (size / st.lba_size_bytes)) size buffer
        have hs := nvme_zns_append_ret dev
          (u64_of (int32_of (st.log_zone_end / st.blocks_per_zone) * (st.blocks_per_zone : Int)))
          (nlb_of (size / st.lba_size_bytes)) size buffer
        rw [hr] at ht hs
        split at h
        · simp only [Outcome.returned.injEq, Prod.mk.injEq] at h
          obtain ⟨h1, h2, h3⟩ := h
          rw [← h3, ht] at hc
          simp only [List.cons.injEq, and_true] at hc
          subst h2
          rw [← hc, ← h1, hs]
          exact ⟨rfl, rfl, rfl, rfl, rfl⟩
        · rename_i hz
          simp only [ne_eq, not_not] at hz
          simp only [Outcome.returned.injEq, Prod.mk.injEq] at h
          obtain ⟨-, -, h3⟩ := h
          rw [← h3, ht] at hc
          simp only [List.cons.injEq, and_true] at hc
          rw [← hc] at hret
          simp only at hret
          rw [← hs] at hret
          exact absurd hz hret
/-- C8 at the boundary configuration: a write of five blocks does not fit the
four-block zone, the append returns the zone boundary error 0x1b8, and the
write returns it with the maps as they were. -/
theorem write_failure_atomic_witness :
    zns_udevice_write scn_state scn_nvme 0 (scn_data 160) 20480 =
      Outcome.returned (0x1b8, { scn_state with gc_mutex := true },
        scn_nvme.log Opcode.append 0 4 20480 0x1b8) ∧
    (0x1b8 : Int) = 0x1b8 ∧
    ({ scn_state with gc_mutex := true } : FtlState).log_mapping = scn_state.log_mapping :=
  ⟨rfl,
   (write_failure_atomic scn_state scn_nvme 0 (scn_data 160) 20480 0x1b8
      { scn_state with gc_mutex := true } (scn_nvme.log Opcode.append 0 4 20480 0x1b8)
      { op := Opcode.append, slba := 0, nlb := 4, len := 20480, ret := 0x1b8 }
      rfl rfl rfl (by decide)).1,
   (write_failure_atomic scn_state scn_nvme 0 (scn_data 160) 20480 0x1b8
      { scn_state with gc_mutex := true } (scn_nvme.log Opcode.append 0 4 20480 0x1b8)
      { op := Opcode.append, slba := 0, nlb := 4, len := 20480, ret := 0x1b8 }
      rfl rfl rfl (by decide)).2.1⟩

/-- C9, the code at a failing input.  At the boundary configuration a write of five
blocks is refused by the device (zone boundary error); `zns_udevice_write`
returns the status without `pthread_mutex_unlock`, so the mutex stays held:
the next write, of one block, does not return, and the GC thread stays
suspended as well. -/
theorem failed_write_keeps_mutex :
    write_status_of (scn_state, scn_nvme) 0 (scn_data 160) 20480 = some 0x1b8 ∧
    (after_write (scn_state, scn_nvme) 0 (scn_data 160) 20480).1.gc_mutex = true ∧
    write_status_of (after_write (scn_state, scn_nvme) 0 (scn_data 160) 20480) 0 (scn_data 160)
      4096 = none ∧
    write_status_of (scn_state, scn_nvme) 0 (scn_data 160) 4096 = some 0 ∧
    (match gc_loop
        { (after_write (scn_state, scn_nvme) 0 (scn_data 160) 20480).1 with do_gc := true }
        (after_write (scn_state, scn_nvme) 0 (scn_data 160) 20480).2 with
      | GcTurn.suspended => true
      | _ => false) = true := by
  refine ⟨by decide, by decide, by decide, by decide, by decide⟩

/-- C1, the code at a failing input.  At the boundary configuration, after a
successful write of two blocks at address 0, a successful write of one block
(bytes 0xb0) at address 8192 followed by a read of that block returns status 0
and the bytes 0xa1 of the second block of the first write: `log_zone_end`
advanced by 1 instead of 2, so the log map sends address 8192 to block 1,
while the device appended the block at its write pointer, block 2. -/
theorem read_after_multiblock_write_differs :
    write_status_of (scn_state, scn_nvme) 0 (scn_data 0xa0) 8192 = some 0 ∧
    write_status_of (after_write (scn_state, scn_nvme) 0 (scn_data 0xa0) 8192) 8192
      (scn_data 0xb0) 4096 = some 0 ∧
    read_byte
      (after_write (after_write (scn_state, scn_nvme) 0 (scn_data 0xa0) 8192) 8192
        (scn_data 0xb0) 4096) 8192 4096 0 = (0, 0xa1) ∧
    scn_data 0xb0 0 = 0xb0 ∧
    (after_write (scn_state, scn_nvme) 0 (scn_data 0xa0) 8192).1.log_zone_end = 1 ∧
    (after_write (scn_state, scn_nvme) 0 (scn_data 0xa0) 8192).2.wp 0 = 2 := by
  refine ⟨by decide, by decide, by decide, by decide, by decide, by decide⟩

/-- C3, the code at a failing input.  At the boundary configuration one block is
written at address 0 (logical zone 3, offset 0, bytes 0xa0) and one at address
20480 (logical zone 4, offset 1).  Address 16384 (zone 4, offset 0) is never
written and reads as zeros before the GC pass; the pass merges zone 3 and then
zone 4 in the same image buffer, and afterwards address 16384 reads 0xa0, the
block of address 0. -/
theorem unwritten_address_reads_stale_block :
    write_status_of (scn_state, scn_nvme) 0 (scn_data 0xa0) 4096 = some 0 ∧
    write_status_of (after_write (scn_state, scn_nvme) 0 (scn_data 0xa0) 4096) 20480
      (scn_data 0xb0) 4096 = some 0 ∧
    read_byte
      (after_write (after_write (scn_state, scn_nvme) 0 (scn_data 0xa0) 4096) 20480
        (scn_data 0xb0) 4096) 16384 4096 0 = (0, 0) ∧
    (gc_pass
      (after_write (after_write (scn_state, scn_nvme) 0 (scn_data 0xa0) 4096) 20480
        (scn_data 0xb0) 4096).1
      (after_write (after_write (scn_state, scn_nvme) 0 (scn_data 0xa0) 4096) 20480
        (scn_data 0xb0) 4096).2).isSome = true ∧
    (after_gc
      (after_write (after_write (scn_state, scn_nvme) 0 (scn_data 0xa0) 4096) 20480
        (scn_data 0xb0) 4096)).2.trace.all (fun c => decide (c.ret = 0)) = true ∧
    read_byte
      (after_gc
        (after_write (after_write (scn_state, scn_nvme) 0 (scn_data 0xa0) 4096) 20480
          (scn_data 0xb0) 4096)) 16384 4096 0 = (0, 0xa0) := by
  refine ⟨by decide, by decide, by decide, by decide, by decide, by decide⟩
/-! ## The slices of a read -/

theorem read_slices_stuck (st : FtlState) (dev : Nvme) (buffer : Buf) (address k : Nat)
    (h : (read_slices st dev buffer address k).1 ≠ 0) :
    ∀ m, read_slices st dev buffer address (k + m) = read_slices st dev buffer address k := by
  intro m
  induction m with
  | zero => rfl
  | succ m ih =>
    rw [← Nat.add_assoc]
    simp only [read_slices]
    rw [ih, if_pos h]

theorem read_loop_slices (st : FtlState) (dev : Nvme) (buffer : Buf) (address bound : Nat)
    (hl : 0 < st.lba_size_bytes) :
    ∀ (n k : Nat), (read_slices st dev buffer address k).1 = 0 →
      address + (k + n) * st.lba_size_bytes = bound →
      read_loop st n (read_slices st dev buffer address k).2.2
        (read_slices st dev buffer address k).2.1 (address + k * st.lba_size_bytes) bound
        (k * st.lba_size_bytes) = read_slices st dev buffer address (k + n) := by
  intro n
  induction n with
  | zero =>
    intro k h0 _
    simp only [read_loop, Nat.add_zero]
    rw [← h0]
  | succ n ih =>
    intro k h0 hb
    have hlt : address + k * st.lba_size_bytes < bound := by
      rw [← hb, Nat.add_mul, Nat.add_mul]
      have : 0 < (n + 1) * st.lba_size_bytes := Nat.mul_pos (Nat.succ_pos n) hl
      omega
    have hnext : read_slices st dev buffer address (k + 1) =
        read_slice st (read_slices st dev buffer address k).2.2
          (read_slices st dev buffer address k).2.1 (k * st.lba_size_bytes)
          (address + k * st.lba_size_bytes) := by
      simp only [read_slices]
      rw [if_neg (fun h => h h0)]
    simp only [read_loop]
    rw [if_pos hlt, ← hnext]
    by_cases hr : (read_slices st dev buffer address (k + 1)).1 = 0
    · rw [if_neg (fun h => h hr)]
      have e1 : address + k * st.lba_size_bytes + st.lba_size_bytes =
          address + (k + 1) * st.lba_size_bytes := by rw [Nat.add_mul]; omega
      have e2 : k * st.lba_size_bytes + st.lba_size_bytes = (k + 1) * st.lba_size_bytes := by
        rw [Nat.add_mul]; omega
      rw [e1, e2, ih (k + 1) hr (by rw [← hb]; congr 2; omega)]
      congr 1
      omega
    · rw [if_pos hr]
      have := read_slices_stuck st dev buffer address (k + 1) hr n
      rw [← this]
      congr 1
      omega

theorem read_as_slices (st : FtlState) (dev : Nvme) (buffer : Buf) (address size : Nat)
    (hl : 0 < st.lba_size_bytes) (hs : size % st.lba_size_bytes = 0)
    (h64 : address + size < 2 ^ 64) :
    zns_udevice_read st dev address buffer size =
      read_slices st dev buffer address (size / st.lba_size_bytes) := by
  unfold zns_udevice_read
  rw [if_neg (fun h => h hs)]
  have hsz : size / st.lba_size_bytes * st.lba_size_bytes = size := by
    have := Nat.div_add_mod size st.lba_size_bytes
    rw [hs, Nat.add_zero, Nat.mul_comm] at this
    exact this
  simp only []
  rw [hsz, Nat.mod_eq_of_lt h64]
  have := read_loop_slices st dev buffer address (address + size) hl (size / st.lba_size_bytes) 0
    rfl (by rw [Nat.zero_add, hsz])
  simp only [read_slices, Nat.zero_mul, Nat.add_zero, Nat.zero_add] at this
  exact this

/-! ## Claims on the read path -/

/-- C4. The slice of `zns_udevice_read` at logical address `i`: a log entry with bit 63
clear is read from the PBA it holds, whatever the data map has; with no log
entry, or one with bit 63 set, a data-map entry for the zone of `i` is read
from its value plus the offset of `i` (the source clears bit 63 of that sum,
which leaves a PBA below `2 ^ 63` as it is); with neither, the slice is filled
with zeros and the device receives no command.  Each read is one block into
the output at `num_read`, and a read of one block is one such slice.  A read
of `size` bytes at `address` (`size` a multiple of the block size, the end
`address + size` below `2 ^ 64`) is the sequence of the slices
`k = 0 .. size / lba_size - 1`, slice `k` being the slice at
`address + k * lba_size` with the output at `k * lba_size`, on the buffer and
the device the slices before it left; it ends at the first slice that returns
a non-zero status. -/
theorem read_slice_resolution (st : FtlState) (dev : Nvme) (buffer : Buf) (num_read i : Nat) :
    (∀ v, map_find st.log_mapping i = some v → v < 2 ^ 64 → v &&& ENTRY_INVALID = 0 →
      read_slice st dev buffer num_read i =
        nvme_read dev v 0 st.lba_size_bytes buffer num_read) ∧
    (∀ p, (map_find st.log_mapping i = none ∨
          ∃ v, map_find st.log_mapping i = some v ∧ v &&& ENTRY_INVALID ≠ 0) →
      map_find st.data_mapping (address_2_zone st i) = some p →
      p + address_2_offset st i < 2 ^ 63 →
      read_slice st dev buffer num_read i =
        nvme_read dev (p + address_2_offset st i) 0 st.lba_size_bytes buffer num_read) ∧
    ((map_find st.log_mapping i = none ∨
          ∃ v, map_find st.log_mapping i = some v ∧ v &&& ENTRY_INVALID ≠ 0) →
      map_find st.data_mapping (address_2_zone st i) = none →
      read_slice st dev buffer num_read i =
        (0, memset buffer num_read 0 st.lba_size_bytes, dev)) ∧
    (0 < st.lba_size_bytes → i + st.lba_size_bytes < 2 ^ 64 →
      zns_udevice_read st dev i buffer st.lba_size_bytes = read_slice st dev buffer 0 i) ∧
    (∀ (address size : Nat) (out : Buf), 0 < st.lba_size_bytes →
      size % st.lba_size_bytes = 0 → address + size < 2 ^ 64 →
      zns_udevice_read st dev address out size =
        read_slices st dev out address (size / st.lba_size_bytes)) ∧
    (∀ (address : Nat) (out : Buf) (k : Nat),
      read_slices st dev out address 0 = (0, out, dev) ∧
      ((read_slices st dev out address k).1 = 0 →
        read_slices st dev out address (k + 1) =
          read_slice st (read_slices st dev out address k).2.2
            (read_slices st dev out address k).2.1 (k * st.lba_size_bytes)
            (address + k * st.lba_size_bytes)) ∧
      ((read_slices st dev out address k).1 ≠ 0 →
        read_slices st dev out address (k + 1) = read_slices st dev out address k)) := by
  have fall : (map_find st.log_mapping i = none ∨
      ∃ v, map_find st.log_mapping i = some v ∧ v &&& ENTRY_INVALID ≠ 0) →
      (if map_contains st.log_mapping i = true then
        decide (map_get st.log_mapping i &&& ENTRY_INVALID ≠ 0) else true) = true := by
    intro h
    rcases h with h | ⟨v, h, hv⟩
    · rw [(map_contains_eq_false _ _).2 h]; rfl
    · rw [map_contains_of_find _ _ _ h, map_get_of_find _ _ _ h]
      simpa using hv
  refine ⟨?_, ?_, ?_, ?_, ?_, ?_⟩
  · intro v hf hv hbit
    unfold read_slice
    simp only [map_contains_of_find _ _ _ hf, map_get_of_find _ _ _ hf, hbit, if_true]
    simp only [ne_eq, not_true_eq_false, decide_False, Bool.false_eq_true, if_false]
    rw [and_mask_of_lt v (lt_of_and_invalid v hv hbit)]
  · intro p hlog hd hp
    unfold read_slice
    simp only [fall hlog, if_true, map_contains_of_find _ _ _ hd, map_get_of_find _ _ _ hd,
      Bool.not_true, Bool.false_eq_true, if_false]
    rw [Nat.mod_eq_of_lt (lt_trans hp (by norm_num)), and_mask_of_lt _ hp]
  · intro hlog hd
    unfold read_slice
    simp only [fall hlog, if_true, (map_contains_eq_false _ _).2 hd, Bool.not_false]
  · intro hl hi
    exact read_one_block st dev buffer i hl hi
  · intro address size out hl hs h64
    exact read_as_slices st dev out address size hl hs h64
  · intro address out k
    refine ⟨rfl, ?_, ?_⟩
    · intro h0
      simp only [read_slices]
      rw [if_neg (fun h => h h0)]
    · intro h0
      simp only [read_slices]
      rw [if_pos h0]

/-- C4 at the boundary configuration (log shadows data): after a write of address 0, a
GC pass and a second write of address 0, the data map holds zone 3 and the log
map holds address 0 with bit 63 clear; the slice at address 0 is read from the
log block. -/
theorem read_slice_resolution_witness :
    map_find
      (after_write (after_gc (after_write (scn_state, scn_nvme) 0 (scn_data 0xa0) 4096)) 0
        (scn_data 0xb0) 4096).1.data_mapping 3 = some 12 ∧
    read_slice
      (after_write (after_gc (after_write (scn_state, scn_nvme) 0 (scn_data 0xa0) 4096)) 0
        (scn_data 0xb0) 4096).1
      (after_write (after_gc (after_write (scn_state, scn_nvme) 0 (scn_data 0xa0) 4096)) 0
        (scn_data 0xb0) 4096).2 zero_buf 0 0 =
    nvme_read
      (after_write (after_gc (after_write (scn_state, scn_nvme) 0 (scn_data 0xa0) 4096)) 0
        (scn_data 0xb0) 4096).2 0 0 4096 zero_buf 0 ∧
    zns_udevice_read scn_saved.1 scn_saved.2 0 zero_buf 8192 =
      read_slices scn_saved.1 scn_saved.2 zero_buf 0 (8192 / scn_saved.1.lba_size_bytes) :=
  ⟨by decide,
   (read_slice_resolution
      (after_write (after_gc (after_write (scn_state, scn_nvme) 0 (scn_data 0xa0) 4096)) 0
        (scn_data 0xb0) 4096).1
      (after_write (after_gc (after_write (scn_state, scn_nvme) 0 (scn_data 0xa0) 4096)) 0
        (scn_data 0xb0) 4096).2 zero_buf 0 0).1 0 (by decide) (by decide) (by decide),
   (read_slice_resolution scn_saved.1 scn_saved.2 zero_buf 0 0).2.2.2.2.1 0 8192 zero_buf
     (by decide) (by decide) (by decide)⟩

/-! ## Facts about little-endian fields -/

theorem load_le_congr (n : Nat) (b b' : Buf) (p : Nat)
    (h : ∀ k, p ≤ k → k < p + n → b k = b' k) : load_le n b p = load_le n b' p := by
  induction n generalizing p with
  | zero => rfl
  | succ n ih =>
    simp only [load_le]
    rw [h p (le_refl _) (by omega), ih (p + 1) (fun k h1 h2 => h k (by omega) (by omega))]

theorem store_le_eq_of_lt (n : Nat) (b : Buf) (p v k : Nat) (h : k < p) :
    store_le n b p v k = b k := by
  unfold store_le
  rw [if_neg (by omega)]

theorem store_le_eq_of_ge (n : Nat) (b : Buf) (p v k : Nat) (h : p + n ≤ k) :
    store_le n b p v k = b k := by
  unfold store_le
  rw [if_neg (by omega)]

theorem load_store_le (n : Nat) (b : Buf) (p v : Nat) :
    load_le n (store_le n b p v) p = v % 256 ^ n := by
  induction n generalizing p v b with
  | zero => simp [load_le, Nat.mod_one]
  | succ n ih =>
    simp only [load_le]
    have h0 : store_le (n + 1) b p v p = v % 256 := by
      unfold store_le
      rw [if_pos (by omega)]
      simp
    have h1 : load_le n (store_le (n + 1) b p v) (p + 1) =
        load_le n (store_le n b (p + 1) (v / 256)) (p + 1) := by
      apply load_le_congr
      intro k hk1 hk2
      unfold store_le
      rw [if_pos (by omega), if_pos (by omega)]
      have : k - p = (k - (p + 1)) + 1 := by omega
      rw [this, pow_succ, Nat.div_div_eq_div_mul, mul_comm]
    rw [h0, h1, ih, pow_succ, mul_comm (256 ^ n) 256, Nat.mod_mul]

theorem load_le_lt (n : Nat) (b : Buf) (p : Nat) (h : ∀ k, p ≤ k → k < p + n → b k < 256) :
    load_le n b p < 256 ^ n := by
  induction n generalizing p with
  | zero => simp [load_le]
  | succ n ih =>
    simp only [load_le]
    have h0 := h p (le_refl _) (by omega)
    have h1 := ih (p + 1) (fun k h1 h2 => h k (by omega) (by omega))
    rw [pow_succ]
    omega

theorem store_load_le (n : Nat) (b m : Buf) (p k : Nat)
    (hm : ∀ j, p ≤ j → j < p + n → m j < 256) (hk1 : p ≤ k) (hk2 : k < p + n) :
    store_le n b p (load_le n m p) k = m k := by
  induction n generalizing p b with
  | zero => omega
  | succ n ih =>
    have hlt := load_le_lt n m (p + 1) (fun j h1 h2 => hm j (by omega) (by omega))
    have h0 := hm p (le_refl _) (by omega)
    rcases Nat.eq_or_lt_of_le hk1 with heq | hlt'
    · subst heq
      unfold store_le
      rw [if_pos (by omega)]
      simp only [load_le, Nat.sub_self, pow_zero, Nat.div_one]
      omega
    · have := ih (b) (p + 1) (fun j h1 h2 => hm j (by omega) (by omega)) (by omega) (by omega)
      rw [← this]
      unfold store_le
      rw [if_pos (by omega), if_pos (by omega)]
      simp only [load_le]
      have hk : k - p = (k - (p + 1)) + 1 := by omega
      rw [hk, pow_succ, mul_comm (256 ^ (k - (p + 1))) 256, ← Nat.div_div_eq_div_mul]
      have : (m p + 256 * load_le n m (p + 1)) / 256 = load_le n m (p + 1) := by omega
      rw [this]
/-! ## Facts about the loops of the checkpoint -/

theorem restore_states_ptr (st : FtlState) (n i ptr : Nat) (b : Buf) :
    (restore_states st n i ptr b).2 = ptr + n := by
  induction n generalizing i ptr b with
  | zero => rfl
  | succ n ih => simp only [restore_states]; rw [ih]; omega

theorem restore_states_frame (st : FtlState) (n i ptr : Nat) (b : Buf) (k : Nat)
    (h : k < ptr ∨ ptr + n ≤ k) : (restore_states st n i ptr b).1 k = b k := by
  induction n generalizing i ptr b with
  | zero => rfl
  | succ n ih =>
    simp only [restore_states]
    rw [ih _ _ _ (by omega)]
    unfold store_le
    rw [if_neg (by omega)]

theorem restore_states_at (st : FtlState) (n i ptr : Nat) (b : Buf) (j : Nat) (h : j < n) :
    (restore_states st n i ptr b).1 (ptr + j) = st.zone_states (i + j) % 256 := by
  induction n generalizing i ptr b j with
  | zero => omega
  | succ n ih =>
    simp only [restore_states]
    rcases Nat.eq_zero_or_pos j with h0 | h0
    · subst h0
      rw [restore_states_frame _ _ _ _ _ _ (by omega)]
      unfold store_le
      rw [if_pos (by omega)]
      simp
    · have := ih (i + 1) (ptr + 1) (store_le 1 b ptr (st.zone_states i)) (j - 1) (by omega)
      have e1 : ptr + 1 + (j - 1) = ptr + j := by omega
      have e2 : i + 1 + (j - 1) = i + j := by omega
      rw [e1, e2] at this
      exact this

theorem init_states_ptr (m : Buf) (n i ptr : Nat) (zs : Nat → Nat) :
    (init_states m n i ptr zs).2 = ptr + n := by
  induction n generalizing i ptr zs with
  | zero => rfl
  | succ n ih => simp only [init_states]; rw [ih]; omega

theorem init_states_at (m : Buf) (n i ptr : Nat) (zs : Nat → Nat) (j : Nat) :
    (init_states m n i ptr zs).1 j =
      if i ≤ j ∧ j < i + n then m (ptr + (j - i)) else zs j := by
  induction n generalizing i ptr zs with
  | zero =>
    simp only [init_states]
    rw [if_neg (by omega)]
  | succ n ih =>
    simp only [init_states]
    rw [ih]
    by_cases h1 : i + 1 ≤ j ∧ j < i + 1 + n
    · rw [if_pos h1, if_pos (by omega)]
      congr 1
      omega
    · rw [if_neg h1]
      unfold set_state
      by_cases h2 : j = i
      · subst h2
        rw [if_pos rfl, if_pos (by omega)]
        simp [load_le]
      · rw [if_neg h2, if_neg (by omega)]

theorem restore_pairs_ptr (l : UMap Nat) (ptr : Nat) (b : Buf) :
    (restore_pairs l ptr b).2 = ptr + 16 * l.length := by
  induction l generalizing ptr b with
  | nil => rfl
  | cons e rest ih =>
    obtain ⟨key, value⟩ := e
    simp only [restore_pairs, List.length_cons]
    rw [ih]; omega

theorem restore_pairs_frame (l : UMap Nat) (ptr : Nat) (b : Buf) (k : Nat)
    (h : k < ptr ∨ ptr + 16 * l.length ≤ k) : (restore_pairs l ptr b).1 k = b k := by
  induction l generalizing ptr b with
  | nil => rfl
  | cons e rest ih =>
    obtain ⟨key, value⟩ := e
    simp only [restore_pairs, List.length_cons] at h ⊢
    rw [ih _ _ (by omega)]
    unfold store_le
    rw [if_neg (by omega), if_neg (by omega)]

/-- The map the assignments `map[key] = value` build from the pairs of a list. -/
theorem init_pairs_of_restore (l : UMap Nat) (ptr : Nat) (b m : Buf) (acc : UMap Nat)
    (hl : ∀ e ∈ l, e.1 < 2 ^ 64 ∧ e.2 < 2 ^ 64)
    (hm : ∀ k, ptr ≤ k → k < ptr + 16 * l.length → m k = (restore_pairs l ptr b).1 k) :
    init_pairs m l.length ptr acc =
      (l.foldl (fun a e => map_assign a e.1 e.2) acc, ptr + 16 * l.length) := by
  induction l generalizing ptr b acc with
  | nil => rfl
  | cons e rest ih =>
    obtain ⟨key, value⟩ := e
    simp only [List.length_cons, init_pairs, List.foldl_cons]
    simp only [restore_pairs, List.length_cons] at hm
    have hk : load_le 8 m ptr = key := by
      have : load_le 8 m ptr = load_le 8 (store_le 8 b ptr key) ptr := by
        apply load_le_congr
        intro k h1 h2
        rw [hm k h1 (by omega), restore_pairs_frame _ _ _ _ (by omega)]
        rw [store_le_eq_of_lt _ _ _ _ _ (by omega)]
      rw [this, load_store_le]
      exact Nat.mod_eq_of_lt (by have := (hl (key, value) (List.mem_cons_self _ _)).1; simpa using this)
    have hv : load_le 8 m (ptr + 8) = value := by
      have : load_le 8 m (ptr + 8) =
          load_le 8 (store_le 8 (store_le 8 b ptr key) (ptr + 8) value) (ptr + 8) := by
        apply load_le_congr
        intro k h1 h2
        rw [hm k (by omega) (by omega), restore_pairs_frame _ _ _ _ (by omega)]
      rw [this, load_store_le]
      exact Nat.mod_eq_of_lt (by have := (hl (key, value) (List.mem_cons_self _ _)).2; simpa using this)
    rw [hk, hv]
    rw [ih (ptr + 16) _ _ (fun e he => hl e (List.mem_cons_of_mem _ he))
      (fun k h1 h2 => hm k (by omega) (by omega))]
    congr 1
    omega

/-! ## Facts about maps with distinct keys -/

theorem map_find_some_of_mem {α : Type} (m : UMap α) (k : Nat) (v : α)
    (hn : (m.map Prod.fst).Nodup) (h : (k, v) ∈ m) : map_find m k = some v := by
  induction m with
  | nil => simp at h
  | cons e rest ih =>
    obtain ⟨k', v'⟩ := e
    simp only [List.map_cons, List.nodup_cons] at hn
    simp only [map_find]
    rcases List.mem_cons.1 h with h1 | h1
    · simp only [Prod.mk.injEq] at h1
      rw [if_pos h1.1.symm, h1.2]
    · have hne : k' ≠ k := by
        intro he
        apply hn.1
        rw [he]
        exact List.mem_map_of_mem Prod.fst h1
      rw [if_neg hne]
      exact ih hn.2 h1

theorem mem_of_map_find {α : Type} (m : UMap α) (k : Nat) (v : α)
    (h : map_find m k = some v) : (k, v) ∈ m := by
  induction m with
  | nil => simp [map_find] at h
  | cons e rest ih =>
    obtain ⟨k', v'⟩ := e
    simp only [map_find] at h
    split at h
    · rename_i hk
      simp only [Option.some.injEq] at h
      rw [← hk, ← h]
      exact List.mem_cons_self _ _
    · exact List.mem_cons_of_mem _ (ih h)

theorem map_find_perm {α : Type} (m m' : UMap α) (k : Nat) (hp : List.Perm m m')
    (hn : (m.map Prod.fst).Nodup) : map_find m k = map_find m' k := by
  have hn' : (m'.map Prod.fst).Nodup := (List.Perm.nodup_iff (hp.map Prod.fst)).1 hn
  cases h : map_find m k with
  | none =>
    cases h' : map_find m' k with
    | none => rfl
    | some v =>
      have := map_find_some_of_mem m k v hn (hp.mem_iff.2 (mem_of_map_find m' k v h'))
      rw [h] at this
      exact absurd this (by simp)
  | some v =>
    exact (map_find_some_of_mem m' k v hn' (hp.mem_iff.1 (mem_of_map_find m k v h))).symm

theorem map_find_none_of_not_mem {α : Type} (m : UMap α) (k : Nat)
    (h : k ∉ m.map Prod.fst) : map_find m k = none := by
  cases h' : map_find m k with
  | none => rfl
  | some v => exact absurd (List.mem_map_of_mem Prod.fst (mem_of_map_find m k v h')) h

theorem mem_keys_of_map_find {α : Type} (m : UMap α) (k : Nat) (v : α)
    (h : map_find m k = some v) : k ∈ m.map Prod.fst :=
  List.mem_map_of_mem Prod.fst (mem_of_map_find m k v h)

theorem foldl_assign_of_nodup (l acc : UMap Nat)
    (hn : ((l.reverse ++ acc).map Prod.fst).Nodup) :
    l.foldl (fun a e => map_assign a e.1 e.2) acc = l.reverse ++ acc := by
  induction l generalizing acc with
  | nil => rfl
  | cons e rest ih =>
    simp only [List.foldl_cons, List.reverse_cons, List.append_assoc, List.singleton_append]
    simp only [List.reverse_cons, List.append_assoc, List.singleton_append] at hn
    have hnot : e.1 ∉ acc.map Prod.fst := by
      rw [List.map_append, List.nodup_append] at hn
      have h2 := hn.2.1
      simp only [List.map_cons, List.nodup_cons] at h2
      exact h2.1
    have hassign : map_assign acc e.1 e.2 = e :: acc := by
      unfold map_assign
      rw [(map_contains_eq_false _ _).2 (map_find_none_of_not_mem _ _ hnot)]
      rfl
    rw [hassign]
    exact ih (e :: acc) hn
/-! ## The layout of the checkpoint record -/

theorem descriptor_total (st : FtlState) :
    (descriptor_buffer st).2 =
      28 + (st.zns_num_zones - 1 - st.log_zone_num_config) + 16 * st.log_mapping.length
        + 16 * st.data_mapping.length := by
  unfold descriptor_buffer
  simp only [restore_states_ptr, restore_pairs_ptr]
  omega

theorem descriptor_total_field (st : FtlState) :
    load_le 4 (descriptor_buffer st).1 0 = (descriptor_buffer st).2 % 2 ^ 32 := by
  have : (descriptor_buffer st).1 = store_le 4 (descriptor_buffer st).1 0 (descriptor_buffer st).2 := by
    funext k
    unfold descriptor_buffer
    simp only
    unfold store_le
    by_cases h : 0 ≤ k ∧ k < 0 + 4
    · simp only [h, and_self, if_true]
    · simp only [h, if_false]
  rw [this, load_store_le]
  norm_num

theorem descriptor_header (st : FtlState) (k : Nat) (h1 : 4 ≤ k) (h2 : k < 20) :
    (descriptor_buffer st).1 k =
      store_le 4 (store_le 4 (store_le 4 (store_le 4 zero_buf 4 st.log_zone_start) 8
        st.log_zone_end) 12 st.data_zone_start) 16 st.data_zone_end k := by
  unfold descriptor_buffer
  simp only [restore_states_ptr, restore_pairs_ptr]
  rw [store_le_eq_of_ge _ _ _ _ _ (by omega)]
  rw [restore_pairs_frame _ _ _ _ (by omega), restore_pairs_frame _ _ _ _ (by omega)]
  rw [store_le_eq_of_lt _ _ _ _ _ (by omega), store_le_eq_of_lt _ _ _ _ _ (by omega)]
  rw [restore_states_frame _ _ _ _ _ _ (by omega)]

theorem descriptor_pointers (st : FtlState) :
    load_le 4 (descriptor_buffer st).1 4 = st.log_zone_start % 2 ^ 32 ∧
    load_le 4 (descriptor_buffer st).1 8 = st.log_zone_end % 2 ^ 32 ∧
    load_le 4 (descriptor_buffer st).1 12 = st.data_zone_start % 2 ^ 32 ∧
    load_le 4 (descriptor_buffer st).1 16 = st.data_zone_end % 2 ^ 32 := by
  have e : (256 : Nat) ^ 4 = 2 ^ 32 := by norm_num
  refine ⟨?_, ?_, ?_, ?_⟩
  · rw [load_le_congr 4 _ (store_le 4 zero_buf 4 st.log_zone_start) 4, load_store_le, e]
    intro k h1 h2
    rw [descriptor_header st k (by omega) (by omega)]
    rw [store_le_eq_of_lt _ _ _ _ _ (by omega), store_le_eq_of_lt _ _ _ _ _ (by omega),
      store_le_eq_of_lt _ _ _ _ _ (by omega)]
  · rw [load_le_congr 4 _ (store_le 4 (store_le 4 zero_buf 4 st.log_zone_start) 8
      st.log_zone_end) 8, load_store_le, e]
    intro k h1 h2
    rw [descriptor_header st k (by omega) (by omega)]
    rw [store_le_eq_of_lt _ _ _ _ _ (by omega), store_le_eq_of_lt _ _ _ _ _ (by omega)]
  · rw [load_le_congr 4 _ (store_le 4 (store_le 4 (store_le 4 zero_buf 4 st.log_zone_start) 8
      st.log_zone_end) 12 st.data_zone_start) 12, load_store_le, e]
    intro k h1 h2
    rw [descriptor_header st k (by omega) (by omega)]
    rw [store_le_eq_of_lt _ _ _ _ _ (by omega)]
  · rw [load_le_congr 4 _ (store_le 4 (store_le 4 (store_le 4 (store_le 4 zero_buf 4
      st.log_zone_start) 8 st.log_zone_end) 12 st.data_zone_start) 16 st.data_zone_end) 16,
      load_store_le, e]
    intro k h1 h2
    rw [descriptor_header st k (by omega) (by omega)]

theorem descriptor_states (st : FtlState) (j : Nat)
    (h : j < st.zns_num_zones - 1 - st.log_zone_num_config) :
    (descriptor_buffer st).1 (20 + j) = st.zone_states (st.log_zone_num_config + j) % 256 := by
  unfold descriptor_buffer
  simp only [restore_states_ptr, restore_pairs_ptr]
  rw [store_le_eq_of_ge _ _ _ _ _ (by omega)]
  rw [restore_pairs_frame _ _ _ _ (by omega), restore_pairs_frame _ _ _ _ (by omega)]
  rw [store_le_eq_of_lt _ _ _ _ _ (by omega), store_le_eq_of_lt _ _ _ _ _ (by omega)]
  exact restore_states_at _ _ _ _ _ _ h

theorem descriptor_sizes (st : FtlState) :
    load_le 4 (descriptor_buffer st).1 (20 + (st.zns_num_zones - 1 - st.log_zone_num_config)) =
      st.log_mapping.length % 2 ^ 32 ∧
    load_le 4 (descriptor_buffer st).1
        (20 + (st.zns_num_zones - 1 - st.log_zone_num_config) + 4) =
      st.data_mapping.length % 2 ^ 32 := by
  have e : (256 : Nat) ^ 4 = 2 ^ 32 := by norm_num
  constructor
  · rw [← e, ← load_store_le 4 (restore_states st (st.zns_num_zones - 1 - st.log_zone_num_config)
      st.log_zone_num_config 20 (store_le 4 (store_le 4 (store_le 4 (store_le 4 zero_buf 4
      st.log_zone_start) 8 st.log_zone_end) 12 st.data_zone_start) 16 st.data_zone_end)).1
      (20 + (st.zns_num_zones - 1 - st.log_zone_num_config)) st.log_mapping.length]
    apply load_le_congr
    intro k h1 h2
    unfold descriptor_buffer
    simp only [restore_states_ptr, restore_pairs_ptr]
    rw [store_le_eq_of_ge _ _ _ _ _ (by omega)]
    rw [restore_pairs_frame _ _ _ _ (by omega), restore_pairs_frame _ _ _ _ (by omega)]
    rw [store_le_eq_of_lt _ _ _ _ _ (by omega)]
  · rw [← e, ← load_store_le 4 (store_le 4 (restore_states st
      (st.zns_num_zones - 1 - st.log_zone_num_config)
      st.log_zone_num_config 20 (store_le 4 (store_le 4 (store_le 4 (store_le 4 zero_buf 4
      st.log_zone_start) 8 st.log_zone_end) 12 st.data_zone_start) 16 st.data_zone_end)).1
      (20 + (st.zns_num_zones - 1 - st.log_zone_num_config)) st.log_mapping.length)
      (20 + (st.zns_num_zones - 1 - st.log_zone_num_config) + 4) st.data_mapping.length]
    apply load_le_congr
    intro k h1 h2
    unfold descriptor_buffer
    simp only [restore_states_ptr, restore_pairs_ptr]
    rw [store_le_eq_of_ge _ _ _ _ _ (by omega)]
    rw [restore_pairs_frame _ _ _ _ (by omega), restore_pairs_frame _ _ _ _ (by omega)]

theorem descriptor_log_pairs (st : FtlState) :
    ∃ b : Buf, ∀ k,
      20 + (st.zns_num_zones - 1 - st.log_zone_num_config) + 8 ≤ k →
      k < 20 + (st.zns_num_zones - 1 - st.log_zone_num_config) + 8 + 16 * st.log_mapping.length →
      (descriptor_buffer st).1 k =
        (restore_pairs st.log_mapping
          (20 + (st.zns_num_zones - 1 - st.log_zone_num_config) + 8) b).1 k := by
  apply Exists.intro
  intro k h1 h2
  unfold descriptor_buffer
  simp only [restore_states_ptr, restore_pairs_ptr]
  rw [store_le_eq_of_ge _ _ _ _ _ (by omega)]
  rw [restore_pairs_frame _ _ _ _ (by omega)]

theorem descriptor_data_pairs (st : FtlState) :
    ∃ b : Buf, ∀ k,
      20 + (st.zns_num_zones - 1 - st.log_zone_num_config) + 8 + 16 * st.log_mapping.length ≤ k →
      k < 20 + (st.zns_num_zones - 1 - st.log_zone_num_config) + 8 + 16 * st.log_mapping.length
        + 16 * st.data_mapping.length →
      (descriptor_buffer st).1 k =
        (restore_pairs st.data_mapping
          (20 + (st.zns_num_zones - 1 - st.log_zone_num_config) + 8
            + 16 * st.log_mapping.length) b).1 k := by
  apply Exists.intro
  intro k h1 h2
  unfold descriptor_buffer
  simp only [restore_states_ptr, restore_pairs_ptr]
  rw [store_le_eq_of_ge _ _ _ _ _ (by omega)]

/-! ## Loading a record that was stored -/

theorem load_descriptor_of_record (st st0 : FtlState) (m : Buf)
    (hZ : st0.zns_num_zones = st.zns_num_zones)
    (hL : st0.log_zone_num_config = st.log_zone_num_config)
    (hlog : st0.log_mapping = []) (hdata : st0.data_mapping = [])
    (hs : storable st)
    (hm : ∀ k, k < (descriptor_buffer st).2 → m k = (descriptor_buffer st).1 k) :
    (load_descriptor st0 m).log_mapping = st.log_mapping.reverse ∧
    (load_descriptor st0 m).data_mapping = st.data_mapping.reverse ∧
    (load_descriptor st0 m).log_zone_start = st.log_zone_start ∧
    (load_descriptor st0 m).log_zone_end = st.log_zone_end ∧
    (load_descriptor st0 m).data_zone_start = st.data_zone_start ∧
    (load_descriptor st0 m).data_zone_end = st.data_zone_end ∧
    (∀ i, st.log_zone_num_config ≤ i → i < st.zns_num_zones - 1 →
      (load_descriptor st0 m).zone_states i = st.zone_states i) := by
  obtain ⟨p1, p2, p3, p4, hel, hed, hnl, hnd, hst, htot⟩ := hs
  have htotal := descriptor_total st
  rw [htotal] at hm htot
  have hptr := descriptor_pointers st
  have hsz := descriptor_sizes st
  have hnlog : load_le 4 m (20 + (st.zns_num_zones - 1 - st.log_zone_num_config)) =
      st.log_mapping.length := by
    rw [load_le_congr 4 m (descriptor_buffer st).1 _ (fun k h1 h2 => hm k (by omega)), hsz.1]
    exact Nat.mod_eq_of_lt (by omega)
  have hndata : load_le 4 m (20 + (st.zns_num_zones - 1 - st.log_zone_num_config) + 4) =
      st.data_mapping.length := by
    rw [load_le_congr 4 m (descriptor_buffer st).1 _ (fun k h1 h2 => hm k (by omega)), hsz.2]
    exact Nat.mod_eq_of_lt (by omega)
  obtain ⟨bl, hbl⟩ := descriptor_log_pairs st
  obtain ⟨bd, hbd⟩ := descriptor_data_pairs st
  have hl := init_pairs_of_restore st.log_mapping
    (20 + (st.zns_num_zones - 1 - st.log_zone_num_config) + 8) bl m [] hel
    (fun k h1 h2 => by rw [hm k (by omega)]; exact hbl k h1 h2)
  have hd := init_pairs_of_restore st.data_mapping
    (20 + (st.zns_num_zones - 1 - st.log_zone_num_config) + 8 + 16 * st.log_mapping.length)
    bd m [] hed
    (fun k h1 h2 => by rw [hm k (by omega)]; exact hbd k h1 h2)
  rw [foldl_assign_of_nodup _ _ (by simpa using hnl)] at hl
  rw [foldl_assign_of_nodup _ _ (by simpa using hnd)] at hd
  simp only [List.append_nil] at hl hd
  refine ⟨?_, ?_, ?_, ?_, ?_, ?_, ?_⟩
  · simp only [load_descriptor, init_states_ptr, hZ, hL, hlog, hnlog, hl]
  · simp only [load_descriptor, init_states_ptr, hZ, hL, hlog, hdata, hnlog, hndata, hl, hd]
  · simp only [load_descriptor]
    rw [load_le_congr 4 m (descriptor_buffer st).1 _ (fun k h1 h2 => hm k (by omega)), hptr.1]
    exact Nat.mod_eq_of_lt p1
  · simp only [load_descriptor]
    rw [load_le_congr 4 m (descriptor_buffer st).1 _ (fun k h1 h2 => hm k (by omega)),
      hptr.2.1]
    exact Nat.mod_eq_of_lt p2
  · simp only [load_descriptor]
    rw [load_le_congr 4 m (descriptor_buffer st).1 _ (fun k h1 h2 => hm k (by omega)),
      hptr.2.2.1]
    exact Nat.mod_eq_of_lt p3
  · simp only [load_descriptor]
    rw [load_le_congr 4 m (descriptor_buffer st).1 _ (fun k h1 h2 => hm k (by omega)),
      hptr.2.2.2]
    exact Nat.mod_eq_of_lt p4
  · intro i hi1 hi2
    simp only [load_descriptor, hZ, hL]
    rw [init_states_at, if_pos (by omega), hm _ (by omega)]
    have := descriptor_states st (i - st.log_zone_num_config) (by omega)
    rw [this]
    have e : st.log_zone_num_config + (i - st.log_zone_num_config) = i := by omega
    rw [e]
    exact Nat.mod_eq_of_lt (hst i hi1 hi2)

/-! ## The record through the metadata zone -/

theorem roundup_facts (x y : Nat) (hy : 0 < y) :
    x ≤ roundup x y ∧ roundup x y % y = 0 ∧ roundup x y / y = (x + (y - 1)) / y ∧
    roundup x y = (x + (y - 1)) / y * y := by
  unfold roundup
  refine ⟨?_, Nat.mul_mod_left _ _, Nat.mul_div_cancel _ hy, rfl⟩
  have h1 := Nat.div_add_mod (x + (y - 1)) y
  have h2 := Nat.mod_lt (x + (y - 1)) hy
  rw [mul_comm] at h1
  omega

theorem roundup_blocks_le (x y B : Nat) (hy : 0 < y) (hx : x ≤ B * y) :
    (x + (y - 1)) / y ≤ B := by
  have : (x + (y - 1)) / y < B + 1 := by
    rw [Nat.div_lt_iff_lt_mul hy]
    have : (B + 1) * y = B * y + y := by ring
    omega
  omega

theorem last_zone_facts (Z B : Nat) (hZ : 1 ≤ Z) (hB : 0 < B) :
    Z * B = (Z - 1) * B + B ∧ (Z - 1) * B / B = Z - 1 ∧ (Z - 1) * B % B = 0 := by
  refine ⟨?_, Nat.mul_div_cancel _ hB, Nat.mul_mod_left _ _⟩
  have : Z = (Z - 1) + 1 := by omega
  conv_lhs => rw [this]
  ring

theorem metadata_write_mem (st : FtlState) (dev : Nvme) (buf : Buf) (n : Nat)
    (hg : same_geometry st dev) (hl : 0 < st.lba_size_bytes) (hZ : 1 ≤ st.zns_num_zones)
    (hn1 : 1 ≤ n) (hnB : n ≤ st.blocks_per_zone) (hn : n ≤ 65536) :
    same_geometry st (metadata_write st dev buf (n * st.lba_size_bytes)).2 ∧
    ∀ j o, j < n → o < st.lba_size_bytes →
      (metadata_write st dev buf (n * st.lba_size_bytes)).2.mem
        ((st.zns_num_zones - 1) * st.blocks_per_zone + j) o = buf (j * st.lba_size_bytes + o) := by
  obtain ⟨g1, g2, g3⟩ := hg
  have hB : 0 < st.blocks_per_zone := by omega
  obtain ⟨f1, f2, f3⟩ := last_zone_facts st.zns_num_zones st.blocks_per_zone hZ hB
  have hmod : n * st.lba_size_bytes % st.lba_size_bytes = 0 := Nat.mul_mod_left _ _
  have hdiv : n * st.lba_size_bytes / st.lba_size_bytes = n := Nat.mul_div_cancel _ hl
  have hnlb : nlb_of n + 1 = n := by unfold nlb_of; omega
  have hrs : reset_status dev ((st.zns_num_zones - 1) * st.blocks_per_zone) false = 0 := by
    unfold reset_status
    rw [g1, g2]
    simp only [Bool.false_eq_true, if_false]
    rw [if_neg (by omega), if_neg (by omega)]
  unfold metadata_write
  simp only [hmod, hdiv, ne_eq, not_true_eq_false, if_false]
  unfold nvme_zns_mgmt_send
  simp only [hrs, ne_eq, not_true_eq_false, if_false, Bool.false_eq_true]
  have has : append_status
      { dev.log Opcode.reset ((st.zns_num_zones - 1) * st.blocks_per_zone) 0 0 0 with
        mem := fun l o =>
          if l / dev.zsze = (st.zns_num_zones - 1) * st.blocks_per_zone / dev.zsze then 0
          else dev.mem l o
        wp := fun z =>
          if z = (st.zns_num_zones - 1) * st.blocks_per_zone / dev.zsze then 0 else dev.wp z }
      ((st.zns_num_zones - 1) * st.blocks_per_zone) (nlb_of n) (n * st.lba_size_bytes) = 0 := by
    unfold append_status
    simp only [Nvme.log, g1, g2, g3, f2, f3, hnlb, if_true]
    rw [if_neg (by omega)]
    simp only [ne_eq, not_true_eq_false, if_false]
    rw [if_neg (by omega), if_neg (by omega)]
  unfold nvme_zns_append
  simp only [has, ne_eq, not_true_eq_false, if_false]
  refine ⟨⟨g1, g2, g3⟩, ?_⟩
  intro j o hj ho
  simp only [mem_store, Nvme.log, g2, g3, f2, if_true, hnlb, Nat.add_zero, Nat.zero_add]
  rw [if_pos ⟨by omega, by omega, ho⟩]
  congr 2
  have : (st.zns_num_zones - 1) * st.blocks_per_zone + j
      - (st.zns_num_zones - 1) * st.blocks_per_zone = j := by omega
  rw [this]

theorem metadata_read_buf (st : FtlState) (dev : Nvme) (buf : Buf) (n : Nat)
    (hg : same_geometry st dev) (hl : 0 < st.lba_size_bytes) (hZ : 1 ≤ st.zns_num_zones)
    (hn1 : 1 ≤ n) (hnB : n ≤ st.blocks_per_zone) (hn : n ≤ 65536) :
    (metadata_read st dev buf (n * st.lba_size_bytes)).2.2.mem = dev.mem ∧
    same_geometry st (metadata_read st dev buf (n * st.lba_size_bytes)).2.2 ∧
    ∀ k, k < n * st.lba_size_bytes →
      (metadata_read st dev buf (n * st.lba_size_bytes)).2.1 k =
        dev.mem ((st.zns_num_zones - 1) * st.blocks_per_zone + k / st.lba_size_bytes)
          (k % st.lba_size_bytes) := by
  obtain ⟨g1, g2, g3⟩ := hg
  have hB : 0 < st.blocks_per_zone := by omega
  obtain ⟨f1, f2, f3⟩ := last_zone_facts st.zns_num_zones st.blocks_per_zone hZ hB
  have hmod : n * st.lba_size_bytes % st.lba_size_bytes = 0 := Nat.mul_mod_left _ _
  have hdiv : n * st.lba_size_bytes / st.lba_size_bytes = n := Nat.mul_div_cancel _ hl
  have hnlb : nlb_of n + 1 = n := by unfold nlb_of; omega
  have hrs : read_status dev ((st.zns_num_zones - 1) * st.blocks_per_zone) (nlb_of n)
      (n * st.lba_size_bytes) = 0 := by
    unfold read_status
    rw [g1, g2, g3, hnlb, if_neg (by omega)]
    simp
  unfold metadata_read
  simp only [hmod, hdiv, ne_eq, not_true_eq_false, if_false]
  unfold nvme_read
  simp only [hrs, ne_eq, not_true_eq_false, if_false]
  refine ⟨rfl, ⟨g1, g2, g3⟩, ?_⟩
  intro k hk
  simp only [g3, Nat.zero_le, true_and, Nat.zero_add, Nat.sub_zero]
  rw [if_pos hk]

/-! ## Claims on the checkpoint -/

/-- C5. A state whose record fits in one zone (of at most 65536 blocks and less than
`2 ^ 32` bytes, the widths of the transfer arguments) and whose fields fit the
record is saved by `restore_descriptor`; `init_descriptor`, run with empty maps
on a state of the same configuration whose metadata zone is not `EMPTY`,
returns 0 and yields the same log map and the same data map (the same
entries, so the same value under every key), the same four pointers and the
same state for every data zone. -/
theorem checkpoint_round_trip (st st0 : FtlState) (dev : Nvme)
    (hg : same_geometry st dev)
    (hcfg : st0.zns_num_zones = st.zns_num_zones ∧ st0.blocks_per_zone = st.blocks_per_zone ∧
      st0.lba_size_bytes = st.lba_size_bytes ∧
      st0.log_zone_num_config = st.log_zone_num_config)
    (hl : 4 ≤ st.lba_size_bytes) (hZ : 1 ≤ st.zns_num_zones)
    (hB : st.blocks_per_zone ≤ 65536)
    (h32 : st.blocks_per_zone * st.lba_size_bytes < 2 ^ 32)
    (hfit : (descriptor_buffer st).2 ≤ st.blocks_per_zone * st.lba_size_bytes)
    (hs : storable st)
    (hlog0 : st0.log_mapping = []) (hdata0 : st0.data_mapping = [])
    (hmeta : st0.zone_states (st0.zns_num_zones - 1) ≠ EMPTY) :
    (init_descriptor st0 (restore_descriptor st dev).2).1 = 0 ∧
    List.Perm (init_descriptor st0 (restore_descriptor st dev).2).2.1.log_mapping
      st.log_mapping ∧
    (∀ k, map_find (init_descriptor st0 (restore_descriptor st dev).2).2.1.log_mapping k =
      map_find st.log_mapping k) ∧
    List.Perm (init_descriptor st0 (restore_descriptor st dev).2).2.1.data_mapping
      st.data_mapping ∧
    (∀ k, map_find (init_descriptor st0 (restore_descriptor st dev).2).2.1.data_mapping k =
      map_find st.data_mapping k) ∧
    (init_descriptor st0 (restore_descriptor st dev).2).2.1.log_zone_start = st.log_zone_start ∧
    (init_descriptor st0 (restore_descriptor st dev).2).2.1.log_zone_end = st.log_zone_end ∧
    (init_descriptor st0 (restore_descriptor st dev).2).2.1.data_zone_start =
      st.data_zone_start ∧
    (init_descriptor st0 (restore_descriptor st dev).2).2.1.data_zone_end = st.data_zone_end ∧
    (∀ i, st.log_zone_num_config ≤ i → i < st.zns_num_zones - 1 →
      (init_descriptor st0 (restore_descriptor st dev).2).2.1.zone_states i =
        st.zone_states i) := by
  obtain ⟨c1, c2, c3, c4⟩ := hcfg
  have hl0 : 0 < st.lba_size_bytes := by omega
  have htot := descriptor_total st
  have htot28 : 28 ≤ (descriptor_buffer st).2 := by omega
  obtain ⟨r1, r2, r3, r4⟩ := roundup_facts (descriptor_buffer st).2 st.lba_size_bytes hl0
  have hnB := roundup_blocks_le _ _ _ hl0 hfit
  have hn1 : 1 ≤ ((descriptor_buffer st).2 + (st.lba_size_bytes - 1)) / st.lba_size_bytes := by
    rw [Nat.le_div_iff_mul_le hl0]; omega
  have hB1 : 1 ≤ st.blocks_per_zone := by omega
  have hle : ((descriptor_buffer st).2 + (st.lba_size_bytes - 1)) / st.lba_size_bytes
      * st.lba_size_bytes ≤ st.blocks_per_zone * st.lba_size_bytes :=
    Nat.mul_le_mul_right _ hnB
  have hlsb32 : st.lba_size_bytes < 2 ^ 32 := by
    have : 1 * st.lba_size_bytes ≤ st.blocks_per_zone * st.lba_size_bytes :=
      Nat.mul_le_mul_right _ hB1
    omega
  have hru : roundup (descriptor_buffer st).2 st.lba_size_bytes % 2 ^ 32 =
      ((descriptor_buffer st).2 + (st.lba_size_bytes - 1)) / st.lba_size_bytes
        * st.lba_size_bytes := by
    rw [r4]; exact Nat.mod_eq_of_lt (by omega)
  -- the device after the checkpoint
  obtain ⟨w1, w2⟩ := metadata_write_mem st dev (descriptor_buffer st).1 _ hg hl0 hZ hn1 hnB
    (by omega)
  have hdev1 : (restore_descriptor st dev).2 =
      (metadata_write st dev (descriptor_buffer st).1
        (((descriptor_buffer st).2 + (st.lba_size_bytes - 1)) / st.lba_size_bytes
          * st.lba_size_bytes)).2 := by
    unfold restore_descriptor
    simp only [hru]
  rw [hdev1]
  generalize (metadata_write st dev (descriptor_buffer st).1
        (((descriptor_buffer st).2 + (st.lba_size_bytes - 1)) / st.lba_size_bytes
          * st.lba_size_bytes)).2 = dev1 at w1 w2
  have g0 : same_geometry st0 dev1 := by
    unfold same_geometry at w1 ⊢
    rw [c1, c2, c3]; exact w1
  -- the first read
  obtain ⟨a1, a2, a3⟩ := metadata_read_buf st0 dev1 zero_buf 1 g0 (by omega) (by omega)
    (le_refl _) (by omega) (by norm_num)
  rw [one_mul] at a1 a2 a3
  have hsize : load_le 4 (metadata_read st0 dev1 zero_buf st0.lba_size_bytes).2.1 0 =
      (descriptor_buffer st).2 := by
    rw [load_le_congr 4 _ (descriptor_buffer st).1 0, descriptor_total_field]
    · exact Nat.mod_eq_of_lt hs.2.2.2.2.2.2.2.2.2
    · intro k _ hk
      rw [a3 k (by omega), c1, c2, c3]
      have hk' : k < st.lba_size_bytes := by omega
      rw [Nat.div_eq_of_lt hk', Nat.mod_eq_of_lt hk', w2 0 k (by omega) hk']
      simp
  -- the second read
  have g1 : same_geometry st0 (metadata_read st0 dev1 zero_buf st0.lba_size_bytes).2.2 := a2
  obtain ⟨b1, b2, b3⟩ := metadata_read_buf st0
    (metadata_read st0 dev1 zero_buf st0.lba_size_bytes).2.2 zero_buf
    (((descriptor_buffer st).2 + (st.lba_size_bytes - 1)) / st.lba_size_bytes) g1
    (by omega) (by omega) hn1 (by omega) (by omega)
  have hinit : init_descriptor st0 dev1 =
      (0,
       load_descriptor st0
        (metadata_read st0 (metadata_read st0 dev1 zero_buf st0.lba_size_bytes).2.2 zero_buf
          (((descriptor_buffer st).2 + (st.lba_size_bytes - 1)) / st.lba_size_bytes
            * st0.lba_size_bytes)).2.1,
       (metadata_read st0 (metadata_read st0 dev1 zero_buf st0.lba_size_bytes).2.2 zero_buf
          (((descriptor_buffer st).2 + (st.lba_size_bytes - 1)) / st.lba_size_bytes
            * st0.lba_size_bytes)).2.2) := by
    unfold init_descriptor
    simp only [hmeta, if_false]
    have e1 : st0.lba_size_bytes % 2 ^ 32 = st0.lba_size_bytes := by
      rw [c3]; exact Nat.mod_eq_of_lt hlsb32
    rw [e1]
    simp only [hsize]
    rw [if_neg (by omega)]
    rw [c3, hru]
  rw [hinit]
  have hm : ∀ k, k < (descriptor_buffer st).2 →
      (metadata_read st0 (metadata_read st0 dev1 zero_buf st0.lba_size_bytes).2.2 zero_buf
          (((descriptor_buffer st).2 + (st.lba_size_bytes - 1)) / st.lba_size_bytes
            * st0.lba_size_bytes)).2.1 k = (descriptor_buffer st).1 k := by
    intro k hk
    have hk2 : k < ((descriptor_buffer st).2 + (st.lba_size_bytes - 1)) / st.lba_size_bytes
        * st0.lba_size_bytes := by
      rw [c3, ← r4]; omega
    rw [b3 k hk2, a1, c1, c2, c3]
    have hq : k / st.lba_size_bytes <
        ((descriptor_buffer st).2 + (st.lba_size_bytes - 1)) / st.lba_size_bytes := by
      rw [Nat.div_lt_iff_lt_mul hl0]
      rw [c3] at hk2
      exact hk2
    rw [w2 _ _ hq (Nat.mod_lt _ hl0)]
    rw [mul_comm, Nat.div_add_mod k st.lba_size_bytes]
  obtain ⟨l1, l2, l3, l4, l5, l6, l7⟩ :=
    load_descriptor_of_record st st0 _ c1 c4 hlog0 hdata0 hs hm
  obtain ⟨-, -, -, -, -, -, hnl, hnd, -, -⟩ := hs
  refine ⟨rfl, ?_, ?_, ?_, ?_, l3, l4, l5, l6, l7⟩
  · simp only [l1]; exact List.reverse_perm _
  · intro k
    simp only [l1]
    exact map_find_perm _ _ k (List.reverse_perm _)
      ((List.Perm.nodup_iff ((List.reverse_perm _).map Prod.fst)).2 hnl)
  · simp only [l2]; exact List.reverse_perm _
  · intro k
    simp only [l2]
    exact map_find_perm _ _ k (List.reverse_perm _)
      ((List.Perm.nodup_iff ((List.reverse_perm _).map Prod.fst)).2 hnd)

/-- C5 at the boundary configuration: the state after a write, a GC pass and a second
write is saved and restored; the restored log map sends address 0 to the same
block and the restored data map sends zone 3 to the same zone. -/
theorem checkpoint_round_trip_witness :
    map_find (init_descriptor scn_restart (restore_descriptor scn_saved.1 scn_saved.2).2).2.1.log_mapping
      0 = map_find scn_saved.1.log_mapping 0 ∧
    map_find (init_descriptor scn_restart (restore_descriptor scn_saved.1 scn_saved.2).2).2.1.data_mapping
      3 = some 12 := by
  have h := checkpoint_round_trip scn_saved.1 scn_restart scn_saved.2
    ⟨by decide, by decide, by decide⟩ ⟨by decide, by decide, by decide, by decide⟩
    (by decide) (by decide) (by decide) (by decide) (by decide)
    ⟨by decide, by decide, by decide, by decide, by decide, by decide, by decide, by decide,
      by intro i h1 h2
         have h3 : i < 7 := h2
         have h4 : 3 ≤ i := h1
         interval_cases i <;> decide,
      by decide⟩
    (by decide) (by decide) (by decide)
  exact ⟨h.2.2.1 0, by rw [h.2.2.2.2.1 3]; decide⟩

/-! ## Loading a record and storing it again -/

theorem record_pairs_length (m : Buf) (n ptr : Nat) : (record_pairs m n ptr).length = n := by
  induction n generalizing ptr with
  | zero => rfl
  | succ n ih => simp only [record_pairs, List.length_cons, ih]

theorem init_pairs_eq_foldl (m : Buf) (n ptr : Nat) (acc : UMap Nat) :
    init_pairs m n ptr acc =
      ((record_pairs m n ptr).foldl (fun a e => map_assign a e.1 e.2) acc, ptr + 16 * n) := by
  induction n generalizing ptr acc with
  | zero => rfl
  | succ n ih =>
    simp only [init_pairs, record_pairs, List.foldl_cons]
    rw [ih]
    congr 1
    omega

theorem record_pairs_lt (m : Buf) (n ptr : Nat)
    (h : ∀ k, ptr ≤ k → k < ptr + 16 * n → m k < 256) :
    ∀ e ∈ record_pairs m n ptr, e.1 < 2 ^ 64 ∧ e.2 < 2 ^ 64 := by
  have e8 : (256 : Nat) ^ 8 = 2 ^ 64 := by norm_num
  induction n generalizing ptr with
  | zero => intro e he; simp [record_pairs] at he
  | succ n ih =>
    intro e he
    simp only [record_pairs, List.mem_cons] at he
    rcases he with he | he
    · rw [he]
      constructor
      · rw [← e8]; exact load_le_lt 8 m ptr (fun k h1 h2 => h k h1 (by omega))
      · rw [← e8]; exact load_le_lt 8 m (ptr + 8) (fun k h1 h2 => h k (by omega) (by omega))
    · exact ih (ptr + 16) (fun k h1 h2 => h k (by omega) (by omega)) e he

theorem restore_pairs_record (m : Buf) (n ptr : Nat) (b : Buf) (k : Nat)
    (h : ∀ j, ptr ≤ j → j < ptr + 16 * n → m j < 256)
    (hk1 : ptr ≤ k) (hk2 : k < ptr + 16 * n) :
    (restore_pairs (record_pairs m n ptr) ptr b).1 k = m k := by
  induction n generalizing ptr b with
  | zero => omega
  | succ n ih =>
    simp only [record_pairs, restore_pairs]
    by_cases hk : k < ptr + 16
    · rw [restore_pairs_frame _ _ _ _ (Or.inl hk)]
      by_cases hk' : k < ptr + 8
      · rw [store_le_eq_of_lt _ _ _ _ _ hk']
        exact store_load_le 8 b m ptr k (fun j h1 h2 => h j h1 (by omega)) hk1 hk'
      · exact store_load_le 8 _ m (ptr + 8) k (fun j h1 h2 => h j (by omega) (by omega))
          (by omega) (by omega)
    · exact ih (ptr + 16) _ (fun j h1 h2 => h j (by omega) (by omega)) (by omega) (by omega)

theorem record_pairs_restore (l : UMap Nat) (ptr : Nat) (b m : Buf)
    (hl : ∀ e ∈ l, e.1 < 2 ^ 64 ∧ e.2 < 2 ^ 64)
    (hm : ∀ k, ptr ≤ k → k < ptr + 16 * l.length → m k = (restore_pairs l ptr b).1 k) :
    record_pairs m l.length ptr = l := by
  induction l generalizing ptr b with
  | nil => rfl
  | cons e rest ih =>
    obtain ⟨key, value⟩ := e
    simp only [List.length_cons, record_pairs]
    simp only [restore_pairs, List.length_cons] at hm
    have hk : load_le 8 m ptr = key := by
      have : load_le 8 m ptr = load_le 8 (store_le 8 b ptr key) ptr := by
        apply load_le_congr
        intro k h1 h2
        rw [hm k h1 (by omega), restore_pairs_frame _ _ _ _ (by omega)]
        rw [store_le_eq_of_lt _ _ _ _ _ (by omega)]
      rw [this, load_store_le]
      exact Nat.mod_eq_of_lt (by have := (hl (key, value) (List.mem_cons_self _ _)).1; simpa using this)
    have hv : load_le 8 m (ptr + 8) = value := by
      have : load_le 8 m (ptr + 8) =
          load_le 8 (store_le 8 (store_le 8 b ptr key) (ptr + 8) value) (ptr + 8) := by
        apply load_le_congr
        intro k h1 h2
        rw [hm k (by omega) (by omega), restore_pairs_frame _ _ _ _ (by omega)]
      rw [this, load_store_le]
      exact Nat.mod_eq_of_lt (by have := (hl (key, value) (List.mem_cons_self _ _)).2; simpa using this)
    rw [hk, hv, ih (ptr + 16) _ (fun e he => hl e (List.mem_cons_of_mem _ he))
      (fun k h1 h2 => hm k (by omega) (by omega))]

theorem descriptor_total_bytes (st : FtlState) (k : Nat) (hk : k < 4) :
    (descriptor_buffer st).1 k = store_le 4 zero_buf 0 (descriptor_buffer st).2 k := by
  unfold descriptor_buffer
  simp only
  unfold store_le
  rw [if_pos (by omega), if_pos (by omega)]

theorem store_le_eq_of_mem (n : Nat) (b : Buf) (p v k : Nat) (h1 : p ≤ k) (h2 : k < p + n) :
    store_le n b p v k = v / 256 ^ (k - p) % 256 := by
  unfold store_le
  rw [if_pos ⟨h1, h2⟩]

theorem descriptor_sizes_bytes (st : FtlState) (k : Nat)
    (h1 : 20 + (st.zns_num_zones - 1 - st.log_zone_num_config) ≤ k)
    (h2 : k < 20 + (st.zns_num_zones - 1 - st.log_zone_num_config) + 8) :
    (descriptor_buffer st).1 k =
      store_le 4 (store_le 4 zero_buf (20 + (st.zns_num_zones - 1 - st.log_zone_num_config))
        st.log_mapping.length)
        (20 + (st.zns_num_zones - 1 - st.log_zone_num_config) + 4) st.data_mapping.length k := by
  unfold descriptor_buffer
  simp only [restore_states_ptr, restore_pairs_ptr]
  rw [store_le_eq_of_ge _ _ _ _ _ (by omega)]
  rw [restore_pairs_frame _ _ _ _ (by omega), restore_pairs_frame _ _ _ _ (by omega)]
  by_cases hk : k < 20 + (st.zns_num_zones - 1 - st.log_zone_num_config) + 4
  · rw [store_le_eq_of_lt _ _ _ _ _ hk, store_le_eq_of_lt _ _ _ _ _ hk]
    rw [store_le_eq_of_mem _ _ _ _ _ h1 (by omega), store_le_eq_of_mem _ _ _ _ _ h1 (by omega)]
  · rw [store_le_eq_of_mem _ _ _ _ _ (by omega) (by omega),
      store_le_eq_of_mem _ _ _ _ _ (by omega) (by omega)]

theorem descriptor_padding (st : FtlState) (k : Nat) (h : (descriptor_buffer st).2 ≤ k) :
    (descriptor_buffer st).1 k = 0 := by
  have ht := descriptor_total st
  rw [ht] at h
  unfold descriptor_buffer
  simp only [restore_states_ptr, restore_pairs_ptr]
  rw [store_le_eq_of_ge _ _ _ _ _ (by omega)]
  rw [restore_pairs_frame _ _ _ _ (by omega), restore_pairs_frame _ _ _ _ (by omega)]
  rw [store_le_eq_of_ge _ _ _ _ _ (by omega), store_le_eq_of_ge _ _ _ _ _ (by omega)]
  rw [restore_states_frame _ _ _ _ _ _ (by omega)]
  rw [store_le_eq_of_ge _ _ _ _ _ (by omega), store_le_eq_of_ge _ _ _ _ _ (by omega),
    store_le_eq_of_ge _ _ _ _ _ (by omega), store_le_eq_of_ge _ _ _ _ _ (by omega)]
  rfl

theorem record_pairs_congr (m m' : Buf) (n ptr : Nat)
    (h : ∀ k, ptr ≤ k → k < ptr + 16 * n → m k = m' k) :
    record_pairs m n ptr = record_pairs m' n ptr := by
  induction n generalizing ptr with
  | zero => rfl
  | succ n ih =>
    simp only [record_pairs]
    rw [load_le_congr 8 m m' ptr (fun k h1 h2 => h k h1 (by omega)),
      load_le_congr 8 m m' (ptr + 8) (fun k h1 h2 => h k (by omega) (by omega)),
      ih (ptr + 16) (fun k h1 h2 => h k (by omega) (by omega))]

theorem init_descriptor_of_zone (st0 : FtlState) (dev : Nvme) (m : Buf)
    (hg : same_geometry st0 dev)
    (hl : 4 ≤ st0.lba_size_bytes) (hZ : 1 ≤ st0.zns_num_zones)
    (hB : st0.blocks_per_zone ≤ 65536)
    (h32 : st0.blocks_per_zone * st0.lba_size_bytes < 2 ^ 32)
    (hne : load_le 4 m 0 ≠ 0)
    (hfit : load_le 4 m 0 ≤ st0.blocks_per_zone * st0.lba_size_bytes)
    (hdev : metadata_zone_holds st0 dev m)
    (hmeta : st0.zone_states (st0.zns_num_zones - 1) ≠ EMPTY) :
    ∃ buf dev', init_descriptor st0 dev = (0, load_descriptor st0 buf, dev') ∧
      ∀ k, k < load_le 4 m 0 → buf k = m k := by
  have hl0 : 0 < st0.lba_size_bytes := by omega
  obtain ⟨r1, r2, r3, r4⟩ := roundup_facts (load_le 4 m 0) st0.lba_size_bytes hl0
  have hnB := roundup_blocks_le _ _ _ hl0 hfit
  have hn1 : 1 ≤ (load_le 4 m 0 + (st0.lba_size_bytes - 1)) / st0.lba_size_bytes := by
    rw [Nat.le_div_iff_mul_le hl0]; omega
  have hB1 : 1 ≤ st0.blocks_per_zone := by omega
  have hle : (load_le 4 m 0 + (st0.lba_size_bytes - 1)) / st0.lba_size_bytes
      * st0.lba_size_bytes ≤ st0.blocks_per_zone * st0.lba_size_bytes :=
    Nat.mul_le_mul_right _ hnB
  have hlsb32 : st0.lba_size_bytes < 2 ^ 32 := by
    have : 1 * st0.lba_size_bytes ≤ st0.blocks_per_zone * st0.lba_size_bytes :=
      Nat.mul_le_mul_right _ hB1
    omega
  have hru : roundup (load_le 4 m 0) st0.lba_size_bytes % 2 ^ 32 =
      (load_le 4 m 0 + (st0.lba_size_bytes - 1)) / st0.lba_size_bytes
        * st0.lba_size_bytes := by
    rw [r4]; exact Nat.mod_eq_of_lt (by omega)
  obtain ⟨a1, a2, a3⟩ := metadata_read_buf st0 dev zero_buf 1 hg (by omega) (by omega)
    (le_refl _) (by omega) (by norm_num)
  rw [one_mul] at a1 a2 a3
  have hsize : load_le 4 (metadata_read st0 dev zero_buf st0.lba_size_bytes).2.1 0 =
      load_le 4 m 0 := by
    apply load_le_congr
    intro k _ hk
    rw [a3 k (by omega)]
    have hk' : k < st0.lba_size_bytes := by omega
    rw [Nat.div_eq_of_lt hk', Nat.mod_eq_of_lt hk', hdev 0 k (by omega) hk']
    simp
  obtain ⟨b1, b2, b3⟩ := metadata_read_buf st0
    (metadata_read st0 dev zero_buf st0.lba_size_bytes).2.2 zero_buf
    ((load_le 4 m 0 + (st0.lba_size_bytes - 1)) / st0.lba_size_bytes) a2
    (by omega) (by omega) hn1 (by omega) (by omega)
  refine ⟨(metadata_read st0 (metadata_read st0 dev zero_buf st0.lba_size_bytes).2.2 zero_buf
      ((load_le 4 m 0 + (st0.lba_size_bytes - 1)) / st0.lba_size_bytes
        * st0.lba_size_bytes)).2.1,
    (metadata_read st0 (metadata_read st0 dev zero_buf st0.lba_size_bytes).2.2 zero_buf
      ((load_le 4 m 0 + (st0.lba_size_bytes - 1)) / st0.lba_size_bytes
        * st0.lba_size_bytes)).2.2, ?_, ?_⟩
  · unfold init_descriptor
    simp only [hmeta, if_false]
    rw [Nat.mod_eq_of_lt hlsb32]
    simp only [hsize]
    rw [if_neg hne, hru]
  · intro k hk
    have hk2 : k < (load_le 4 m 0 + (st0.lba_size_bytes - 1)) / st0.lba_size_bytes
        * st0.lba_size_bytes := by
      rw [← r4]; omega
    rw [b3 k hk2, a1]
    have hq : k / st0.lba_size_bytes <
        (load_le 4 m 0 + (st0.lba_size_bytes - 1)) / st0.lba_size_bytes := by
      rw [Nat.div_lt_iff_lt_mul hl0]
      exact hk2
    rw [hdev _ _ hq (Nat.mod_lt _ hl0)]
    rw [mul_comm, Nat.div_add_mod k st0.lba_size_bytes]

theorem reverse_of_length_le_one {α : Type} (l : List α) (h : l.length ≤ 1) : l.reverse = l := by
  match l, h with
  | [], _ => rfl
  | [_], _ => rfl
  | _ :: _ :: _, h => simp at h

theorem load_descriptor_fields (st0 : FtlState) (buf m : Buf)
    (hlog : st0.log_mapping = []) (hdata : st0.data_mapping = [])
    (hwf : record_wf (st0.zns_num_zones - 1 - st0.log_zone_num_config) m)
    (hb : ∀ k, k < load_le 4 m 0 → buf k = m k) :
    (load_descriptor st0 buf).zns_num_zones = st0.zns_num_zones ∧
    (load_descriptor st0 buf).log_zone_num_config = st0.log_zone_num_config ∧
    (load_descriptor st0 buf).log_zone_start = load_le 4 m 4 ∧
    (load_descriptor st0 buf).log_zone_end = load_le 4 m 8 ∧
    (load_descriptor st0 buf).data_zone_start = load_le 4 m 12 ∧
    (load_descriptor st0 buf).data_zone_end = load_le 4 m 16 ∧
    (∀ j, j < st0.zns_num_zones - 1 - st0.log_zone_num_config →
      (load_descriptor st0 buf).zone_states (st0.log_zone_num_config + j) = m (20 + j)) ∧
    (load_descriptor st0 buf).log_mapping =
      (record_pairs m (load_le 4 m (20 + (st0.zns_num_zones - 1 - st0.log_zone_num_config)))
        (20 + (st0.zns_num_zones - 1 - st0.log_zone_num_config) + 8)).reverse ∧
    (load_descriptor st0 buf).data_mapping =
      (record_pairs m (load_le 4 m (20 + (st0.zns_num_zones - 1 - st0.log_zone_num_config) + 4))
        (20 + (st0.zns_num_zones - 1 - st0.log_zone_num_config) + 8
          + 16 * load_le 4 m (20 + (st0.zns_num_zones - 1 - st0.log_zone_num_config)))).reverse := by
  obtain ⟨w1, w2, w3, w4, w5, w6⟩ := hwf
  have hnl : load_le 4 buf (20 + (st0.zns_num_zones - 1 - st0.log_zone_num_config)) =
      load_le 4 m (20 + (st0.zns_num_zones - 1 - st0.log_zone_num_config)) :=
    load_le_congr 4 _ _ _ (fun k h1 h2 => hb k (by omega))
  have hnd : load_le 4 buf (20 + (st0.zns_num_zones - 1 - st0.log_zone_num_config) + 4) =
      load_le 4 m (20 + (st0.zns_num_zones - 1 - st0.log_zone_num_config) + 4) :=
    load_le_congr 4 _ _ _ (fun k h1 h2 => hb k (by omega))
  refine ⟨rfl, rfl, ?_, ?_, ?_, ?_, ?_, ?_, ?_⟩
  · exact load_le_congr 4 _ _ _ (fun k h1 h2 => hb k (by omega))
  · exact load_le_congr 4 _ _ _ (fun k h1 h2 => hb k (by omega))
  · exact load_le_congr 4 _ _ _ (fun k h1 h2 => hb k (by omega))
  · exact load_le_congr 4 _ _ _ (fun k h1 h2 => hb k (by omega))
  · intro j hj
    simp only [load_descriptor]
    rw [init_states_at, if_pos (by omega), hb _ (by omega)]
    congr 1
    omega
  · simp only [load_descriptor, init_states_ptr, hlog, hnl, init_pairs_eq_foldl]
    rw [record_pairs_congr buf m _ _ (fun k h1 h2 => hb k (by omega))]
    rw [foldl_assign_of_nodup _ _ (by
      rw [List.append_nil]
      exact (List.Perm.nodup_iff ((List.reverse_perm _).map Prod.fst)).2 w5)]
    exact List.append_nil _
  · simp only [load_descriptor, init_states_ptr, hlog, hdata, hnl, hnd, init_pairs_eq_foldl]
    rw [record_pairs_congr buf m _ _ (fun k h1 h2 => hb k (by omega))]
    rw [foldl_assign_of_nodup _ _ (by
      rw [List.append_nil]
      exact (List.Perm.nodup_iff ((List.reverse_perm _).map Prod.fst)).2 w6)]
    exact List.append_nil _

theorem descriptor_of_loaded (S : FtlState) (m : Buf) (nz : Nat)
    (hnz : S.zns_num_zones - 1 - S.log_zone_num_config = nz)
    (hwf : record_wf nz m)
    (f1 : S.log_zone_start = load_le 4 m 4) (f2 : S.log_zone_end = load_le 4 m 8)
    (f3 : S.data_zone_start = load_le 4 m 12) (f4 : S.data_zone_end = load_le 4 m 16)
    (f5 : ∀ j, j < nz → S.zone_states (S.log_zone_num_config + j) = m (20 + j))
    (f6 : S.log_mapping = (record_pairs m (load_le 4 m (20 + nz)) (20 + nz + 8)).reverse)
    (f7 : S.data_mapping =
      (record_pairs m (load_le 4 m (20 + nz + 4))
        (20 + nz + 8 + 16 * load_le 4 m (20 + nz))).reverse) :
    (descriptor_buffer S).2 = load_le 4 m 0 ∧
    (∀ k, k < 28 + nz → (descriptor_buffer S).1 k = m k) ∧
    (∀ k, load_le 4 m 0 ≤ k → (descriptor_buffer S).1 k = m k) ∧
    record_pairs (descriptor_buffer S).1 (load_le 4 m (20 + nz)) (20 + nz + 8) = S.log_mapping ∧
    record_pairs (descriptor_buffer S).1 (load_le 4 m (20 + nz + 4))
      (20 + nz + 8 + 16 * load_le 4 m (20 + nz)) = S.data_mapping ∧
    (load_le 4 m (20 + nz) ≤ 1 → load_le 4 m (20 + nz + 4) ≤ 1 →
      ∀ k, (descriptor_buffer S).1 k = m k) := by
  obtain ⟨w1, w2, w3, w4, w5, w6⟩ := hwf
  have hll : S.log_mapping.length = load_le 4 m (20 + nz) := by
    rw [f6, List.length_reverse, record_pairs_length]
  have hdl : S.data_mapping.length = load_le 4 m (20 + nz + 4) := by
    rw [f7, List.length_reverse, record_pairs_length]
  have htot : (descriptor_buffer S).2 = load_le 4 m 0 := by
    rw [descriptor_total, hnz, hll, hdl, w1]
  have hel : ∀ e ∈ S.log_mapping, e.1 < 2 ^ 64 ∧ e.2 < 2 ^ 64 := by
    intro e he
    rw [f6, List.mem_reverse] at he
    exact record_pairs_lt m _ _ (fun k h1 h2 => w3 k (by omega)) e he
  have hed : ∀ e ∈ S.data_mapping, e.1 < 2 ^ 64 ∧ e.2 < 2 ^ 64 := by
    intro e he
    rw [f7, List.mem_reverse] at he
    exact record_pairs_lt m _ _ (fun k h1 h2 => w3 k (by omega)) e he
  have hhead : ∀ k, k < 28 + nz → (descriptor_buffer S).1 k = m k := by
    intro k hk
    by_cases h4 : k < 4
    · rw [descriptor_total_bytes S k h4, htot]
      exact store_load_le 4 _ m 0 k (fun j _ h2 => w3 j (by omega)) (by omega) (by omega)
    by_cases h20 : k < 20
    · rw [descriptor_header S k (by omega) h20, f1, f2, f3, f4]
      by_cases h16 : k < 16
      · rw [store_le_eq_of_lt _ _ _ _ _ h16]
        by_cases h12 : k < 12
        · rw [store_le_eq_of_lt _ _ _ _ _ h12]
          by_cases h8 : k < 8
          · rw [store_le_eq_of_lt _ _ _ _ _ h8]
            exact store_load_le 4 _ m 4 k (fun j _ h2 => w3 j (by omega)) (by omega) (by omega)
          · exact store_load_le 4 _ m 8 k (fun j _ h2 => w3 j (by omega)) (by omega) (by omega)
        · exact store_load_le 4 _ m 12 k (fun j _ h2 => w3 j (by omega)) (by omega) (by omega)
      · exact store_load_le 4 _ m 16 k (fun j _ h2 => w3 j (by omega)) (by omega) (by omega)
    by_cases hs : k < 20 + nz
    · have h := descriptor_states S (k - 20) (by omega)
      have e : 20 + (k - 20) = k := by omega
      rw [e, f5 (k - 20) (by omega), e] at h
      rw [h]
      exact Nat.mod_eq_of_lt (w3 k (by omega))
    · have h := descriptor_sizes_bytes S k (by omega) (by omega)
      rw [hnz, hll, hdl] at h
      rw [h]
      by_cases hk4 : k < 20 + nz + 4
      · rw [store_le_eq_of_lt _ _ _ _ _ hk4]
        exact store_load_le 4 _ m _ k (fun j _ h2 => w3 j (by omega)) (by omega) (by omega)
      · exact store_load_le 4 _ m _ k (fun j _ h2 => w3 j (by omega)) (by omega) (by omega)
  have hpad : ∀ k, load_le 4 m 0 ≤ k → (descriptor_buffer S).1 k = m k := by
    intro k hk
    rw [descriptor_padding S k (by omega), w4 k hk]
  obtain ⟨bl, hbl⟩ := descriptor_log_pairs S
  obtain ⟨bd, hbd⟩ := descriptor_data_pairs S
  rw [hnz] at hbl hbd
  refine ⟨htot, hhead, hpad, ?_, ?_, ?_⟩
  · rw [← hll]
    exact record_pairs_restore _ _ bl _ hel (fun k h1 h2 => hbl k h1 h2)
  · rw [← hdl, ← hll]
    exact record_pairs_restore _ _ bd _ hed (fun k h1 h2 => hbd k h1 h2)
  · intro hn1 hn2 k
    by_cases hk : k < 28 + nz
    · exact hhead k hk
    by_cases hkt : load_le 4 m 0 ≤ k
    · exact hpad k hkt
    have e6 : S.log_mapping = record_pairs m (load_le 4 m (20 + nz)) (20 + nz + 8) := by
      rw [f6]
      exact reverse_of_length_le_one _ (by rw [record_pairs_length]; exact hn1)
    have e7 : S.data_mapping = record_pairs m (load_le 4 m (20 + nz + 4))
        (20 + nz + 8 + 16 * load_le 4 m (20 + nz)) := by
      rw [f7]
      exact reverse_of_length_le_one _ (by rw [record_pairs_length]; exact hn2)
    by_cases hkl : k < 20 + nz + 8 + 16 * load_le 4 m (20 + nz)
    · rw [hbl k (by omega) (by omega), e6]
      exact restore_pairs_record m _ _ bl k (fun j h1 h2 => w3 j (by omega)) (by omega) hkl
    · rw [hbd k (by omega) (by omega), e7, hll]
      exact restore_pairs_record m _ _ bd k (fun j h1 h2 => w3 j (by omega)) (by omega)
        (by omega)

theorem restore_descriptor_holds (st : FtlState) (dev : Nvme)
    (hg : same_geometry st dev)
    (hl : 4 ≤ st.lba_size_bytes) (hZ : 1 ≤ st.zns_num_zones)
    (hB : st.blocks_per_zone ≤ 65536)
    (h32 : st.blocks_per_zone * st.lba_size_bytes < 2 ^ 32)
    (hfit : (descriptor_buffer st).2 ≤ st.blocks_per_zone * st.lba_size_bytes) :
    same_geometry st (restore_descriptor st dev).2 ∧
    metadata_zone_holds st (restore_descriptor st dev).2 (descriptor_buffer st).1 := by
  have hl0 : 0 < st.lba_size_bytes := by omega
  have htot := descriptor_total st
  obtain ⟨r1, r2, r3, r4⟩ := roundup_facts (descriptor_buffer st).2 st.lba_size_bytes hl0
  have hnB := roundup_blocks_le _ _ _ hl0 hfit
  have hn1 : 1 ≤ ((descriptor_buffer st).2 + (st.lba_size_bytes - 1)) / st.lba_size_bytes := by
    rw [Nat.le_div_iff_mul_le hl0]; omega
  have hle : ((descriptor_buffer st).2 + (st.lba_size_bytes - 1)) / st.lba_size_bytes
      * st.lba_size_bytes ≤ st.blocks_per_zone * st.lba_size_bytes :=
    Nat.mul_le_mul_right _ hnB
  have hru : roundup (descriptor_buffer st).2 st.lba_size_bytes % 2 ^ 32 =
      ((descriptor_buffer st).2 + (st.lba_size_bytes - 1)) / st.lba_size_bytes
        * st.lba_size_bytes := by
    rw [r4]; exact Nat.mod_eq_of_lt (by omega)
  obtain ⟨w1, w2⟩ := metadata_write_mem st dev (descriptor_buffer st).1 _ hg hl0 hZ hn1 hnB
    (by omega)
  have hdev1 : (restore_descriptor st dev).2 =
      (metadata_write st dev (descriptor_buffer st).1
        (((descriptor_buffer st).2 + (st.lba_size_bytes - 1)) / st.lba_size_bytes
          * st.lba_size_bytes)).2 := by
    unfold restore_descriptor
    simp only [hru]
  rw [hdev1]
  refine ⟨w1, ?_⟩
  intro j o hj ho
  have e : load_le 4 (descriptor_buffer st).1 0 = (descriptor_buffer st).2 := by
    rw [descriptor_total_field]
    exact Nat.mod_eq_of_lt (by omega)
  rw [e] at hj
  exact w2 j o hj ho

/-- C6, as amended.  A well-formed record held by the metadata zone is loaded by
`init_descriptor` into a state with empty maps and stored again by
`restore_descriptor`.  The buffer has the same `total_bytes`, the same bytes
before the map sections (pointers, zone states, map sizes) and the same zero
bytes after the record; each map section holds the entries of the restored
map in its iteration order, and these are the pairs of the record's section in
some order.  With at most one pair in each section the buffer equals the
record byte for byte. -/
theorem record_round_trip (st0 : FtlState) (dev : Nvme) (m : Buf)
    (hg : same_geometry st0 dev)
    (hl : 4 ≤ st0.lba_size_bytes) (hZ : 1 ≤ st0.zns_num_zones)
    (hB : st0.blocks_per_zone ≤ 65536)
    (h32 : st0.blocks_per_zone * st0.lba_size_bytes < 2 ^ 32)
    (hwf : record_wf (st0.zns_num_zones - 1 - st0.log_zone_num_config) m)
    (hfit : load_le 4 m 0 ≤ st0.blocks_per_zone * st0.lba_size_bytes)
    (hdev : metadata_zone_holds st0 dev m)
    (hlog0 : st0.log_mapping = []) (hdata0 : st0.data_mapping = [])
    (hmeta : st0.zone_states (st0.zns_num_zones - 1) ≠ EMPTY) :
    (init_descriptor st0 dev).1 = 0 ∧
    (descriptor_buffer (init_descriptor st0 dev).2.1).2 = load_le 4 m 0 ∧
    (∀ k, k < 28 + (st0.zns_num_zones - 1 - st0.log_zone_num_config) →
      (descriptor_buffer (init_descriptor st0 dev).2.1).1 k = m k) ∧
    (∀ k, load_le 4 m 0 ≤ k → (descriptor_buffer (init_descriptor st0 dev).2.1).1 k = m k) ∧
    record_pairs (descriptor_buffer (init_descriptor st0 dev).2.1).1
      (load_le 4 m (20 + (st0.zns_num_zones - 1 - st0.log_zone_num_config)))
      (20 + (st0.zns_num_zones - 1 - st0.log_zone_num_config) + 8) =
        (init_descriptor st0 dev).2.1.log_mapping ∧
    List.Perm (init_descriptor st0 dev).2.1.log_mapping
      (record_pairs m (load_le 4 m (20 + (st0.zns_num_zones - 1 - st0.log_zone_num_config)))
        (20 + (st0.zns_num_zones - 1 - st0.log_zone_num_config) + 8)) ∧
    record_pairs (descriptor_buffer (init_descriptor st0 dev).2.1).1
      (load_le 4 m (20 + (st0.zns_num_zones - 1 - st0.log_zone_num_config) + 4))
      (20 + (st0.zns_num_zones - 1 - st0.log_zone_num_config) + 8
        + 16 * load_le 4 m (20 + (st0.zns_num_zones - 1 - st0.log_zone_num_config))) =
        (init_descriptor st0 dev).2.1.data_mapping ∧
    List.Perm (init_descriptor st0 dev).2.1.data_mapping
      (record_pairs m (load_le 4 m (20 + (st0.zns_num_zones - 1 - st0.log_zone_num_config) + 4))
        (20 + (st0.zns_num_zones - 1 - st0.log_zone_num_config) + 8
          + 16 * load_le 4 m (20 + (st0.zns_num_zones - 1 - st0.log_zone_num_config)))) ∧
    (load_le 4 m (20 + (st0.zns_num_zones - 1 - st0.log_zone_num_config)) ≤ 1 →
      load_le 4 m (20 + (st0.zns_num_zones - 1 - st0.log_zone_num_config) + 4) ≤ 1 →
      ∀ k, (descriptor_buffer (init_descriptor st0 dev).2.1).1 k = m k) := by
  obtain ⟨buf, dev', hinit, hbuf⟩ := init_descriptor_of_zone st0 dev m hg hl hZ hB h32 hwf.2.1
    hfit hdev hmeta
  rw [hinit]
  obtain ⟨g1, g2, f1, f2, f3, f4, f5, f6, f7⟩ :=
    load_descriptor_fields st0 buf m hlog0 hdata0 hwf hbuf
  have hnz : (load_descriptor st0 buf).zns_num_zones - 1
      - (load_descriptor st0 buf).log_zone_num_config =
      st0.zns_num_zones - 1 - st0.log_zone_num_config := by rw [g1, g2]
  obtain ⟨d1, d2, d3, d4, d5, d6⟩ := descriptor_of_loaded (load_descriptor st0 buf) m
    (st0.zns_num_zones - 1 - st0.log_zone_num_config) hnz hwf f1 f2 f3 f4
    (fun j hj => by rw [g2]; exact f5 j hj) f6 f7
  refine ⟨rfl, d1, d2, d3, d4, ?_, d5, ?_, d6⟩
  · simp only [f6]; exact List.reverse_perm _
  · simp only [f7]; exact List.reverse_perm _

theorem scn_record_wf : record_wf 4 scn_record := by
  have e : load_le 4 scn_record 0 = 64 := by decide
  refine ⟨by decide, by decide, ?_, ?_, by decide, by decide⟩
  · rw [e]; decide
  · intro k hk
    rw [e] at hk
    exact descriptor_padding scn_two.1 k (by
      have : (descriptor_buffer scn_two.1).2 = 64 := by decide
      omega)

theorem scn_two_geometry : same_geometry scn_two.1 scn_two.2 := by
  refine ⟨?_, ?_, ?_⟩ <;> decide

theorem scn_record_held : metadata_zone_holds scn_restart scn_record_dev scn_record := by
  have h1 : 4 ≤ scn_two.1.lba_size_bytes := by decide
  have h2 : 1 ≤ scn_two.1.zns_num_zones := by decide
  have h3 : scn_two.1.blocks_per_zone ≤ 65536 := by decide
  have h4 : scn_two.1.blocks_per_zone * scn_two.1.lba_size_bytes < 2 ^ 32 := by decide
  have h5 : (descriptor_buffer scn_two.1).2 ≤
      scn_two.1.blocks_per_zone * scn_two.1.lba_size_bytes := by decide
  exact (restore_descriptor_holds scn_two.1 scn_two.2 scn_two_geometry h1 h2 h3 h4 h5).2

theorem scn_record_geometry : same_geometry scn_restart scn_record_dev := by
  have h1 : 4 ≤ scn_two.1.lba_size_bytes := by decide
  have h2 : 1 ≤ scn_two.1.zns_num_zones := by decide
  have h3 : scn_two.1.blocks_per_zone ≤ 65536 := by decide
  have h4 : scn_two.1.blocks_per_zone * scn_two.1.lba_size_bytes < 2 ^ 32 := by decide
  have h5 : (descriptor_buffer scn_two.1).2 ≤
      scn_two.1.blocks_per_zone * scn_two.1.lba_size_bytes := by decide
  exact (restore_descriptor_holds scn_two.1 scn_two.2 scn_two_geometry h1 h2 h3 h4 h5).1

set_option maxRecDepth 20000 in
/-- C6, the claim as stated fails.  At the boundary configuration the record of a
state whose log map holds addresses 4096 and 0 is well formed and held by the
metadata zone; `init_descriptor` loads it into a state with empty maps and
returns 0; the buffer `restore_descriptor` then builds differs from the record
at byte 33, the second byte of the first key: the record lists address 4096
first, the buffer address 0. -/
theorem record_round_trip_reorders :
    same_geometry scn_restart scn_record_dev ∧
    record_wf (scn_restart.zns_num_zones - 1 - scn_restart.log_zone_num_config) scn_record ∧
    metadata_zone_holds scn_restart scn_record_dev scn_record ∧
    scn_restart.log_mapping = [] ∧ scn_restart.data_mapping = [] ∧
    scn_restart.zone_states (scn_restart.zns_num_zones - 1) ≠ EMPTY ∧
    (init_descriptor scn_restart scn_record_dev).1 = 0 ∧
    record_pairs scn_record 2 32 = [(4096, 1), (0, 0)] ∧
    record_pairs (descriptor_buffer (init_descriptor scn_restart scn_record_dev).2.1).1 2 32 =
      [(0, 0), (4096, 1)] ∧
    (descriptor_buffer (init_descriptor scn_restart scn_record_dev).2.1).1 33 ≠ scn_record 33 :=
  ⟨scn_record_geometry, scn_record_wf, scn_record_held, by decide, by decide,
    by decide, by decide, by decide, by decide, by decide⟩

/-- C6 as amended, at the boundary configuration: the record of `scn_two` is loaded and
stored again; the log section of the buffer holds the restored log map, which
has the two pairs of the record. -/
theorem record_round_trip_witness :
    record_pairs (descriptor_buffer (init_descriptor scn_restart scn_record_dev).2.1).1
      (load_le 4 scn_record (20 + (scn_restart.zns_num_zones - 1 - scn_restart.log_zone_num_config)))
      (20 + (scn_restart.zns_num_zones - 1 - scn_restart.log_zone_num_config) + 8) =
        (init_descriptor scn_restart scn_record_dev).2.1.log_mapping ∧
    List.Perm (init_descriptor scn_restart scn_record_dev).2.1.log_mapping
      (record_pairs scn_record
        (load_le 4 scn_record (20 + (scn_restart.zns_num_zones - 1 - scn_restart.log_zone_num_config)))
        (20 + (scn_restart.zns_num_zones - 1 - scn_restart.log_zone_num_config) + 8)) :=
  have h := record_round_trip scn_restart scn_record_dev scn_record
    scn_record_geometry (by decide) (by decide) (by decide) (by decide)
    scn_record_wf (by decide) scn_record_held (by decide) (by decide) (by decide)
  ⟨h.2.2.2.2.1, h.2.2.2.2.2.1⟩

/-! ## Facts about chunked transfers -/

theorem same_data_refl (dev : Nvme) : same_data dev dev := ⟨rfl, rfl, rfl, rfl, rfl⟩

theorem same_data_trans (a b c : Nvme) (h1 : same_data a b) (h2 : same_data b c) :
    same_data a c := by
  obtain ⟨a1, a2, a3, a4, a5⟩ := h1
  obtain ⟨b1, b2, b3, b4, b5⟩ := h2
  exact ⟨by rw [b1, a1], by rw [b2, a2], by rw [b3, a3], by rw [b4, a4], by rw [b5, a5]⟩

theorem nvme_read_ok (dev : Nvme) (slba nlb : Nat) (buf : Buf) (off : Nat)
    (h : slba + nlb + 1 ≤ dev.nr_zones * dev.zsze) :
    (nvme_read dev slba nlb ((nlb + 1) * dev.lba_size) buf off).1 = 0 ∧
    (nvme_read dev slba nlb ((nlb + 1) * dev.lba_size) buf off).2.1 =
      (fun k => if off ≤ k ∧ k < off + (nlb + 1) * dev.lba_size then
        dev.mem (slba + (k - off) / dev.lba_size) ((k - off) % dev.lba_size) else buf k) ∧
    same_data dev (nvme_read dev slba nlb ((nlb + 1) * dev.lba_size) buf off).2.2 := by
  have hs : read_status dev slba nlb ((nlb + 1) * dev.lba_size) = 0 := by
    unfold read_status
    rw [if_neg (by omega)]
    simp
  unfold nvme_read
  simp only [hs, ne_eq, not_true_eq_false, if_false]
  exact ⟨trivial, trivial, rfl, rfl, rfl, rfl, rfl⟩

theorem chunk_facts (mdts lsb n : Nat) (hl : 0 < lsb) (hd : lsb ∣ mdts) (hm : 0 < mdts)
    (hn : 0 < n) :
    ∃ m, 0 < m ∧ m ≤ n ∧ m ≤ mdts / lsb ∧
      (if mdts < n * lsb then mdts else n * lsb) = m * lsb := by
  obtain ⟨c, hc⟩ := hd
  have hc0 : 0 < c := by
    rcases Nat.eq_zero_or_pos c with h | h
    · rw [h] at hc; omega
    · exact h
  have hdiv : mdts / lsb = c := by rw [hc]; exact Nat.mul_div_cancel_left c hl
  by_cases h : mdts < n * lsb
  · refine ⟨c, hc0, ?_, by omega, ?_⟩
    · rw [hc, mul_comm lsb c] at h
      exact Nat.le_of_lt (Nat.lt_of_mul_lt_mul_right h)
    · rw [if_pos h, hc, mul_comm]
  · refine ⟨n, hn, le_refl _, ?_, ?_⟩
    · rw [hdiv]
      rw [hc, mul_comm lsb c] at h
      exact Nat.le_of_mul_le_mul_right (by omega) hl
    · rw [if_neg h]

theorem lba_num_facts (m lsb : Nat) (hl : 0 < lsb) (hm : 0 < m) (hm2 : m ≤ 65536) :
    ((m * lsb / lsb + 2 ^ 64 - (if m * lsb % lsb = 0 then 1 else 0)) % 2 ^ 64) = m - 1 ∧
    ((m * lsb / lsb + 2 ^ 64 - (if m * lsb % lsb = 0 then 1 else 0)) % 2 ^ 64) % 65536 = m - 1 := by
  rw [Nat.mul_div_cancel _ hl, Nat.mul_mod_left]
  simp only [if_true]
  omega
theorem mdts_loop_read (st : FtlState) (hl : 0 < st.lba_size_bytes)
    (hd : st.lba_size_bytes ∣ st.mdts) (hm : 0 < st.mdts)
    (hb : st.mdts / st.lba_size_bytes ≤ 65536) :
    ∀ (n fuel : Nat) (dev : Nvme) (buffer : Buf) (ptr wp : Nat) (ret : Int),
      dev.lba_size = st.lba_size_bytes → n * st.lba_size_bytes < fuel →
      wp + n ≤ dev.nr_zones * dev.zsze → wp + n < 2 ^ 64 →
      ∃ dev', mdts_loop st true fuel dev buffer (n * st.lba_size_bytes) ptr wp ret =
          some (if n = 0 then ret else 0,
            fun k => if ptr ≤ k ∧ k < ptr + n * st.lba_size_bytes then
              dev.mem (wp + (k - ptr) / st.lba_size_bytes) ((k - ptr) % st.lba_size_bytes)
              else buffer k,
            dev') ∧
        same_data dev dev' := by
  intro n
  induction n using Nat.strong_induction_on with
  | _ n ih =>
    intro fuel dev buffer ptr wp ret hg hf hr h64
    obtain ⟨f, rfl⟩ : ∃ f, fuel = f + 1 := ⟨fuel - 1, by omega⟩
    rcases Nat.eq_zero_or_pos n with h0 | hpos
    · subst h0
      refine ⟨dev, ?_, same_data_refl dev⟩
      simp only [mdts_loop, Nat.zero_mul, gt_iff_lt, Nat.lt_irrefl, if_false, if_true,
        Nat.add_zero]
      have e : (fun k => if ptr ≤ k ∧ k < ptr then
          dev.mem (wp + (k - ptr) / st.lba_size_bytes) ((k - ptr) % st.lba_size_bytes)
          else buffer k) = buffer := by
        funext k
        rw [if_neg (by omega)]
      rw [e]
    · obtain ⟨m, hm0, hmn, hmc, hio⟩ := chunk_facts st.mdts st.lba_size_bytes n hl hd hm hpos
      obtain ⟨hl1, hl2⟩ := lba_num_facts m st.lba_size_bytes hl hm0 (by omega)
      have hsl : 0 < n * st.lba_size_bytes := Nat.mul_pos hpos hl
      have hlen : m * st.lba_size_bytes = (m - 1 + 1) * dev.lba_size := by
        rw [hg, Nat.sub_add_cancel hm0]
      obtain ⟨r1, r2, r3⟩ := nvme_read_ok dev wp (m - 1) buffer ptr (by omega)
      rw [← hlen] at r1 r2 r3
      have hsub : n * st.lba_size_bytes - m * st.lba_size_bytes =
          (n - m) * st.lba_size_bytes := by rw [Nat.sub_mul]
      have hmle : m * st.lba_size_bytes ≤ n * st.lba_size_bytes := Nat.mul_le_mul_right _ hmn
      have hmpos : 0 < m * st.lba_size_bytes := Nat.mul_pos hm0 hl
      obtain ⟨dev', e1, e2⟩ := ih (n - m) (by omega) f
        (nvme_read dev wp (m - 1) (m * st.lba_size_bytes) buffer ptr).2.2
        (nvme_read dev wp (m - 1) (m * st.lba_size_bytes) buffer ptr).2.1
        (ptr + m * st.lba_size_bytes) (wp + m) 0
        (by rw [r3.2.2.1, hg]) (by rw [← hsub]; omega)
        (by rw [r3.1, r3.2.1]; omega) (by omega)
      refine ⟨dev', ?_, same_data_trans _ _ _ r3 e2⟩
      have hl3 : (m - 1) % 65536 = m - 1 := Nat.mod_eq_of_lt (by omega)
      simp only [mdts_loop, gt_iff_lt, hsl, if_true, hio, hl1, hl3, r1, ne_eq,
        not_true_eq_false, if_false, hsub]
      have hwp : (wp + (m - 1) + 1) % 2 ^ 64 = wp + m := by
        rw [Nat.mod_eq_of_lt (by omega)]; omega
      rw [hwp, e1]
      have hn0 : n ≠ 0 := by omega
      simp only [hn0, if_false]
      refine congrArg some (Prod.ext ?_ (Prod.ext ?_ rfl))
      · show (if n - m = 0 then (0 : Int) else 0) = 0
        split <;> rfl
      · funext k
        show (if ptr + m * st.lba_size_bytes ≤ k ∧
            k < ptr + m * st.lba_size_bytes + (n - m) * st.lba_size_bytes then
          (nvme_read dev wp (m - 1) (m * st.lba_size_bytes) buffer ptr).2.2.mem
            (wp + m + (k - (ptr + m * st.lba_size_bytes)) / st.lba_size_bytes)
            ((k - (ptr + m * st.lba_size_bytes)) % st.lba_size_bytes)
          else (nvme_read dev wp (m - 1) (m * st.lba_size_bytes) buffer ptr).2.1 k) = _
        rw [r2, r3.2.2.2.1, hg]
        simp only []
        have hsub' : (n - m) * st.lba_size_bytes =
            n * st.lba_size_bytes - m * st.lba_size_bytes := hsub.symm
        by_cases hk1 : ptr + m * st.lba_size_bytes ≤ k ∧
            k < ptr + m * st.lba_size_bytes + (n - m) * st.lba_size_bytes
        · have hk3 : ptr ≤ k ∧ k < ptr + n * st.lba_size_bytes := ⟨by omega, by omega⟩
          rw [if_pos hk1, if_pos hk3]
          have e : k - ptr = st.lba_size_bytes * m + (k - (ptr + m * st.lba_size_bytes)) := by
            rw [mul_comm]; omega
          have hdivk : (k - ptr) / st.lba_size_bytes =
              m + (k - (ptr + m * st.lba_size_bytes)) / st.lba_size_bytes := by
            rw [e, Nat.mul_add_div hl]
          have hmodk : (k - ptr) % st.lba_size_bytes =
              (k - (ptr + m * st.lba_size_bytes)) % st.lba_size_bytes := by
            rw [e, Nat.mul_add_mod]
          rw [hdivk, hmodk, Nat.add_assoc]
        · rw [if_neg hk1]
          by_cases hk2 : ptr ≤ k ∧ k < ptr + m * st.lba_size_bytes
          · have hk3 : ptr ≤ k ∧ k < ptr + n * st.lba_size_bytes := ⟨by omega, by omega⟩
            rw [if_pos hk2, if_pos hk3]
          · have hk3 : ¬ (ptr ≤ k ∧ k < ptr + n * st.lba_size_bytes) := by omega
            rw [if_neg hk2, if_neg hk3]
theorem div_of_zone_offset (z B w : Nat) (hw : w < B) : (z * B + w) / B = z := by
  have hB : 0 < B := by omega
  rw [mul_comm, Nat.mul_add_div hB, Nat.div_eq_of_lt hw]
  rfl

theorem nvme_write_ok (dev : Nvme) (slba nlb : Nat) (buf : Buf) (off z : Nat)
    (hz : z < dev.nr_zones) (hs : slba = z * dev.zsze + dev.wp z)
    (hw : dev.wp z + nlb + 1 ≤ dev.zsze) :
    (nvme_write dev slba nlb ((nlb + 1) * dev.lba_size) buf off).1 = 0 ∧
    (nvme_write dev slba nlb ((nlb + 1) * dev.lba_size) buf off).2.nr_zones = dev.nr_zones ∧
    (nvme_write dev slba nlb ((nlb + 1) * dev.lba_size) buf off).2.zsze = dev.zsze ∧
    (nvme_write dev slba nlb ((nlb + 1) * dev.lba_size) buf off).2.lba_size = dev.lba_size ∧
    (nvme_write dev slba nlb ((nlb + 1) * dev.lba_size) buf off).2.mem =
      mem_store dev slba (nlb + 1) buf off ∧
    (nvme_write dev slba nlb ((nlb + 1) * dev.lba_size) buf off).2.wp =
      (fun z' => if z' = z then dev.wp z' + (nlb + 1) else dev.wp z') := by
  have hzd : slba / dev.zsze = z := by rw [hs]; exact div_of_zone_offset _ _ _ (by omega)
  have hle : (z + 1) * dev.zsze ≤ dev.nr_zones * dev.zsze := Nat.mul_le_mul_right _ hz
  have hexp : (z + 1) * dev.zsze = z * dev.zsze + dev.zsze := by ring
  have hst : write_status dev slba nlb ((nlb + 1) * dev.lba_size) = 0 := by
    unfold write_status
    rw [if_neg (by omega)]
    simp only [ne_eq, not_true_eq_false, if_false, hzd]
    rw [if_neg (by omega), if_neg (by omega)]
  unfold nvme_write
  simp only [hst, ne_eq, not_true_eq_false, if_false, hzd]
  refine ⟨?_, ?_, ?_, ?_, ?_, ?_⟩ <;> trivial

theorem mdts_loop_write (st : FtlState) (hl : 0 < st.lba_size_bytes)
    (hd : st.lba_size_bytes ∣ st.mdts) (hm : 0 < st.mdts)
    (hb : st.mdts / st.lba_size_bytes ≤ 65536) :
    ∀ (n fuel : Nat) (dev : Nvme) (buffer : Buf) (ptr wp z : Nat) (ret : Int),
      dev.lba_size = st.lba_size_bytes → n * st.lba_size_bytes < fuel →
      z < dev.nr_zones → wp = z * dev.zsze + dev.wp z → dev.wp z + n ≤ dev.zsze →
      wp + n < 2 ^ 64 →
      ∃ dev', mdts_loop st false fuel dev buffer (n * st.lba_size_bytes) ptr wp ret =
          some (if n = 0 then ret else 0, buffer, dev') ∧
        dev'.nr_zones = dev.nr_zones ∧ dev'.zsze = dev.zsze ∧ dev'.lba_size = dev.lba_size ∧
        dev'.mem = (fun l o => if wp ≤ l ∧ l < wp + n ∧ o < st.lba_size_bytes then
          buffer (ptr + (l - wp) * st.lba_size_bytes + o) else dev.mem l o) ∧
        dev'.wp = (fun z' => if z' = z then dev.wp z + n else dev.wp z') := by
  intro n
  induction n using Nat.strong_induction_on with
  | _ n ih =>
    intro fuel dev buffer ptr wp z ret hg hf hz hwp hfit h64
    obtain ⟨f, rfl⟩ : ∃ f, fuel = f + 1 := ⟨fuel - 1, by omega⟩
    rcases Nat.eq_zero_or_pos n with h0 | hpos
    · subst h0
      refine ⟨dev, ?_, rfl, rfl, rfl, ?_, ?_⟩
      · simp only [mdts_loop, Nat.zero_mul, gt_iff_lt, Nat.lt_irrefl, if_false, if_true]
      · funext l o
        rw [if_neg (by omega)]
      · funext z'
        by_cases h : z' = z
        · rw [if_pos h, h]; rfl
        · rw [if_neg h]
    · obtain ⟨m, hm0, hmn, hmc, hio⟩ := chunk_facts st.mdts st.lba_size_bytes n hl hd hm hpos
      obtain ⟨hl1, hl2⟩ := lba_num_facts m st.lba_size_bytes hl hm0 (by omega)
      have hl3 : (m - 1) % 65536 = m - 1 := Nat.mod_eq_of_lt (by omega)
      have hsl : 0 < n * st.lba_size_bytes := Nat.mul_pos hpos hl
      have hlen : m * st.lba_size_bytes = (m - 1 + 1) * dev.lba_size := by
        rw [hg, Nat.sub_add_cancel hm0]
      obtain ⟨r1, r2, r3, r4, r5, r6⟩ := nvme_write_ok dev wp (m - 1) buffer ptr z hz hwp
        (by omega)
      rw [← hlen] at r1 r2 r3 r4 r5 r6
      have hm1 : m - 1 + 1 = m := Nat.sub_add_cancel hm0
      rw [hm1] at r5 r6
      have hsub : n * st.lba_size_bytes - m * st.lba_size_bytes =
          (n - m) * st.lba_size_bytes := by rw [Nat.sub_mul]
      have hmle : m * st.lba_size_bytes ≤ n * st.lba_size_bytes := Nat.mul_le_mul_right _ hmn
      have hmpos : 0 < m * st.lba_size_bytes := Nat.mul_pos hm0 hl
      have hwz : (nvme_write dev wp (m - 1) (m * st.lba_size_bytes) buffer ptr).2.wp z =
          dev.wp z + m := by rw [r6]; simp
      obtain ⟨dev', e1, e2, e3, e4, e5, e6⟩ := ih (n - m) (by omega) f
        (nvme_write dev wp (m - 1) (m * st.lba_size_bytes) buffer ptr).2
        buffer (ptr + m * st.lba_size_bytes) (wp + m) z 0
        (by rw [r4, hg]) (by rw [← hsub]; omega) (by rw [r2]; exact hz)
        (by rw [r3, hwz]; omega) (by rw [r3, hwz]; omega) (by omega)
      refine ⟨dev', ?_, by rw [e2, r2], by rw [e3, r3], by rw [e4, r4], ?_, ?_⟩
      · simp only [mdts_loop, gt_iff_lt, hsl, if_true, hio, hl1, hl3, r1, ne_eq,
          not_true_eq_false, if_false, hsub, Bool.false_eq_true]
        have hwp' : (wp + (m - 1) + 1) % 2 ^ 64 = wp + m := by
          rw [Nat.mod_eq_of_lt (by omega)]; omega
        rw [hwp', e1]
        have hn0 : n ≠ 0 := by omega
        simp only [hn0, if_false]
        refine congrArg some (Prod.ext ?_ rfl)
        show (if n - m = 0 then (0 : Int) else 0) = 0
        split <;> rfl
      · rw [e5, r5]
        funext l o
        unfold mem_store
        rw [hg]
        by_cases hk1 : wp + m ≤ l ∧ l < wp + m + (n - m) ∧ o < st.lba_size_bytes
        · have hk3 : wp ≤ l ∧ l < wp + n ∧ o < st.lba_size_bytes := ⟨by omega, by omega, hk1.2.2⟩
          rw [if_pos hk1, if_pos hk3]
          have e : l - wp = m + (l - (wp + m)) := by omega
          rw [e, Nat.add_mul]
          congr 1
          omega
        · rw [if_neg hk1]
          by_cases hk2 : wp ≤ l ∧ l < wp + m ∧ o < st.lba_size_bytes
          · have hk3 : wp ≤ l ∧ l < wp + n ∧ o < st.lba_size_bytes := ⟨by omega, by omega, hk2.2.2⟩
            rw [if_pos hk2, if_pos hk3]
          · have hk3 : ¬ (wp ≤ l ∧ l < wp + n ∧ o < st.lba_size_bytes) := by omega
            rw [if_neg hk2, if_neg hk3]
      · rw [e6, r6]
        funext z'
        by_cases h : z' = z
        · simp only [h, if_true]; omega
        · simp only [h, if_false]
theorem zone_read (st : FtlState) (dev : Nvme) (hc : Cfg st dev) (p : Nat) (buffer : Buf)
    (hp : p + st.blocks_per_zone ≤ st.zns_num_zones * st.blocks_per_zone) :
    ∃ dev', ss_nvme_device_io_with_mdts st dev p buffer
        (st.blocks_per_zone * st.lba_size_bytes) true =
        some (0,
          fun k => if k < st.blocks_per_zone * st.lba_size_bytes then
            dev.mem (p + k / st.lba_size_bytes) (k % st.lba_size_bytes) else buffer k,
          dev') ∧
      same_data dev dev' := by
  obtain ⟨g1, g2, g3⟩ := hc.geo
  have hl : 0 < st.lba_size_bytes := by have := hc.lsb4; omega
  have hsm := hc.small
  obtain ⟨dev', h1, h2⟩ := mdts_loop_read st hl hc.lsb_dvd hc.mdts_pos hc.mdts_blocks
    st.blocks_per_zone (st.blocks_per_zone * st.lba_size_bytes + 1) dev buffer 0 p 0 g3
    (by omega) (by rw [g1, g2]; exact hp) (by omega)
  refine ⟨dev', ?_, h2⟩
  unfold ss_nvme_device_io_with_mdts
  rw [h1]
  have hB : st.blocks_per_zone ≠ 0 := by have := hc.bpz_pos; omega
  simp only [hB, if_false, Nat.zero_le, true_and, Nat.zero_add, Nat.sub_zero]

theorem zone_write (st : FtlState) (dev : Nvme) (hc : Cfg st dev) (j : Nat) (buffer : Buf)
    (hj : j < st.zns_num_zones) (hw : dev.wp j = 0) :
    ∃ dev', ss_nvme_device_io_with_mdts st dev (j * st.blocks_per_zone) buffer
        (st.blocks_per_zone * st.lba_size_bytes) false = some (0, buffer, dev') ∧
      same_geometry st dev' ∧
      dev'.mem = (fun l o =>
        if j * st.blocks_per_zone ≤ l ∧ l < j * st.blocks_per_zone + st.blocks_per_zone ∧
            o < st.lba_size_bytes then
          buffer ((l - j * st.blocks_per_zone) * st.lba_size_bytes + o)
        else dev.mem l o) ∧
      dev'.wp = (fun z' => if z' = j then st.blocks_per_zone else dev.wp z') := by
  obtain ⟨g1, g2, g3⟩ := hc.geo
  have hl : 0 < st.lba_size_bytes := by have := hc.lsb4; omega
  have hsm := hc.small
  have hle : (j + 1) * st.blocks_per_zone ≤ st.zns_num_zones * st.blocks_per_zone :=
    Nat.mul_le_mul_right _ hj
  have hexp : (j + 1) * st.blocks_per_zone = j * st.blocks_per_zone + st.blocks_per_zone := by
    ring
  obtain ⟨dev', h1, h2, h3, h4, h5, h6⟩ := mdts_loop_write st hl hc.lsb_dvd hc.mdts_pos
    hc.mdts_blocks st.blocks_per_zone (st.blocks_per_zone * st.lba_size_bytes + 1) dev buffer 0
    (j * st.blocks_per_zone) j 0 g3 (by omega) (by rw [g1]; exact hj)
    (by rw [g2, hw]; rfl) (by rw [g2, hw]; omega) (by omega)
  refine ⟨dev', ?_, ⟨by rw [h2, g1], by rw [h3, g2], by rw [h4, g3]⟩, ?_, ?_⟩
  · unfold ss_nvme_device_io_with_mdts
    rw [h1]
    have hB : st.blocks_per_zone ≠ 0 := by have := hc.bpz_pos; omega
    simp only [hB, if_false]
  · rw [h5]
    funext l o
    simp only [Nat.zero_add]
  · rw [h6]
    funext z'
    by_cases h : z' = j
    · simp only [h, if_true, hw, Nat.zero_add]
    · simp only [h, if_false]

/-! ## Facts about the integer conversions -/

theorem int32_of_small (n : Nat) (h : n < 2 ^ 31) : int32_of n = (n : Int) := by
  unfold int32_of
  have h1 : n % 2 ^ 32 = n := Nat.mod_eq_of_lt (by omega)
  rw [h1, if_pos h]

theorem int64_of_small (n : Nat) (h : n < 2 ^ 63) : int64_of n = (n : Int) := by
  unfold int64_of
  have h1 : n % 2 ^ 64 = n := Nat.mod_eq_of_lt (by omega)
  rw [h1, if_pos h]

theorem u64_of_small (n : Nat) (h : n < 2 ^ 64) : u64_of (n : Int) = n := by
  unfold u64_of
  have : ((n : Int) % 2 ^ 64) = (n : Int) := Int.emod_eq_of_lt (by omega) (by omega)
  rw [this]
  rfl

theorem state_index_of_zone (j B : Nat) (hB : 0 < B) :
    state_index ((j * B : Nat) : Int) B = j := by
  unfold state_index
  have : Int.tdiv ((j * B : Nat) : Int) (B : Int) = ((j * B / B : Nat) : Int) :=
    (Int.ofNat_tdiv (j * B) B).symm
  rw [this, Nat.mul_div_cancel _ hB]
  rfl

/-! ## Facts about `find_next_empty_zone` -/

theorem find_empty_from_spec (st : FtlState) (n i : Nat)
    (hs : (i + n) * st.blocks_per_zone < 2 ^ 31) :
    (∃ j, i ≤ j ∧ j < i + n ∧ st.zone_states j = EMPTY ∧
      find_empty_from st n i = ((j * st.blocks_per_zone : Nat) : Int)) ∨
    (find_empty_from st n i = -1 ∧ ∀ j, i ≤ j → j < i + n → st.zone_states j ≠ EMPTY) := by
  induction n generalizing i with
  | zero =>
    right
    exact ⟨rfl, fun j h1 h2 => by omega⟩
  | succ n ih =>
    simp only [find_empty_from]
    by_cases h : st.zone_states i = EMPTY
    · left
      refine ⟨i, le_refl _, by omega, h, ?_⟩
      rw [if_pos h]
      apply int32_of_small
      have : i * st.blocks_per_zone ≤ (i + (n + 1)) * st.blocks_per_zone :=
        Nat.mul_le_mul_right _ (by omega)
      omega
    · rw [if_neg h]
      have e : i + 1 + n = i + (n + 1) := by omega
      rcases ih (i + 1) (by rw [e]; exact hs) with ⟨j, h1, h2, h3, h4⟩ | ⟨h1, h2⟩
      · left
        exact ⟨j, by omega, by omega, h3, h4⟩
      · right
        refine ⟨h1, fun j hj1 hj2 => ?_⟩
        rcases Nat.eq_or_lt_of_le hj1 with he | hl
        · rw [← he]; exact h
        · exact h2 j (by omega) (by omega)

theorem find_next_empty_zone_spec (st : FtlState) (dev : Nvme) (hc : Cfg st dev) :
    (∃ j, st.log_zone_num_config ≤ j ∧ j < st.zns_num_zones - 1 ∧ st.zone_states j = EMPTY ∧
      find_next_empty_zone st = ((j * st.blocks_per_zone : Nat) : Int)) ∨
    (find_next_empty_zone st = -1 ∧
      ∀ j, st.log_zone_num_config ≤ j → j < st.zns_num_zones - 1 →
        st.zone_states j ≠ EMPTY) := by
  have hz := hc.zones_fit
  have hsm := hc.small
  have e : st.log_zone_num_config + (st.zns_num_zones - 1 - st.log_zone_num_config) =
      st.zns_num_zones - 1 := by omega
  have hle : (st.zns_num_zones - 1) * st.blocks_per_zone ≤
      st.zns_num_zones * st.blocks_per_zone := Nat.mul_le_mul_right _ (by omega)
  have := find_empty_from_spec st (st.zns_num_zones - 1 - st.log_zone_num_config)
    st.log_zone_num_config (by rw [e]; omega)
  rw [e] at this
  exact this

/-! ## Facts about the overlay, resets and full devices -/

theorem div_eq_iff_block (k lsb off : Nat) (hl : 0 < lsb) :
    k / lsb = off ↔ lsb * off ≤ k ∧ k < lsb * off + lsb := by
  have h1 := Nat.div_add_mod k lsb
  have h2 := Nat.mod_lt k hl
  constructor
  · intro h
    rw [h] at h1
    omega
  · intro ⟨ha, hb⟩
    apply Nat.le_antisymm
    · have : k / lsb < off + 1 := by
        rw [Nat.div_lt_iff_lt_mul hl]
        have : (off + 1) * lsb = lsb * off + lsb := by ring
        omega
      omega
    · rw [Nat.le_div_iff_mul_le hl, mul_comm]
      exact ha

theorem merge_overlay_spec (st : FtlState) (hl : 0 < st.lba_size_bytes) (set : UMap Nat) :
    ∀ (dev : Nvme) (buffer : Buf), dev.lba_size = st.lba_size_bytes →
      (set.map Prod.fst).Nodup →
      (∀ e ∈ set, e.2 + 1 ≤ dev.nr_zones * dev.zsze) →
      ∃ dev', merge_overlay st set dev buffer =
          (0,
            fun k => match map_find set (k / st.lba_size_bytes) with
              | some v => dev.mem v (k % st.lba_size_bytes)
              | none => buffer k,
            dev') ∧
        same_data dev dev' := by
  induction set with
  | nil =>
    intro dev buffer _ _ _
    exact ⟨dev, rfl, same_data_refl dev⟩
  | cons e rest ih =>
    obtain ⟨off, v⟩ := e
    intro dev buffer hg hn hv
    simp only [List.map_cons, List.nodup_cons] at hn
    have hlen : st.lba_size_bytes = (0 + 1) * dev.lba_size := by rw [hg]; omega
    obtain ⟨r1, r2, r3⟩ := nvme_read_ok dev v 0 buffer (st.lba_size_bytes * off)
      (by have := hv (off, v) (List.mem_cons_self _ _); simpa using this)
    rw [← hlen] at r1 r2 r3
    obtain ⟨dev', e1, e2⟩ := ih
      (nvme_read dev v 0 st.lba_size_bytes buffer (st.lba_size_bytes * off)).2.2
      (nvme_read dev v 0 st.lba_size_bytes buffer (st.lba_size_bytes * off)).2.1
      (by rw [r3.2.2.1, hg]) hn.2
      (fun e he => by rw [r3.1, r3.2.1]; exact hv e (List.mem_cons_of_mem _ he))
    refine ⟨dev', ?_, same_data_trans _ _ _ r3 e2⟩
    simp only [merge_overlay, r1, ne_eq, not_true_eq_false, if_false]
    rw [e1]
    refine Prod.ext rfl (Prod.ext ?_ rfl)
    funext k
    simp only [map_find]
    rw [r2, r3.2.2.2.1, hg]
    simp only []
    by_cases hq : off = k / st.lba_size_bytes
    · have hin := (div_eq_iff_block k st.lba_size_bytes off hl).1 hq.symm
      have hnone : map_find rest (k / st.lba_size_bytes) = none :=
        map_find_none_of_not_mem _ _ (by rw [← hq]; exact hn.1)
      rw [hnone, if_pos hq, if_pos hin]
      simp only []
      have hmod : k - st.lba_size_bytes * off = k % st.lba_size_bytes := by
        have := Nat.div_add_mod k st.lba_size_bytes
        rw [← hq] at this
        omega
      rw [hmod, Nat.div_eq_of_lt (Nat.mod_lt _ hl), Nat.mod_mod, Nat.add_zero]
    · rw [if_neg hq]
      cases hf : map_find rest (k / st.lba_size_bytes) with
      | some v' => rfl
      | none =>
        simp only []
        have hout : ¬ (st.lba_size_bytes * off ≤ k ∧
            k < st.lba_size_bytes * off + st.lba_size_bytes) :=
          fun h => hq ((div_eq_iff_block k st.lba_size_bytes off hl).2 h).symm
        rw [if_neg hout]

theorem zone_reset (dev : Nvme) (j : Nat) (hj : j < dev.nr_zones) (hB : 0 < dev.zsze) :
    (nvme_zns_mgmt_send dev (j * dev.zsze) false).2.nr_zones = dev.nr_zones ∧
    (nvme_zns_mgmt_send dev (j * dev.zsze) false).2.zsze = dev.zsze ∧
    (nvme_zns_mgmt_send dev (j * dev.zsze) false).2.lba_size = dev.lba_size ∧
    (nvme_zns_mgmt_send dev (j * dev.zsze) false).2.mem =
      (fun l o => if l / dev.zsze = j then 0 else dev.mem l o) ∧
    (nvme_zns_mgmt_send dev (j * dev.zsze) false).2.wp =
      (fun z => if z = j then 0 else dev.wp z) := by
  have hle : (j + 1) * dev.zsze ≤ dev.nr_zones * dev.zsze := Nat.mul_le_mul_right _ hj
  have hexp : (j + 1) * dev.zsze = j * dev.zsze + dev.zsze := by ring
  have hs : reset_status dev (j * dev.zsze) false = 0 := by
    unfold reset_status
    simp only [Bool.false_eq_true, if_false]
    rw [if_neg (by omega), Nat.mul_mod_left]
    simp
  unfold nvme_zns_mgmt_send
  simp only [hs, ne_eq, not_true_eq_false, if_false, Bool.false_eq_true,
    Nat.mul_div_cancel _ hB]
  refine ⟨?_, ?_, ?_, ?_, ?_⟩ <;> trivial

theorem keys_of_full (dm : UMap Nat) (L Z1 B : Nat) (hB : 0 < B)
    (hk : (dm.map Prod.fst).Nodup)
    (hr : ∀ e ∈ dm, L ≤ e.1 ∧ e.1 < Z1)
    (hf : ∀ j, L ≤ j → j < Z1 → j * B ∈ dm.map Prod.snd) :
    ∀ z, L ≤ z → z < Z1 → z ∈ dm.map Prod.fst := by
  intro z hz1 hz2
  have hsub1 : (dm.map Prod.fst) ⊆ List.range' L (Z1 - L) := by
    intro x hx
    obtain ⟨e, he, rfl⟩ := List.mem_map.1 hx
    have := hr e he
    rw [List.mem_range'_1]
    omega
  have hsub2 : (List.range' L (Z1 - L)).map (fun j => j * B) ⊆ dm.map Prod.snd := by
    intro x hx
    obtain ⟨j, hj, rfl⟩ := List.mem_map.1 hx
    rw [List.mem_range'_1] at hj
    exact hf j hj.1 (by omega)
  have hnd : ((List.range' L (Z1 - L)).map (fun j => j * B)).Nodup := by
    apply List.Nodup.map
    · intro a b hab
      exact Nat.eq_of_mul_eq_mul_right hB hab
    · exact List.nodup_range' _ _
  have hlen1 : (List.range' L (Z1 - L)).length ≤ dm.length := by
    have := (List.subperm_of_subset hnd hsub2).length_le
    simpa using this
  have hperm : List.Perm (dm.map Prod.fst) (List.range' L (Z1 - L)) :=
    (List.subperm_of_subset hk hsub1).perm_of_length_le (by simpa using hlen1)
  rw [hperm.mem_iff, List.mem_range'_1]
  omega

/-! ## One iteration of `do_merge` -/

theorem zone_bound (Z B j : Nat) (hj : j < Z) : j * B + B ≤ Z * B := by
  have hle : (j + 1) * B ≤ Z * B := Nat.mul_le_mul_right _ hj
  have hexp : (j + 1) * B = j * B + B := by ring
  omega

theorem merge_old_image_none (st : FtlState) (dev : Nvme) (buffer : Buf) (lz : Nat)
    (h : map_find st.data_mapping lz = none) :
    merge_old_image st dev buffer lz = some (0, st, dev, buffer, -1) := by
  unfold merge_old_image
  simp only [(map_contains_eq_false _ _).2 h, Bool.false_eq_true, if_false]

theorem merge_old_image_some (st : FtlState) (dev : Nvme) (hc : Cfg st dev) (buffer : Buf)
    (lz jo : Nat) (h : map_find st.data_mapping lz = some (jo * st.blocks_per_zone))
    (hjo : jo < st.zns_num_zones - 1) :
    ∃ dev1, merge_old_image st dev buffer lz =
        some (0, { st with zone_states := set_state st.zone_states jo EMPTY }, dev1,
          (fun k => if k < st.blocks_per_zone * st.lba_size_bytes then
            dev.mem (jo * st.blocks_per_zone + k / st.lba_size_bytes) (k % st.lba_size_bytes)
            else buffer k),
          ((jo * st.blocks_per_zone : Nat) : Int)) ∧
      same_data dev dev1 := by
  have hsm := hc.small
  have hb := zone_bound st.zns_num_zones st.blocks_per_zone jo (by omega)
  obtain ⟨dev1, h1, h2⟩ := zone_read st dev hc (jo * st.blocks_per_zone) buffer hb
  refine ⟨dev1, ?_, h2⟩
  unfold merge_old_image
  simp only [map_contains_of_find _ _ _ h, map_get_of_find _ _ _ h, if_true, h1, ne_eq,
    not_true_eq_false, if_false]
  rw [int64_of_small _ (by omega), state_index_of_zone _ _ hc.bpz_pos]
theorem cfg_update (st : FtlState) (dev dev' : Nvme) (dm : UMap Nat) (zs : Nat → Nat)
    (hc : Cfg st dev) (hg : same_geometry st dev') :
    Cfg { st with data_mapping := dm, zone_states := zs } dev' :=
  { geo := hg, lsb4 := hc.lsb4, lsb_dvd := hc.lsb_dvd, mdts_pos := hc.mdts_pos,
    mdts_blocks := hc.mdts_blocks, bpz_pos := hc.bpz_pos, zones_fit := hc.zones_fit,
    small := hc.small, wmark := hc.wmark, cap := hc.cap, start0 := hc.start0 }

theorem same_geometry_of_same_data (st : FtlState) (dev dev' : Nvme)
    (hg : same_geometry st dev) (hs : same_data dev dev') : same_geometry st dev' := by
  obtain ⟨g1, g2, g3⟩ := hg
  obtain ⟨s1, s2, s3, _, _⟩ := hs
  exact ⟨by rw [s1, g1], by rw [s2, g2], by rw [s3, g3]⟩

theorem merge_persist_fresh (st : FtlState) (dev : Nvme) (hc : Cfg st dev) (buffer : Buf)
    (lz j : Nat) (hj : j < st.zns_num_zones - 1) (hw : dev.wp j = 0) :
    ∃ dev3, merge_persist st dev buffer lz ((j * st.blocks_per_zone : Nat) : Int) (-1) false =
        some (0,
          { st with
            data_mapping := map_assign st.data_mapping lz (j * st.blocks_per_zone)
            zone_states := set_state st.zone_states j FULL },
          dev3) ∧
      same_geometry st dev3 ∧
      dev3.mem = (fun l o =>
        if j * st.blocks_per_zone ≤ l ∧ l < j * st.blocks_per_zone + st.blocks_per_zone ∧
            o < st.lba_size_bytes then
          buffer ((l - j * st.blocks_per_zone) * st.lba_size_bytes + o)
        else dev.mem l o) ∧
      dev3.wp = (fun z' => if z' = j then st.blocks_per_zone else dev.wp z') := by
  have hsm := hc.small
  have hb := zone_bound st.zns_num_zones st.blocks_per_zone j (by omega)
  obtain ⟨dev3, h1, h2, h3, h4⟩ := zone_write st dev hc j buffer (by omega) hw
  refine ⟨dev3, ?_, h2, h3, h4⟩
  unfold merge_persist
  simp only [Bool.false_eq_true, if_false, u64_of_small _ (show j * st.blocks_per_zone < 2 ^ 64
    by omega), h1, ne_eq, not_true_eq_false, state_index_of_zone _ _ hc.bpz_pos]

theorem merge_persist_replace (st : FtlState) (dev : Nvme) (hc : Cfg st dev) (buffer : Buf)
    (lz j jo : Nat) (hj : j < st.zns_num_zones - 1) (hjo : jo < st.zns_num_zones - 1)
    (hw : dev.wp j = 0) :
    ∃ dev4, merge_persist st dev buffer lz ((j * st.blocks_per_zone : Nat) : Int)
        ((jo * st.blocks_per_zone : Nat) : Int) false =
        some (0,
          { st with
            data_mapping := map_assign st.data_mapping lz (j * st.blocks_per_zone)
            zone_states := set_state st.zone_states j FULL },
          dev4) ∧
      same_geometry st dev4 ∧
      dev4.mem = (fun l o =>
        if l / st.blocks_per_zone = jo then 0
        else if j * st.blocks_per_zone ≤ l ∧ l < j * st.blocks_per_zone + st.blocks_per_zone ∧
            o < st.lba_size_bytes then
          buffer ((l - j * st.blocks_per_zone) * st.lba_size_bytes + o)
        else dev.mem l o) ∧
      dev4.wp = (fun z' => if z' = jo then 0 else if z' = j then st.blocks_per_zone
        else dev.wp z') := by
  have hsm := hc.small
  have hb := zone_bound st.zns_num_zones st.blocks_per_zone j (by omega)
  have hbo := zone_bound st.zns_num_zones st.blocks_per_zone jo (by omega)
  obtain ⟨dev3, h1, h2, h3, h4⟩ := zone_write st dev hc j buffer (by omega) hw
  obtain ⟨g1, g2, g3⟩ := h2
  obtain ⟨z1, z2, z3, z4, z5⟩ := zone_reset dev3 jo (by rw [g1]; omega)
    (by rw [g2]; exact hc.bpz_pos)
  rw [g2] at z1 z2 z3 z4 z5
  refine ⟨(nvme_zns_mgmt_send dev3 (jo * st.blocks_per_zone) false).2, ?_,
    ⟨by rw [z1, g1], z2, by rw [z3, g3]⟩, by rw [z4, h3], by rw [z5, h4]⟩
  unfold merge_persist
  have hne : ((jo * st.blocks_per_zone : Nat) : Int) ≠ -1 := by omega
  simp only [Bool.false_eq_true, if_false, u64_of_small _ (show j * st.blocks_per_zone < 2 ^ 64
    by omega), u64_of_small _ (show jo * st.blocks_per_zone < 2 ^ 64 by omega), h1, ne_eq,
    not_true_eq_false, state_index_of_zone _ _ hc.bpz_pos, hne, not_false_eq_true, if_true]

theorem merge_persist_in_place (st : FtlState) (dev : Nvme) (hc : Cfg st dev) (buffer : Buf)
    (lz jo : Nat) (zone_no : Int) (hjo : jo < st.zns_num_zones - 1) :
    ∃ dev4, merge_persist st dev buffer lz zone_no ((jo * st.blocks_per_zone : Nat) : Int)
        true =
        some (0, { st with zone_states := set_state st.zone_states jo FULL }, dev4) ∧
      same_geometry st dev4 ∧
      dev4.mem = (fun l o =>
        if jo * st.blocks_per_zone ≤ l ∧ l < jo * st.blocks_per_zone + st.blocks_per_zone ∧
            o < st.lba_size_bytes then
          buffer ((l - jo * st.blocks_per_zone) * st.lba_size_bytes + o)
        else if l / st.blocks_per_zone = jo then 0 else dev.mem l o) ∧
      dev4.wp = (fun z' => if z' = jo then st.blocks_per_zone else dev.wp z') := by
  have hsm := hc.small
  have hbo := zone_bound st.zns_num_zones st.blocks_per_zone jo (by omega)
  obtain ⟨g1, g2, g3⟩ := hc.geo
  obtain ⟨z1, z2, z3, z4, z5⟩ := zone_reset dev jo (by rw [g1]; omega)
    (by rw [g2]; exact hc.bpz_pos)
  rw [g2] at z1 z2 z3 z4 z5
  have hc2 : Cfg st (nvme_zns_mgmt_send dev (jo * st.blocks_per_zone) false).2 :=
    cfg_update st dev _ st.data_mapping st.zone_states hc
      ⟨by rw [z1, g1], z2, by rw [z3, g3]⟩
  obtain ⟨dev4, h1, h2, h3, h4⟩ := zone_write st _ hc2 jo buffer (by omega)
    (by rw [z5]; simp)
  refine ⟨dev4, ?_, h2, by rw [h3, z4], ?_⟩
  · unfold merge_persist
    simp only [if_true, u64_of_small _ (show jo * st.blocks_per_zone < 2 ^ 64 by omega), h1,
      ne_eq, not_true_eq_false, if_false, state_index_of_zone _ _ hc.bpz_pos]
  · rw [h4, z5]
    funext z'
    by_cases h : z' = jo
    · simp only [h, if_true]
    · simp only [h, if_false]

/-! ## Facts about `map_set`, `map_assign` and `map_insert` -/

theorem map_set_keys {α : Type} (m : UMap α) (k : Nat) (x : α) :
    (map_set m k x).map Prod.fst = m.map Prod.fst := by
  induction m with
  | nil => rfl
  | cons e rest ih =>
    obtain ⟨k', v'⟩ := e
    simp only [map_set]
    split
    · rfl
    · simp only [List.map_cons, ih]

theorem map_find_set {α : Type} (m : UMap α) (k : Nat) (x : α) (k' : Nat) :
    map_find (map_set m k x) k' =
      if k' = k ∧ map_contains m k = true then some x else map_find m k' := by
  induction m with
  | nil => simp [map_set, map_find, map_contains]
  | cons e rest ih =>
    obtain ⟨k1, v1⟩ := e
    simp only [map_set]
    by_cases h1 : k1 = k
    · rw [if_pos h1]
      simp only [map_find, map_contains, h1]
      by_cases h2 : k = k'
      · simp [h2]
      · have h3 : ¬ k' = k := fun h => h2 h.symm
        simp [h2, h3]
    · rw [if_neg h1]
      simp only [map_find, map_contains, h1, if_false]
      by_cases h2 : k1 = k'
      · have h3 : ¬ k' = k := fun h => h1 (h2.trans h)
        simp [h2, h3]
      · rw [if_neg h2, ih]
        simp only [map_contains, if_neg h2]

theorem map_find_assign {α : Type} (m : UMap α) (k : Nat) (x : α) (k' : Nat) :
    map_find (map_assign m k x) k' = if k' = k then some x else map_find m k' := by
  unfold map_assign
  by_cases h : map_contains m k = true
  · rw [if_pos h, map_find_set]
    simp [h]
  · rw [if_neg h]
    simp only [map_find]
    by_cases h2 : k = k'
    · simp [h2]
    · have h3 : ¬ k' = k := fun h => h2 h.symm
      simp [h2, h3]

theorem map_assign_keys_nodup {α : Type} (m : UMap α) (k : Nat) (x : α)
    (h : (m.map Prod.fst).Nodup) : ((map_assign m k x).map Prod.fst).Nodup := by
  unfold map_assign
  by_cases hc : map_contains m k = true
  · rw [if_pos hc, map_set_keys]; exact h
  · rw [if_neg hc]
    simp only [List.map_cons, List.nodup_cons]
    refine ⟨?_, h⟩
    intro hm
    obtain ⟨e, he, hk⟩ := List.mem_map.1 hm
    have := map_find_some_of_mem m k e.2 h (by rw [← hk]; exact he)
    have := map_contains_of_find _ _ _ this
    exact hc this

theorem mem_map_set {α : Type} (m : UMap α) (k : Nat) (x : α) (e : Nat × α)
    (hn : (m.map Prod.fst).Nodup) (h : e ∈ map_set m k x) :
    e = (k, x) ∨ (e ∈ m ∧ e.1 ≠ k) := by
  induction m with
  | nil => simp [map_set] at h
  | cons e1 rest ih =>
    obtain ⟨k1, v1⟩ := e1
    simp only [List.map_cons, List.nodup_cons] at hn
    simp only [map_set] at h
    by_cases h1 : k1 = k
    · rw [if_pos h1] at h
      rcases List.mem_cons.1 h with h2 | h2
      · left; rw [h2, h1]
      · right
        refine ⟨List.mem_cons_of_mem _ h2, ?_⟩
        intro he
        apply hn.1
        rw [h1, ← he]
        exact List.mem_map_of_mem Prod.fst h2
    · rw [if_neg h1] at h
      rcases List.mem_cons.1 h with h2 | h2
      · right
        rw [h2]
        exact ⟨List.mem_cons_self _ _, h1⟩
      · rcases ih hn.2 h2 with h3 | h3
        · left; exact h3
        · right; exact ⟨List.mem_cons_of_mem _ h3.1, h3.2⟩

theorem mem_map_set_of_mem {α : Type} (m : UMap α) (k : Nat) (x : α) (e : Nat × α)
    (h : e ∈ m) (hk : e.1 ≠ k) : e ∈ map_set m k x := by
  induction m with
  | nil => simp at h
  | cons e1 rest ih =>
    obtain ⟨k1, v1⟩ := e1
    simp only [map_set]
    by_cases h1 : k1 = k
    · rw [if_pos h1]
      rcases List.mem_cons.1 h with h2 | h2
      · rw [h2] at hk; exact absurd h1 hk
      · exact List.mem_cons_of_mem _ h2
    · rw [if_neg h1]
      rcases List.mem_cons.1 h with h2 | h2
      · rw [h2]; exact List.mem_cons_self _ _
      · exact List.mem_cons_of_mem _ (ih h2)

theorem mem_map_assign {α : Type} (m : UMap α) (k : Nat) (x : α) (e : Nat × α)
    (hn : (m.map Prod.fst).Nodup) (h : e ∈ map_assign m k x) :
    e = (k, x) ∨ (e ∈ m ∧ e.1 ≠ k) := by
  unfold map_assign at h
  by_cases hc : map_contains m k = true
  · rw [if_pos hc] at h
    exact mem_map_set m k x e hn h
  · rw [if_neg hc] at h
    rcases List.mem_cons.1 h with h2 | h2
    · left; exact h2
    · right
      refine ⟨h2, ?_⟩
      intro he
      have := map_contains_of_find _ _ _ (map_find_some_of_mem m e.1 e.2 hn h2)
      rw [he] at this
      exact hc this

theorem mem_map_assign_of_mem {α : Type} (m : UMap α) (k : Nat) (x : α) (e : Nat × α)
    (h : e ∈ m) (hk : e.1 ≠ k) : e ∈ map_assign m k x := by
  unfold map_assign
  by_cases hc : map_contains m k = true
  · rw [if_pos hc]; exact mem_map_set_of_mem m k x e h hk
  · rw [if_neg hc]; exact List.mem_cons_of_mem _ h

theorem mem_map_assign_self {α : Type} (m : UMap α) (k : Nat) (x : α) :
    (k, x) ∈ map_assign m k x := by
  have h := map_find_assign m k x k
  rw [if_pos rfl] at h
  exact mem_of_map_find _ _ _ h

theorem map_assign_vals_nodup (m : UMap Nat) (k x : Nat)
    (hn : (m.map Prod.fst).Nodup) (hv : (m.map Prod.snd).Nodup) (hx : x ∉ m.map Prod.snd) :
    ((map_assign m k x).map Prod.snd).Nodup := by
  unfold map_assign
  by_cases hc : map_contains m k = true
  · rw [if_pos hc]
    clear hc
    induction m with
    | nil => simp [map_set]
    | cons e1 rest ih =>
      obtain ⟨k1, v1⟩ := e1
      simp only [List.map_cons, List.nodup_cons, List.mem_cons, not_or] at hn hv hx
      simp only [map_set]
      by_cases h1 : k1 = k
      · rw [if_pos h1]
        simp only [List.map_cons, List.nodup_cons]
        exact ⟨hx.2, hv.2⟩
      · rw [if_neg h1]
        simp only [List.map_cons, List.nodup_cons]
        refine ⟨?_, ih hn.2 hv.2 hx.2⟩
        intro hm
        obtain ⟨e, he, hev⟩ := List.mem_map.1 hm
        rcases mem_map_set rest k x e hn.2 he with h2 | h2
        · rw [h2] at hev
          exact hx.1 hev
        · exact hv.1 (by rw [← hev]; exact List.mem_map_of_mem Prod.snd h2.1)
  · rw [if_neg hc]
    simp only [List.map_cons, List.nodup_cons]
    exact ⟨hx, hv⟩

theorem zone_of_block (l B j : Nat) (hB : 0 < B) :
    (j * B ≤ l ∧ l < j * B + B) ↔ l / B = j := by
  rw [div_eq_iff_block l B j hB, mul_comm]

theorem block_in_zone (j B off : Nat) (h : off < B) : (j * B + off) / B = j :=
  div_of_zone_offset j B off h

theorem image_byte (lsb off o : Nat) (h : o < lsb) :
    (off * lsb + o) / lsb = off ∧ (off * lsb + o) % lsb = o := by
  have hl : 0 < lsb := by omega
  constructor
  · exact div_of_zone_offset off lsb o h
  · rw [mul_comm, Nat.mul_add_mod, Nat.mod_eq_of_lt h]

theorem data_entry_of_find (st : FtlState) (dev : Nvme) (hd : DataInv st dev) (z p : Nat)
    (h : map_find st.data_mapping z = some p) :
    st.log_zone_num_config ≤ z ∧ z < st.zns_num_zones - 1 ∧
    ∃ j, p = j * st.blocks_per_zone ∧ st.log_zone_num_config ≤ j ∧
      j < st.zns_num_zones - 1 ∧ st.zone_states j = FULL :=
  hd.entries (z, p) (mem_of_map_find _ _ _ h)

theorem empty_zone_not_value (st : FtlState) (dev : Nvme) (hc : Cfg st dev) (hd : DataInv st dev)
    (j : Nat) (hj : st.zone_states j = EMPTY) :
    j * st.blocks_per_zone ∉ st.data_mapping.map Prod.snd := by
  intro hm
  obtain ⟨e, he, hv⟩ := List.mem_map.1 hm
  obtain ⟨-, -, j', h1, -, -, h2⟩ := hd.entries e he
  rw [h1] at hv
  have : j' = j := Nat.eq_of_mul_eq_mul_right hc.bpz_pos hv
  rw [this, hj] at h2
  exact absurd h2 (by decide)

theorem values_distinct (st : FtlState) (dev : Nvme) (hd : DataInv st dev) (z z' p p' : Nat)
    (h : map_find st.data_mapping z = some p) (h' : map_find st.data_mapping z' = some p')
    (hz : z ≠ z') : p ≠ p' := by
  intro hp
  have m1 := mem_of_map_find _ _ _ h
  have m2 := mem_of_map_find _ _ _ h'
  have := List.inj_on_of_nodup_map hd.vals m1 m2 (by simpa using hp)
  simp only [Prod.mk.injEq] at this
  exact hz this.1

theorem log_block_zone (L B l : Nat) (hB : 0 < B) (h : l < L * B) : l / B < L := by
  rw [Nat.div_lt_iff_lt_mul hB]; exact h

theorem overlay_bound (st : FtlState) (dev : Nvme) (hc : Cfg st dev) (set : UMap Nat)
    (hs : set_ok st set) : ∀ e ∈ set, e.2 + 1 ≤ dev.nr_zones * dev.zsze := by
  intro e he
  have h1 := (hs.2 e he).2
  obtain ⟨g1, g2, -⟩ := hc.geo
  rw [g1, g2]
  have h2 : st.log_zone_num_config * st.blocks_per_zone ≤
      st.zns_num_zones * st.blocks_per_zone :=
    Nat.mul_le_mul_right _ (by have := hc.zones_fit; omega)
  omega

theorem merge_zone_fresh (st : FtlState) (dev : Nvme) (hc : Cfg st dev) (hd : DataInv st dev)
    (buffer : Buf) (lz : Nat) (set : UMap Nat)
    (hlz : st.log_zone_num_config ≤ lz ∧ lz < st.zns_num_zones - 1) (hs : set_ok st set)
    (hnone : map_find st.data_mapping lz = none) (j : Nat)
    (hj1 : st.log_zone_num_config ≤ j) (hj2 : j < st.zns_num_zones - 1)
    (hje : st.zone_states j = EMPTY)
    (hfound : find_next_empty_zone st = ((j * st.blocks_per_zone : Nat) : Int)) :
    ∃ st' dev' buffer', merge_zone st dev buffer lz set = some (0, st', dev', buffer') ∧
      merge_post st dev buffer lz set st' dev' := by
  have hl : 0 < st.lba_size_bytes := by have := hc.lsb4; omega
  have hB := hc.bpz_pos
  obtain ⟨dev2, o1, o2⟩ := merge_overlay_spec st hl set dev buffer hc.geo.2.2 hs.1
    (overlay_bound st dev hc set hs)
  have hc2 : Cfg st dev2 := cfg_update st dev dev2 st.data_mapping st.zone_states hc
    (same_geometry_of_same_data st dev dev2 hc.geo o2)
  have hwj : dev2.wp j = 0 := by
    rw [o2.2.2.2.2]
    rcases hd.zones j hj1 hj2 with h | h
    · exact h.2
    · rw [hje] at h; exact absurd h.1 (by decide)
  obtain ⟨dev3, p1, p2, p3, p4⟩ := merge_persist_fresh st dev2 hc2
    (merge_overlay st set dev buffer).2.1 lz j hj2 hwj
  have ob : (merge_overlay st set dev buffer).2.1 = fun k =>
      match map_find set (k / st.lba_size_bytes) with
      | some v => dev.mem v (k % st.lba_size_bytes)
      | none => buffer k := by rw [o1]
  have od : (merge_overlay st set dev buffer).2.2 = dev2 := by rw [o1]
  have oz : (merge_overlay st set dev buffer).1 = 0 := by rw [o1]
  have hdec : decide (((j * st.blocks_per_zone : Nat) : Int) = -1) = false := by
    apply decide_eq_false; omega
  refine ⟨{ st with
      data_mapping := map_assign st.data_mapping lz (j * st.blocks_per_zone)
      zone_states := set_state st.zone_states j FULL }, dev3,
    (merge_overlay st set dev buffer).2.1, ?_, ?_⟩
  · unfold merge_zone
    simp only [hfound, hdec, merge_old_image_none st dev buffer lz hnone, ne_eq,
      not_true_eq_false, if_false, oz, od, Bool.false_eq_true, p1]
  · have hnv := empty_zone_not_value st dev hc hd j hje
    have hassign : map_assign st.data_mapping lz (j * st.blocks_per_zone) =
        (lz, j * st.blocks_per_zone) :: st.data_mapping := by
      unfold map_assign
      rw [(map_contains_eq_false _ _).2 hnone]; rfl
    refine ⟨cfg_update st dev dev3 _ _ hc p2, ?_, rfl, ?_, ?_, ?_, ?_⟩
    · -- the data invariant
      refine ⟨map_assign_keys_nodup _ _ _ hd.keys,
        map_assign_vals_nodup _ _ _ hd.keys hd.vals hnv, ?_, ?_⟩
      · intro e he
        rcases mem_map_assign _ _ _ e hd.keys he with h | ⟨h, -⟩
        · rw [h]
          refine ⟨hlz.1, hlz.2, j, rfl, hj1, hj2, ?_⟩
          simp [set_state]
        · obtain ⟨e1, e2, j', e3, e4, e5, e6⟩ := hd.entries e h
          refine ⟨e1, e2, j', e3, e4, e5, ?_⟩
          have hne : j' ≠ j := by
            intro hjj; rw [hjj, hje] at e6; exact absurd e6 (by decide)
          simp [set_state, hne, e6]
      · intro i hi1 hi2
        by_cases hij : i = j
        · right
          subst hij
          refine ⟨by simp [set_state], ?_⟩
          exact List.mem_map_of_mem Prod.snd (mem_map_assign_self _ _ _)
        · rcases hd.zones i hi1 hi2 with h | h
          · left
            refine ⟨by simp [set_state, hij, h.1], ?_⟩
            rw [p4, o2.2.2.2.2]
            simp [hij, h.2]
          · right
            refine ⟨by simp [set_state, hij, h.1], ?_⟩
            rw [hassign]
            exact List.mem_cons_of_mem _ h.2
    · -- the log region
      intro l o hlo
      rw [p3, o2.2.2.2.1]
      have hz := log_block_zone _ _ l hB hlo
      have hnz : ¬ (j * st.blocks_per_zone ≤ l ∧ l < j * st.blocks_per_zone + st.blocks_per_zone) := by
        rw [zone_of_block l _ j hB]; omega
      simp only []
      rw [if_neg (fun h => hnz ⟨h.1, h.2.1⟩)]
    · -- the image of the zone
      refine ⟨j * st.blocks_per_zone, by rw [map_find_assign, if_pos rfl], ?_⟩
      intro off o hoff ho
      rw [p3, ob]
      simp only []
      rw [if_pos ⟨by omega, by omega, ho⟩]
      have e : j * st.blocks_per_zone + off - j * st.blocks_per_zone = off := by omega
      obtain ⟨i1, i2⟩ := image_byte st.lba_size_bytes off o ho
      rw [e, i1, i2, hnone]
    · intro z hz
      rw [map_find_assign, if_neg hz]
    · intro z p hz hp off o hoff
      obtain ⟨-, -, jz, q1, q2, q3, q4⟩ := data_entry_of_find st dev hd z p hp
      rw [p3, o2.2.2.2.1, q1]
      have hne : jz ≠ j := by
        intro hjj; rw [hjj, hje] at q4; exact absurd q4 (by decide)
      have hnz : ¬ (j * st.blocks_per_zone ≤ jz * st.blocks_per_zone + off ∧
          jz * st.blocks_per_zone + off < j * st.blocks_per_zone + st.blocks_per_zone) := by
        rw [zone_of_block _ _ j hB, block_in_zone jz _ off hoff]; exact hne
      simp only []
      rw [if_neg (fun h => hnz ⟨h.1, h.2.1⟩)]

theorem image_offset_lt (B lsb off o : Nat) (hoff : off < B) (ho : o < lsb) :
    off * lsb + o < B * lsb := by
  have h : (off + 1) * lsb ≤ B * lsb := Nat.mul_le_mul_right _ hoff
  rw [Nat.add_mul] at h
  omega

theorem merge_zone_replace (st : FtlState) (dev : Nvme) (hc : Cfg st dev) (hd : DataInv st dev)
    (buffer : Buf) (lz : Nat) (set : UMap Nat)
    (hlz : st.log_zone_num_config ≤ lz ∧ lz < st.zns_num_zones - 1) (hs : set_ok st set)
    (jo : Nat) (hsome : map_find st.data_mapping lz = some (jo * st.blocks_per_zone))
    (hjo1 : st.log_zone_num_config ≤ jo) (hjo2 : jo < st.zns_num_zones - 1)
    (hjof : st.zone_states jo = FULL) (j : Nat)
    (hj1 : st.log_zone_num_config ≤ j) (hj2 : j < st.zns_num_zones - 1)
    (hje : st.zone_states j = EMPTY)
    (hfound : find_next_empty_zone st = ((j * st.blocks_per_zone : Nat) : Int)) :
    ∃ st' dev' buffer', merge_zone st dev buffer lz set = some (0, st', dev', buffer') ∧
      merge_post st dev buffer lz set st' dev' := by
  have hl : 0 < st.lba_size_bytes := by have := hc.lsb4; omega
  have hB := hc.bpz_pos
  have hjj : j ≠ jo := by
    intro h; rw [h, hjof] at hje; exact absurd hje (by decide)
  obtain ⟨dev1, r1, r2⟩ := merge_old_image_some st dev hc buffer lz jo hsome hjo2
  obtain ⟨buffer1, hb1⟩ : ∃ b : Buf, (fun k => if k < st.blocks_per_zone * st.lba_size_bytes then
      dev.mem (jo * st.blocks_per_zone + k / st.lba_size_bytes) (k % st.lba_size_bytes)
      else buffer k) = b := ⟨_, rfl⟩
  obtain ⟨st1, hst1⟩ : ∃ s : FtlState,
      ({ st with zone_states := set_state st.zone_states jo EMPTY } : FtlState) = s := ⟨_, rfl⟩
  rw [hb1, hst1] at r1
  have hc1 : Cfg st1 dev1 := by
    rw [← hst1]
    exact cfg_update st dev dev1 st.data_mapping _ hc
      (same_geometry_of_same_data st dev dev1 hc.geo r2)
  have hl1 : 0 < st1.lba_size_bytes := by rw [← hst1]; exact hl
  have hs1 : set_ok st1 set := by rw [← hst1]; exact hs
  obtain ⟨dev2, o1, o2⟩ := merge_overlay_spec st1 hl1 set dev1 buffer1 hc1.geo.2.2 hs.1
    (overlay_bound _ dev1 hc1 set hs1)
  have hc2 : Cfg st1 dev2 := by
    rw [← hst1]
    exact cfg_update st dev dev2 st.data_mapping _ hc
      (same_geometry_of_same_data st dev dev2 hc.geo (same_data_trans _ _ _ r2 o2))
  have hmem2 : dev2.mem = dev.mem := by rw [o2.2.2.2.1, r2.2.2.2.1]
  have hwp2 : dev2.wp = dev.wp := by rw [o2.2.2.2.2, r2.2.2.2.2]
  have hwj : dev2.wp j = 0 := by
    rw [hwp2]
    rcases hd.zones j hj1 hj2 with h | h
    · exact h.2
    · rw [hje] at h; exact absurd h.1 (by decide)
  have e1 : st1.blocks_per_zone = st.blocks_per_zone := by rw [← hst1]
  have e2 : st1.lba_size_bytes = st.lba_size_bytes := by rw [← hst1]
  have e3 : st1.zns_num_zones = st.zns_num_zones := by rw [← hst1]
  have e4 : st1.data_mapping = st.data_mapping := by rw [← hst1]
  have e5 : st1.zone_states = set_state st.zone_states jo EMPTY := by rw [← hst1]
  have ob : (merge_overlay st1 set dev1 buffer1).2.1 = fun k =>
      match map_find set (k / st1.lba_size_bytes) with
      | some v => dev1.mem v (k % st1.lba_size_bytes)
      | none => buffer1 k := by rw [o1]
  have od : (merge_overlay st1 set dev1 buffer1).2.2 = dev2 := by rw [o1]
  have oz : (merge_overlay st1 set dev1 buffer1).1 = 0 := by rw [o1]
  obtain ⟨dev4, p1, p2, p3, p4⟩ := merge_persist_replace st1 dev2 hc2
    (merge_overlay st1 set dev1 buffer1).2.1 lz j jo (by rw [e3]; exact hj2)
    (by rw [e3]; exact hjo2) hwj
  have p1' : merge_persist st1 dev2 (merge_overlay st1 set dev1 buffer1).2.1 lz
      ((j * st.blocks_per_zone : Nat) : Int) ((jo * st.blocks_per_zone : Nat) : Int) false =
      some (0, { st1 with
        data_mapping := map_assign st1.data_mapping lz (j * st.blocks_per_zone)
        zone_states := set_state st1.zone_states j FULL }, dev4) := by
    subst hst1; exact p1
  rw [e1] at p3 p4
  rw [e2] at p3
  have hdec : decide (((j * st.blocks_per_zone : Nat) : Int) = -1) = false := by
    apply decide_eq_false; omega
  refine ⟨{ st1 with
      data_mapping := map_assign st1.data_mapping lz (j * st.blocks_per_zone)
      zone_states := set_state st1.zone_states j FULL }, dev4,
    (merge_overlay st1 set dev1 buffer1).2.1, ?_, ?_⟩
  · unfold merge_zone
    simp only [hfound, hdec, r1, ne_eq, not_true_eq_false, if_false, oz, od,
      Bool.false_eq_true, p1']
  · have hnv := empty_zone_not_value st dev hc hd j hje
    have hg4 : same_geometry st dev4 := by
      obtain ⟨g1, g2, g3⟩ := p2
      exact ⟨by rw [g1, e3], by rw [g2, e1], by rw [g3, e2]⟩
    have hcf : Cfg { st1 with
        data_mapping := map_assign st1.data_mapping lz (j * st.blocks_per_zone)
        zone_states := set_state st1.zone_states j FULL } dev4 := by
      rw [← hst1]
      exact cfg_update st dev dev4 _ _ hc hg4
    refine ⟨hcf, ?_, by rw [← hst1], ?_, ?_, ?_, ?_⟩
    · -- the data invariant
      refine ⟨?_, ?_, ?_, ?_⟩
      · show ((map_assign st1.data_mapping lz (j * st.blocks_per_zone)).map Prod.fst).Nodup
        rw [e4]; exact map_assign_keys_nodup _ _ _ hd.keys
      · show ((map_assign st1.data_mapping lz (j * st.blocks_per_zone)).map Prod.snd).Nodup
        rw [e4]; exact map_assign_vals_nodup _ _ _ hd.keys hd.vals hnv
      · intro e he
        have he' : e ∈ map_assign st.data_mapping lz (j * st.blocks_per_zone) := by
          rw [← e4]; exact he
        show st1.log_zone_num_config ≤ e.1 ∧ e.1 < st1.zns_num_zones - 1 ∧
          ∃ j', e.2 = j' * st1.blocks_per_zone ∧ st1.log_zone_num_config ≤ j' ∧
            j' < st1.zns_num_zones - 1 ∧ set_state st1.zone_states j FULL j' = FULL
        rw [e5, ← hst1]
        rcases mem_map_assign _ _ _ e hd.keys he' with h | ⟨h, hk⟩
        · rw [h]
          exact ⟨hlz.1, hlz.2, j, rfl, hj1, hj2, by simp [set_state]⟩
        · obtain ⟨q1, q2, j', q3, q4, q5, q6⟩ := hd.entries e h
          refine ⟨q1, q2, j', q3, q4, q5, ?_⟩
          have hne : j' ≠ j := by
            intro hx; rw [hx, hje] at q6; exact absurd q6 (by decide)
          have hne2 : j' ≠ jo := by
            intro hx
            have hf := map_find_some_of_mem _ _ _ hd.keys (show (e.1, e.2) ∈ st.data_mapping from h)
            apply values_distinct st dev hd e.1 lz _ _ hf hsome hk
            rw [q3, hx]
          simp [set_state, hne, hne2, q6]
      · intro i hi1 hi2
        show (set_state st1.zone_states j FULL i = EMPTY ∧ dev4.wp i = 0) ∨
          (set_state st1.zone_states j FULL i = FULL ∧
            i * st1.blocks_per_zone ∈
              (map_assign st1.data_mapping lz (j * st.blocks_per_zone)).map Prod.snd)
        rw [e5, e4, e1, p4, hwp2]
        have hi1' : st.log_zone_num_config ≤ i := by subst hst1; exact hi1
        have hi2' : i < st.zns_num_zones - 1 := by subst hst1; exact hi2
        by_cases hij : i = j
        · right
          subst hij
          exact ⟨by simp [set_state],
            List.mem_map_of_mem Prod.snd (mem_map_assign_self _ _ _)⟩
        · by_cases hio : i = jo
          · left
            subst hio
            exact ⟨by simp [set_state, hij], by simp⟩
          · rcases hd.zones i hi1' hi2' with h | h
            · left
              exact ⟨by simp [set_state, hij, hio, h.1], by simp [hij, hio, h.2]⟩
            · right
              refine ⟨by simp [set_state, hij, hio, h.1], ?_⟩
              obtain ⟨e, he, hv⟩ := List.mem_map.1 h.2
              have hk : e.1 ≠ lz := by
                intro hx
                have hf := map_find_some_of_mem _ _ _ hd.keys
                  (show (e.1, e.2) ∈ st.data_mapping from he)
                rw [hx, hsome] at hf
                simp only [Option.some.injEq] at hf
                rw [← hf] at hv
                exact hio (Nat.eq_of_mul_eq_mul_right hB hv).symm
              rw [← hv]
              exact List.mem_map_of_mem Prod.snd (mem_map_assign_of_mem _ _ _ e he hk)
    · -- the log region
      intro l o hlo
      rw [p3, hmem2]
      have hz := log_block_zone _ _ l hB hlo
      have hnz : ¬ (j * st.blocks_per_zone ≤ l ∧ l < j * st.blocks_per_zone + st.blocks_per_zone) := by
        rw [zone_of_block l _ j hB]; omega
      simp only []
      rw [if_neg (by omega), if_neg (fun h => hnz ⟨h.1, h.2.1⟩)]
    · -- the image of the zone
      refine ⟨j * st.blocks_per_zone, ?_, ?_⟩
      · show map_find (map_assign st1.data_mapping lz (j * st.blocks_per_zone)) lz = _
        rw [map_find_assign, if_pos rfl]
      intro off o hoff ho
      rw [p3, ob, e2]
      simp only []
      rw [if_neg (by rw [block_in_zone j _ off hoff]; exact hjj),
        if_pos ⟨by omega, by omega, ho⟩]
      have e : j * st.blocks_per_zone + off - j * st.blocks_per_zone = off := by omega
      obtain ⟨i1, i2⟩ := image_byte st.lba_size_bytes off o ho
      rw [e, i1, i2, hsome, r2.2.2.2.1, ← hb1]
      simp only []
      rw [if_pos (image_offset_lt _ _ off o hoff ho), i1, i2]
    · intro z hz
      show map_find (map_assign st1.data_mapping lz (j * st.blocks_per_zone)) z = _
      rw [map_find_assign, if_neg hz, e4]
    · intro z p hz hp off o hoff
      obtain ⟨-, -, jz, q1, q2, q3, q4⟩ := data_entry_of_find st dev hd z p hp
      rw [p3, hmem2, q1]
      have hne : jz ≠ j := by
        intro hx; rw [hx, hje] at q4; exact absurd q4 (by decide)
      have hne2 : jz ≠ jo := by
        intro hx
        apply values_distinct st dev hd z lz _ _ hp hsome hz
        rw [q1, hx]
      have hnz : ¬ (j * st.blocks_per_zone ≤ jz * st.blocks_per_zone + off ∧
          jz * st.blocks_per_zone + off < j * st.blocks_per_zone + st.blocks_per_zone) := by
        rw [zone_of_block _ _ j hB, block_in_zone jz _ off hoff]; exact hne
      simp only []
      rw [if_neg (by rw [block_in_zone jz _ off hoff]; exact hne2),
        if_neg (fun h => hnz ⟨h.1, h.2.1⟩)]

theorem merge_zone_in_place (st : FtlState) (dev : Nvme) (hc : Cfg st dev) (hd : DataInv st dev)
    (buffer : Buf) (lz : Nat) (set : UMap Nat)
    (hs : set_ok st set)
    (jo : Nat) (hsome : map_find st.data_mapping lz = some (jo * st.blocks_per_zone))
    (hjo1 : st.log_zone_num_config ≤ jo) (hjo2 : jo < st.zns_num_zones - 1)
    (hjof : st.zone_states jo = FULL)
    (hfound : find_next_empty_zone st = -1) :
    ∃ st' dev' buffer', merge_zone st dev buffer lz set = some (0, st', dev', buffer') ∧
      merge_post st dev buffer lz set st' dev' := by
  have hl : 0 < st.lba_size_bytes := by have := hc.lsb4; omega
  have hB := hc.bpz_pos
  obtain ⟨dev1, r1, r2⟩ := merge_old_image_some st dev hc buffer lz jo hsome hjo2
  obtain ⟨buffer1, hb1⟩ : ∃ b : Buf, (fun k => if k < st.blocks_per_zone * st.lba_size_bytes then
      dev.mem (jo * st.blocks_per_zone + k / st.lba_size_bytes) (k % st.lba_size_bytes)
      else buffer k) = b := ⟨_, rfl⟩
  obtain ⟨st1, hst1⟩ : ∃ s : FtlState,
      ({ st with zone_states := set_state st.zone_states jo EMPTY } : FtlState) = s := ⟨_, rfl⟩
  rw [hb1, hst1] at r1
  have hc1 : Cfg st1 dev1 := by
    rw [← hst1]
    exact cfg_update st dev dev1 st.data_mapping _ hc
      (same_geometry_of_same_data st dev dev1 hc.geo r2)
  have hl1 : 0 < st1.lba_size_bytes := by rw [← hst1]; exact hl
  have hs1 : set_ok st1 set := by rw [← hst1]; exact hs
  obtain ⟨dev2, o1, o2⟩ := merge_overlay_spec st1 hl1 set dev1 buffer1 hc1.geo.2.2 hs.1
    (overlay_bound _ dev1 hc1 set hs1)
  have hc2 : Cfg st1 dev2 := by
    rw [← hst1]
    exact cfg_update st dev dev2 st.data_mapping _ hc
      (same_geometry_of_same_data st dev dev2 hc.geo (same_data_trans _ _ _ r2 o2))
  have hmem2 : dev2.mem = dev.mem := by rw [o2.2.2.2.1, r2.2.2.2.1]
  have hwp2 : dev2.wp = dev.wp := by rw [o2.2.2.2.2, r2.2.2.2.2]
  have e1 : st1.blocks_per_zone = st.blocks_per_zone := by rw [← hst1]
  have e2 : st1.lba_size_bytes = st.lba_size_bytes := by rw [← hst1]
  have e3 : st1.zns_num_zones = st.zns_num_zones := by rw [← hst1]
  have e4 : st1.data_mapping = st.data_mapping := by rw [← hst1]
  have e5 : st1.zone_states = set_state st.zone_states jo EMPTY := by rw [← hst1]
  have e6 : st1.log_zone_num_config = st.log_zone_num_config := by rw [← hst1]
  have ob : (merge_overlay st1 set dev1 buffer1).2.1 = fun k =>
      match map_find set (k / st1.lba_size_bytes) with
      | some v => dev1.mem v (k % st1.lba_size_bytes)
      | none => buffer1 k := by rw [o1]
  have od : (merge_overlay st1 set dev1 buffer1).2.2 = dev2 := by rw [o1]
  have oz : (merge_overlay st1 set dev1 buffer1).1 = 0 := by rw [o1]
  obtain ⟨dev4, p1, p2, p3, p4⟩ := merge_persist_in_place st1 dev2 hc2
    (merge_overlay st1 set dev1 buffer1).2.1 lz jo
    (((st.log_zone_num_config : Int) - 1) * (st.blocks_per_zone : Int))
    (by rw [e3]; exact hjo2)
  have p1' : merge_persist st1 dev2 (merge_overlay st1 set dev1 buffer1).2.1 lz
      (((st.log_zone_num_config : Int) - 1) * (st.blocks_per_zone : Int))
      ((jo * st.blocks_per_zone : Nat) : Int) true =
      some (0, { st1 with zone_states := set_state st1.zone_states jo FULL }, dev4) := by
    subst hst1; exact p1
  rw [e1] at p3 p4
  rw [e2] at p3
  refine ⟨{ st1 with zone_states := set_state st1.zone_states jo FULL }, dev4,
    (merge_overlay st1 set dev1 buffer1).2.1, ?_, ?_⟩
  · unfold merge_zone
    simp only [hfound, decide_True, r1, ne_eq, not_true_eq_false, if_false, if_true, oz, od, p1']
  · have hg4 : same_geometry st dev4 := by
      obtain ⟨g1, g2, g3⟩ := p2
      exact ⟨by rw [g1, e3], by rw [g2, e1], by rw [g3, e2]⟩
    have hcf : Cfg { st1 with zone_states := set_state st1.zone_states jo FULL } dev4 := by
      rw [← hst1]
      exact cfg_update st dev dev4 _ _ hc hg4
    refine ⟨hcf, ?_, by rw [← hst1], ?_, ?_, ?_, ?_⟩
    · -- the data invariant
      refine ⟨?_, ?_, ?_, ?_⟩
      · show (st1.data_mapping.map Prod.fst).Nodup
        rw [e4]; exact hd.keys
      · show (st1.data_mapping.map Prod.snd).Nodup
        rw [e4]; exact hd.vals
      · intro e he
        have he' : e ∈ st.data_mapping := by rw [← e4]; exact he
        show st1.log_zone_num_config ≤ e.1 ∧ e.1 < st1.zns_num_zones - 1 ∧
          ∃ j', e.2 = j' * st1.blocks_per_zone ∧ st1.log_zone_num_config ≤ j' ∧
            j' < st1.zns_num_zones - 1 ∧ set_state st1.zone_states jo FULL j' = FULL
        rw [e5, e6, e3, e1]
        obtain ⟨q1, q2, j', q3, q4, q5, q6⟩ := hd.entries e he'
        refine ⟨q1, q2, j', q3, q4, q5, ?_⟩
        by_cases hx : j' = jo
        · simp [set_state, hx]
        · simp [set_state, hx, q6]
      · intro i hi1 hi2
        show (set_state st1.zone_states jo FULL i = EMPTY ∧ dev4.wp i = 0) ∨
          (set_state st1.zone_states jo FULL i = FULL ∧
            i * st1.blocks_per_zone ∈ st1.data_mapping.map Prod.snd)
        rw [e5, e4, e1, p4, hwp2]
        have hi1' : st.log_zone_num_config ≤ i := by subst hst1; exact hi1
        have hi2' : i < st.zns_num_zones - 1 := by subst hst1; exact hi2
        by_cases hio : i = jo
        · right
          subst hio
          exact ⟨by simp [set_state],
            List.mem_map_of_mem Prod.snd (mem_of_map_find _ _ _ hsome)⟩
        · rcases hd.zones i hi1' hi2' with h | h
          · left
            exact ⟨by simp [set_state, hio, h.1], by simp [hio, h.2]⟩
          · right
            exact ⟨by simp [set_state, hio, h.1], h.2⟩
    · -- the log region
      intro l o hlo
      rw [p3, hmem2]
      have hz := log_block_zone _ _ l hB hlo
      have hnz : ¬ (jo * st.blocks_per_zone ≤ l ∧
          l < jo * st.blocks_per_zone + st.blocks_per_zone) := by
        rw [zone_of_block l _ jo hB]; omega
      simp only []
      rw [if_neg (fun h => hnz ⟨h.1, h.2.1⟩), if_neg (by omega)]
    · -- the image of the zone
      refine ⟨jo * st.blocks_per_zone, ?_, ?_⟩
      · show map_find st1.data_mapping lz = _
        rw [e4, hsome]
      intro off o hoff ho
      rw [p3, ob, e2]
      simp only []
      rw [if_pos ⟨by omega, by omega, ho⟩]
      have e : jo * st.blocks_per_zone + off - jo * st.blocks_per_zone = off := by omega
      obtain ⟨i1, i2⟩ := image_byte st.lba_size_bytes off o ho
      rw [e, i1, i2, hsome, r2.2.2.2.1, ← hb1]
      simp only []
      rw [if_pos (image_offset_lt _ _ off o hoff ho), i1, i2]
    · intro z hz
      show map_find st1.data_mapping z = _
      rw [e4]
    · intro z p hz hp off o hoff
      obtain ⟨-, -, jz, q1, q2, q3, q4⟩ := data_entry_of_find st dev hd z p hp
      rw [p3, hmem2, q1]
      have hne2 : jz ≠ jo := by
        intro hx
        apply values_distinct st dev hd z lz _ _ hp hsome hz
        rw [q1, hx]
      have hnz : ¬ (jo * st.blocks_per_zone ≤ jz * st.blocks_per_zone + off ∧
          jz * st.blocks_per_zone + off < jo * st.blocks_per_zone + st.blocks_per_zone) := by
        rw [zone_of_block _ _ jo hB, block_in_zone jz _ off hoff]; exact hne2
      simp only []
      rw [if_neg (fun h => hnz ⟨h.1, h.2.1⟩),
        if_neg (by rw [block_in_zone jz _ off hoff]; exact hne2)]

theorem merge_zone_spec (st : FtlState) (dev : Nvme) (hc : Cfg st dev) (hd : DataInv st dev)
    (buffer : Buf) (lz : Nat) (set : UMap Nat)
    (hlz : st.log_zone_num_config ≤ lz ∧ lz < st.zns_num_zones - 1) (hs : set_ok st set) :
    ∃ st' dev' buffer', merge_zone st dev buffer lz set = some (0, st', dev', buffer') ∧
      merge_post st dev buffer lz set st' dev' := by
  cases hf : map_find st.data_mapping lz with
  | none =>
    rcases find_next_empty_zone_spec st dev hc with ⟨j, h1, h2, h3, h4⟩ | ⟨-, h2⟩
    · exact merge_zone_fresh st dev hc hd buffer lz set hlz hs hf j h1 h2 h3 h4
    · exfalso
      have hk := keys_of_full st.data_mapping st.log_zone_num_config (st.zns_num_zones - 1)
        st.blocks_per_zone hc.bpz_pos hd.keys
        (fun e he => ⟨(hd.entries e he).1, (hd.entries e he).2.1⟩)
        (fun j hj1 hj2 => by
          rcases hd.zones j hj1 hj2 with h | h
          · exact absurd h.1 (h2 j hj1 hj2)
          · exact h.2) lz hlz.1 hlz.2
      obtain ⟨e, he, hv⟩ := List.mem_map.1 hk
      have := map_find_some_of_mem _ _ _ hd.keys (show (e.1, e.2) ∈ st.data_mapping from he)
      rw [hv, hf] at this
      exact absurd this (by simp)
  | some p =>
    obtain ⟨-, -, jo, q1, q2, q3, q4⟩ := data_entry_of_find st dev hd lz p hf
    rw [q1] at hf
    rcases find_next_empty_zone_spec st dev hc with ⟨j, h1, h2, h3, h4⟩ | ⟨h1, -⟩
    · exact merge_zone_replace st dev hc hd buffer lz set hlz hs jo hf q2 q3 q4 j h1 h2 h3 h4
    · exact merge_zone_in_place st dev hc hd buffer lz set hs jo hf q2 q3 q4 h1

theorem zone_sets_ok_frame (st st1 : FtlState) (zs : UMap (UMap Nat))
    (hB : st1.blocks_per_zone = st.blocks_per_zone)
    (hL : st1.log_zone_num_config = st.log_zone_num_config)
    (hZ : st1.zns_num_zones = st.zns_num_zones) (h : zone_sets_ok st zs) :
    zone_sets_ok st1 zs := by
  unfold zone_sets_ok set_ok at h ⊢
  rw [hB, hL, hZ]
  exact h

theorem staged_cons_self (lz : Nat) (set : UMap Nat) (rest : UMap (UMap Nat)) (off : Nat) :
    staged ((lz, set) :: rest) lz off = map_find set off := by
  simp [staged, map_find]

theorem staged_cons_ne (lz : Nat) (set : UMap Nat) (rest : UMap (UMap Nat)) (z off : Nat)
    (h : z ≠ lz) : staged ((lz, set) :: rest) z off = staged rest z off := by
  simp [staged, map_find, Ne.symm h]

theorem staged_none_of_not_mem (zs : UMap (UMap Nat)) (z off : Nat)
    (h : z ∉ zs.map Prod.fst) : staged zs z off = none := by
  simp [staged, map_find_none_of_not_mem zs z h]

theorem staged_bound (st : FtlState) (zs : UMap (UMap Nat)) (h : zone_sets_ok st zs)
    (z off v : Nat) (hv : staged zs z off = some v) :
    off < st.blocks_per_zone ∧ v < st.log_zone_num_config * st.blocks_per_zone := by
  unfold staged at hv
  cases hf : map_find zs z with
  | none => rw [hf] at hv; simp at hv
  | some set =>
    rw [hf] at hv
    simp only [Option.bind] at hv
    have h1 := (h.2 (z, set) (mem_of_map_find _ _ _ hf)).2.2
    exact h1.2 (off, v) (mem_of_map_find _ _ _ hv)

theorem do_merge_loop_spec : ∀ (zs : UMap (UMap Nat)) (st : FtlState) (dev : Nvme) (buffer : Buf),
    Cfg st dev → DataInv st dev → zone_sets_ok st zs →
    ∃ st' dev' buffer', do_merge_loop zs st dev buffer = some (0, st', dev', buffer') ∧
      Cfg st' dev' ∧ DataInv st' dev' ∧
      st' = { st with data_mapping := st'.data_mapping, zone_states := st'.zone_states } ∧
      (∀ l o, l < st.log_zone_num_config * st.blocks_per_zone → dev'.mem l o = dev.mem l o) ∧
      (∀ z off s, off < st.blocks_per_zone → merge_source st zs z off = some s →
        ∃ s', merge_source st' [] z off = some s' ∧
          ∀ o, o < st.lba_size_bytes → dev'.mem s' o = dev.mem s o) := by
  intro zs
  induction zs with
  | nil =>
    intro st dev buffer hc hd _
    exact ⟨st, dev, buffer, rfl, hc, hd, rfl, fun _ _ _ => rfl,
      fun z off s _ hs => ⟨s, hs, fun _ _ => rfl⟩⟩
  | cons e rest ih =>
    intro st dev buffer hc hd hz
    obtain ⟨lz, set⟩ := e
    have hz1 := hz.2 (lz, set) (List.mem_cons_self _ _)
    have hnd : lz ∉ rest.map Prod.fst ∧ (rest.map Prod.fst).Nodup := by
      have := hz.1
      simpa [List.nodup_cons] using this
    have hzr : zone_sets_ok st rest :=
      ⟨hnd.2, fun e he => hz.2 e (List.mem_cons_of_mem _ he)⟩
    obtain ⟨st1, dev1, b1, m1, c1, d1, f1, g1, ⟨p', i1, i2⟩, k1, k2⟩ :=
      merge_zone_spec st dev hc hd buffer lz set ⟨hz1.1, hz1.2.1⟩ hz1.2.2
    have e1 : st1.blocks_per_zone = st.blocks_per_zone := by rw [f1]
    have e2 : st1.log_zone_num_config = st.log_zone_num_config := by rw [f1]
    have e3 : st1.zns_num_zones = st.zns_num_zones := by rw [f1]
    have e4 : st1.lba_size_bytes = st.lba_size_bytes := by rw [f1]
    obtain ⟨st', dev', b', m2, c2, d2, f2, g2, s2⟩ := ih st1 dev1 b1 c1 d1
      (zone_sets_ok_frame st st1 rest e1 e2 e3 hzr)
    rw [e1, e2] at g2
    rw [e1, e4] at s2
    refine ⟨st', dev', b', ?_, c2, d2, ?_, ?_, ?_⟩
    · simp only [do_merge_loop, m1, ne_eq, not_true_eq_false, if_false, m2]
    · have := f2
      rw [f1] at this
      exact this
    · intro l o hl
      rw [g2 l o hl, g1 l o hl]
    · intro z off s hoff hs
      have key : ∃ s1, merge_source st1 rest z off = some s1 ∧
          ∀ o, o < st.lba_size_bytes → dev1.mem s1 o = dev.mem s o := by
        by_cases hzl : z = lz
        · subst hzl
          refine ⟨p' + off, ?_, ?_⟩
          · unfold merge_source
            rw [staged_none_of_not_mem rest z off hnd.1, i1]
          · intro o ho
            rw [i2 off o hoff ho]
            unfold merge_source at hs
            rw [staged_cons_self] at hs
            cases hf : map_find set off with
            | some v =>
              rw [hf] at hs
              simp only [Option.some.injEq] at hs
              rw [hs]
            | none =>
              rw [hf] at hs
              simp only []  at hs ⊢
              cases hg : map_find st.data_mapping z with
              | some p =>
                rw [hg] at hs
                simp only [Option.some.injEq] at hs
                rw [← hs]
              | none =>
                rw [hg] at hs
                exact absurd hs (by simp)
        · unfold merge_source at hs ⊢
          rw [staged_cons_ne lz set rest z off hzl] at hs
          cases hf : staged rest z off with
          | some v =>
            rw [hf] at hs
            simp only [Option.some.injEq] at hs
            refine ⟨v, rfl, fun o _ => ?_⟩
            rw [← hs]
            exact g1 v o (staged_bound st rest hzr z off v hf).2
          | none =>
            rw [hf] at hs
            simp only [] at hs ⊢
            rw [k1 z hzl]
            cases hg : map_find st.data_mapping z with
            | some p =>
              rw [hg] at hs
              simp only [Option.some.injEq] at hs
              refine ⟨p + off, rfl, fun o _ => ?_⟩
              rw [← hs]
              exact k2 z p hzl hg off o hoff
            | none =>
              rw [hg] at hs
              exact absurd hs (by simp)
      obtain ⟨s1, q1, q2⟩ := key
      obtain ⟨s', q3, q4⟩ := s2 z off s1 hoff q1
      exact ⟨s', q3, fun o ho => by rw [q4 o ho, q2 o ho]⟩

theorem address_in_data_zone (st : FtlState) (dev : Nvme) (hc : Cfg st dev) (a : Nat)
    (ha : a < st.capacity_bytes) :
    st.log_zone_num_config ≤ address_2_zone st a ∧ address_2_zone st a < st.zns_num_zones - 1 ∧
    address_2_offset st a < st.blocks_per_zone := by
  have hl : 0 < st.lba_size_bytes := by have := hc.lsb4; omega
  have hpos : 0 < st.blocks_per_zone * st.lba_size_bytes := Nat.mul_pos hc.bpz_pos hl
  rw [hc.cap] at ha
  have hq : a / (st.blocks_per_zone * st.lba_size_bytes) <
      st.zns_num_zones - st.log_zone_num_config - 1 := by
    rw [Nat.div_lt_iff_lt_mul hpos]; exact ha
  refine ⟨?_, ?_, ?_⟩
  · unfold address_2_zone
    exact Nat.le_add_left _ _
  · unfold address_2_zone
    generalize a / (st.blocks_per_zone * st.lba_size_bytes) = q at hq
    omega
  · unfold address_2_offset
    rw [Nat.div_lt_iff_lt_mul hl]
    exact Nat.mod_lt _ hpos

theorem address_of_zone_offset (st : FtlState) (a : Nat) (ha : a % st.lba_size_bytes = 0) :
    a = (address_2_zone st a - st.log_zone_num_config) * (st.blocks_per_zone * st.lba_size_bytes) +
      address_2_offset st a * st.lba_size_bytes := by
  unfold address_2_zone address_2_offset
  rw [Nat.add_sub_cancel]
  have h1 : a % (st.blocks_per_zone * st.lba_size_bytes) % st.lba_size_bytes = 0 := by
    rw [Nat.mod_mod_of_dvd _ (Dvd.intro_left _ rfl)]; exact ha
  have h2 := Nat.div_add_mod (a % (st.blocks_per_zone * st.lba_size_bytes)) st.lba_size_bytes
  rw [h1, Nat.add_zero] at h2
  have h3 := Nat.div_add_mod a (st.blocks_per_zone * st.lba_size_bytes)
  rw [Nat.mul_comm (a % (st.blocks_per_zone * st.lba_size_bytes) / st.lba_size_bytes), h2,
    Nat.mul_comm (a / (st.blocks_per_zone * st.lba_size_bytes)), h3]

theorem address_eq_of_zone_offset (st : FtlState) (a a' : Nat)
    (ha : a % st.lba_size_bytes = 0) (ha' : a' % st.lba_size_bytes = 0)
    (hz : address_2_zone st a = address_2_zone st a')
    (ho : address_2_offset st a = address_2_offset st a') : a = a' := by
  rw [address_of_zone_offset st a ha, address_of_zone_offset st a' ha', hz, ho]

theorem map_find_insert {α : Type} (m : UMap α) (k : Nat) (x : α) (k' : Nat) :
    map_find (map_insert m k x) k' =
      match map_find m k' with
      | some v => some v
      | none => if k' = k then some x else none := by
  unfold map_insert
  by_cases h : map_contains m k = true
  · rw [if_pos h]
    cases hf : map_find m k' with
    | some v => rfl
    | none =>
      have : k' ≠ k := by
        intro hk
        rw [hk] at hf
        rw [(map_contains_eq_false m k).2 hf] at h
        exact absurd h (by simp)
      simp [this]
  · rw [if_neg h]
    have hn : map_find m k = none := (map_contains_eq_false m k).1 (by simpa using h)
    simp only [map_find]
    by_cases hk : k = k'
    · rw [if_pos hk, ← hk, hn]
      simp
    · rw [if_neg hk]
      cases map_find m k' with
      | some v => rfl
      | none => simp [Ne.symm hk]

theorem map_insert_keys_nodup {α : Type} (m : UMap α) (k : Nat) (x : α)
    (h : (m.map Prod.fst).Nodup) : ((map_insert m k x).map Prod.fst).Nodup := by
  unfold map_insert
  by_cases hc : map_contains m k = true
  · rw [if_pos hc]; exact h
  · rw [if_neg hc]
    simp only [List.map_cons, List.nodup_cons]
    refine ⟨?_, h⟩
    intro hm
    obtain ⟨e, he, hk⟩ := List.mem_map.1 hm
    have := map_find_some_of_mem m e.1 e.2 h he
    rw [hk] at this
    rw [map_contains_of_find m k e.2 this] at hc
    exact hc rfl

theorem mem_map_insert {α : Type} (m : UMap α) (k : Nat) (x : α) (e : Nat × α)
    (h : e ∈ map_insert m k x) : e = (k, x) ∨ e ∈ m := by
  unfold map_insert at h
  by_cases hc : map_contains m k = true
  · rw [if_pos hc] at h; exact Or.inr h
  · rw [if_neg hc] at h
    rcases List.mem_cons.1 h with h1 | h1
    · exact Or.inl h1
    · exact Or.inr h1

theorem stage_find {α : Type} (zs : UMap (UMap α)) (zn : Nat) (x : UMap α) (z : Nat) :
    map_find (map_set (if map_contains zs zn then zs else map_assign zs zn []) zn x) z =
      if z = zn then some x else map_find zs z := by
  rw [map_find_set]
  by_cases hc : map_contains zs zn = true
  · rw [if_pos hc]
    by_cases hz : z = zn <;> simp [hc, hz]
  · rw [if_neg hc]
    have h1 := map_find_assign zs zn ([] : UMap α) zn
    rw [if_pos rfl] at h1
    rw [map_contains_of_find _ _ _ h1, map_find_assign]
    by_cases hz : z = zn <;> simp [hz]

theorem stage_set_find (zs : UMap (UMap Nat)) (zn off : Nat) :
    map_find ((map_find (if map_contains zs zn then zs else map_assign zs zn []) zn).getD []) off =
      staged zs zn off := by
  unfold staged
  by_cases hc : map_contains zs zn = true
  · rw [if_pos hc]
    cases hf : map_find zs zn with
    | some s => rfl
    | none => rfl
  · rw [if_neg hc]
    have hn : map_find zs zn = none := (map_contains_eq_false zs zn).1 (by simpa using hc)
    rw [map_find_assign, if_pos rfl, hn]
    rfl

theorem stage_staged (zs : UMap (UMap Nat)) (zn ok pba z off : Nat) :
    staged (map_set (if map_contains zs zn then zs else map_assign zs zn []) zn
        (map_insert ((map_find (if map_contains zs zn then zs else map_assign zs zn []) zn).getD [])
          ok pba)) z off =
      match staged zs z off with
      | some v => some v
      | none => if zn = z ∧ ok = off then some pba else none := by
  have h := stage_find zs zn (map_insert
    ((map_find (if map_contains zs zn then zs else map_assign zs zn []) zn).getD []) ok pba) z
  have e : staged (map_set (if map_contains zs zn then zs else map_assign zs zn []) zn
        (map_insert ((map_find (if map_contains zs zn then zs else map_assign zs zn []) zn).getD [])
          ok pba)) z off =
      (if z = zn then some (map_insert
        ((map_find (if map_contains zs zn then zs else map_assign zs zn []) zn).getD []) ok pba)
        else map_find zs z).bind (fun set => map_find set off) := by
    unfold staged; rw [h]
  rw [e]
  by_cases hz : z = zn
  · subst hz
    rw [if_pos rfl]
    show map_find (map_insert _ ok pba) off = _
    rw [map_find_insert, stage_set_find]
    cases staged zs z off with
    | some v => rfl
    | none =>
      by_cases ho : off = ok
      · simp [ho]
      · simp [ho, Ne.symm ho]
  · rw [if_neg hz]
    show staged zs z off = _
    cases staged zs z off with
    | some v => rfl
    | none => simp [Ne.symm hz]

theorem gc_stage_staged (st : FtlState) : ∀ (l : UMap Nat) (zs : UMap (UMap Nat)) (z off : Nat),
    staged (gc_stage st l zs) z off =
      match staged zs z off with
      | some v => some v
      | none => find_staged st l z off := by
  intro l
  induction l with
  | nil =>
    intro zs z off
    simp only [gc_stage, find_staged]
    cases staged zs z off <;> rfl
  | cons e rest ih =>
    intro zs z off
    obtain ⟨addr, pba⟩ := e
    simp only [gc_stage, find_staged]
    rw [ih, stage_staged]
    cases staged zs z off with
    | some v => rfl
    | none =>
      by_cases h : address_2_zone st addr = z ∧ address_2_offset st addr = off
      · simp [h]
      · simp [h]

theorem gc_stage_ok (st : FtlState) (dev : Nvme) (hc : Cfg st dev) :
    ∀ (l : UMap Nat) (zs : UMap (UMap Nat)), zone_sets_ok st zs →
      (∀ e ∈ l, e.1 < st.capacity_bytes ∧ e.2 < st.log_zone_num_config * st.blocks_per_zone) →
      zone_sets_ok st (gc_stage st l zs) := by
  intro l
  induction l with
  | nil => intro zs h _; exact h
  | cons e rest ih =>
    intro zs hz hl
    obtain ⟨addr, pba⟩ := e
    simp only [gc_stage]
    apply ih _ _ (fun e he => hl e (List.mem_cons_of_mem _ he))
    have ha := hl (addr, pba) (List.mem_cons_self _ _)
    obtain ⟨a1, a2, a3⟩ := address_in_data_zone st dev hc addr ha.1
    have hk1 : ((if map_contains zs (address_2_zone st addr) then zs
        else map_assign zs (address_2_zone st addr) []).map Prod.fst).Nodup := by
      split
      · exact hz.1
      · exact map_assign_keys_nodup _ _ _ hz.1
    have hm1 : ∀ e ∈ (if map_contains zs (address_2_zone st addr) then zs
        else map_assign zs (address_2_zone st addr) []),
        e = (address_2_zone st addr, []) ∨ e ∈ zs := by
      intro e he
      split at he
      · exact Or.inr he
      · rcases mem_map_assign _ _ _ e hz.1 he with h | h
        · exact Or.inl h
        · exact Or.inr h.1
    have hset : set_ok st ((map_find (if map_contains zs (address_2_zone st addr) then zs
        else map_assign zs (address_2_zone st addr) []) (address_2_zone st addr)).getD []) := by
      cases hf : map_find (if map_contains zs (address_2_zone st addr) then zs
        else map_assign zs (address_2_zone st addr) []) (address_2_zone st addr) with
      | none => exact ⟨List.nodup_nil, fun e he => by simp at he⟩
      | some s =>
        rcases hm1 _ (mem_of_map_find _ _ _ hf) with h | h
        · simp only [Prod.mk.injEq] at h
          rw [h.2]
          exact ⟨List.nodup_nil, fun e he => by simp at he⟩
        · exact (hz.2 _ h).2.2
    refine ⟨by rw [map_set_keys]; exact hk1, ?_⟩
    intro e he
    rcases mem_map_set _ _ _ e hk1 he with h | ⟨h, hne⟩
    · rw [h]
      refine ⟨a1, a2, map_insert_keys_nodup _ _ _ hset.1, ?_⟩
      intro e' he'
      rcases mem_map_insert _ _ _ e' he' with h' | h'
      · rw [h']; exact ⟨a3, ha.2⟩
      · exact hset.2 e' h'
    · rcases hm1 e h with h' | h'
      · rw [h'] at hne; exact absurd rfl hne
      · exact hz.2 e h'

theorem find_staged_eq_find (st : FtlState) (a : Nat) (ha : a % st.lba_size_bytes = 0) :
    ∀ l : UMap Nat, (∀ e ∈ l, e.1 % st.lba_size_bytes = 0) →
      find_staged st l (address_2_zone st a) (address_2_offset st a) = map_find l a := by
  intro l
  induction l with
  | nil => intro _; rfl
  | cons e rest ih =>
    intro hl
    obtain ⟨k, v⟩ := e
    have hk := hl (k, v) (List.mem_cons_self _ _)
    simp only [find_staged, map_find]
    by_cases h : k = a
    · rw [if_pos h, if_pos ⟨by rw [h], by rw [h]⟩]
    · rw [if_neg h, if_neg (fun hh => h (address_eq_of_zone_offset st k a hk ha hh.1 hh.2))]
      exact ih (fun e he => hl e (List.mem_cons_of_mem _ he))

theorem reset_log_zones_spec (st : FtlState) : ∀ (n i : Nat) (dev : Nvme),
    i + n ≤ dev.nr_zones → 0 < dev.zsze → st.blocks_per_zone = dev.zsze →
    (reset_log_zones st n i dev).nr_zones = dev.nr_zones ∧
    (reset_log_zones st n i dev).zsze = dev.zsze ∧
    (reset_log_zones st n i dev).lba_size = dev.lba_size ∧
    (∀ l o, i + n ≤ l / dev.zsze → (reset_log_zones st n i dev).mem l o = dev.mem l o) ∧
    (∀ z, i + n ≤ z → (reset_log_zones st n i dev).wp z = dev.wp z) := by
  intro n
  induction n with
  | zero =>
    intro i dev _ _ _
    exact ⟨rfl, rfl, rfl, fun _ _ _ => rfl, fun _ _ => rfl⟩
  | succ n ih =>
    intro i dev h1 h2 h3
    simp only [reset_log_zones]
    rw [h3]
    obtain ⟨z1, z2, z3, z4, z5⟩ := zone_reset dev i (by omega) h2
    obtain ⟨r1, r2, r3, r4, r5⟩ := ih (i + 1) (nvme_zns_mgmt_send dev (i * dev.zsze) false).2
      (by rw [z1]; omega) (by rw [z2]; exact h2) (by rw [z2]; exact h3)
    refine ⟨by rw [r1, z1], by rw [r2, z2], by rw [r3, z3], ?_, ?_⟩
    · intro l o hl
      rw [z2] at r4
      rw [r4 l o (by omega), z4]
      simp only []
      rw [if_neg (by omega)]
    · intro z hz
      rw [r5 z (by omega), z5]
      simp only []
      rw [if_neg (by omega)]

theorem capacity_small (st : FtlState) (dev : Nvme) (hc : Cfg st dev) (hm : st.mdts = MDTS) :
    st.capacity_bytes + st.lba_size_bytes < 2 ^ 64 := by
  have hl : st.lba_size_bytes ≤ 2 ^ 18 := by
    have h1 := Nat.le_of_dvd hc.mdts_pos hc.lsb_dvd
    rw [hm] at h1
    unfold MDTS at h1
    omega
  have h2 : (st.zns_num_zones - st.log_zone_num_config - 1) * st.blocks_per_zone ≤ 2 ^ 31 := by
    have h3 : (st.zns_num_zones - st.log_zone_num_config - 1) * st.blocks_per_zone ≤
        st.zns_num_zones * st.blocks_per_zone := Nat.mul_le_mul_right _ (by omega)
    have := hc.small
    omega
  have h4 : st.capacity_bytes ≤ 2 ^ 31 * 2 ^ 18 := by
    rw [hc.cap, ← Nat.mul_assoc]
    exact Nat.mul_le_mul h2 hl
  omega

theorem read_backing (st : FtlState) (dev : Nvme) (hc : Cfg st dev) (hd : DataInv st dev)
    (hg : LogInv st) (hm : st.mdts = MDTS) (a : Nat) (out : Buf)
    (hcap : a < st.capacity_bytes) (s : Nat)
    (hs : backing_block st a = some s) :
    (zns_udevice_read st dev a out st.lba_size_bytes).1 = 0 ∧
    (zns_udevice_read st dev a out st.lba_size_bytes).2.1 =
      (fun k => if k < st.lba_size_bytes then dev.mem s k else out k) := by
  have hl : 0 < st.lba_size_bytes := by have := hc.lsb4; omega
  have hsm := hc.small
  have hcs := capacity_small st dev hc hm
  obtain ⟨g1, g2, g3⟩ := hc.geo
  rw [read_one_block st dev out a hl (by omega)]
  have hread : ∀ v, v + 1 ≤ st.zns_num_zones * st.blocks_per_zone →
      (nvme_read dev v 0 st.lba_size_bytes out 0).1 = 0 ∧
      (nvme_read dev v 0 st.lba_size_bytes out 0).2.1 =
        (fun k => if k < st.lba_size_bytes then dev.mem v k else out k) := by
    intro v hv
    obtain ⟨n1, n2, -⟩ := nvme_read_ok dev v 0 out 0 (by rw [g1, g2]; omega)
    rw [g3] at n1 n2
    simp only [Nat.zero_add, Nat.one_mul] at n1 n2
    refine ⟨n1, ?_⟩
    rw [n2]
    funext k
    by_cases hk : k < st.lba_size_bytes
    · rw [if_pos ⟨Nat.zero_le _, hk⟩, if_pos hk, Nat.sub_zero, Nat.div_eq_of_lt hk,
        Nat.mod_eq_of_lt hk, Nat.add_zero]
    · rw [if_neg (fun h => hk h.2), if_neg hk]
  have hLB : st.log_zone_num_config * st.blocks_per_zone ≤
      st.zns_num_zones * st.blocks_per_zone :=
    Nat.mul_le_mul_right _ (by have := hc.zones_fit; omega)
  unfold backing_block at hs
  unfold read_slice
  cases hf : map_find st.log_mapping a with
  | some v =>
    rw [hf] at hs
    simp only [Option.some.injEq] at hs
    subst hs
    have hv := (hg.entries (a, v) (mem_of_map_find _ _ _ hf)).2.2
    have hv63 : v < 2 ^ 63 := by omega
    simp only [map_contains_of_find _ _ _ hf, map_get_of_find _ _ _ hf, if_true,
      and_invalid_of_lt v hv63, ne_eq, not_true_eq_false, decide_False, Bool.false_eq_true,
      if_false, and_mask_of_lt v hv63]
    exact hread v (by omega)
  | none =>
    rw [hf] at hs
    simp only [] at hs
    cases hf2 : map_find st.data_mapping (address_2_zone st a) with
    | none => rw [hf2] at hs; exact absurd hs (by simp)
    | some p =>
      rw [hf2] at hs
      simp only [Option.some.injEq] at hs
      subst hs
      obtain ⟨-, -, j, q1, -, q3, -⟩ := data_entry_of_find st dev hd _ p hf2
      obtain ⟨-, -, a3⟩ := address_in_data_zone st dev hc a hcap
      have hzb := zone_bound st.zns_num_zones st.blocks_per_zone j (by omega)
      rw [← q1] at hzb
      have hp63 : p + address_2_offset st a < 2 ^ 63 := by omega
      have hp64 : (p + address_2_offset st a) % 2 ^ 64 = p + address_2_offset st a :=
        Nat.mod_eq_of_lt (by omega)
      simp only [(map_contains_eq_false _ _).2 hf, Bool.false_eq_true, if_false, if_true,
        map_contains_of_find _ _ _ hf2, map_get_of_find _ _ _ hf2, Bool.not_true, hp64,
        and_mask_of_lt _ hp63]
      exact hread _ (by omega)

theorem gc_pass_spec (st : FtlState) (dev : Nvme) (hc : Cfg st dev) (hd : DataInv st dev)
    (hg : LogInv st) :
    ∃ st' dev', gc_pass st dev = some (0, st', dev') ∧
      Cfg st' dev' ∧ DataInv st' dev' ∧ LogInv st' ∧
      st'.mdts = st.mdts ∧ st'.lba_size_bytes = st.lba_size_bytes ∧
      st'.capacity_bytes = st.capacity_bytes ∧ st'.log_mapping = [] ∧
      ∀ a s, a % st.lba_size_bytes = 0 → a < st.capacity_bytes →
        backing_block st a = some s →
        ∃ s', backing_block st' a = some s' ∧
          ∀ o, o < st.lba_size_bytes → dev'.mem s' o = dev.mem s o := by
  have hB := hc.bpz_pos
  have hcT : Cfg { st with log_mapping := gc_tag st.log_mapping } dev :=
    { geo := hc.geo, lsb4 := hc.lsb4, lsb_dvd := hc.lsb_dvd, mdts_pos := hc.mdts_pos,
      mdts_blocks := hc.mdts_blocks, bpz_pos := hc.bpz_pos, zones_fit := hc.zones_fit,
      small := hc.small, wmark := hc.wmark, cap := hc.cap, start0 := hc.start0 }
  have hdT : DataInv { st with log_mapping := gc_tag st.log_mapping } dev :=
    ⟨hd.keys, hd.vals, hd.entries, hd.zones⟩
  have hzs : zone_sets_ok st (gc_stage st st.log_mapping []) :=
    gc_stage_ok st dev hc st.log_mapping [] ⟨List.nodup_nil, fun e he => by simp at he⟩
      (fun e he => ⟨(hg.entries e he).2.1, (hg.entries e he).2.2⟩)
  obtain ⟨st1, dev1, b1, m1, c1, d1, f1, g1, s1⟩ := do_merge_loop_spec
    (gc_stage st st.log_mapping []) { st with log_mapping := gc_tag st.log_mapping } dev zero_buf
    hcT hdT (zone_sets_ok_frame st _ _ rfl rfl rfl hzs)
  have e1 : st1.blocks_per_zone = st.blocks_per_zone := by rw [f1]
  have e2 : st1.log_zone_num_config = st.log_zone_num_config := by rw [f1]
  have e3 : st1.zns_num_zones = st.zns_num_zones := by rw [f1]
  have e4 : st1.lba_size_bytes = st.lba_size_bytes := by rw [f1]
  have e5 : st1.mdts = st.mdts := by rw [f1]
  have e6 : st1.capacity_bytes = st.capacity_bytes := by rw [f1]
  obtain ⟨k1, k2, k3⟩ := c1.geo
  obtain ⟨r1, r2, r3, r4, r5⟩ := reset_log_zones_spec st1 st1.log_zone_num_config 0 dev1
    (by rw [k1]; have := c1.zones_fit; omega) (by rw [k2]; exact c1.bpz_pos) k2.symm
  obtain ⟨dev2, hd2⟩ : ∃ d, reset_log_zones st1 st1.log_zone_num_config 0 dev1 = d := ⟨_, rfl⟩
  rw [hd2] at r1 r2 r3 r4 r5
  rw [k2, e1, e2] at r4
  rw [e2] at r5
  simp only [Nat.zero_add] at r4 r5
  refine ⟨{ st1 with
      log_zone_end := st1.log_zone_start
      log_mapping := []
      do_gc := false
      gc_mutex := false },
    dev2, ?_, ?_, ?_, ?_, e5, e4, e6, rfl, ?_⟩
  · unfold gc_pass do_merge
    simp only [m1, hd2]
  · exact
      { geo := ⟨by rw [r1, k1], by rw [r2, k2], by rw [r3, k3]⟩, lsb4 := c1.lsb4,
        lsb_dvd := c1.lsb_dvd, mdts_pos := c1.mdts_pos,
        mdts_blocks := c1.mdts_blocks, bpz_pos := c1.bpz_pos, zones_fit := c1.zones_fit,
        small := c1.small, wmark := c1.wmark, cap := c1.cap, start0 := c1.start0 }
  · refine ⟨d1.keys, d1.vals, d1.entries, ?_⟩
    intro j hj1 hj2
    have hj1' : st.log_zone_num_config ≤ j := by rw [← e2]; exact hj1
    rcases d1.zones j hj1 hj2 with h | h
    · left
      exact ⟨h.1, by rw [r5 j hj1']; exact h.2⟩
    · right
      exact h
  · refine ⟨?_, List.nodup_nil, fun e he => by simp at he⟩
    show st1.log_zone_start ≤ _
    rw [c1.start0]
    exact Nat.zero_le _
  · intro a s ha hcap hs
    obtain ⟨a1, a2, a3⟩ := address_in_data_zone st dev hc a hcap
    have hsrc : merge_source { st with log_mapping := gc_tag st.log_mapping }
        (gc_stage st st.log_mapping []) (address_2_zone st a) (address_2_offset st a) =
        some s := by
      unfold merge_source
      rw [gc_stage_staged]
      have h0 : staged ([] : UMap (UMap Nat)) (address_2_zone st a) (address_2_offset st a) =
          none := rfl
      rw [h0]
      simp only []
      rw [find_staged_eq_find st a ha _ (fun e he => (hg.entries e he).1)]
      exact hs
    obtain ⟨s', q1, q2⟩ := s1 _ _ s a3 hsrc
    have hz : address_2_zone { st1 with
        log_zone_end := st1.log_zone_start
        log_mapping := []
        do_gc := false
        gc_mutex := false } a = address_2_zone st a := by
      unfold address_2_zone
      show a / (st1.blocks_per_zone * st1.lba_size_bytes) + st1.log_zone_num_config = _
      rw [e1, e2, e4]
    have ho : address_2_offset { st1 with
        log_zone_end := st1.log_zone_start
        log_mapping := []
        do_gc := false
        gc_mutex := false } a = address_2_offset st a := by
      unfold address_2_offset
      show a % (st1.blocks_per_zone * st1.lba_size_bytes) / st1.lba_size_bytes = _
      rw [e1, e4]
    unfold merge_source at q1
    have h0 : staged ([] : UMap (UMap Nat)) (address_2_zone st a) (address_2_offset st a) =
        none := rfl
    rw [h0] at q1
    simp only [] at q1
    refine ⟨s', ?_, ?_⟩
    · unfold backing_block
      rw [hz, ho]
      exact q1
    · intro o ho'
      rw [← q2 o ho']
      cases hf : map_find st1.data_mapping (address_2_zone st a) with
      | none => rw [hf] at q1; exact absurd q1 (by simp)
      | some p =>
        rw [hf] at q1
        simp only [Option.some.injEq] at q1
        obtain ⟨-, -, j, t1, t2, -, -⟩ := data_entry_of_find st1 dev1 d1 _ p hf
        apply r4
        rw [← q1, t1, e1, block_in_zone j _ _ a3]
        rw [← e2]; exact t2

theorem write_log_entries_keys (lsb address lzb : Nat) : ∀ (n i : Nat) (m : UMap Nat),
    (m.map Prod.fst).Nodup →
    ((write_log_entries lsb address lzb n i m).map Prod.fst).Nodup := by
  intro n
  induction n with
  | zero => intro i m h; exact h
  | succ n ih =>
    intro i m h
    simp only [write_log_entries]
    exact ih _ _ (map_assign_keys_nodup _ _ _ h)

theorem write_log_entries_find (lsb address lzb : Nat) : ∀ (n i : Nat) (m : UMap Nat) (key v : Nat),
    map_find (write_log_entries lsb address lzb n i m) key = some v →
    map_find m key = some v ∨
      ∃ k, i ≤ k ∧ k < i + n ∧ key = (address + k * lsb) % 2 ^ 64 ∧ v = (lzb + k) % 2 ^ 32 := by
  intro n
  induction n with
  | zero => intro i m key v h; exact Or.inl h
  | succ n ih =>
    intro i m key v h
    simp only [write_log_entries] at h
    rcases ih _ _ _ _ h with h1 | ⟨k, h1, h2, h3, h4⟩
    · rw [map_find_assign] at h1
      by_cases hk : key = (address + i * lsb) % 2 ^ 64
      · rw [if_pos hk] at h1
        simp only [Option.some.injEq] at h1
        exact Or.inr ⟨i, Nat.le_refl _, by omega, hk, h1.symm⟩
      · rw [if_neg hk] at h1
        exact Or.inl h1
    · exact Or.inr ⟨k, by omega, by omega, h3, h4⟩

theorem write_log_entries_contains (lsb address lzb : Nat) : ∀ (n i : Nat) (m : UMap Nat) (key : Nat),
    (map_contains m key = true ∨
      ∃ k, i ≤ k ∧ k < i + n ∧ key = (address + k * lsb) % 2 ^ 64) →
    map_contains (write_log_entries lsb address lzb n i m) key = true := by
  intro n
  induction n with
  | zero =>
    intro i m key h
    rcases h with h | ⟨k, h1, h2, -⟩
    · exact h
    · omega
  | succ n ih =>
    intro i m key h
    simp only [write_log_entries]
    apply ih
    by_cases hk : key = (address + i * lsb) % 2 ^ 64
    · left
      unfold map_contains
      rw [map_find_assign, if_pos hk]
      rfl
    · rcases h with h | ⟨k, h1, h2, h3⟩
      · left
        unfold map_contains at h ⊢
        rw [map_find_assign, if_neg hk]
        exact h
      · right
        refine ⟨k, ?_, by omega, h3⟩
        rcases Nat.eq_or_lt_of_le h1 with h4 | h4
        · rw [← h4] at h3; exact absurd h3 hk
        · exact h4

theorem append_facts (dev : Nvme) (z n l : Nat) (b : Buf) :
    (nvme_zns_append dev z n l b).2.2.nr_zones = dev.nr_zones ∧
    (nvme_zns_append dev z n l b).2.2.zsze = dev.zsze ∧
    (nvme_zns_append dev z n l b).2.2.lba_size = dev.lba_size ∧
    (∀ j, j ≠ z / dev.zsze → (nvme_zns_append dev z n l b).2.2.wp j = dev.wp j) ∧
    ((nvme_zns_append dev z n l b).1 = 0 →
      (nvme_zns_append dev z n l b).2.1 + 1 ≤ z + dev.zsze) := by
  by_cases hs : append_status dev z n l = 0
  · have hw : dev.wp (z / dev.zsze) + n + 1 ≤ dev.zsze := by
      unfold append_status at hs
      split at hs
      · exact absurd hs (by decide)
      · split at hs
        · exact absurd hs (by decide)
        · split at hs
          · exact absurd hs (by decide)
          · split at hs
            · exact absurd hs (by decide)
            · split at hs
              · exact absurd hs (by decide)
              · omega
    unfold nvme_zns_append
    simp only [hs, ne_eq, not_true_eq_false, if_false]
    refine ⟨rfl, rfl, rfl, ?_, ?_⟩
    · intro j hj
      rw [if_neg hj]
    · intro _
      omega
  · unfold nvme_zns_append
    simp only [hs, ne_eq, not_false_eq_true, if_true]
    exact ⟨rfl, rfl, rfl, fun _ _ => rfl, fun h => False.elim h⟩

theorem free_log_space (st : FtlState) (dev : Nvme) (hc : Cfg st dev) (blocks : Nat)
    (hb : blocks < 2 ^ 31)
    (hfree : ¬ get_free_lz_num st (int32_of blocks) ≤ st.gc_watermark) :
    st.log_zone_end + blocks < st.log_zone_num_config * st.blocks_per_zone := by
  have hw := hc.wmark
  have hB := hc.bpz_pos
  unfold get_free_lz_num at hfree
  rw [int32_of_small blocks hb, hc.start0] at hfree
  have e : (st.log_zone_end : Int) - ((0 : Nat) : Int) + (blocks : Int) =
      ((st.log_zone_end + blocks : Nat) : Int) := by push_cast; ring
  rw [e, ← Int.ofNat_tdiv] at hfree
  have h1 : (st.log_zone_end + blocks) / st.blocks_per_zone < st.log_zone_num_config := by
    omega
  rw [Nat.div_lt_iff_lt_mul hB] at h1
  exact h1

theorem write_locked_invariant (st : FtlState) (dev : Nvme) (hi : Invariant st dev)
    (address : Nat) (buffer : Buf) (size : Nat) (ret : Int) (st' : FtlState) (dev' : Nvme)
    (ha : address % st.lba_size_bytes = 0) (hsz : address + size ≤ st.capacity_bytes)
    (hw : write_locked st dev address buffer size = Outcome.returned (ret, st', dev')) :
    Invariant st' dev' ∧
    ∀ W, Covers st W →
      Covers st' (if ret = 0 then written_blocks st.lba_size_bytes address size ++ W else W) := by
  obtain ⟨hc, hd, hg, hm⟩ := hi
  have hl : 0 < st.lba_size_bytes := by have := hc.lsb4; omega
  have hB := hc.bpz_pos
  have hsm := hc.small
  have hcs := capacity_small st dev hc hm
  obtain ⟨g1, g2, g3⟩ := hc.geo
  have hLB : st.log_zone_num_config * st.blocks_per_zone ≤
      st.zns_num_zones * st.blocks_per_zone :=
    Nat.mul_le_mul_right _ (by have := hc.zones_fit; omega)
  have hblocks : size / st.lba_size_bytes < 2 ^ 31 := by
    have h1 : size / st.lba_size_bytes ≤ st.capacity_bytes / st.lba_size_bytes :=
      Nat.div_le_div_right (by omega)
    rw [hc.cap, ← Nat.mul_assoc, Nat.mul_div_cancel _ hl] at h1
    have h2 : (st.zns_num_zones - st.log_zone_num_config - 1) * st.blocks_per_zone ≤
        st.zns_num_zones * st.blocks_per_zone := Nat.mul_le_mul_right _ (by omega)
    omega
  unfold write_locked at hw
  simp only [] at hw
  split at hw
  · exact absurd hw (by simp)
  · split at hw
    · exact absurd hw (by simp)
    · rename_i hmx hfree
      have hspace := free_log_space st dev hc _ hblocks hfree
      have hz : st.log_zone_end / st.blocks_per_zone < st.log_zone_num_config := by
        rw [Nat.div_lt_iff_lt_mul hB]
        exact lt_of_le_of_lt (Nat.le_add_right _ _) hspace
      have hzb := zone_bound st.log_zone_num_config st.blocks_per_zone _ hz
      have hzs : u64_of (int32_of (st.log_zone_end / st.blocks_per_zone) *
          (st.blocks_per_zone : Int)) =
          st.log_zone_end / st.blocks_per_zone * st.blocks_per_zone := by
        rw [int32_of_small _ (by
          have : st.log_zone_num_config ≤ st.zns_num_zones * st.blocks_per_zone :=
            le_trans (by have := hc.zones_fit; omega)
              (Nat.le_mul_of_pos_right _ hB)
          omega)]
        rw [← Int.ofNat_mul, u64_of_small _ (by omega)]
      rw [hzs] at hw
      obtain ⟨f1, f2, f3, f4, f5⟩ := append_facts dev
        (st.log_zone_end / st.blocks_per_zone * st.blocks_per_zone)
        (nlb_of (size / st.lba_size_bytes)) size buffer
      rw [g2, Nat.mul_div_cancel _ hB] at f4
      rw [g2] at f5
      have hgeo : same_geometry st (nvme_zns_append dev
          (st.log_zone_end / st.blocks_per_zone * st.blocks_per_zone)
          (nlb_of (size / st.lba_size_bytes)) size buffer).2.2 :=
        ⟨by rw [f1, g1], by rw [f2, g2], by rw [f3, g3]⟩
      have hzones : ∀ j, st.log_zone_num_config ≤ j → j < st.zns_num_zones - 1 →
          (st.zone_states j = EMPTY ∧ (nvme_zns_append dev
            (st.log_zone_end / st.blocks_per_zone * st.blocks_per_zone)
            (nlb_of (size / st.lba_size_bytes)) size buffer).2.2.wp j = 0) ∨
          (st.zone_states j = FULL ∧
            j * st.blocks_per_zone ∈ st.data_mapping.map Prod.snd) := by
        intro j hj1 hj2
        rw [f4 j (by omega)]
        exact hd.zones j hj1 hj2
      generalize nvme_zns_append dev
        (st.log_zone_end / st.blocks_per_zone * st.blocks_per_zone)
        (nlb_of (size / st.lba_size_bytes)) size buffer = r at hw f5 hgeo hzones
      split at hw
      · rename_i hr
        simp only [Outcome.returned.injEq, Prod.mk.injEq] at hw
        obtain ⟨w1, w2, w3⟩ := hw
        subst w2 w3
        rw [← w1]
        refine ⟨⟨?_, ⟨hd.keys, hd.vals, hd.entries, hzones⟩,
          ⟨hg.log_end, hg.keys, hg.entries⟩, hm⟩, fun W h => by rw [if_neg hr]; exact h⟩
        exact
          { geo := hgeo, lsb4 := hc.lsb4, lsb_dvd := hc.lsb_dvd, mdts_pos := hc.mdts_pos,
            mdts_blocks := hc.mdts_blocks, bpz_pos := hc.bpz_pos, zones_fit := hc.zones_fit,
            small := hc.small, wmark := hc.wmark, cap := hc.cap, start0 := hc.start0 }
      · rename_i hr
        have hr0 : r.1 = 0 := by
          by_contra h; exact hr h
        simp only [Outcome.returned.injEq, Prod.mk.injEq] at hw
        obtain ⟨w1, w2, w3⟩ := hw
        subst w2 w3
        rw [← w1]
        have hkey : ∀ k, k < size / st.lba_size_bytes →
            (address + k * st.lba_size_bytes) % 2 ^ 64 = address + k * st.lba_size_bytes ∧
            (address + k * st.lba_size_bytes) % st.lba_size_bytes = 0 ∧
            address + k * st.lba_size_bytes < st.capacity_bytes := by
          intro k hk
          have h1 : (k + 1) * st.lba_size_bytes ≤ size / st.lba_size_bytes * st.lba_size_bytes :=
            Nat.mul_le_mul_right _ hk
          have h2 := Nat.div_mul_le_self size st.lba_size_bytes
          rw [Nat.add_mul, Nat.one_mul] at h1
          refine ⟨Nat.mod_eq_of_lt (by omega), ?_, by omega⟩
          rw [Nat.add_mul_mod_self_right]; exact ha
        refine ⟨⟨?_, ⟨hd.keys, hd.vals, hd.entries, hzones⟩, ⟨?_, ?_, ?_⟩, hm⟩, ?_⟩
        · exact
            { geo := hgeo, lsb4 := hc.lsb4, lsb_dvd := hc.lsb_dvd, mdts_pos := hc.mdts_pos,
              mdts_blocks := hc.mdts_blocks, bpz_pos := hc.bpz_pos, zones_fit := hc.zones_fit,
              small := hc.small, wmark := hc.wmark, cap := hc.cap, start0 := hc.start0 }
        · show r.2.1 + 1 ≤ st.log_zone_num_config * st.blocks_per_zone
          have := f5 hr0
          omega
        · exact write_log_entries_keys _ _ _ _ _ _ hg.keys
        · intro e he
          have hf := map_find_some_of_mem _ e.1 e.2
            (write_log_entries_keys st.lba_size_bytes address st.log_zone_end
              (size / st.lba_size_bytes) 0 st.log_mapping hg.keys) he
          show e.1 % st.lba_size_bytes = 0 ∧ e.1 < st.capacity_bytes ∧
            e.2 < st.log_zone_num_config * st.blocks_per_zone
          rcases write_log_entries_find _ _ _ _ _ _ _ _ hf with h | ⟨k, -, h2, h3, h4⟩
          · exact hg.entries (e.1, e.2) (mem_of_map_find _ _ _ h)
          · rw [Nat.zero_add] at h2
            obtain ⟨k1, k2, k3⟩ := hkey k h2
            rw [h3, h4, k1]
            refine ⟨k2, k3, ?_⟩
            rw [Nat.mod_eq_of_lt (by omega)]
            omega
        · intro W hW a haW
          rw [if_pos rfl] at haW
          show a % st.lba_size_bytes = 0 ∧ a < st.capacity_bytes ∧
            (map_contains (write_log_entries st.lba_size_bytes address st.log_zone_end
                (size / st.lba_size_bytes) 0 st.log_mapping) a = true ∨
              map_contains st.data_mapping (address_2_zone st a) = true)
          rcases List.mem_append.1 haW with h | h
          · unfold written_blocks at h
            obtain ⟨k, hk1, hk2⟩ := List.mem_map.1 h
            rw [List.mem_range] at hk1
            obtain ⟨k1, k2, k3⟩ := hkey k hk1
            rw [← hk2]
            refine ⟨k2, k3, Or.inl ?_⟩
            apply write_log_entries_contains
            exact Or.inr ⟨k, Nat.zero_le _, by omega, k1.symm⟩
          · obtain ⟨c1, c2, c3⟩ := hW a h
            refine ⟨c1, c2, ?_⟩
            rcases c3 with c3 | c3
            · left
              apply write_log_entries_contains
              exact Or.inl c3
            · exact Or.inr c3

theorem write_invariant (st : FtlState) (dev : Nvme) (hi : Invariant st dev)
    (address : Nat) (buffer : Buf) (size : Nat) (ret : Int) (st' : FtlState) (dev' : Nvme)
    (ha : address % st.lba_size_bytes = 0) (hsz : address + size ≤ st.capacity_bytes)
    (hw : zns_udevice_write st dev address buffer size = Outcome.returned (ret, st', dev')) :
    Invariant st' dev' ∧
    ∀ W, Covers st W →
      Covers st' (if ret = 0 then written_blocks st.lba_size_bytes address size ++ W else W) := by
  unfold zns_udevice_write at hw
  split at hw
  · simp only [Outcome.returned.injEq, Prod.mk.injEq] at hw
    obtain ⟨w1, w2, w3⟩ := hw
    subst w2 w3
    rw [← w1]
    exact ⟨hi, fun W h => by rw [if_neg (by decide)]; exact h⟩
  · exact write_locked_invariant st dev hi address buffer size ret st' dev' ha hsz hw

theorem wait_invariant (st : FtlState) (dev : Nvme) (hi : Invariant st dev)
    (address : Nat) (buffer : Buf) (size : Nat) (st' : FtlState)
    (hw : zns_udevice_write st dev address buffer size = Outcome.blocked st') :
    Invariant st' dev ∧ ∀ W, Covers st W → Covers st' W := by
  obtain ⟨hc, hd, hg, hm⟩ := hi
  have key : st' = st ∨ st' = { st with do_gc := true } := by
    unfold zns_udevice_write at hw
    split at hw
    · exact absurd hw (by simp)
    · unfold write_locked at hw
      simp only [] at hw
      split at hw
      · simp only [Outcome.blocked.injEq] at hw
        exact Or.inl hw.symm
      · split at hw
        · simp only [Outcome.blocked.injEq] at hw
          exact Or.inr hw.symm
        · split at hw <;> exact absurd hw (by simp)
  rcases key with h | h
  · rw [h]
    exact ⟨⟨hc, hd, hg, hm⟩, fun W h => h⟩
  · rw [h]
    refine ⟨⟨?_, ⟨hd.keys, hd.vals, hd.entries, hd.zones⟩,
      ⟨hg.log_end, hg.keys, hg.entries⟩, hm⟩, fun W h => h⟩
    exact
      { geo := hc.geo, lsb4 := hc.lsb4, lsb_dvd := hc.lsb_dvd, mdts_pos := hc.mdts_pos,
        mdts_blocks := hc.mdts_blocks, bpz_pos := hc.bpz_pos, zones_fit := hc.zones_fit,
        small := hc.small, wmark := hc.wmark, cap := hc.cap, start0 := hc.start0 }

theorem init_invariant (params : zdev_init_params) (dev0 : Nvme)
    (hw : well_configured params dev0) (st : FtlState) (dev : Nvme)
    (h : init_ss_zns_device params dev0 = (0, st, dev)) :
    Invariant st dev ∧ Covers st [] := by
  obtain ⟨w1, w2, w3, w4, w5, w6, w7⟩ := hw
  have hr : nvme_zns_mgmt_send dev0 0 true =
      (0, { dev0.log Opcode.reset 0 0 0 0 with mem := fun _ _ => 0, wp := fun _ => 0 }) := by
    unfold nvme_zns_mgmt_send reset_status
    simp
  have hlast : params.log_zones ≤ dev0.nr_zones - 1 ∧ dev0.nr_zones - 1 < dev0.nr_zones := by
    omega
  unfold init_ss_zns_device at h
  simp only [w1, if_true, hr, ne_eq, not_true_eq_false, if_false] at h
  unfold init_descriptor at h
  simp only [Nvme.log, hlast, and_self, if_true, zone_report_state, EMPTY] at h
  simp only [Prod.mk.injEq] at h
  obtain ⟨-, h1, h2⟩ := h
  subst h1 h2
  have hcap : init_capacity_bytes dev0.nr_zones params.log_zones dev0.zsze dev0.lba_size =
      (dev0.nr_zones - params.log_zones - 1) * (dev0.zsze * dev0.lba_size) := by
    unfold init_capacity_bytes
    have h3 : dev0.nr_zones ≤ dev0.nr_zones * dev0.zsze := Nat.le_mul_of_pos_right _ w4
    have h1 : params.log_zones % 2 ^ 64 = params.log_zones := Nat.mod_eq_of_lt (by omega)
    rw [h1]
    have h2 : (dev0.nr_zones + 2 ^ 64 - params.log_zones - 1) % 2 ^ 64 =
        dev0.nr_zones - params.log_zones - 1 := by omega
    rw [h2]
  refine ⟨⟨?_, ?_, ?_, rfl⟩, fun a ha => by simp at ha⟩
  · exact
      { geo := ⟨rfl, rfl, rfl⟩, lsb4 := w2, lsb_dvd := w3,
        mdts_pos := (by decide : 0 < MDTS),
        mdts_blocks := by
          show MDTS / dev0.lba_size ≤ 65536
          have : MDTS / dev0.lba_size ≤ MDTS / 4 := Nat.div_le_div_left w2 (by decide)
          have e : MDTS / 4 = 65536 := by decide
          omega
        bpz_pos := w4, zones_fit := w5, small := w6, wmark := w7, cap := hcap, start0 := rfl }
  · refine ⟨List.nodup_nil, List.nodup_nil, fun e he => by simp at he, ?_⟩
    intro j hj1 hj2
    left
    have hj1' : params.log_zones ≤ j := hj1
    have hj2' : j < dev0.nr_zones - 1 := hj2
    refine ⟨?_, rfl⟩
    show (if params.log_zones ≤ j ∧ j < dev0.nr_zones then _ else _) = EMPTY
    rw [if_pos ⟨hj1', by omega⟩]
    rfl
  · exact ⟨Nat.zero_le _, List.nodup_nil, fun e he => by simp at he⟩

theorem backing_of_covered (st : FtlState) (a : Nat)
    (h : map_contains st.log_mapping a = true ∨
      map_contains st.data_mapping (address_2_zone st a) = true) :
    ∃ s, backing_block st a = some s := by
  unfold backing_block
  cases hf : map_find st.log_mapping a with
  | some v => exact ⟨v, rfl⟩
  | none =>
    rcases h with h | h
    · rw [(map_contains_eq_false _ _).2 hf] at h
      exact absurd h (by simp)
    · cases hf2 : map_find st.data_mapping (address_2_zone st a) with
      | some p => exact ⟨_, rfl⟩
      | none =>
        rw [(map_contains_eq_false _ _).2 hf2] at h
        exact absurd h (by simp)

theorem covered_of_backing (st : FtlState) (a s : Nat) (hl : st.log_mapping = [])
    (h : backing_block st a = some s) :
    map_contains st.data_mapping (address_2_zone st a) = true := by
  unfold backing_block at h
  rw [hl] at h
  simp only [map_find] at h
  cases hf2 : map_find st.data_mapping (address_2_zone st a) with
  | some p => exact map_contains_of_find _ _ _ hf2
  | none => rw [hf2] at h; exact absurd h (by simp)

theorem gc_invariant (st : FtlState) (dev : Nvme) (hi : Invariant st dev)
    (ret : Int) (st' : FtlState) (dev' : Nvme)
    (h : gc_pass st dev = some (ret, st', dev')) :
    Invariant st' dev' ∧ ∀ W, Covers st W → Covers st' W := by
  obtain ⟨hc, hd, hg, hm⟩ := hi
  obtain ⟨st1, dev1, p1, c1, d1, l1, e1, e2, e3, e4, p2⟩ := gc_pass_spec st dev hc hd hg
  rw [p1] at h
  simp only [Option.some.injEq, Prod.mk.injEq] at h
  obtain ⟨-, h1, h2⟩ := h
  subst h1 h2
  refine ⟨⟨c1, d1, l1, by rw [e1, hm]⟩, ?_⟩
  intro W hW a ha
  obtain ⟨a1, a2, a3⟩ := hW a ha
  obtain ⟨s, hs⟩ := backing_of_covered st a a3
  obtain ⟨s', hs', -⟩ := p2 a s a1 a2 hs
  rw [e2, e3]
  exact ⟨a1, a2, Or.inr (covered_of_backing st1 a s' e4 hs')⟩

theorem reachable_invariant (params : zdev_init_params) (dev0 : Nvme)
    (hw : well_configured params dev0) (st : FtlState) (dev : Nvme) (W : List Nat)
    (hr : Reachable params dev0 st dev W) : Invariant st dev ∧ Covers st W := by
  induction hr with
  | init st dev h => exact init_invariant params dev0 hw st dev h
  | write st dev W address buffer size ret st' dev' _ ha hsz hwr ih =>
    obtain ⟨i1, i2⟩ := write_invariant st dev ih.1 address buffer size ret st' dev' ha hsz hwr
    exact ⟨i1, i2 W ih.2⟩
  | wait st dev W address buffer size st' _ hwr ih =>
    obtain ⟨i1, i2⟩ := wait_invariant st dev ih.1 address buffer size st' hwr
    exact ⟨i1, i2 W ih.2⟩
  | gc st dev W ret st' dev' _ hgc ih =>
    obtain ⟨i1, i2⟩ := gc_invariant st dev ih.1 ret st' dev' hgc
    exact ⟨i1, i2 W ih.2⟩

/-- C2. In every state reachable from `init_ss_zns_device` with `force_reset` on a
well-configured device by writes at block-aligned addresses that end below
`capacity_bytes` and by GC passes, a GC pass (staging, `do_merge`, the reset of
the log zones, the clearing of the log map) runs to its end with status 0, and
for every address written before the pass the read of its block returns
status 0 and the same bytes before and after the pass. -/
theorem gc_pass_preserves_written (params : zdev_init_params) (dev0 : Nvme)
    (hw : well_configured params dev0) (st : FtlState) (dev : Nvme) (W : List Nat)
    (hr : Reachable params dev0 st dev W) (a : Nat) (ha : a ∈ W) (out : Buf) :
    ∃ st' dev', gc_pass st dev = some (0, st', dev') ∧
      (zns_udevice_read st dev a out st.lba_size_bytes).1 = 0 ∧
      (zns_udevice_read st' dev' a out st'.lba_size_bytes).1 = 0 ∧
      (zns_udevice_read st' dev' a out st'.lba_size_bytes).2.1 =
        (zns_udevice_read st dev a out st.lba_size_bytes).2.1 := by
  obtain ⟨⟨hc, hd, hg, hm⟩, hcov⟩ := reachable_invariant params dev0 hw st dev W hr
  obtain ⟨a1, a2, a3⟩ := hcov a ha
  obtain ⟨s, hs⟩ := backing_of_covered st a a3
  obtain ⟨st1, dev1, p1, c1, d1, l1, e1, e2, e3, e4, p2⟩ := gc_pass_spec st dev hc hd hg
  obtain ⟨s', hs', hmem⟩ := p2 a s a1 a2 hs
  obtain ⟨r1, r2⟩ := read_backing st dev hc hd hg hm a out a2 s hs
  obtain ⟨r3, r4⟩ := read_backing st1 dev1 c1 d1 l1 (by rw [e1, hm]) a out
    (by rw [e3]; exact a2) s' hs'
  refine ⟨st1, dev1, p1, r1, r3, ?_⟩
  rw [r4, r2, e2]
  funext k
  by_cases hk : k < st.lba_size_bytes
  · rw [if_pos hk, if_pos hk, hmem k hk]
  · rw [if_neg hk, if_neg hk]

/-- C2 at the boundary configuration: after a write of one block at address 0, a GC
pass returns 0 and the read of address 0 returns the same bytes after it. -/
theorem gc_pass_preserves_written_witness :
    ∃ st' dev',
      gc_pass (after_write (scn_state, scn_nvme) 0 (scn_data 0xa0) 4096).1
        (after_write (scn_state, scn_nvme) 0 (scn_data 0xa0) 4096).2 = some (0, st', dev') ∧
      (zns_udevice_read (after_write (scn_state, scn_nvme) 0 (scn_data 0xa0) 4096).1
        (after_write (scn_state, scn_nvme) 0 (scn_data 0xa0) 4096).2 0 zero_buf
        (after_write (scn_state, scn_nvme) 0 (scn_data 0xa0) 4096).1.lba_size_bytes).1 = 0 ∧
      (zns_udevice_read st' dev' 0 zero_buf st'.lba_size_bytes).1 = 0 ∧
      (zns_udevice_read st' dev' 0 zero_buf st'.lba_size_bytes).2.1 =
        (zns_udevice_read (after_write (scn_state, scn_nvme) 0 (scn_data 0xa0) 4096).1
          (after_write (scn_state, scn_nvme) 0 (scn_data 0xa0) 4096).2 0 zero_buf
          (after_write (scn_state, scn_nvme) 0 (scn_data 0xa0) 4096).1.lba_size_bytes).2.1 :=
  gc_pass_preserves_written scn_params scn_dev
    ⟨rfl, by decide, by decide, by decide, by decide, by decide, by decide⟩
    (after_write (scn_state, scn_nvme) 0 (scn_data 0xa0) 4096).1
    (after_write (scn_state, scn_nvme) 0 (scn_data 0xa0) 4096).2
    (if (0 : Int) = 0 then written_blocks scn_state.lba_size_bytes 0 4096 ++ [] else [])
    (Reachable.write scn_state scn_nvme [] 0 (scn_data 0xa0) 4096 0
      (after_write (scn_state, scn_nvme) 0 (scn_data 0xa0) 4096).1
      (after_write (scn_state, scn_nvme) 0 (scn_data 0xa0) 4096).2
      (Reachable.init scn_state scn_nvme rfl) (by decide) (by decide) rfl)
    0 (by decide) zero_buf

/-! ## Free log zones: the formula -/

theorem tdiv_floor_ceil (x : Int) (b : Nat) :
    Int.tdiv x (b : Int) = if 0 ≤ x then ⌊((x : ℚ) / (b : ℚ))⌋ else ⌈((x : ℚ) / (b : ℚ))⌉ := by
  by_cases hx : 0 ≤ x
  · rw [if_pos hx, Rat.floor_intCast_div_natCast, Int.tdiv_eq_ediv hx (Int.natCast_nonneg b)]
  · rw [if_neg hx]
    have hy : 0 ≤ -x := by omega
    have e1 : Int.tdiv x (b : Int) = -Int.tdiv (-x) (b : Int) := by
      rw [Int.neg_tdiv, neg_neg]
    have e2 : ((x : ℚ) / (b : ℚ)) = -(((-x : Int) : ℚ) / (b : ℚ)) := by
      push_cast; ring
    rw [e1, e2, Int.ceil_neg, Rat.floor_intCast_div_natCast,
      Int.tdiv_eq_ediv hy (Int.natCast_nonneg b)]

/-- C14, as amended.  `get_free_lz_num(p)` is `L` minus the quotient of
`log_zone_end - log_zone_start + p` by `B` truncated toward zero, as the
division of C does: its floor when the sum is not negative (so for every
`p >= 0` in a state with `log_zone_start <= log_zone_end`), its ceiling only
when the sum is negative. -/
theorem get_free_lz_num_truncates (st : FtlState) (p : Int) :
    get_free_lz_num st p =
      (st.log_zone_num_config : Int) -
        (if 0 ≤ (st.log_zone_end : Int) - (st.log_zone_start : Int) + p then
          ⌊((((st.log_zone_end : Int) - (st.log_zone_start : Int) + p : Int) : ℚ) /
            ((st.blocks_per_zone : Nat) : ℚ))⌋
        else
          ⌈((((st.log_zone_end : Int) - (st.log_zone_start : Int) + p : Int) : ℚ) /
            ((st.blocks_per_zone : Nat) : ℚ))⌉) := by
  unfold get_free_lz_num
  rw [tdiv_floor_ceil]

/-- C14 as stated fails.  At the boundary configuration after initialisation
(`L = 3`, `B = 4`, `log_zone_end = log_zone_start = 0`) and one pending block,
`get_free_lz_num(1)` is 3 while `L - ceil(1 / 4)` is 2. -/
theorem get_free_lz_num_not_ceil :
    get_free_lz_num scn_state 1 = 3 ∧ free_log_zones scn_state 1 = 2 ∧
    get_free_lz_num scn_state 1 ≠ free_log_zones scn_state 1 := by
  have h1 : get_free_lz_num scn_state 1 = 3 := by decide
  have hL : scn_state.log_zone_num_config = 3 := by decide
  have hB : scn_state.blocks_per_zone = 4 := by decide
  have he : scn_state.log_zone_end = 0 := by decide
  have hs : scn_state.log_zone_start = 0 := by decide
  have h2 : free_log_zones scn_state 1 = 2 := by
    unfold free_log_zones
    rw [hL, hB, he, hs]
    have : ⌈((((0 : Nat) : Int) - ((0 : Nat) : Int) + 1 : Int) : ℚ) / ((4 : Nat) : ℚ)⌉ = 1 := by
      rw [Int.ceil_eq_iff]
      norm_num
    rw [this]
    norm_num
  refine ⟨h1, h2, ?_⟩
  rw [h1, h2]
  decide

/-! ## The log pointer and the staging tag at the boundary configuration -/

/-- C17, the code at a failing input.  At the boundary configuration a write of two
blocks at address 0 returns 0; its zone append returned the starting LBA 0 and
moved the write pointer of log zone 0 to 2, and `log_zone_end` is 1, that is
`res_lba + 1`, not `res_lba + 2`. -/
theorem log_pointer_advances_by_one :
    write_status_of (scn_state, scn_nvme) 0 (scn_data 0xa0) 8192 = some 0 ∧
    8192 / scn_state.lba_size_bytes = 2 ∧
    nlb_of (8192 / scn_state.lba_size_bytes) = 1 ∧
    (nvme_zns_append scn_nvme 0 1 8192 (scn_data 0xa0)).1 = 0 ∧
    (nvme_zns_append scn_nvme 0 1 8192 (scn_data 0xa0)).2.1 = 0 ∧
    (after_write (scn_state, scn_nvme) 0 (scn_data 0xa0) 8192).1.log_zone_end = 0 + 1 ∧
    (after_write (scn_state, scn_nvme) 0 (scn_data 0xa0) 8192).1.log_zone_end ≠ 0 + 2 := by
  refine ⟨by decide, by decide, by decide, by decide, by decide, by decide, by decide⟩

/-- C19, the code at a failing input.  At the boundary configuration, after one
successful write of two blocks at address 0 (two blocks fit a zone of four),
the log map sends address 4096 to block 1 while `log_zone_end` is 1: the value
is not below `log_zone_end`. -/
theorem log_value_not_below_log_end :
    write_status_of (scn_state, scn_nvme) 0 (scn_data 0xa0) 8192 = some 0 ∧
    (after_write (scn_state, scn_nvme) 0 (scn_data 0xa0) 8192).1.log_mapping =
      [(4096, 1), (0, 0)] ∧
    (after_write (scn_state, scn_nvme) 0 (scn_data 0xa0) 8192).1.log_zone_start = 0 ∧
    (after_write (scn_state, scn_nvme) 0 (scn_data 0xa0) 8192).1.log_zone_end = 1 ∧
    ¬ ∀ e ∈ (after_write (scn_state, scn_nvme) 0 (scn_data 0xa0) 8192).1.log_mapping,
      (after_write (scn_state, scn_nvme) 0 (scn_data 0xa0) 8192).1.log_zone_start ≤ e.2 ∧
      e.2 < (after_write (scn_state, scn_nvme) 0 (scn_data 0xa0) 8192).1.log_zone_end := by
  refine ⟨by decide, by decide, by decide, by decide, by decide⟩

/-- C20, the code at a failing input.  At the boundary configuration after two writes
of one block (addresses 0 and 4096, log blocks 0 and 1) the staging loop
leaves 0 in both entries of the log map, where the claim has the entries with
bit 63 set, `2 ^ 63` and `2 ^ 63 + 1`: `&=` clears every bit but bit 63, which
was clear.  A read of address 4096 in the state the loop leaves takes the log
branch and returns the bytes of log block 0, those written at address 0. -/
theorem staging_clears_log_entries :
    scn_two.1.log_mapping = [(4096, 1), (0, 0)] ∧
    gc_tag scn_two.1.log_mapping = [(4096, 0), (0, 0)] ∧
    (1 ||| ENTRY_INVALID = 2 ^ 63 + 1 ∧ 0 ||| ENTRY_INVALID = 2 ^ 63) ∧
    gc_tag scn_two.1.log_mapping ≠
      scn_two.1.log_mapping.map (fun e => (e.1, e.2 ||| ENTRY_INVALID)) ∧
    read_byte ({ scn_two.1 with log_mapping := gc_tag scn_two.1.log_mapping }, scn_two.2)
      4096 4096 0 = (0, 0xa0) ∧
    read_byte scn_two 4096 4096 0 = (0, 0xb0) := by
  refine ⟨by decide, by decide, by decide, by decide, by decide, by decide⟩

/-! ## `init_descriptor` without a record and with an oversized one -/

theorem first_block_size (st : FtlState) (dev : Nvme) (hg : same_geometry st dev)
    (hl4 : 4 ≤ st.lba_size_bytes) (hl32 : st.lba_size_bytes < 2 ^ 32)
    (hZ : 1 ≤ st.zns_num_zones) (hB : 1 ≤ st.blocks_per_zone) :
    load_le 4 (metadata_read st dev zero_buf (st.lba_size_bytes % 2 ^ 32)).2.1 0 =
      load_le 4 (dev.mem ((st.zns_num_zones - 1) * st.blocks_per_zone)) 0 ∧
    same_geometry st (metadata_read st dev zero_buf (st.lba_size_bytes % 2 ^ 32)).2.2 := by
  have hl : 0 < st.lba_size_bytes := by omega
  have e : st.lba_size_bytes % 2 ^ 32 = 1 * st.lba_size_bytes := by
    rw [Nat.mod_eq_of_lt hl32, Nat.one_mul]
  rw [e]
  obtain ⟨-, m2, m3⟩ := metadata_read_buf st dev zero_buf 1 hg hl hZ (le_refl _) hB (by omega)
  refine ⟨?_, m2⟩
  apply load_le_congr
  intro k _ hk
  rw [m3 k (by omega), Nat.div_eq_of_lt (by omega), Nat.mod_eq_of_lt (by omega), Nat.add_zero]

/-- C16. If `zone_states[Z-1]` is `EMPTY`, `init_descriptor` returns 0 with the state
and the device, its command trace included, as they were: no read is issued.
If the metadata zone is not `EMPTY` and the four bytes at offset 0 of its first
block are 0 (device and state agreeing on the geometry, blocks of 4 bytes at
least), `init_descriptor` returns 0 and the state it leaves is the state it
was given: both maps, the zone states and the four zone pointers are
unchanged. -/
theorem init_descriptor_fresh_start (st : FtlState) (dev : Nvme) :
    (st.zone_states (st.zns_num_zones - 1) = EMPTY → init_descriptor st dev = (0, st, dev)) ∧
    (st.zone_states (st.zns_num_zones - 1) ≠ EMPTY →
      same_geometry st dev → 4 ≤ st.lba_size_bytes → st.lba_size_bytes < 2 ^ 32 →
      1 ≤ st.zns_num_zones → 1 ≤ st.blocks_per_zone →
      load_le 4 (dev.mem ((st.zns_num_zones - 1) * st.blocks_per_zone)) 0 = 0 →
      (init_descriptor st dev).1 = 0 ∧ (init_descriptor st dev).2.1 = st) := by
  constructor
  · intro h
    unfold init_descriptor
    simp only [h, if_true]
  · intro h hg hl4 hl32 hZ hB hsize
    obtain ⟨f1, -⟩ := first_block_size st dev hg hl4 hl32 hZ hB
    rw [hsize] at f1
    unfold init_descriptor
    simp only [h, if_false, f1, if_true]
    exact ⟨trivial, trivial⟩

/-- C16 at the boundary configuration: after initialisation the metadata zone is
`EMPTY` and `init_descriptor` leaves state and device as they are; with the
metadata zone marked `FULL` over a first block of zeros it leaves the state as
it is. -/
theorem init_descriptor_fresh_start_witness :
    init_descriptor scn_state scn_nvme = (0, scn_state, scn_nvme) ∧
    (init_descriptor { scn_state with zone_states := set_state scn_state.zone_states 7 FULL }
      scn_nvme).1 = 0 ∧
    (init_descriptor { scn_state with zone_states := set_state scn_state.zone_states 7 FULL }
      scn_nvme).2.1 = { scn_state with zone_states := set_state scn_state.zone_states 7 FULL } :=
  ⟨(init_descriptor_fresh_start scn_state scn_nvme).1 (by decide),
    (init_descriptor_fresh_start
      { scn_state with zone_states := set_state scn_state.zone_states 7 FULL } scn_nvme).2
      (by decide) ⟨rfl, rfl, rfl⟩ (by decide) (by decide) (by decide) (by decide) (by decide)⟩

theorem load_le_zero (n p : Nat) : load_le n zero_buf p = 0 := by
  induction n generalizing p with
  | zero => rfl
  | succ n ih => simp only [load_le, ih]; rfl

theorem metadata_read_fails (st : FtlState) (dev : Nvme) (hg : same_geometry st dev)
    (hl : 0 < st.lba_size_bytes) (buf : Buf) (sz : Nat)
    (h : ¬ (sz % st.lba_size_bytes = 0 ∧ 1 ≤ sz / st.lba_size_bytes ∧
      sz / st.lba_size_bytes ≤ st.blocks_per_zone)) :
    (metadata_read st dev buf sz).1 ≠ 0 ∧ (metadata_read st dev buf sz).2.1 = buf := by
  obtain ⟨g1, g2, g3⟩ := hg
  unfold metadata_read
  by_cases hmod : sz % st.lba_size_bytes = 0
  · simp only [hmod, ne_eq, not_true_eq_false, if_false]
    have hrs : read_status dev ((st.zns_num_zones - 1) * st.blocks_per_zone)
        (nlb_of (sz / st.lba_size_bytes)) sz ≠ 0 := by
      unfold read_status
      rw [g1, g2, g3]
      split
      · decide
      · rename_i h1
        split
        · decide
        · rename_i h2
          exfalso
          apply h
          have h3 : sz = (nlb_of (sz / st.lba_size_bytes) + 1) * st.lba_size_bytes := by
            by_contra hc; exact h2 hc
          have h4 : sz / st.lba_size_bytes = nlb_of (sz / st.lba_size_bytes) + 1 := by
            conv_lhs => rw [h3]
            exact Nat.mul_div_cancel _ hl
          refine ⟨hmod, by omega, ?_⟩
          rcases Nat.eq_zero_or_pos st.zns_num_zones with hz | hz
          · rw [hz] at h1
            simp only [Nat.zero_mul, Nat.zero_sub, Nat.zero_add] at h1
            omega
          · have hle : (st.zns_num_zones - 1 + 1) * st.blocks_per_zone =
                (st.zns_num_zones - 1) * st.blocks_per_zone + st.blocks_per_zone := by ring
            have e : st.zns_num_zones - 1 + 1 = st.zns_num_zones := by omega
            rw [e] at hle
            omega
    unfold nvme_read
    simp only [hrs, ne_eq, not_false_eq_true, if_true]
    exact ⟨trivial, trivial⟩
  · simp only [hmod, ne_eq, not_false_eq_true, if_true]
    exact ⟨by decide, trivial⟩

theorem oversized_read_size (size lsb B : Nat) (hl : 0 < lsb) (h32 : size < 2 ^ 32)
    (hsize : B * lsb < size) :
    ¬ (roundup size lsb % 2 ^ 32 % lsb = 0 ∧ 1 ≤ roundup size lsb % 2 ^ 32 / lsb ∧
      roundup size lsb % 2 ^ 32 / lsb ≤ B) := by
  intro ⟨h1, h2, h3⟩
  obtain ⟨r1, r2, r3, r4⟩ := roundup_facts size lsb hl
  have hR : roundup size lsb < size + lsb := by
    have := Nat.div_mul_le_self (size + (lsb - 1)) lsb
    rw [r4]; omega
  generalize roundup size lsb = R at *
  have hq := Nat.div_add_mod (R % 2 ^ 32) lsb
  rw [h1, Nat.add_zero] at hq
  have hs1 : lsb ≤ R % 2 ^ 32 := by
    rw [← hq]; exact Nat.le_mul_of_pos_right _ h2
  have hs2 : R % 2 ^ 32 ≤ B * lsb := by
    rw [← hq, Nat.mul_comm]; exact Nat.mul_le_mul_right _ h3
  omega

/-- C15, as amended.  If the metadata zone is not `EMPTY` and the `total_bytes` of
its first block is greater than `B * lba_size`, `init_descriptor` does not treat
the record as absent: it issues the second read, which fails (its size is not
that of one to `B` blocks) and whose status is dropped, and loads the state
from the zeroed buffer.  It returns 0; `log_mapping` and `data_mapping` are as
they were, `log_zone_start` and `log_zone_end` are 0, the states of the data
zones are 0 and the other zone states are as they were. -/
theorem init_descriptor_oversized_record (st : FtlState) (dev : Nvme)
    (hg : same_geometry st dev) (hl4 : 4 ≤ st.lba_size_bytes)
    (hl32 : st.lba_size_bytes < 2 ^ 32) (hZ : 1 ≤ st.zns_num_zones)
    (hB : 1 ≤ st.blocks_per_zone)
    (hne : st.zone_states (st.zns_num_zones - 1) ≠ EMPTY)
    (hbytes : ∀ k, k < 4 → dev.mem ((st.zns_num_zones - 1) * st.blocks_per_zone) k < 256)
    (hsize : st.blocks_per_zone * st.lba_size_bytes <
      load_le 4 (dev.mem ((st.zns_num_zones - 1) * st.blocks_per_zone)) 0) :
    (init_descriptor st dev).1 = 0 ∧
    (init_descriptor st dev).2.1.log_mapping = st.log_mapping ∧
    (init_descriptor st dev).2.1.data_mapping = st.data_mapping ∧
    (init_descriptor st dev).2.1.log_zone_start = 0 ∧
    (init_descriptor st dev).2.1.log_zone_end = 0 ∧
    (∀ i, st.log_zone_num_config ≤ i → i < st.zns_num_zones - 1 →
      (init_descriptor st dev).2.1.zone_states i = 0) ∧
    (∀ i, ¬ (st.log_zone_num_config ≤ i ∧ i < st.zns_num_zones - 1) →
      (init_descriptor st dev).2.1.zone_states i = st.zone_states i) := by
  have hl : 0 < st.lba_size_bytes := by omega
  obtain ⟨f1, f2⟩ := first_block_size st dev hg hl4 hl32 hZ hB
  have h32 : load_le 4 (dev.mem ((st.zns_num_zones - 1) * st.blocks_per_zone)) 0 < 2 ^ 32 := by
    have := load_le_lt 4 (dev.mem ((st.zns_num_zones - 1) * st.blocks_per_zone)) 0
      (fun k _ hk => hbytes k (by omega))
    norm_num at this ⊢
    exact this
  obtain ⟨size, hsz⟩ : ∃ s, load_le 4 (dev.mem ((st.zns_num_zones - 1) * st.blocks_per_zone)) 0 = s :=
    ⟨_, rfl⟩
  rw [hsz] at f1 h32 hsize
  have hne0 : size ≠ 0 := by omega
  obtain ⟨-, hbuf⟩ := metadata_read_fails st
    (metadata_read st dev zero_buf (st.lba_size_bytes % 2 ^ 32)).2.2 f2 hl zero_buf
    (roundup size st.lba_size_bytes % 2 ^ 32)
    (oversized_read_size size st.lba_size_bytes st.blocks_per_zone hl h32 hsize)
  unfold init_descriptor
  simp only [hne, if_false, f1, hne0, hbuf]
  unfold load_descriptor
  simp only [load_le_zero, init_pairs]
  refine ⟨trivial, trivial, trivial, trivial, trivial, ?_, ?_⟩
  · intro i h1 h2
    rw [init_states_at, if_pos ⟨h1, by omega⟩]
    rfl
  · intro i h
    rw [init_states_at, if_neg (by omega)]

/-- C15 at the boundary configuration: with a record of 20000 declared bytes the
maps are as they were and the data zones' states are 0. -/
theorem init_descriptor_oversized_record_witness :
    (init_descriptor scn_marked scn_oversized).1 = 0 ∧
    (init_descriptor scn_marked scn_oversized).2.1.log_mapping = scn_marked.log_mapping ∧
    (init_descriptor scn_marked scn_oversized).2.1.data_mapping = scn_marked.data_mapping ∧
    (init_descriptor scn_marked scn_oversized).2.1.log_zone_start = 0 ∧
    (init_descriptor scn_marked scn_oversized).2.1.log_zone_end = 0 ∧
    (∀ i, scn_marked.log_zone_num_config ≤ i → i < scn_marked.zns_num_zones - 1 →
      (init_descriptor scn_marked scn_oversized).2.1.zone_states i = 0) ∧
    (∀ i, ¬ (scn_marked.log_zone_num_config ≤ i ∧ i < scn_marked.zns_num_zones - 1) →
      (init_descriptor scn_marked scn_oversized).2.1.zone_states i = scn_marked.zone_states i) :=
  init_descriptor_oversized_record scn_marked scn_oversized ⟨rfl, rfl, rfl⟩ (by decide)
    (by decide) (by decide) (by decide) (by decide)
    (fun k hk => by
      have h : ∀ j, j < 4 → scn_oversized.mem 28 j < 256 := by decide
      exact h k hk)
    (by decide)

/-- C15 as stated fails.  At the boundary configuration with the metadata zone
marked `FULL` and a first block declaring 20000 bytes, more than the 16384 of
a zone, `init_descriptor` changes the zone states: data zone 3 was `EMPTY` and
its state is 0 afterwards. -/
theorem oversized_record_changes_zone_states :
    scn_marked.zone_states (scn_marked.zns_num_zones - 1) ≠ EMPTY ∧
    load_le 4 (scn_oversized.mem ((scn_marked.zns_num_zones - 1) * scn_marked.blocks_per_zone))
      0 = 20000 ∧
    scn_marked.blocks_per_zone * scn_marked.lba_size_bytes = 16384 ∧
    scn_marked.zone_states 3 = EMPTY ∧
    (init_descriptor scn_marked scn_oversized).2.1.zone_states 3 = 0 ∧
    (init_descriptor scn_marked scn_oversized).2.1.zone_states ≠ scn_marked.zone_states := by
  refine ⟨by decide, by decide, by decide, by decide, by decide, ?_⟩
  intro h
  have h3 : (init_descriptor scn_marked scn_oversized).2.1.zone_states 3 = 0 := by decide
  rw [h] at h3
  exact absurd h3 (by decide)

/-! ## The log map after a write -/

theorem write_log_entries_other (lsb address lzb : Nat) : ∀ (n i : Nat) (m : UMap Nat) (key : Nat),
    (∀ k, i ≤ k → k < i + n → key ≠ (address + k * lsb) % 2 ^ 64) →
    map_find (write_log_entries lsb address lzb n i m) key = map_find m key := by
  intro n
  induction n with
  | zero => intro i m key _; rfl
  | succ n ih =>
    intro i m key h
    simp only [write_log_entries]
    rw [ih (i + 1) _ key (fun k h1 h2 => h k (by omega) (by omega)), map_find_assign,
      if_neg (h i (le_refl _) (by omega))]

theorem write_log_entries_at (lsb address lzb : Nat) : ∀ (n i : Nat) (m : UMap Nat) (j : Nat),
    i ≤ j → j < i + n →
    (∀ k, j < k → k < i + n → (address + j * lsb) % 2 ^ 64 ≠ (address + k * lsb) % 2 ^ 64) →
    map_find (write_log_entries lsb address lzb n i m) ((address + j * lsb) % 2 ^ 64) =
      some ((lzb + j) % 2 ^ 32) := by
  intro n
  induction n with
  | zero => intro i m j h1 h2; omega
  | succ n ih =>
    intro i m j h1 h2 hd
    simp only [write_log_entries]
    rcases Nat.eq_or_lt_of_le h1 with h | h
    · subst h
      rw [write_log_entries_other lsb address lzb n (i + 1) _ _
        (fun k k1 k2 => hd k (by omega) (by omega)), map_find_assign, if_pos rfl]
    · exact ih (i + 1) _ j h (by omega) (fun k k1 k2 => hd k k1 (by omega))

/-- C18. After a call `zns_udevice_write(address, buf, size)` that returned 0, started
with log pointer `e = log_zone_end` and writing `n = size / lba_size` blocks
(the addresses not wrapping 64 bits, `e + n` fitting 32 bits): for every
`i < n` the log map sends `address + i * lba_size` to `e + i`, whose bit 63 is
clear; every other key of the log map has the value, or the absence, it had;
`data_mapping` and `zone_states` are unchanged. -/
theorem write_updates_log_map (st : FtlState) (dev : Nvme) (address : Nat) (buffer : Buf)
    (size : Nat) (st' : FtlState) (dev' : Nvme)
    (hl : 0 < st.lba_size_bytes) (ha : address + size ≤ 2 ^ 64)
    (he : st.log_zone_end + size / st.lba_size_bytes ≤ 2 ^ 32)
    (hw : zns_udevice_write st dev address buffer size = Outcome.returned (0, st', dev')) :
    (∀ i, i < size / st.lba_size_bytes →
      map_find st'.log_mapping (address + i * st.lba_size_bytes) = some (st.log_zone_end + i) ∧
      (st.log_zone_end + i) &&& ENTRY_INVALID = 0) ∧
    (∀ key, (∀ i, i < size / st.lba_size_bytes → key ≠ address + i * st.lba_size_bytes) →
      map_find st'.log_mapping key = map_find st.log_mapping key) ∧
    st'.data_mapping = st.data_mapping ∧ st'.zone_states = st.zone_states := by
  have hkey : ∀ k, k < size / st.lba_size_bytes →
      (address + k * st.lba_size_bytes) % 2 ^ 64 = address + k * st.lba_size_bytes := by
    intro k hk
    have h1 : (k + 1) * st.lba_size_bytes ≤ size / st.lba_size_bytes * st.lba_size_bytes :=
      Nat.mul_le_mul_right _ hk
    have h2 := Nat.div_mul_le_self size st.lba_size_bytes
    rw [Nat.add_mul, Nat.one_mul] at h1
    exact Nat.mod_eq_of_lt (by omega)
  have hlog : st'.log_mapping = write_log_entries st.lba_size_bytes address st.log_zone_end
      (size / st.lba_size_bytes) 0 st.log_mapping ∧
      st'.data_mapping = st.data_mapping ∧ st'.zone_states = st.zone_states := by
    unfold zns_udevice_write at hw
    split at hw
    · simp only [Outcome.returned.injEq, Prod.mk.injEq] at hw
      exact absurd hw.1 (by decide)
    · unfold write_locked at hw
      simp only [] at hw
      split at hw
      · exact absurd hw (by simp)
      · split at hw
        · exact absurd hw (by simp)
        · split at hw
          · rename_i hr
            simp only [Outcome.returned.injEq, Prod.mk.injEq] at hw
            exact absurd hw.1 hr
          · simp only [Outcome.returned.injEq, Prod.mk.injEq] at hw
            obtain ⟨-, w2, -⟩ := hw
            rw [← w2]
            exact ⟨rfl, rfl, rfl⟩
  obtain ⟨h1, h2, h3⟩ := hlog
  refine ⟨?_, ?_, h2, h3⟩
  · intro i hi
    refine ⟨?_, and_invalid_of_lt _ (by omega)⟩
    have hat := write_log_entries_at st.lba_size_bytes address st.log_zone_end
      (size / st.lba_size_bytes) 0 st.log_mapping i (Nat.zero_le _) (by omega)
      (fun k k1 k2 => by
        rw [hkey i hi, hkey k (by omega)]
        have : i * st.lba_size_bytes < k * st.lba_size_bytes :=
          Nat.mul_lt_mul_of_pos_right k1 hl
        omega)
    rw [hkey i hi, Nat.mod_eq_of_lt (by omega)] at hat
    rw [h1, hat]
  · intro key hk
    rw [h1]
    apply write_log_entries_other
    intro k _ k2
    rw [hkey k (by omega)]
    exact hk k (by omega)

/-- C18 at the boundary configuration: the write of two blocks at address 0 on the
initialised device. -/
theorem write_updates_log_map_witness :
    (∀ i, i < 8192 / scn_state.lba_size_bytes →
      map_find (after_write (scn_state, scn_nvme) 0 (scn_data 0xa0) 8192).1.log_mapping
        (0 + i * scn_state.lba_size_bytes) = some (scn_state.log_zone_end + i) ∧
      (scn_state.log_zone_end + i) &&& ENTRY_INVALID = 0) ∧
    (∀ key, (∀ i, i < 8192 / scn_state.lba_size_bytes →
        key ≠ 0 + i * scn_state.lba_size_bytes) →
      map_find (after_write (scn_state, scn_nvme) 0 (scn_data 0xa0) 8192).1.log_mapping key =
        map_find scn_state.log_mapping key) ∧
    (after_write (scn_state, scn_nvme) 0 (scn_data 0xa0) 8192).1.data_mapping =
      scn_state.data_mapping ∧
    (after_write (scn_state, scn_nvme) 0 (scn_data 0xa0) 8192).1.zone_states =
      scn_state.zone_states :=
  write_updates_log_map scn_state scn_nvme 0 (scn_data 0xa0) 8192
    (after_write (scn_state, scn_nvme) 0 (scn_data 0xa0) 8192).1
    (after_write (scn_state, scn_nvme) 0 (scn_data 0xa0) 8192).2
    (by decide) (by decide) (by decide) rfl

/-! ## Every call of a pass returns -/

theorem same_config_refl (st : FtlState) : same_config st st := rfl

theorem same_config_trans (a b c : FtlState) (h1 : same_config a b) (h2 : same_config b c) :
    same_config a c := by
  unfold same_config at *
  have := h2
  rw [h1] at this
  exact this

theorem same_shape_refl (dev : Nvme) : same_shape dev dev := ⟨rfl, rfl, rfl⟩

theorem same_shape_trans (a b c : Nvme) (h1 : same_shape a b) (h2 : same_shape b c) :
    same_shape a c :=
  ⟨by rw [h2.1, h1.1], by rw [h2.2.1, h1.2.1], by rw [h2.2.2, h1.2.2]⟩

theorem nvme_read_shape (dev : Nvme) (slba nlb len : Nat) (buf : Buf) (off : Nat) :
    same_shape dev (nvme_read dev slba nlb len buf off).2.2 := by
  unfold nvme_read
  simp only []
  split <;> exact ⟨rfl, rfl, rfl⟩

theorem nvme_write_shape (dev : Nvme) (slba nlb len : Nat) (buf : Buf) (off : Nat) :
    same_shape dev (nvme_write dev slba nlb len buf off).2 := by
  unfold nvme_write
  simp only []
  split <;> exact ⟨rfl, rfl, rfl⟩

theorem nvme_reset_shape (dev : Nvme) (slba : Nat) (all : Bool) :
    same_shape dev (nvme_zns_mgmt_send dev slba all).2 := by
  unfold nvme_zns_mgmt_send
  simp only []
  split
  · exact ⟨rfl, rfl, rfl⟩
  · split <;> exact ⟨rfl, rfl, rfl⟩

theorem mdts_loop_returns (st : FtlState) (hm : 0 < st.mdts) (read : Bool) :
    ∀ (fuel : Nat) (dev : Nvme) (buffer : Buf) (size_left ptr wp : Nat) (ret : Int),
      size_left < fuel →
      ∃ r, mdts_loop st read fuel dev buffer size_left ptr wp ret = some r ∧
        same_shape dev r.2.2 := by
  intro fuel
  induction fuel with
  | zero => intro dev buffer size_left ptr wp ret h; omega
  | succ fuel ih =>
    intro dev buffer size_left ptr wp ret h
    simp only [mdts_loop]
    by_cases hs : size_left > 0
    · rw [if_pos hs]
      obtain ⟨io, hio⟩ : ∃ io, (if st.mdts < size_left then st.mdts else size_left) = io :=
        ⟨_, rfl⟩
      have hpos : 0 < io ∧ io ≤ size_left := by
        rw [← hio]; split <;> omega
      simp only [hio]
      generalize (io / st.lba_size_bytes + 2 ^ 64 -
        (if io % st.lba_size_bytes = 0 then 1 else 0)) % 2 ^ 64 = lba
      obtain ⟨r0, hr0⟩ : ∃ r0 : Int × Buf × Nvme,
          (if read = true then nvme_read dev wp (lba % 65536) io buffer ptr
          else ((nvme_write dev wp (lba % 65536) io buffer ptr).1, buffer,
            (nvme_write dev wp (lba % 65536) io buffer ptr).2)) = r0 := ⟨_, rfl⟩
      have hshape : same_shape dev r0.2.2 := by
        rw [← hr0]
        split
        · exact nvme_read_shape _ _ _ _ _ _
        · exact nvme_write_shape _ _ _ _ _ _
      simp only [hr0]
      split
      · exact ⟨r0, rfl, hshape⟩
      · obtain ⟨r, h1, h2⟩ := ih r0.2.2 r0.2.1 (size_left - io) (ptr + io)
          ((wp + lba + 1) % 2 ^ 64) r0.1 (by omega)
        exact ⟨r, h1, same_shape_trans _ _ _ hshape h2⟩
    · rw [if_neg hs]
      exact ⟨_, rfl, same_shape_refl dev⟩

theorem same_config_mdts (st st' : FtlState) (h : same_config st st') : st'.mdts = st.mdts := by
  unfold same_config at h
  rw [h]

theorem io_returns (st : FtlState) (hm : 0 < st.mdts) (dev : Nvme) (slba : Nat) (buffer : Buf)
    (size : Nat) (read : Bool) :
    ∃ r, ss_nvme_device_io_with_mdts st dev slba buffer size read = some r ∧
      same_shape dev r.2.2 :=
  mdts_loop_returns st hm read (size + 1) dev buffer size 0 slba 0 (Nat.lt_succ_self _)

theorem merge_old_image_returns (st : FtlState) (hm : 0 < st.mdts) (dev : Nvme) (buffer : Buf)
    (lz : Nat) :
    ∃ r, merge_old_image st dev buffer lz = some r ∧ same_config st r.2.1 ∧
      same_shape dev r.2.2.1 := by
  unfold merge_old_image
  simp only []
  split
  · obtain ⟨r, h1, h2⟩ := io_returns st hm dev (map_get st.data_mapping lz) buffer
      (st.blocks_per_zone * st.lba_size_bytes) true
    rw [h1]
    simp only []
    split
    · exact ⟨_, rfl, same_config_refl st, h2⟩
    · exact ⟨_, rfl, rfl, h2⟩
  · exact ⟨_, rfl, same_config_refl st, same_shape_refl dev⟩

theorem merge_overlay_shape (st : FtlState) (set : UMap Nat) :
    ∀ (dev : Nvme) (buffer : Buf), same_shape dev (merge_overlay st set dev buffer).2.2 := by
  induction set with
  | nil => intro dev buffer; exact same_shape_refl dev
  | cons e rest ih =>
    intro dev buffer
    obtain ⟨off, pba⟩ := e
    simp only [merge_overlay]
    split
    · exact nvme_read_shape _ _ _ _ _ _
    · exact same_shape_trans _ _ _ (nvme_read_shape _ _ _ _ _ _) (ih _ _)

theorem merge_persist_returns (st : FtlState) (hm : 0 < st.mdts) (dev : Nvme) (buffer : Buf)
    (lz : Nat) (zone_no old_zone : Int) (used_log : Bool) :
    ∃ r, merge_persist st dev buffer lz zone_no old_zone used_log = some r ∧
      same_config st r.2.1 ∧ same_shape dev r.2.2 := by
  unfold merge_persist
  simp only []
  split
  · obtain ⟨r, h1, h2⟩ := io_returns st hm
      (nvme_zns_mgmt_send dev (u64_of old_zone) false).2 (u64_of old_zone) buffer
      (st.blocks_per_zone * st.lba_size_bytes) false
    have h3 := same_shape_trans _ _ _ (nvme_reset_shape dev (u64_of old_zone) false) h2
    rw [h1]
    simp only []
    split
    · exact ⟨_, rfl, same_config_refl st, h3⟩
    · exact ⟨_, rfl, rfl, h3⟩
  · obtain ⟨r, h1, h2⟩ := io_returns st hm dev (u64_of zone_no) buffer
      (st.blocks_per_zone * st.lba_size_bytes) false
    rw [h1]
    simp only []
    split
    · exact ⟨_, rfl, same_config_refl st, h2⟩
    · split
      · exact ⟨_, rfl, rfl, same_shape_trans _ _ _ h2 (nvme_reset_shape _ _ _)⟩
      · exact ⟨_, rfl, rfl, h2⟩

theorem merge_zone_returns (st : FtlState) (hm : 0 < st.mdts) (dev : Nvme) (buffer : Buf)
    (lz : Nat) (set : UMap Nat) :
    ∃ r, merge_zone st dev buffer lz set = some r ∧ same_config st r.2.1 ∧
      same_shape dev r.2.2.1 := by
  unfold merge_zone
  simp only []
  obtain ⟨r, h1, h2, h3⟩ := merge_old_image_returns st hm dev buffer lz
  rw [h1]
  simp only []
  split
  · exact ⟨_, rfl, h2, h3⟩
  · have h4 := merge_overlay_shape r.2.1 set r.2.2.1 r.2.2.2.1
    split
    · exact ⟨_, rfl, h2, same_shape_trans _ _ _ h3 h4⟩
    · obtain ⟨p, p1, p2, p3⟩ := merge_persist_returns r.2.1
        (by rw [same_config_mdts st r.2.1 h2]; exact hm)
        (merge_overlay r.2.1 set r.2.2.1 r.2.2.2.1).2.2
        (merge_overlay r.2.1 set r.2.2.1 r.2.2.2.1).2.1 lz
        (if decide (find_next_empty_zone st = -1) = true then
          ((st.log_zone_num_config : Int) - 1) * (st.blocks_per_zone : Int)
          else find_next_empty_zone st)
        r.2.2.2.2 (decide (find_next_empty_zone st = -1))
      rw [p1]
      exact ⟨_, rfl, same_config_trans _ _ _ h2 p2,
        same_shape_trans _ _ _ (same_shape_trans _ _ _ h3 h4) p3⟩

theorem do_merge_loop_returns : ∀ (zs : UMap (UMap Nat)) (st : FtlState) (dev : Nvme)
    (buffer : Buf), 0 < st.mdts →
    ∃ r, do_merge_loop zs st dev buffer = some r ∧ same_config st r.2.1 ∧
      same_shape dev r.2.2.1 := by
  intro zs
  induction zs with
  | nil =>
    intro st dev buffer _
    exact ⟨_, rfl, same_config_refl st, same_shape_refl dev⟩
  | cons e rest ih =>
    intro st dev buffer hm
    obtain ⟨lz, set⟩ := e
    obtain ⟨r, h1, h2, h3⟩ := merge_zone_returns st hm dev buffer lz set
    simp only [do_merge_loop, h1]
    split
    · exact ⟨r, rfl, h2, h3⟩
    · obtain ⟨r', q1, q2, q3⟩ := ih r.2.1 r.2.2.1 r.2.2.2
        (by rw [same_config_mdts st r.2.1 h2]; exact hm)
      exact ⟨r', q1, same_config_trans _ _ _ h2 q2, same_shape_trans _ _ _ h3 q3⟩

theorem reset_log_zones_shape (st : FtlState) : ∀ (n i : Nat) (dev : Nvme),
    same_shape dev (reset_log_zones st n i dev) := by
  intro n
  induction n with
  | zero => intro i dev; exact same_shape_refl dev
  | succ n ih =>
    intro i dev
    simp only [reset_log_zones]
    exact same_shape_trans _ _ _ (nvme_reset_shape _ _ _) (ih _ _)

theorem gc_pass_returns (st : FtlState) (dev : Nvme) (hm : 0 < st.mdts) :
    ∃ ret st1 dev1, gc_pass st dev =
        some (ret,
          { st1 with
            log_zone_end := st1.log_zone_start
            log_mapping := []
            do_gc := false
            gc_mutex := false },
          reset_log_zones st1 st1.log_zone_num_config 0 dev1) ∧
      same_config { st with log_mapping := gc_tag st.log_mapping } st1 ∧
      same_shape dev dev1 := by
  obtain ⟨r, h1, h2, h3⟩ := do_merge_loop_returns (gc_stage st st.log_mapping [])
    { st with log_mapping := gc_tag st.log_mapping } dev zero_buf hm
  refine ⟨r.1, r.2.1, r.2.2.1, ?_, h2, h3⟩
  unfold gc_pass do_merge
  simp only [h1]

/-- C11. A GC pass returns (the transfers go in chunks of `mdts > 0` bytes), and
whatever the status of `do_merge`, zero or not, the state it leaves has an
empty `log_mapping`, `log_zone_end == log_zone_start`, with `log_zone_start` as
it was, and `do_gc` false. -/
theorem gc_pass_clears_log (st : FtlState) (dev : Nvme) (hm : 0 < st.mdts) :
    ∃ ret st' dev', gc_pass st dev = some (ret, st', dev') ∧
      st'.log_mapping = [] ∧ st'.log_zone_end = st'.log_zone_start ∧
      st'.log_zone_start = st.log_zone_start ∧ st'.do_gc = false := by
  obtain ⟨ret, st1, dev1, h1, h2, -⟩ := gc_pass_returns st dev hm
  refine ⟨ret, _, _, h1, rfl, rfl, ?_, rfl⟩
  show st1.log_zone_start = st.log_zone_start
  unfold same_config at h2
  rw [h2]

/-- C11 at the boundary configuration, on a pass whose `do_merge` reports an error:
after a write at address 0 the pass finds data zone 3 `EMPTY` in `zone_states`
while the device has its write pointer at 1, so the write of the image is
rejected (status `0x1bc`); the log map is cleared all the same. -/
theorem gc_pass_clears_log_witness :
    (∃ ret st' dev',
      gc_pass (after_write (scn_state, scn_nvme) 0 (scn_data 0xa0) 4096).1 scn_stale_zone =
        some (ret, st', dev') ∧
      st'.log_mapping = [] ∧ st'.log_zone_end = st'.log_zone_start ∧
      st'.log_zone_start =
        (after_write (scn_state, scn_nvme) 0 (scn_data 0xa0) 4096).1.log_zone_start ∧
      st'.do_gc = false) ∧
    (gc_pass (after_write (scn_state, scn_nvme) 0 (scn_data 0xa0) 4096).1 scn_stale_zone).map
      Prod.fst = some NVME_SC_ZNS_INVALID_WRITE ∧
    (after_write (scn_state, scn_nvme) 0 (scn_data 0xa0) 4096).1.log_mapping = [(0, 0)] :=
  ⟨gc_pass_clears_log (after_write (scn_state, scn_nvme) 0 (scn_data 0xa0) 4096).1
      scn_stale_zone (by decide),
    by decide, by decide⟩

/-! ## The data map after a pass -/

theorem gc_pass_frame (st : FtlState) (dev : Nvme) (hm : 0 < st.mdts) (ret : Int)
    (st' : FtlState) (dev' : Nvme) (h : gc_pass st dev = some (ret, st', dev')) :
    st'.blocks_per_zone = st.blocks_per_zone ∧ st'.lba_size_bytes = st.lba_size_bytes ∧
    st'.log_zone_num_config = st.log_zone_num_config ∧ st'.zns_num_zones = st.zns_num_zones ∧
    st'.gc_watermark = st.gc_watermark ∧ st'.mdts = st.mdts ∧
    st'.capacity_bytes = st.capacity_bytes ∧ st'.log_zone_start = st.log_zone_start ∧
    st'.log_zone_end = st.log_zone_start ∧ same_shape dev dev' := by
  obtain ⟨ret1, st1, dev1, h1, h2, h3⟩ := gc_pass_returns st dev hm
  rw [h1] at h
  simp only [Option.some.injEq, Prod.mk.injEq] at h
  obtain ⟨-, w2, w3⟩ := h
  unfold same_config at h2
  have e1 : st1.blocks_per_zone = st.blocks_per_zone := by rw [h2]
  have e2 : st1.lba_size_bytes = st.lba_size_bytes := by rw [h2]
  have e3 : st1.log_zone_num_config = st.log_zone_num_config := by rw [h2]
  have e4 : st1.zns_num_zones = st.zns_num_zones := by rw [h2]
  have e5 : st1.gc_watermark = st.gc_watermark := by rw [h2]
  have e6 : st1.mdts = st.mdts := by rw [h2]
  have e7 : st1.capacity_bytes = st.capacity_bytes := by rw [h2]
  have e8 : st1.log_zone_start = st.log_zone_start := by rw [h2]
  rw [← w2, ← w3]
  exact ⟨e1, e2, e3, e4, e5, e6, e7, e8, e8,
    same_shape_trans _ _ _ h3 (reset_log_zones_shape _ _ _ _)⟩

theorem data_value_facts (st : FtlState) (dev : Nvme) (hc : Cfg st dev) (hd : DataInv st dev)
    (z v : Nat) (h : map_find st.data_mapping z = some v) :
    v % st.blocks_per_zone = 0 ∧ st.log_zone_num_config * st.blocks_per_zone ≤ v ∧
    v < (st.zns_num_zones - 1) * st.blocks_per_zone ∧
    st.zone_states (v / st.blocks_per_zone) = FULL := by
  obtain ⟨-, -, j, q1, q2, q3, q4⟩ := data_entry_of_find st dev hd z v h
  rw [q1]
  refine ⟨Nat.mul_mod_left _ _, Nat.mul_le_mul_right _ q2, ?_, ?_⟩
  · exact Nat.mul_lt_mul_of_pos_right q3 hc.bpz_pos
  · rw [Nat.mul_div_cancel _ hc.bpz_pos]; exact q4

theorem zone_first_address (st : FtlState) (dev : Nvme) (hc : Cfg st dev) (z : Nat)
    (h1 : st.log_zone_num_config ≤ z) (h2 : z < st.zns_num_zones - 1) :
    zone_2_address st z % st.lba_size_bytes = 0 ∧ zone_2_address st z < st.capacity_bytes ∧
    address_2_zone st (zone_2_address st z) = z := by
  have hl : 0 < st.lba_size_bytes := by have := hc.lsb4; omega
  have hpos : 0 < st.blocks_per_zone * st.lba_size_bytes := Nat.mul_pos hc.bpz_pos hl
  unfold zone_2_address address_2_zone
  refine ⟨?_, ?_, ?_⟩
  · rw [← Nat.mul_assoc]
    exact Nat.mul_mod_left _ _
  · rw [hc.cap]
    exact Nat.mul_lt_mul_of_pos_right (by omega) hpos
  · rw [Nat.mul_div_cancel _ hpos]
    omega

/-- C12. In every state reachable from `init_ss_zns_device` with `force_reset` on a
well-configured device by writes at block-aligned addresses that end below
`capacity_bytes` and by GC passes, a GC pass returns 0 (every device call of
it succeeds), and afterwards: for every address `LA` that had an entry in
`log_mapping`, `data_mapping` has `address_2_zone(LA)` and its value is a
multiple of `B` in `[L*B, (Z-1)*B)` with `zone_states[value / B] == FULL`; and
every zone that had an entry in `data_mapping` still has one, with the same
properties. -/
theorem gc_pass_data_map_full (params : zdev_init_params) (dev0 : Nvme)
    (hw : well_configured params dev0) (st : FtlState) (dev : Nvme) (W : List Nat)
    (hr : Reachable params dev0 st dev W) :
    ∃ st' dev', gc_pass st dev = some (0, st', dev') ∧
      (∀ LA, map_contains st.log_mapping LA = true →
        ∃ v, map_find st'.data_mapping (address_2_zone st LA) = some v ∧
          v % st.blocks_per_zone = 0 ∧ st.log_zone_num_config * st.blocks_per_zone ≤ v ∧
          v < (st.zns_num_zones - 1) * st.blocks_per_zone ∧
          st'.zone_states (v / st.blocks_per_zone) = FULL) ∧
      (∀ z, map_contains st.data_mapping z = true →
        ∃ v, map_find st'.data_mapping z = some v ∧
          v % st.blocks_per_zone = 0 ∧ st.log_zone_num_config * st.blocks_per_zone ≤ v ∧
          v < (st.zns_num_zones - 1) * st.blocks_per_zone ∧
          st'.zone_states (v / st.blocks_per_zone) = FULL) := by
  obtain ⟨⟨hc, hd, hg, hm⟩, -⟩ := reachable_invariant params dev0 hw st dev W hr
  obtain ⟨st1, dev1, p1, c1, d1, l1, -, -, -, e4, p2⟩ := gc_pass_spec st dev hc hd hg
  obtain ⟨f1, f2, f3, f4, -⟩ := gc_pass_frame st dev hc.mdts_pos 0 st1 dev1 p1
  have hz : ∀ a, address_2_zone st1 a = address_2_zone st a := by
    intro a
    unfold address_2_zone
    rw [f1, f2, f3]
  have key : ∀ a, a % st.lba_size_bytes = 0 → a < st.capacity_bytes →
      (map_contains st.log_mapping a = true ∨
        map_contains st.data_mapping (address_2_zone st a) = true) →
      ∃ v, map_find st1.data_mapping (address_2_zone st a) = some v ∧
        v % st.blocks_per_zone = 0 ∧ st.log_zone_num_config * st.blocks_per_zone ≤ v ∧
        v < (st.zns_num_zones - 1) * st.blocks_per_zone ∧
        st1.zone_states (v / st.blocks_per_zone) = FULL := by
    intro a a1 a2 a3
    obtain ⟨s, hs⟩ := backing_of_covered st a a3
    obtain ⟨s', hs', -⟩ := p2 a s a1 a2 hs
    have hcov := covered_of_backing st1 a s' e4 hs'
    rw [hz] at hcov
    cases hf : map_find st1.data_mapping (address_2_zone st a) with
    | none =>
      rw [(map_contains_eq_false _ _).2 hf] at hcov
      exact absurd hcov (by simp)
    | some v =>
      have := data_value_facts st1 dev1 c1 d1 _ v hf
      rw [f1, f3, f4] at this
      exact ⟨v, rfl, this⟩
  refine ⟨st1, dev1, p1, ?_, ?_⟩
  · intro LA hLA
    cases hf : map_find st.log_mapping LA with
    | none =>
      rw [(map_contains_eq_false _ _).2 hf] at hLA
      exact absurd hLA (by simp)
    | some v =>
      obtain ⟨a1, a2, -⟩ := hg.entries (LA, v) (mem_of_map_find _ _ _ hf)
      exact key LA a1 a2 (Or.inl hLA)
  · intro z hz'
    cases hf : map_find st.data_mapping z with
    | none =>
      rw [(map_contains_eq_false _ _).2 hf] at hz'
      exact absurd hz' (by simp)
    | some v =>
      obtain ⟨z1, z2, -⟩ := data_entry_of_find st dev hd z v hf
      obtain ⟨a1, a2, a3⟩ := zone_first_address st dev hc z z1 z2
      have := key (zone_2_address st z) a1 a2 (Or.inr (by rw [a3]; exact hz'))
      rw [a3] at this
      exact this

/-- C12 at the boundary configuration: the pass after a write of one block at
address 0. -/
theorem gc_pass_data_map_full_witness :
    ∃ st' dev', gc_pass scn_one.1 scn_one.2 = some (0, st', dev') ∧
      (∀ LA, map_contains scn_one.1.log_mapping LA = true →
        ∃ v, map_find st'.data_mapping (address_2_zone scn_one.1 LA) = some v ∧
          v % scn_one.1.blocks_per_zone = 0 ∧
          scn_one.1.log_zone_num_config * scn_one.1.blocks_per_zone ≤ v ∧
          v < (scn_one.1.zns_num_zones - 1) * scn_one.1.blocks_per_zone ∧
          st'.zone_states (v / scn_one.1.blocks_per_zone) = FULL) ∧
      (∀ z, map_contains scn_one.1.data_mapping z = true →
        ∃ v, map_find st'.data_mapping z = some v ∧
          v % scn_one.1.blocks_per_zone = 0 ∧
          scn_one.1.log_zone_num_config * scn_one.1.blocks_per_zone ≤ v ∧
          v < (scn_one.1.zns_num_zones - 1) * scn_one.1.blocks_per_zone ∧
          st'.zone_states (v / scn_one.1.blocks_per_zone) = FULL) :=
  gc_pass_data_map_full scn_params scn_dev
    ⟨rfl, by decide, by decide, by decide, by decide, by decide, by decide⟩
    scn_one.1 scn_one.2
    (if (0 : Int) = 0 then written_blocks scn_state.lba_size_bytes 0 4096 ++ [] else [])
    (Reachable.write scn_state scn_nvme [] 0 (scn_data 0xa0) 4096 0 scn_one.1 scn_one.2
      (Reachable.init scn_state scn_nvme rfl) (by decide) (by decide) rfl)

/-! ## The log region -/

theorem append_mem (dev : Nvme) (z n l : Nat) (b : Buf) :
    ((nvme_zns_append dev z n l b).1 ≠ 0 → (nvme_zns_append dev z n l b).2.2.mem = dev.mem) ∧
    ((nvme_zns_append dev z n l b).1 = 0 →
      (nvme_zns_append dev z n l b).2.2.mem =
        mem_store dev (nvme_zns_append dev z n l b).2.1 (n + 1) b 0 ∧
      l = (n + 1) * dev.lba_size ∧
      z ≤ (nvme_zns_append dev z n l b).2.1 ∧
      (nvme_zns_append dev z n l b).2.1 + (n + 1) ≤ z + dev.zsze) := by
  by_cases hs : append_status dev z n l = 0
  · have hw : l = (n + 1) * dev.lba_size ∧ dev.wp (z / dev.zsze) + n + 1 ≤ dev.zsze := by
      unfold append_status at hs
      split at hs
      · exact absurd hs (by decide)
      · split at hs
        · exact absurd hs (by decide)
        · split at hs
          · exact absurd hs (by decide)
          · rename_i hlen
            split at hs
            · exact absurd hs (by decide)
            · split at hs
              · exact absurd hs (by decide)
              · refine ⟨?_, by omega⟩
                by_contra hc; exact hlen hc
    unfold nvme_zns_append
    simp only [hs, ne_eq, not_true_eq_false, if_false]
    exact ⟨fun h => False.elim h, fun _ => ⟨trivial, hw.1, Nat.le_add_right _ _, by omega⟩⟩
  · unfold nvme_zns_append
    simp only [hs, ne_eq, not_false_eq_true, if_true]
    exact ⟨fun _ => rfl, fun h => False.elim h⟩

theorem blocked_state (st : FtlState) (dev : Nvme) (address : Nat) (buffer : Buf) (size : Nat)
    (st' : FtlState)
    (hw : zns_udevice_write st dev address buffer size = Outcome.blocked st') :
    st' = st ∨ st' = { st with do_gc := true } := by
  unfold zns_udevice_write at hw
  split at hw
  · exact absurd hw (by simp)
  · unfold write_locked at hw
    simp only [] at hw
    split at hw
    · simp only [Outcome.blocked.injEq] at hw
      exact Or.inl hw.symm
    · split at hw
      · simp only [Outcome.blocked.injEq] at hw
        exact Or.inr hw.symm
      · split at hw <;> exact absurd hw (by simp)

theorem cfg_of_frame (st st' : FtlState) (dev dev' : Nvme) (hc : Cfg st dev)
    (h1 : st'.blocks_per_zone = st.blocks_per_zone)
    (h2 : st'.lba_size_bytes = st.lba_size_bytes)
    (h3 : st'.log_zone_num_config = st.log_zone_num_config)
    (h4 : st'.zns_num_zones = st.zns_num_zones)
    (h5 : st'.gc_watermark = st.gc_watermark) (h6 : st'.mdts = st.mdts)
    (h7 : st'.capacity_bytes = st.capacity_bytes)
    (h8 : st'.log_zone_start = st.log_zone_start) (hs : same_shape dev dev') :
    Cfg st' dev' := by
  obtain ⟨g1, g2, g3⟩ := hc.geo
  exact
    { geo := ⟨by rw [hs.1, g1, h4], by rw [hs.2.1, g2, h1], by rw [hs.2.2, g3, h2]⟩
      lsb4 := by rw [h2]; exact hc.lsb4
      lsb_dvd := by rw [h2, h6]; exact hc.lsb_dvd
      mdts_pos := by rw [h6]; exact hc.mdts_pos
      mdts_blocks := by rw [h2, h6]; exact hc.mdts_blocks
      bpz_pos := by rw [h1]; exact hc.bpz_pos
      zones_fit := by rw [h3, h4]; exact hc.zones_fit
      small := by rw [h1, h4]; exact hc.small
      wmark := by rw [h5]; exact hc.wmark
      cap := by rw [h7, h4, h3, h1, h2]; exact hc.cap
      start0 := by rw [h8]; exact hc.start0 }

theorem write_log_bound (st : FtlState) (dev : Nvme) (hb : LogBound st dev)
    (address : Nat) (buffer : Buf) (size : Nat) (ret : Int) (st' : FtlState) (dev' : Nvme)
    (hsz : size < 2 ^ 32)
    (hw : zns_udevice_write st dev address buffer size = Outcome.returned (ret, st', dev')) :
    LogBound st' dev' ∧
    (dev' = dev ∨
      (st.gc_watermark < get_free_lz_num st (int32_of (size / st.lba_size_bytes)) ∧
        ∃ zslba, zslba + st.blocks_per_zone ≤ st.log_zone_num_config * st.blocks_per_zone ∧
          dev'.trace =
            { op := Opcode.append, slba := zslba, nlb := nlb_of (size / st.lba_size_bytes),
              len := size, ret := ret } :: dev.trace)) ∧
    (∀ l o, st.log_zone_num_config * st.blocks_per_zone ≤ l → dev'.mem l o = dev.mem l o) ∧
    (ret = 0 →
      ∃ res, res + size / st.lba_size_bytes ≤ st.log_zone_num_config * st.blocks_per_zone ∧
        dev'.mem = mem_store dev res (size / st.lba_size_bytes) buffer 0) := by
  obtain ⟨hc, hle⟩ := hb
  have hl : 0 < st.lba_size_bytes := by have := hc.lsb4; omega
  have hB := hc.bpz_pos
  have hsm := hc.small
  obtain ⟨g1, g2, g3⟩ := hc.geo
  have hblocks : size / st.lba_size_bytes < 2 ^ 31 := by
    have h1 : size / st.lba_size_bytes ≤ size / 4 := Nat.div_le_div_left hc.lsb4 (by decide)
    omega
  unfold zns_udevice_write at hw
  split at hw
  · simp only [Outcome.returned.injEq, Prod.mk.injEq] at hw
    obtain ⟨w1, w2, w3⟩ := hw
    subst w2 w3
    rw [← w1]
    exact ⟨⟨hc, hle⟩, Or.inl rfl, fun _ _ _ => rfl, fun h => absurd h (by decide)⟩
  · unfold write_locked at hw
    simp only [] at hw
    split at hw
    · exact absurd hw (by simp)
    · split at hw
      · exact absurd hw (by simp)
      · rename_i hmx hfree
        have hspace := free_log_space st dev hc _ hblocks hfree
        have hz : st.log_zone_end / st.blocks_per_zone < st.log_zone_num_config := by
          rw [Nat.div_lt_iff_lt_mul hB]
          exact lt_of_le_of_lt (Nat.le_add_right _ _) hspace
        have hzb := zone_bound st.log_zone_num_config st.blocks_per_zone _ hz
        have hLB : st.log_zone_num_config * st.blocks_per_zone ≤
            st.zns_num_zones * st.blocks_per_zone :=
          Nat.mul_le_mul_right _ (by have := hc.zones_fit; omega)
        have hzs : u64_of (int32_of (st.log_zone_end / st.blocks_per_zone) *
            (st.blocks_per_zone : Int)) =
            st.log_zone_end / st.blocks_per_zone * st.blocks_per_zone := by
          rw [int32_of_small _ (by
            have : st.log_zone_num_config ≤ st.zns_num_zones * st.blocks_per_zone :=
              le_trans (by have := hc.zones_fit; omega)
                (Nat.le_mul_of_pos_right _ hB)
            omega)]
          rw [← Int.ofNat_mul, u64_of_small _ (by omega)]
        rw [hzs] at hw
        obtain ⟨zs, hzs'⟩ : ∃ zs, st.log_zone_end / st.blocks_per_zone * st.blocks_per_zone = zs :=
          ⟨_, rfl⟩
        rw [hzs'] at hw hzb
        obtain ⟨f1, f2, f3, -, f5⟩ := append_facts dev zs
          (nlb_of (size / st.lba_size_bytes)) size buffer
        obtain ⟨m1, m2⟩ := append_mem dev zs (nlb_of (size / st.lba_size_bytes)) size buffer
        have ht := nvme_zns_append_trace dev zs (nlb_of (size / st.lba_size_bytes)) size buffer
        have hret := nvme_zns_append_ret dev zs (nlb_of (size / st.lba_size_bytes)) size buffer
        rw [← hret] at ht
        rw [g2] at f5 m2
        rw [g3] at m2
        have hshape : same_shape dev (nvme_zns_append dev zs
            (nlb_of (size / st.lba_size_bytes)) size buffer).2.2 := ⟨f1, f2, f3⟩
        generalize nvme_zns_append dev zs (nlb_of (size / st.lba_size_bytes)) size buffer = r
          at hw f5 m1 m2 ht hshape
        have hfree' : st.gc_watermark <
            get_free_lz_num st (int32_of (size / st.lba_size_bytes)) := by omega
        split at hw
        · rename_i hr
          simp only [Outcome.returned.injEq, Prod.mk.injEq] at hw
          obtain ⟨w1, w2, w3⟩ := hw
          subst w2 w3
          rw [← w1]
          refine ⟨⟨?_, hle⟩, Or.inr ⟨hfree', zs, hzb, ht⟩, ?_, fun h => absurd h hr⟩
          · exact cfg_of_frame st _ dev _ hc rfl rfl rfl rfl rfl rfl rfl rfl hshape
          · intro l o _
            rw [m1 hr]
        · rename_i hr
          have hr0 : r.1 = 0 := by
            by_contra h; exact hr h
          simp only [Outcome.returned.injEq, Prod.mk.injEq] at hw
          obtain ⟨w1, w2, w3⟩ := hw
          subst w2 w3
          obtain ⟨q1, q2, q3, q4⟩ := m2 hr0
          have hn : nlb_of (size / st.lba_size_bytes) + 1 = size / st.lba_size_bytes := by
            conv_rhs => rw [q2]
            exact (Nat.mul_div_cancel _ hl).symm
          rw [hn] at q1 q4
          rw [← w1]
          refine ⟨⟨?_, ?_⟩, Or.inr ⟨hfree', zs, hzb, ?_⟩, ?_, fun _ => ⟨r.2.1, by omega, q1⟩⟩
          · exact cfg_of_frame st _ dev _ hc rfl rfl rfl rfl rfl rfl rfl rfl hshape
          · show r.2.1 + 1 ≤ st.log_zone_num_config * st.blocks_per_zone
            have := f5 hr0
            omega
          · rw [ht, hr0]
          · intro l o hlo
            rw [q1]
            unfold mem_store
            rw [if_neg (by omega)]

theorem runs_log_bound (params : zdev_init_params) (dev0 : Nvme)
    (hw : well_configured params dev0) (st : FtlState) (dev : Nvme)
    (hr : Runs params dev0 st dev) : LogBound st dev := by
  induction hr with
  | init st dev h =>
    obtain ⟨⟨hc, -, hg, -⟩, -⟩ := init_invariant params dev0 hw st dev h
    exact ⟨hc, hg.log_end⟩
  | write st dev address buffer size ret st' dev' _ hsz hwr ih =>
    exact (write_log_bound st dev ih address buffer size ret st' dev' hsz hwr).1
  | wait st dev address buffer size st' _ hwr ih =>
    rcases blocked_state st dev address buffer size st' hwr with h | h
    · rw [h]; exact ih
    · rw [h]
      exact ⟨cfg_of_frame st _ dev dev ih.1 rfl rfl rfl rfl rfl rfl rfl rfl (same_shape_refl dev),
        ih.2⟩
  | gc st dev ret st' dev' _ hgc ih =>
    obtain ⟨f1, f2, f3, f4, f5, f6, f7, f8, f9, f10⟩ :=
      gc_pass_frame st dev ih.1.mdts_pos ret st' dev' hgc
    refine ⟨cfg_of_frame st st' dev dev' ih.1 f1 f2 f3 f4 f5 f6 f7 f8 f10, ?_⟩
    rw [f9, ih.1.start0]
    exact Nat.zero_le _

/-- C13. In every state reachable from `init_ss_zns_device` with `force_reset` on a
well-configured device (watermark not negative) by writes of any address and
32-bit size and by GC passes: `get_free_lz_num(0) >= 0` and
`log_zone_end - log_zone_start <= L*B`; and a call of `zns_udevice_write` for
`n = size / lba_size` blocks that returns either leaves the device as it was
or issued one command, an append to the start of a log zone, and then
`get_free_lz_num(n) > gc_watermark`; no block from `L*B` on is changed, and
when the call returns 0 the `n` blocks written are `res .. res + n` with
`res + n <= L*B`. -/
theorem log_region_never_overflows (params : zdev_init_params) (dev0 : Nvme)
    (hw : well_configured params dev0) (st : FtlState) (dev : Nvme)
    (hr : Runs params dev0 st dev) :
    0 ≤ get_free_lz_num st 0 ∧
    (st.log_zone_end : Int) - (st.log_zone_start : Int) ≤
      ((st.log_zone_num_config * st.blocks_per_zone : Nat) : Int) ∧
    ∀ (address : Nat) (buffer : Buf) (size : Nat) (ret : Int) (st' : FtlState) (dev' : Nvme),
      size < 2 ^ 32 →
      zns_udevice_write st dev address buffer size = Outcome.returned (ret, st', dev') →
      (dev' = dev ∨
        (st.gc_watermark < get_free_lz_num st (int32_of (size / st.lba_size_bytes)) ∧
          ∃ zslba, zslba + st.blocks_per_zone ≤ st.log_zone_num_config * st.blocks_per_zone ∧
            dev'.trace =
              { op := Opcode.append, slba := zslba, nlb := nlb_of (size / st.lba_size_bytes),
                len := size, ret := ret } :: dev.trace)) ∧
      (∀ l o, st.log_zone_num_config * st.blocks_per_zone ≤ l → dev'.mem l o = dev.mem l o) ∧
      (ret = 0 →
        ∃ res, res + size / st.lba_size_bytes ≤ st.log_zone_num_config * st.blocks_per_zone ∧
          dev'.mem = mem_store dev res (size / st.lba_size_bytes) buffer 0) := by
  have hb := runs_log_bound params dev0 hw st dev hr
  obtain ⟨hc, hle⟩ := hb
  refine ⟨?_, ?_, ?_⟩
  · unfold get_free_lz_num
    rw [hc.start0]
    have e : (st.log_zone_end : Int) - ((0 : Nat) : Int) + 0 = ((st.log_zone_end : Nat) : Int) := by
      simp
    rw [e, ← Int.ofNat_tdiv]
    have h1 : st.log_zone_end / st.blocks_per_zone ≤ st.log_zone_num_config := by
      have := Nat.div_le_div_right (c := st.blocks_per_zone) hle
      rw [Nat.mul_div_cancel _ hc.bpz_pos] at this
      exact this
    omega
  · rw [hc.start0]
    omega
  · intro address buffer size ret st' dev' hsz hwr
    exact (write_log_bound st dev ⟨hc, hle⟩ address buffer size ret st' dev' hsz hwr).2

/-- C13 at the boundary configuration, after a write of one block at address 0. -/
theorem log_region_never_overflows_witness :
    0 ≤ get_free_lz_num scn_one.1 0 ∧
    (scn_one.1.log_zone_end : Int) - (scn_one.1.log_zone_start : Int) ≤
      ((scn_one.1.log_zone_num_config * scn_one.1.blocks_per_zone : Nat) : Int) ∧
    ∀ (address : Nat) (buffer : Buf) (size : Nat) (ret : Int) (st' : FtlState) (dev' : Nvme),
      size < 2 ^ 32 →
      zns_udevice_write scn_one.1 scn_one.2 address buffer size =
        Outcome.returned (ret, st', dev') →
      (dev' = scn_one.2 ∨
        (scn_one.1.gc_watermark <
            get_free_lz_num scn_one.1 (int32_of (size / scn_one.1.lba_size_bytes)) ∧
          ∃ zslba, zslba + scn_one.1.blocks_per_zone ≤
              scn_one.1.log_zone_num_config * scn_one.1.blocks_per_zone ∧
            dev'.trace =
              { op := Opcode.append, slba := zslba,
                nlb := nlb_of (size / scn_one.1.lba_size_bytes),
                len := size, ret := ret } :: scn_one.2.trace)) ∧
      (∀ l o, scn_one.1.log_zone_num_config * scn_one.1.blocks_per_zone ≤ l →
        dev'.mem l o = scn_one.2.mem l o) ∧
      (ret = 0 →
        ∃ res, res + size / scn_one.1.lba_size_bytes ≤
            scn_one.1.log_zone_num_config * scn_one.1.blocks_per_zone ∧
          dev'.mem = mem_store scn_one.2 res (size / scn_one.1.lba_size_bytes) buffer 0) :=
  log_region_never_overflows scn_params scn_dev
    ⟨rfl, by decide, by decide, by decide, by decide, by decide, by decide⟩
    scn_one.1 scn_one.2
    (Runs.write scn_state scn_nvme 0 (scn_data 0xa0) 4096 0 scn_one.1 scn_one.2
      (Runs.init scn_state scn_nvme rfl) (by decide) rfl)

/-! ## The target zone of a merge -/

theorem find_empty_from_first (st : FtlState) : ∀ (n i : Nat),
    (i + n) * st.blocks_per_zone < 2 ^ 31 →
    (∃ j, i ≤ j ∧ j < i + n ∧ st.zone_states j = EMPTY ∧
      (∀ k, i ≤ k → k < j → st.zone_states k ≠ EMPTY) ∧
      find_empty_from st n i = ((j * st.blocks_per_zone : Nat) : Int)) ∨
    (find_empty_from st n i = -1 ∧ ∀ j, i ≤ j → j < i + n → st.zone_states j ≠ EMPTY) := by
  intro n
  induction n with
  | zero =>
    intro i _
    right
    exact ⟨rfl, fun j h1 h2 => by omega⟩
  | succ n ih =>
    intro i hs
    simp only [find_empty_from]
    by_cases h : st.zone_states i = EMPTY
    · left
      rw [if_pos h]
      refine ⟨i, le_refl _, by omega, h, fun k h1 h2 => by omega, ?_⟩
      apply int32_of_small
      have : i * st.blocks_per_zone ≤ (i + (n + 1)) * st.blocks_per_zone :=
        Nat.mul_le_mul_right _ (by omega)
      omega
    · rw [if_neg h]
      have e : i + 1 + n = i + (n + 1) := by omega
      rcases ih (i + 1) (by rw [e]; exact hs) with ⟨j, h1, h2, h3, h4, h5⟩ | ⟨h1, h2⟩
      · left
        refine ⟨j, by omega, by omega, h3, ?_, h5⟩
        intro k k1 k2
        rcases Nat.eq_or_lt_of_le k1 with hk | hk
        · rw [← hk]; exact h
        · exact h4 k hk k2
      · right
        refine ⟨h1, ?_⟩
        intro j j1 j2
        rcases Nat.eq_or_lt_of_le j1 with hk | hk
        · rw [← hk]; exact h
        · exact h2 j hk (by omega)

/-- C22. With the block addresses of the data zones fitting an `int`
(`(Z-1) * B < 2^31`): `find_next_empty_zone` returns `i * B` for the smallest `i`
with `L <= i < Z-1` and `zone_states[i] == EMPTY`; it returns -1 exactly when
there is no such zone; a value other than -1 is the first block of a data
zone, at least `L * B` and below `(Z-1) * B`, so never a block of a log zone or
of the metadata zone; and the value depends on the states of the zones
`L .. Z-2` only. -/
theorem find_next_empty_zone_selects_first (st : FtlState)
    (hs : (st.zns_num_zones - 1) * st.blocks_per_zone < 2 ^ 31) :
    (∀ i, st.log_zone_num_config ≤ i → i < st.zns_num_zones - 1 →
      st.zone_states i = EMPTY →
      (∀ k, st.log_zone_num_config ≤ k → k < i → st.zone_states k ≠ EMPTY) →
      find_next_empty_zone st = ((i * st.blocks_per_zone : Nat) : Int)) ∧
    (find_next_empty_zone st = -1 ↔
      ∀ i, st.log_zone_num_config ≤ i → i < st.zns_num_zones - 1 →
        st.zone_states i ≠ EMPTY) ∧
    (find_next_empty_zone st ≠ -1 →
      ∃ i, st.log_zone_num_config ≤ i ∧ i < st.zns_num_zones - 1 ∧
        find_next_empty_zone st = ((i * st.blocks_per_zone : Nat) : Int) ∧
        st.log_zone_num_config * st.blocks_per_zone ≤ i * st.blocks_per_zone ∧
        i * st.blocks_per_zone + st.blocks_per_zone ≤
          (st.zns_num_zones - 1) * st.blocks_per_zone) ∧
    (∀ zs : Nat → Nat,
      (∀ i, st.log_zone_num_config ≤ i → i < st.zns_num_zones - 1 →
        zs i = st.zone_states i) →
      find_next_empty_zone { st with zone_states := zs } = find_next_empty_zone st) := by
  have key : ∀ s : FtlState, s.zns_num_zones = st.zns_num_zones →
      s.log_zone_num_config = st.log_zone_num_config →
      s.blocks_per_zone = st.blocks_per_zone →
      (∃ j, st.log_zone_num_config ≤ j ∧ j < st.zns_num_zones - 1 ∧ s.zone_states j = EMPTY ∧
        (∀ k, st.log_zone_num_config ≤ k → k < j → s.zone_states k ≠ EMPTY) ∧
        find_next_empty_zone s = ((j * st.blocks_per_zone : Nat) : Int)) ∨
      (find_next_empty_zone s = -1 ∧
        ∀ j, st.log_zone_num_config ≤ j → j < st.zns_num_zones - 1 →
          s.zone_states j ≠ EMPTY) := by
    intro s e1 e2 e3
    unfold find_next_empty_zone
    rw [e1, e2]
    by_cases hle : st.log_zone_num_config ≤ st.zns_num_zones - 1
    · have e : st.log_zone_num_config + (st.zns_num_zones - 1 - st.log_zone_num_config) =
          st.zns_num_zones - 1 := by omega
      have h := find_empty_from_first s (st.zns_num_zones - 1 - st.log_zone_num_config)
        st.log_zone_num_config (by rw [e, e3]; exact hs)
      rw [e, e3] at h
      exact h
    · have e : st.zns_num_zones - 1 - st.log_zone_num_config = 0 := by omega
      rw [e]
      right
      exact ⟨rfl, fun j h1 h2 => by omega⟩
  have hneg : ∀ j : Nat, ((j * st.blocks_per_zone : Nat) : Int) ≠ -1 := by
    intro j; omega
  refine ⟨?_, ?_, ?_, ?_⟩
  · intro i i1 i2 i3 i4
    rcases key st rfl rfl rfl with ⟨j, j1, j2, j3, j4, j5⟩ | ⟨-, h2⟩
    · have : j = i := by
        rcases Nat.lt_trichotomy j i with h | h | h
        · exact absurd j3 (i4 j j1 h)
        · exact h
        · exact absurd i3 (j4 i i1 h)
      rw [j5, this]
    · exact absurd i3 (h2 i i1 i2)
  · constructor
    · intro h
      rcases key st rfl rfl rfl with ⟨j, j1, j2, j3, j4, j5⟩ | ⟨-, h2⟩
      · rw [j5] at h; exact absurd h (hneg j)
      · exact h2
    · intro h
      rcases key st rfl rfl rfl with ⟨j, j1, j2, j3, j4, j5⟩ | ⟨h1, -⟩
      · exact absurd j3 (h j j1 j2)
      · exact h1
  · intro h
    rcases key st rfl rfl rfl with ⟨j, j1, j2, j3, j4, j5⟩ | ⟨h1, -⟩
    · refine ⟨j, j1, j2, j5, Nat.mul_le_mul_right _ j1, ?_⟩
      exact zone_bound (st.zns_num_zones - 1) st.blocks_per_zone j j2
    · exact absurd h1 h
  · intro zs hzs
    rcases key st rfl rfl rfl with ⟨j, j1, j2, j3, j4, j5⟩ | ⟨h1, h2⟩
    · rcases key { st with zone_states := zs } rfl rfl rfl with
        ⟨j', q1, q2, q3, q4, q5⟩ | ⟨-, q2⟩
      · have q3' : st.zone_states j' = EMPTY := by rw [← hzs j' q1 q2]; exact q3
        have j3' : zs j = EMPTY := by rw [hzs j j1 j2]; exact j3
        have : j' = j := by
          rcases Nat.lt_trichotomy j' j with h | h | h
          · exact absurd q3' (j4 j' q1 h)
          · exact h
          · exact absurd j3' (q4 j j1 h)
        rw [q5, j5, this]
      · have := q2 j j1 j2
        exact absurd (by rw [← j3, ← hzs j j1 j2] : zs j = EMPTY) this
    · rcases key { st with zone_states := zs } rfl rfl rfl with
        ⟨j', q1, q2, q3, q4, q5⟩ | ⟨q1, -⟩
      · exact absurd (by rw [← hzs j' q1 q2]; exact q3 : st.zone_states j' = EMPTY) (h2 j' q1 q2)
      · rw [q1, h1]

/-- C22 at the boundary configuration: with data zone 3 `FULL` and the others `EMPTY`
the target is block 16, the first block of zone 4. -/
theorem find_next_empty_zone_selects_first_witness :
    find_next_empty_zone (after_gc scn_one).1 = ((4 * (after_gc scn_one).1.blocks_per_zone : Nat) : Int) ∧
    (after_gc scn_one).1.zone_states 3 = FULL :=
  ⟨(find_next_empty_zone_selects_first (after_gc scn_one).1 (by decide)).1 4 (by decide)
    (by decide) (by decide) (fun k h1 h2 => by
      have : k = 3 := by
        have e : (after_gc scn_one).1.log_zone_num_config = 3 := by decide
        omega
      rw [this]; decide), by decide⟩

/-! ## Chunks of `mdts` bytes -/

theorem mdts_loop_step (st : FtlState) (read : Bool) (fuel : Nat) (dev : Nvme) (buffer : Buf)
    (size_left ptr wp : Nat) (ret : Int) (h : 0 < size_left) :
    mdts_loop st read (fuel + 1) dev buffer size_left ptr wp ret =
      if (chunk_command read dev buffer ptr wp
          (chunk_lba_num st.lba_size_bytes (chunk_bytes st size_left))
          (chunk_bytes st size_left)).1 ≠ 0 then
        some (chunk_command read dev buffer ptr wp
          (chunk_lba_num st.lba_size_bytes (chunk_bytes st size_left))
          (chunk_bytes st size_left))
      else
        mdts_loop st read fuel
          (chunk_command read dev buffer ptr wp
            (chunk_lba_num st.lba_size_bytes (chunk_bytes st size_left))
            (chunk_bytes st size_left)).2.2
          (chunk_command read dev buffer ptr wp
            (chunk_lba_num st.lba_size_bytes (chunk_bytes st size_left))
            (chunk_bytes st size_left)).2.1
          (size_left - chunk_bytes st size_left) (ptr + chunk_bytes st size_left)
          ((wp + chunk_lba_num st.lba_size_bytes (chunk_bytes st size_left) + 1) % 2 ^ 64)
          (chunk_command read dev buffer ptr wp
            (chunk_lba_num st.lba_size_bytes (chunk_bytes st size_left))
            (chunk_bytes st size_left)).1 := by
  simp only [mdts_loop]
  rw [if_pos h]
  rfl

theorem chunk_lba_num_cases (lsb io : Nat) (hl : 0 < lsb) (hio : 0 < io) (h64 : io < 2 ^ 64) :
    chunk_lba_num lsb io * lsb < io ∧ io ≤ (chunk_lba_num lsb io + 1) * lsb := by
  have hq := Nat.div_add_mod io lsb
  have hr := Nat.mod_lt io hl
  have hq64 : io / lsb < 2 ^ 64 := lt_of_le_of_lt (Nat.div_le_self _ _) h64
  unfold chunk_lba_num
  by_cases h0 : io % lsb = 0
  · rw [if_pos h0]
    rw [h0, Nat.add_zero] at hq
    have hq1 : 1 ≤ io / lsb := by
      rcases Nat.eq_zero_or_pos (io / lsb) with h | h
      · rw [h, Nat.mul_zero] at hq; omega
      · exact h
    have e : (io / lsb + 2 ^ 64 - 1) % 2 ^ 64 = io / lsb - 1 := by omega
    rw [e]
    have e2 : io / lsb - 1 + 1 = io / lsb := by omega
    rw [e2]
    constructor
    · have : (io / lsb - 1) * lsb < (io / lsb) * lsb :=
        Nat.mul_lt_mul_of_pos_right (by omega) hl
      rw [Nat.mul_comm] at hq
      omega
    · rw [Nat.mul_comm] at hq
      omega
  · rw [if_neg h0]
    have e : (io / lsb + 2 ^ 64 - 0) % 2 ^ 64 = io / lsb := by
      rw [Nat.sub_zero, Nat.add_mod_right, Nat.mod_eq_of_lt hq64]
    rw [e, Nat.add_mul, Nat.one_mul]
    rw [Nat.mul_comm] at hq
    constructor <;> omega

/-- C28. For a chunk of `io_num > 0` bytes (a `uint64_t`) and `lba_size > 0`, the count
`io_num / lba_size - (io_num % lba_size == 0 ? 1 : 0)` that
`ss_nvme_device_io_with_mdts` computes is `ceil(io_num / lba_size) - 1`; and when
the command of the chunk returns 0, the loop goes on with the starting LBA
`wp + count + 1` (in 64 bits), `io_num` bytes further in the buffer. -/
theorem chunk_count_zero_based (st : FtlState) (read : Bool) (fuel : Nat) (dev : Nvme)
    (buffer : Buf) (size_left ptr wp : Nat) (ret : Int)
    (hl : 0 < st.lba_size_bytes) (hs : 0 < size_left) (hio : 0 < chunk_bytes st size_left)
    (h64 : chunk_bytes st size_left < 2 ^ 64) :
    ((chunk_lba_num st.lba_size_bytes (chunk_bytes st size_left) : Nat) : Int) =
      ⌈((chunk_bytes st size_left : Nat) : ℚ) / ((st.lba_size_bytes : Nat) : ℚ)⌉ - 1 ∧
    ((chunk_command read dev buffer ptr wp
        (chunk_lba_num st.lba_size_bytes (chunk_bytes st size_left))
        (chunk_bytes st size_left)).1 = 0 →
      mdts_loop st read (fuel + 1) dev buffer size_left ptr wp ret =
        mdts_loop st read fuel
          (chunk_command read dev buffer ptr wp
            (chunk_lba_num st.lba_size_bytes (chunk_bytes st size_left))
            (chunk_bytes st size_left)).2.2
          (chunk_command read dev buffer ptr wp
            (chunk_lba_num st.lba_size_bytes (chunk_bytes st size_left))
            (chunk_bytes st size_left)).2.1
          (size_left - chunk_bytes st size_left) (ptr + chunk_bytes st size_left)
          ((wp + chunk_lba_num st.lba_size_bytes (chunk_bytes st size_left) + 1) % 2 ^ 64)
          0) := by
  obtain ⟨c1, c2⟩ := chunk_lba_num_cases st.lba_size_bytes (chunk_bytes st size_left) hl hio h64
  constructor
  · have hlq : (0 : ℚ) < ((st.lba_size_bytes : Nat) : ℚ) := by exact_mod_cast hl
    have hc : ⌈((chunk_bytes st size_left : Nat) : ℚ) / ((st.lba_size_bytes : Nat) : ℚ)⌉ =
        ((chunk_lba_num st.lba_size_bytes (chunk_bytes st size_left) : Nat) : Int) + 1 := by
      rw [Int.ceil_eq_iff]
      constructor
      · rw [lt_div_iff₀ hlq]
        push_cast
        have : ((chunk_lba_num st.lba_size_bytes (chunk_bytes st size_left) : Nat) : ℚ) *
            ((st.lba_size_bytes : Nat) : ℚ) < ((chunk_bytes st size_left : Nat) : ℚ) := by
          exact_mod_cast c1
        linarith
      · rw [div_le_iff₀ hlq]
        push_cast
        have : ((chunk_bytes st size_left : Nat) : ℚ) ≤
            (((chunk_lba_num st.lba_size_bytes (chunk_bytes st size_left) : Nat) : ℚ) + 1) *
              ((st.lba_size_bytes : Nat) : ℚ) := by
          exact_mod_cast c2
        linarith
    rw [hc]
    omega
  · intro h
    rw [mdts_loop_step st read fuel dev buffer size_left ptr wp ret hs, if_neg (by rw [h]; simp), h]

/-- C28 at the boundary configuration: the read of the four blocks of data zone 3
(16384 bytes from block 12) is one chunk. -/
theorem chunk_count_zero_based_witness :
    ((chunk_lba_num scn_state.lba_size_bytes (chunk_bytes scn_state 16384) : Nat) : Int) =
      ⌈((chunk_bytes scn_state 16384 : Nat) : ℚ) / ((scn_state.lba_size_bytes : Nat) : ℚ)⌉ - 1 ∧
    ((chunk_command true scn_nvme zero_buf 0 12
        (chunk_lba_num scn_state.lba_size_bytes (chunk_bytes scn_state 16384))
        (chunk_bytes scn_state 16384)).1 = 0 →
      mdts_loop scn_state true (16384 + 1) scn_nvme zero_buf 16384 0 12 0 =
        mdts_loop scn_state true 16384
          (chunk_command true scn_nvme zero_buf 0 12
            (chunk_lba_num scn_state.lba_size_bytes (chunk_bytes scn_state 16384))
            (chunk_bytes scn_state 16384)).2.2
          (chunk_command true scn_nvme zero_buf 0 12
            (chunk_lba_num scn_state.lba_size_bytes (chunk_bytes scn_state 16384))
            (chunk_bytes scn_state 16384)).2.1
          (16384 - chunk_bytes scn_state 16384) (0 + chunk_bytes scn_state 16384)
          ((12 + chunk_lba_num scn_state.lba_size_bytes (chunk_bytes scn_state 16384) + 1) % 2 ^ 64)
          0) ∧
    chunk_lba_num scn_state.lba_size_bytes (chunk_bytes scn_state 16384) = 3 :=
  ⟨(chunk_count_zero_based scn_state true 16384 scn_nvme zero_buf 16384 0 12 0 (by decide)
      (by decide) (by decide) (by decide)).1,
    (chunk_count_zero_based scn_state true 16384 scn_nvme zero_buf 16384 0 12 0 (by decide)
      (by decide) (by decide) (by decide)).2,
    by decide⟩

/-! ## The staging loop -/

theorem find_staged_mem (st : FtlState) : ∀ (l : UMap Nat) (z off v : Nat),
    find_staged st l z off = some v →
    ∃ k, (k, v) ∈ l ∧ address_2_zone st k = z ∧ address_2_offset st k = off := by
  intro l
  induction l with
  | nil => intro z off v h; simp [find_staged] at h
  | cons e rest ih =>
    intro z off v h
    obtain ⟨k, w⟩ := e
    simp only [find_staged] at h
    split at h
    · rename_i hc
      simp only [Option.some.injEq] at h
      exact ⟨k, by rw [h]; exact List.mem_cons_self _ _, hc.1, hc.2⟩
    · obtain ⟨k', h1, h2, h3⟩ := ih z off v h
      exact ⟨k', List.mem_cons_of_mem _ h1, h2, h3⟩

theorem staged_pairs_set (m : UMap (UMap Nat)) (k : Nat) (x old : UMap Nat)
    (h : map_find m k = some old) :
    staged_pairs (map_set m k x) + old.length = staged_pairs m + x.length := by
  induction m with
  | nil => simp [map_find] at h
  | cons e rest ih =>
    obtain ⟨k1, v1⟩ := e
    simp only [map_find] at h
    simp only [map_set]
    by_cases hk : k1 = k
    · rw [if_pos hk] at h ⊢
      simp only [Option.some.injEq] at h
      simp only [staged_pairs, List.map_cons, List.sum_cons, h]
      omega
    · rw [if_neg hk] at h ⊢
      have := ih h
      simp only [staged_pairs, List.map_cons, List.sum_cons] at this ⊢
      omega

theorem staged_pairs_stage (zs : UMap (UMap Nat)) (zn ok pba : Nat)
    (h : staged zs zn ok = none) :
    staged_pairs (map_set (if map_contains zs zn then zs else map_assign zs zn []) zn
        (map_insert ((map_find (if map_contains zs zn then zs else map_assign zs zn []) zn).getD [])
          ok pba)) = staged_pairs zs + 1 := by
  have hset := stage_set_find zs zn ok
  rw [h] at hset
  have hins : (map_insert
      ((map_find (if map_contains zs zn then zs else map_assign zs zn []) zn).getD []) ok pba).length
      = ((map_find (if map_contains zs zn then zs else map_assign zs zn []) zn).getD []).length + 1 := by
    unfold map_insert
    rw [(map_contains_eq_false _ _).2 hset]
    rfl
  by_cases hc : map_contains zs zn = true
  · simp only [hc, if_true] at hins ⊢
    cases hf : map_find zs zn with
    | none =>
      rw [(map_contains_eq_false _ _).2 hf] at hc
      exact absurd hc (by simp)
    | some old =>
      have := staged_pairs_set zs zn (map_insert old ok pba) old hf
      rw [hf] at hins
      have hins' : (map_insert old ok pba).length = old.length + 1 := hins
      show staged_pairs (map_set zs zn (map_insert old ok pba)) = _
      omega
  · have hn : map_find zs zn = none := (map_contains_eq_false zs zn).1 (by simpa using hc)
    have hz1 : (if map_contains zs zn = true then zs else map_assign zs zn []) =
        (zn, []) :: zs := by
      rw [if_neg hc]
      unfold map_assign
      rw [if_neg hc]
    rw [hz1] at hins ⊢
    simp only [map_find, if_true, Option.getD_some, map_set] at hins ⊢
    simp only [staged_pairs, List.map_cons, List.sum_cons, hins]
    simp
    omega

theorem gc_stage_pairs (st : FtlState) : ∀ (l : UMap Nat) (zs : UMap (UMap Nat)),
    (∀ e ∈ l, staged zs (address_2_zone st e.1) (address_2_offset st e.1) = none) →
    (l.map (fun e => (address_2_zone st e.1, address_2_offset st e.1))).Nodup →
    staged_pairs (gc_stage st l zs) = staged_pairs zs + l.length := by
  intro l
  induction l with
  | nil => intro zs _ _; rfl
  | cons e rest ih =>
    intro zs h1 h2
    obtain ⟨addr, pba⟩ := e
    simp only [List.map_cons, List.nodup_cons] at h2
    simp only [gc_stage]
    rw [ih _ ?_ h2.2, staged_pairs_stage zs _ _ pba (h1 (addr, pba) (List.mem_cons_self _ _))]
    · simp only [List.length_cons]; omega
    · intro e he
      rw [stage_staged, h1 e (List.mem_cons_of_mem _ he)]
      simp only []
      rw [if_neg]
      intro hc
      apply h2.1
      rw [hc.1, hc.2]
      exact List.mem_map_of_mem (fun e => (address_2_zone st e.1, address_2_offset st e.1)) he

/-- C21. For a log map whose addresses are block-aligned (every address occurring
once, as in an `unordered_map`), after the staging loop: for every entry
`LA -> PBA` of the log map, `zone_sets[address_2_zone(LA)]` exists and sends
`address_2_offset(LA)` to `PBA`; every pair found in `zone_sets` comes from
such an entry; and the number of pairs in `zone_sets` is the size of the log
map. -/
theorem staging_groups_log_entries (st : FtlState)
    (hk : (st.log_mapping.map Prod.fst).Nodup)
    (ha : ∀ e ∈ st.log_mapping, e.1 % st.lba_size_bytes = 0) :
    (∀ LA PBA, (LA, PBA) ∈ st.log_mapping →
      ∃ set, map_find (gc_stage st st.log_mapping []) (address_2_zone st LA) = some set ∧
        map_find set (address_2_offset st LA) = some PBA) ∧
    (∀ z set off v, map_find (gc_stage st st.log_mapping []) z = some set →
      map_find set off = some v →
      ∃ LA, (LA, v) ∈ st.log_mapping ∧ address_2_zone st LA = z ∧
        address_2_offset st LA = off) ∧
    staged_pairs (gc_stage st st.log_mapping []) = st.log_mapping.length := by
  have hst : ∀ z off, staged (gc_stage st st.log_mapping []) z off =
      find_staged st st.log_mapping z off := by
    intro z off
    rw [gc_stage_staged]
    rfl
  refine ⟨?_, ?_, ?_⟩
  · intro LA PBA hm
    have h1 := hst (address_2_zone st LA) (address_2_offset st LA)
    rw [find_staged_eq_find st LA (ha _ hm) _ ha, map_find_some_of_mem _ _ _ hk hm] at h1
    unfold staged at h1
    cases hf : map_find (gc_stage st st.log_mapping []) (address_2_zone st LA) with
    | none => rw [hf] at h1; simp at h1
    | some set =>
      rw [hf] at h1
      exact ⟨set, rfl, h1⟩
  · intro z set off v h1 h2
    have h3 : staged (gc_stage st st.log_mapping []) z off = some v := by
      unfold staged
      rw [h1]
      exact h2
    rw [hst] at h3
    exact find_staged_mem st _ z off v h3
  · have := gc_stage_pairs st st.log_mapping [] (fun e _ => rfl) (by
      have hinj : ∀ x ∈ st.log_mapping, ∀ y ∈ st.log_mapping,
          (address_2_zone st x.1, address_2_offset st x.1) =
            (address_2_zone st y.1, address_2_offset st y.1) → x = y := by
        intro x hx y hy hxy
        simp only [Prod.mk.injEq] at hxy
        have h1 := address_eq_of_zone_offset st x.1 y.1 (ha x hx) (ha y hy) hxy.1 hxy.2
        exact List.inj_on_of_nodup_map hk hx hy h1
      exact List.Nodup.map_on hinj (List.Nodup.of_map _ hk))
    rw [this]
    simp [staged_pairs]

/-- C21 at the boundary configuration after two writes of one block (addresses 0 and
4096): both entries are staged in the set of zone 3, at offsets 0 and 1. -/
theorem staging_groups_log_entries_witness :
    (∀ LA PBA, (LA, PBA) ∈ scn_two.1.log_mapping →
      ∃ set, map_find (gc_stage scn_two.1 scn_two.1.log_mapping [])
          (address_2_zone scn_two.1 LA) = some set ∧
        map_find set (address_2_offset scn_two.1 LA) = some PBA) ∧
    (∀ z set off v, map_find (gc_stage scn_two.1 scn_two.1.log_mapping []) z = some set →
      map_find set off = some v →
      ∃ LA, (LA, v) ∈ scn_two.1.log_mapping ∧ address_2_zone scn_two.1 LA = z ∧
        address_2_offset scn_two.1 LA = off) ∧
    staged_pairs (gc_stage scn_two.1 scn_two.1.log_mapping []) =
      scn_two.1.log_mapping.length ∧
    gc_stage scn_two.1 scn_two.1.log_mapping [] = [(3, [(0, 0), (1, 1)])] :=
  ⟨(staging_groups_log_entries scn_two.1 (by decide) (by decide)).1,
    (staging_groups_log_entries scn_two.1 (by decide) (by decide)).2.1,
    (staging_groups_log_entries scn_two.1 (by decide) (by decide)).2.2, by decide⟩

/-! ## The image of a zone merged after another -/

/-- C23, the code at a failing input.  At the boundary configuration with one block
written at address 0 (zone 3, offset 0, bytes 0xa0) and one at address 20480
(zone 4, offset 1, bytes 0xb0), the staging loop yields the sets of zone 3 and
of zone 4, in this order, neither zone has a previous image, and `do_merge`
returns 0.  The image written for zone 3 (blocks 12 to 15) holds 0xa0 at
offset 0 and zeros elsewhere; the image written for zone 4, the second one
(blocks 16 to 19), holds 0xb0 at the staged offset 1 and, at offset 0, which
is not staged, the bytes 0xa0 left in the buffer by zone 3 instead of zeros. -/
theorem second_image_keeps_first_zone_blocks :
    gc_stage scn_zones.1 scn_zones.1.log_mapping [] = [(3, [(0, 0)]), (4, [(1, 1)])] ∧
    scn_zones.1.data_mapping = [] ∧
    (gc_pass scn_zones.1 scn_zones.2).map Prod.fst = some 0 ∧
    (after_gc scn_zones).1.data_mapping = [(4, 16), (3, 12)] ∧
    ((after_gc scn_zones).2.mem 12 0 = 0xa0 ∧ (after_gc scn_zones).2.mem 13 0 = 0 ∧
      (after_gc scn_zones).2.mem 14 0 = 0 ∧ (after_gc scn_zones).2.mem 15 0 = 0) ∧
    (after_gc scn_zones).2.mem 17 0 = 0xb0 ∧
    (after_gc scn_zones).2.mem 16 0 = 0xa0 ∧
    ((after_gc scn_zones).2.mem 18 0 = 0 ∧ (after_gc scn_zones).2.mem 19 0 = 0) := by
  refine ⟨by decide, by decide, by decide, by decide, ⟨by decide, by decide, by decide,
    by decide⟩, by decide, by decide, ⟨by decide, by decide⟩⟩

/-! ## The size of the record -/

/-- C30, the code at a failing input.  With 511 log zones (fewer than 512), blocks of
4096 bytes, zones of 4 blocks and 1024 zones, a log map of 1023 entries (at
most `L * B = 2044`) and an empty data map, the record `restore_descriptor`
builds has `total_bytes = 28 + 512 + 16 * 1023 = 16908`, more than the
`B * lba_size = 16384` bytes of the metadata zone and of the buffer. -/
theorem record_exceeds_metadata_zone :
    scn_large.log_zone_num_config < 512 ∧ scn_large.lba_size_bytes = 4096 ∧
    scn_large.log_mapping.length ≤ scn_large.log_zone_num_config * scn_large.blocks_per_zone ∧
    scn_large.data_mapping.length ≤
      scn_large.zns_num_zones - scn_large.log_zone_num_config - 1 ∧
    (descriptor_buffer scn_large).2 = 16908 ∧
    scn_large.blocks_per_zone * scn_large.lba_size_bytes = 16384 ∧
    ¬ (descriptor_buffer scn_large).2 ≤ scn_large.blocks_per_zone * scn_large.lba_size_bytes := by
  have hlen : scn_large.log_mapping.length = 1023 := by
    simp [scn_large]
  have htot : (descriptor_buffer scn_large).2 = 16908 := by
    rw [descriptor_total, hlen]
    rfl
  refine ⟨by decide, rfl, ?_, by decide, htot, by decide, ?_⟩
  · rw [hlen]; decide
  · rw [htot]; decide

/-! ## The layout of the record -/

/-- C27. The buffer `restore_descriptor` builds, for a state whose keys and values fit
64 bits and whose padded record is shorter than `2^32` bytes: `total_bytes` is
`28 + (Z - 1 - L) + 16 * (|log_mapping| + |data_mapping|)` and is the `u32` at
byte 0; the four zone pointers are the `u32` at bytes 4, 8, 12 and 16; the
states of the zones `L .. Z-2` are the bytes from 20 on; the two map sizes
are the `u32` after them; then come the pairs of `log_mapping` and after them
those of `data_mapping`, 16 bytes each, in the order of iteration; every byte
from `total_bytes` on is 0; and `metadata_write` is called with
`roundup(total_bytes, lba_size)`, a multiple of `lba_size` that is at least
`total_bytes` and less than `total_bytes + lba_size`. -/
theorem checkpoint_layout (st : FtlState) (dev : Nvme) (hl : 0 < st.lba_size_bytes)
    (hlog : ∀ e ∈ st.log_mapping, e.1 < 2 ^ 64 ∧ e.2 < 2 ^ 64)
    (hdata : ∀ e ∈ st.data_mapping, e.1 < 2 ^ 64 ∧ e.2 < 2 ^ 64)
    (h32 : roundup (descriptor_buffer st).2 st.lba_size_bytes < 2 ^ 32) :
    (descriptor_buffer st).2 =
      28 + (st.zns_num_zones - 1 - st.log_zone_num_config) +
        16 * (st.log_mapping.length + st.data_mapping.length) ∧
    load_le 4 (descriptor_buffer st).1 0 = (descriptor_buffer st).2 ∧
    (load_le 4 (descriptor_buffer st).1 4 = st.log_zone_start % 2 ^ 32 ∧
      load_le 4 (descriptor_buffer st).1 8 = st.log_zone_end % 2 ^ 32 ∧
      load_le 4 (descriptor_buffer st).1 12 = st.data_zone_start % 2 ^ 32 ∧
      load_le 4 (descriptor_buffer st).1 16 = st.data_zone_end % 2 ^ 32) ∧
    (∀ j, j < st.zns_num_zones - 1 - st.log_zone_num_config →
      (descriptor_buffer st).1 (20 + j) = st.zone_states (st.log_zone_num_config + j) % 256) ∧
    (load_le 4 (descriptor_buffer st).1 (20 + (st.zns_num_zones - 1 - st.log_zone_num_config)) =
        st.log_mapping.length % 2 ^ 32 ∧
      load_le 4 (descriptor_buffer st).1
          (20 + (st.zns_num_zones - 1 - st.log_zone_num_config) + 4) =
        st.data_mapping.length % 2 ^ 32) ∧
    record_pairs (descriptor_buffer st).1 st.log_mapping.length
      (28 + (st.zns_num_zones - 1 - st.log_zone_num_config)) = st.log_mapping ∧
    record_pairs (descriptor_buffer st).1 st.data_mapping.length
      (28 + (st.zns_num_zones - 1 - st.log_zone_num_config) + 16 * st.log_mapping.length) =
      st.data_mapping ∧
    (∀ k, (descriptor_buffer st).2 ≤ k → (descriptor_buffer st).1 k = 0) ∧
    restore_descriptor st dev =
      (0, (metadata_write st dev (descriptor_buffer st).1
        (roundup (descriptor_buffer st).2 st.lba_size_bytes)).2) ∧
    roundup (descriptor_buffer st).2 st.lba_size_bytes % st.lba_size_bytes = 0 ∧
    (descriptor_buffer st).2 ≤ roundup (descriptor_buffer st).2 st.lba_size_bytes ∧
    roundup (descriptor_buffer st).2 st.lba_size_bytes <
      (descriptor_buffer st).2 + st.lba_size_bytes := by
  obtain ⟨r1, r2, -, r4⟩ := roundup_facts (descriptor_buffer st).2 st.lba_size_bytes hl
  have hR : roundup (descriptor_buffer st).2 st.lba_size_bytes <
      (descriptor_buffer st).2 + st.lba_size_bytes := by
    have := Nat.div_mul_le_self ((descriptor_buffer st).2 + (st.lba_size_bytes - 1))
      st.lba_size_bytes
    rw [r4]; omega
  have e28 : ∀ n : Nat, 28 + n = 20 + n + 8 := fun n => by omega
  refine ⟨?_, ?_, descriptor_pointers st, fun j hj => descriptor_states st j hj,
    descriptor_sizes st, ?_, ?_, fun k hk => descriptor_padding st k hk, ?_, r2, r1, hR⟩
  · rw [descriptor_total]; omega
  · rw [descriptor_total_field, Nat.mod_eq_of_lt (by omega)]
  · obtain ⟨b, hb⟩ := descriptor_log_pairs st
    rw [e28]
    exact record_pairs_restore st.log_mapping _ b _ hlog hb
  · obtain ⟨b, hb⟩ := descriptor_data_pairs st
    rw [e28]
    exact record_pairs_restore st.data_mapping _ b _ hdata hb
  · unfold restore_descriptor
    simp only []
    rw [Nat.mod_eq_of_lt h32]

/-- C27 at the boundary configuration after two writes: the record of 64 bytes. -/
theorem checkpoint_layout_witness :
    (descriptor_buffer scn_two.1).2 = 28 + (8 - 1 - 3) + 16 * (2 + 0) ∧
    load_le 4 (descriptor_buffer scn_two.1).1 0 = 64 ∧
    record_pairs (descriptor_buffer scn_two.1).1 2 32 = [(4096, 1), (0, 0)] ∧
    roundup (descriptor_buffer scn_two.1).2 scn_two.1.lba_size_bytes = 4096 := by
  have h := checkpoint_layout scn_two.1 scn_two.2 (by decide) (by decide) (by decide)
    (by decide)
  have e1 : scn_two.1.zns_num_zones - 1 - scn_two.1.log_zone_num_config = 4 := by decide
  have e2 : scn_two.1.log_mapping = [(4096, 1), (0, 0)] := by decide
  have e3 : scn_two.1.data_mapping = [] := by decide
  obtain ⟨h1, h2, -, -, -, h6, -⟩ := h
  rw [e1, e2, e3] at h1
  rw [e1, e2] at h6
  refine ⟨h1, by rw [h2, h1]; rfl, h6, by decide⟩

/-! ## A pass whose merge fails -/

theorem reset_log_zones_effect (st : FtlState) : ∀ (n i : Nat) (dev : Nvme),
    i + n ≤ dev.nr_zones → 0 < dev.zsze → st.blocks_per_zone = dev.zsze →
    (∀ z, (reset_log_zones st n i dev).wp z = if i ≤ z ∧ z < i + n then 0 else dev.wp z) ∧
    (∀ l o, (reset_log_zones st n i dev).mem l o =
      if i ≤ l / dev.zsze ∧ l / dev.zsze < i + n then 0 else dev.mem l o) := by
  intro n
  induction n with
  | zero =>
    intro i dev _ _ _
    refine ⟨fun z => ?_, fun l o => ?_⟩
    · rw [if_neg (by omega)]; rfl
    · rw [if_neg (by omega)]; rfl
  | succ n ih =>
    intro i dev h1 h2 h3
    simp only [reset_log_zones]
    rw [h3]
    obtain ⟨z1, z2, z3, z4, z5⟩ := zone_reset dev i (by omega) h2
    obtain ⟨r1, r2⟩ := ih (i + 1) (nvme_zns_mgmt_send dev (i * dev.zsze) false).2
      (by rw [z1]; omega) (by rw [z2]; exact h2) (by rw [z2]; exact h3)
    rw [z2] at r2
    refine ⟨fun z => ?_, fun l o => ?_⟩
    · rw [r1 z, z5]
      by_cases hz : z = i
      · rw [if_neg (by omega), if_pos (by omega)]
        simp [hz]
      · by_cases hz2 : i + 1 ≤ z ∧ z < i + 1 + n
        · rw [if_pos hz2, if_pos (by omega)]
        · rw [if_neg hz2, if_neg (by omega)]
          simp [hz]
    · rw [r2 l o, z4]
      by_cases hz : l / dev.zsze = i
      · rw [if_neg (by omega), if_pos (by omega)]
        simp [hz]
      · by_cases hz2 : i + 1 ≤ l / dev.zsze ∧ l / dev.zsze < i + 1 + n
        · rw [if_pos hz2, if_pos (by omega)]
        · rw [if_neg hz2, if_neg (by omega)]
          simp [hz]

/-- C26, as amended.  If `do_merge` returns a non-zero code the pass is not abandoned:
`gc_loop` goes on as after a merge that returned 0.  The pass returns with
that code, every log zone `[0, L)` is reset on the device (write pointer 0,
blocks zeroed), `log_zone_end == log_zone_start`, the log map is empty and
`do_gc` is false; the data map is the one `do_merge` left. -/
theorem failed_pass_resets_log (st : FtlState) (dev : Nvme) (ret : Int)
    (hg : same_geometry st dev) (hB : 0 < st.blocks_per_zone)
    (hL : st.log_zone_num_config ≤ st.zns_num_zones) (hm : 0 < st.mdts)
    (hd : (do_merge { st with log_mapping := gc_tag st.log_mapping } dev
      (gc_stage st st.log_mapping [])).map Prod.fst = some ret)
    (hret : ret ≠ 0) :
    ∃ st1 dev1 st' dev',
      do_merge { st with log_mapping := gc_tag st.log_mapping } dev
        (gc_stage st st.log_mapping []) = some (ret, st1, dev1) ∧
      gc_pass st dev = some (ret, st', dev') ∧
      st'.log_mapping = [] ∧ st'.log_zone_end = st'.log_zone_start ∧ st'.do_gc = false ∧
      st'.data_mapping = st1.data_mapping ∧
      (∀ i, i < st.log_zone_num_config → dev'.wp i = 0) ∧
      (∀ l o, l < st.log_zone_num_config * st.blocks_per_zone → dev'.mem l o = 0) := by
  have _ := hret
  obtain ⟨r, h1, h2, h3⟩ := do_merge_loop_returns (gc_stage st st.log_mapping [])
    { st with log_mapping := gc_tag st.log_mapping } dev zero_buf hm
  have hdm : do_merge { st with log_mapping := gc_tag st.log_mapping } dev
      (gc_stage st st.log_mapping []) = some (r.1, r.2.1, r.2.2.1) := by
    unfold do_merge
    rw [h1]
  rw [hdm] at hd
  simp only [Option.map_some', Option.some.injEq] at hd
  rw [hd] at hdm
  unfold same_config at h2
  have e1 : r.2.1.blocks_per_zone = st.blocks_per_zone := by rw [h2]
  have e2 : r.2.1.log_zone_num_config = st.log_zone_num_config := by rw [h2]
  obtain ⟨g1, g2, g3⟩ := hg
  have s1 : r.2.2.1.nr_zones = st.zns_num_zones := by rw [h3.1, g1]
  have s2 : r.2.2.1.zsze = st.blocks_per_zone := by rw [h3.2.1, g2]
  obtain ⟨c1, c2⟩ := reset_log_zones_effect r.2.1 r.2.1.log_zone_num_config 0 r.2.2.1
    (by rw [e2, s1]; omega) (by rw [s2]; exact hB) (by rw [e1, s2])
  refine ⟨r.2.1, r.2.2.1, { r.2.1 with
      log_zone_end := r.2.1.log_zone_start
      log_mapping := []
      do_gc := false
      gc_mutex := false },
    reset_log_zones r.2.1 r.2.1.log_zone_num_config 0 r.2.2.1, hdm, ?_, rfl, rfl, rfl, rfl,
    ?_, ?_⟩
  · unfold gc_pass
    simp only [hdm]
  · intro i hi
    rw [c1 i, if_pos ⟨Nat.zero_le _, by rw [e2]; omega⟩]
  · intro l o hl
    have hz : 0 ≤ l / r.2.2.1.zsze ∧ l / r.2.2.1.zsze < 0 + r.2.1.log_zone_num_config := by
      refine ⟨Nat.zero_le _, ?_⟩
      rw [s2, e2, Nat.zero_add]
      exact log_block_zone _ _ l hB hl
    rw [c2 l o, if_pos hz]

/-- C26 at the boundary configuration, on the pass after a write at address 0 with
the write pointer of data zone 3 at 1: `do_merge` returns `0x1bc`. -/
theorem failed_pass_resets_log_witness :
    ∃ st1 dev1 st' dev',
      do_merge { scn_one.1 with log_mapping := gc_tag scn_one.1.log_mapping } scn_stale_zone
        (gc_stage scn_one.1 scn_one.1.log_mapping []) =
        some (NVME_SC_ZNS_INVALID_WRITE, st1, dev1) ∧
      gc_pass scn_one.1 scn_stale_zone = some (NVME_SC_ZNS_INVALID_WRITE, st', dev') ∧
      st'.log_mapping = [] ∧ st'.log_zone_end = st'.log_zone_start ∧ st'.do_gc = false ∧
      st'.data_mapping = st1.data_mapping ∧
      (∀ i, i < scn_one.1.log_zone_num_config → dev'.wp i = 0) ∧
      (∀ l o, l < scn_one.1.log_zone_num_config * scn_one.1.blocks_per_zone →
        dev'.mem l o = 0) :=
  failed_pass_resets_log scn_one.1 scn_stale_zone NVME_SC_ZNS_INVALID_WRITE
    ⟨rfl, rfl, rfl⟩ (by decide) (by decide) (by decide) (by decide) (by decide)

/-- C26 as stated fails.  At the boundary configuration one block (bytes 0xa0) is
written at address 0; with the write pointer of data zone 3 at 1 the merge of
the pass fails (`do_merge` returns `0x1bc`) and the data map stays empty.  The
pass still resets log zone 0 and clears the log map: the entry of address 0 is
gone and the address, which read 0xa0 before the pass, reads zeros after it. -/
theorem failed_pass_erases_log :
    scn_one.1.log_mapping = [(0, 0)] ∧ scn_one.2.wp 0 = 1 ∧
    read_byte (scn_one.1, scn_stale_zone) 0 4096 0 = (0, 0xa0) ∧
    (do_merge { scn_one.1 with log_mapping := gc_tag scn_one.1.log_mapping } scn_stale_zone
      (gc_stage scn_one.1 scn_one.1.log_mapping [])).map Prod.fst =
      some NVME_SC_ZNS_INVALID_WRITE ∧
    (after_gc (scn_one.1, scn_stale_zone)).1.log_mapping = [] ∧
    (after_gc (scn_one.1, scn_stale_zone)).1.data_mapping = [] ∧
    (after_gc (scn_one.1, scn_stale_zone)).2.wp 0 = 0 ∧
    read_byte (after_gc (scn_one.1, scn_stale_zone)) 0 4096 0 = (0, 0) := by
  refine ⟨by decide, by decide, by decide, by decide, by decide, by decide, by decide,
    by decide⟩

/-! ## The invariant at the boundary configuration -/

theorem scn_one_invariant : Invariant scn_one.1 scn_one.2 :=
  (reachable_invariant scn_params scn_dev
    ⟨rfl, by decide, by decide, by decide, by decide, by decide, by decide⟩
    scn_one.1 scn_one.2
    (if (0 : Int) = 0 then written_blocks scn_state.lba_size_bytes 0 4096 ++ [] else [])
    (Reachable.write scn_state scn_nvme [] 0 (scn_data 0xa0) 4096 0 scn_one.1 scn_one.2
      (Reachable.init scn_state scn_nvme rfl) (by decide) (by decide) rfl)).1

theorem after_gc_invariant (x : FtlState × Nvme) (h : Invariant x.1 x.2) :
    Invariant (after_gc x).1 (after_gc x).2 := by
  obtain ⟨hc, hd, hg, hm⟩ := h
  obtain ⟨st1, dev1, p1, -⟩ := gc_pass_spec x.1 x.2 hc hd hg
  have e : after_gc x = (st1, dev1) := by
    unfold after_gc
    rw [p1]
  rw [e]
  exact (gc_invariant x.1 x.2 ⟨hc, hd, hg, hm⟩ 0 st1 dev1 p1).1

theorem after_write_invariant (x : FtlState × Nvme) (h : Invariant x.1 x.2)
    (address : Nat) (buffer : Buf) (size : Nat)
    (ha : address % x.1.lba_size_bytes = 0) (hsz : address + size ≤ x.1.capacity_bytes) :
    Invariant (after_write x address buffer size).1 (after_write x address buffer size).2 := by
  unfold after_write
  cases hw : zns_udevice_write x.1 x.2 address buffer size with
  | returned r =>
    obtain ⟨ret, st', dev'⟩ := r
    exact (write_invariant x.1 x.2 h address buffer size ret st' dev' ha hsz hw).1
  | blocked st' =>
    exact (wait_invariant x.1 x.2 h address buffer size st' hw).1

theorem scn_saved_invariant : Invariant scn_saved.1 scn_saved.2 := by
  have h1 : Invariant (after_gc scn_one).1 (after_gc scn_one).2 :=
    after_gc_invariant scn_one scn_one_invariant
  exact after_write_invariant (after_gc scn_one) h1 0 (scn_data 0xb0) 4096 (by decide) (by decide)

/-! ## The state of the old zone during a merge -/

/-- C25 (as amended): from a state that satisfies the invariant, the first part of
an iteration of `do_merge` for a logical zone that has an image at `old` reads
the image and marks its zone `EMPTY` at once, before the replacement image is
written (the blocks and write pointers of the device are as before); and
`do_merge` returns 0 with every zone referenced by a `data_mapping` entry in
state `FULL`. -/
theorem old_zone_emptied_after_read (st : FtlState) (dev : Nvme) (hc : Cfg st dev)
    (hd : DataInv st dev) :
    (∀ (buffer : Buf) (lz old : Nat), map_find st.data_mapping lz = some old →
      ∃ dev1 buffer1, merge_old_image st dev buffer lz =
          some (0, { st with zone_states :=
                      set_state st.zone_states (old / st.blocks_per_zone) EMPTY },
            dev1, buffer1, (old : Int)) ∧
        dev1.mem = dev.mem ∧ dev1.wp = dev.wp) ∧
    (∀ zone_sets, zone_sets_ok st zone_sets →
      ∃ st' dev', do_merge st dev zone_sets = some (0, st', dev') ∧
        ∀ z v, map_find st'.data_mapping z = some v →
          st'.zone_states (v / st'.blocks_per_zone) = FULL) := by
  constructor
  · intro buffer lz old h
    obtain ⟨-, -, j, q1, q2, q3, q4⟩ := data_entry_of_find st dev hd lz old h
    subst q1
    obtain ⟨dev1, h1, h2⟩ := merge_old_image_some st dev hc buffer lz j h q3
    rw [Nat.mul_div_cancel _ hc.bpz_pos]
    exact ⟨dev1, _, h1, h2.2.2.2.1, h2.2.2.2.2⟩
  · intro zs hz
    obtain ⟨st', dev', buffer', h1, hc', hd', -⟩ := do_merge_loop_spec zs st dev zero_buf hc hd hz
    refine ⟨st', dev', ?_, ?_⟩
    · unfold do_merge
      rw [h1]
    · intro z v hv
      exact (data_value_facts st' dev' hc' hd' z v hv).2.2.2

theorem old_zone_emptied_after_read_witness :
    map_find scn_saved.1.data_mapping 3 = some 12 ∧
    scn_saved.1.zone_states 3 = FULL ∧
    (∃ st1 dev1 buffer1, merge_old_image scn_saved.1 scn_saved.2 zero_buf 3 =
        some (0, st1, dev1, buffer1, 12) ∧ st1.zone_states 3 = EMPTY ∧
      dev1.mem = scn_saved.2.mem ∧ dev1.wp = scn_saved.2.wp) ∧
    (∃ st' dev', do_merge scn_saved.1 scn_saved.2
        (gc_stage scn_saved.1 scn_saved.1.log_mapping []) = some (0, st', dev') ∧
      ∀ z v, map_find st'.data_mapping z = some v →
        st'.zone_states (v / st'.blocks_per_zone) = FULL) := by
  have h := old_zone_emptied_after_read scn_saved.1 scn_saved.2 scn_saved_invariant.1
    scn_saved_invariant.2.1
  refine ⟨by decide, by decide, ?_, ?_⟩
  · obtain ⟨dev1, buffer1, h1, h2, h3⟩ := h.1 zero_buf 3 12 (by decide)
    exact ⟨_, dev1, buffer1, h1, by decide, h2, h3⟩
  · exact h.2 _ (gc_stage_ok scn_saved.1 scn_saved.2 scn_saved_invariant.1 _ []
      ⟨List.nodup_nil, fun e he => absurd he (List.not_mem_nil e)⟩
      (fun e he => ⟨(scn_saved_invariant.2.2.1.entries e he).2.1,
        (scn_saved_invariant.2.2.1.entries e he).2.2⟩))

/-- C25 (as stated) fails: at the boundary configuration, after a write of address
0, a GC pass and a second write of address 0, logical zone 3 has its image in
zone 3 (block 12, state `FULL`).  When the write of the replacement image to
zone 4 fails, `do_merge` returns the device error, and the data map still sends
logical zone 3 to block 12 while zone 3 has state `EMPTY`. -/
theorem failed_merge_leaves_mapped_zone_empty :
    map_find scn_saved.1.data_mapping 3 = some 12 ∧
    scn_saved.1.zone_states 3 = FULL ∧
    find_next_empty_zone scn_saved.1 = 16 ∧
    (do_merge scn_saved.1 scn_saved_stale
        (gc_stage scn_saved.1 scn_saved.1.log_mapping [])).map
      (fun r => (r.1, map_find r.2.1.data_mapping 3, r.2.1.zone_states 3)) =
      some (NVME_SC_ZNS_INVALID_WRITE, some 12, EMPTY) := by
  refine ⟨by decide, by decide, by decide, by decide⟩

/-! ## The state and the device one iteration of `do_merge` leaves -/

theorem merge_zone_fresh_form (st : FtlState) (dev : Nvme) (hc : Cfg st dev) (hd : DataInv st dev)
    (buffer : Buf) (lz : Nat) (set : UMap Nat) (hs : set_ok st set)
    (hnone : map_find st.data_mapping lz = none) (j : Nat)
    (hj1 : st.log_zone_num_config ≤ j) (hj2 : j < st.zns_num_zones - 1)
    (hje : st.zone_states j = EMPTY)
    (hfound : find_next_empty_zone st = ((j * st.blocks_per_zone : Nat) : Int)) :
    ∃ dev' buffer', merge_zone st dev buffer lz set =
        some (0,
          { st with
            data_mapping := map_assign st.data_mapping lz (j * st.blocks_per_zone)
            zone_states := set_state st.zone_states j FULL },
          dev', buffer') ∧
      dev'.wp = (fun z' => if z' = j then st.blocks_per_zone else dev.wp z') := by
  have hl : 0 < st.lba_size_bytes := by have := hc.lsb4; omega
  obtain ⟨dev2, o1, o2⟩ := merge_overlay_spec st hl set dev buffer hc.geo.2.2 hs.1
    (overlay_bound st dev hc set hs)
  have hc2 : Cfg st dev2 := cfg_update st dev dev2 st.data_mapping st.zone_states hc
    (same_geometry_of_same_data st dev dev2 hc.geo o2)
  have hwj : dev2.wp j = 0 := by
    rw [o2.2.2.2.2]
    rcases hd.zones j hj1 hj2 with h | h
    · exact h.2
    · rw [hje] at h; exact absurd h.1 (by decide)
  obtain ⟨dev3, p1, -, -, p4⟩ := merge_persist_fresh st dev2 hc2
    (merge_overlay st set dev buffer).2.1 lz j hj2 hwj
  have od : (merge_overlay st set dev buffer).2.2 = dev2 := by rw [o1]
  have oz : (merge_overlay st set dev buffer).1 = 0 := by rw [o1]
  have hdec : decide (((j * st.blocks_per_zone : Nat) : Int) = -1) = false := by
    apply decide_eq_false; omega
  refine ⟨dev3, (merge_overlay st set dev buffer).2.1, ?_, by rw [p4, o2.2.2.2.2]⟩
  unfold merge_zone
  simp only [hfound, hdec, merge_old_image_none st dev buffer lz hnone, ne_eq,
    not_true_eq_false, if_false, oz, od, Bool.false_eq_true, p1]

theorem merge_zone_replace_form (st : FtlState) (dev : Nvme) (hc : Cfg st dev)
    (hd : DataInv st dev) (buffer : Buf) (lz : Nat) (set : UMap Nat) (hs : set_ok st set)
    (jo : Nat) (hsome : map_find st.data_mapping lz = some (jo * st.blocks_per_zone))
    (hjo2 : jo < st.zns_num_zones - 1) (j : Nat)
    (hj1 : st.log_zone_num_config ≤ j) (hj2 : j < st.zns_num_zones - 1)
    (hje : st.zone_states j = EMPTY)
    (hfound : find_next_empty_zone st = ((j * st.blocks_per_zone : Nat) : Int)) :
    ∃ dev' buffer', merge_zone st dev buffer lz set =
        some (0,
          { st with
            data_mapping := map_assign st.data_mapping lz (j * st.blocks_per_zone)
            zone_states := set_state (set_state st.zone_states jo EMPTY) j FULL },
          dev', buffer') ∧
      dev'.wp = (fun z' => if z' = jo then 0 else if z' = j then st.blocks_per_zone
        else dev.wp z') ∧
      (∀ l o, l / st.blocks_per_zone = jo → dev'.mem l o = 0) := by
  have hl : 0 < st.lba_size_bytes := by have := hc.lsb4; omega
  obtain ⟨dev1, r1, r2⟩ := merge_old_image_some st dev hc buffer lz jo hsome hjo2
  obtain ⟨buffer1, hb1⟩ : ∃ b : Buf, (fun k => if k < st.blocks_per_zone * st.lba_size_bytes then
      dev.mem (jo * st.blocks_per_zone + k / st.lba_size_bytes) (k % st.lba_size_bytes)
      else buffer k) = b := ⟨_, rfl⟩
  obtain ⟨st1, hst1⟩ : ∃ s : FtlState,
      ({ st with zone_states := set_state st.zone_states jo EMPTY } : FtlState) = s := ⟨_, rfl⟩
  rw [hb1, hst1] at r1
  have hc1 : Cfg st1 dev1 := by
    rw [← hst1]
    exact cfg_update st dev dev1 st.data_mapping _ hc
      (same_geometry_of_same_data st dev dev1 hc.geo r2)
  have hl1 : 0 < st1.lba_size_bytes := by rw [← hst1]; exact hl
  have hs1 : set_ok st1 set := by rw [← hst1]; exact hs
  obtain ⟨dev2, o1, o2⟩ := merge_overlay_spec st1 hl1 set dev1 buffer1 hc1.geo.2.2 hs.1
    (overlay_bound _ dev1 hc1 set hs1)
  have hc2 : Cfg st1 dev2 := by
    rw [← hst1]
    exact cfg_update st dev dev2 st.data_mapping _ hc
      (same_geometry_of_same_data st dev dev2 hc.geo (same_data_trans _ _ _ r2 o2))
  have hwp2 : dev2.wp = dev.wp := by rw [o2.2.2.2.2, r2.2.2.2.2]
  have hwj : dev2.wp j = 0 := by
    rw [hwp2]
    rcases hd.zones j hj1 hj2 with h | h
    · exact h.2
    · rw [hje] at h; exact absurd h.1 (by decide)
  have e1 : st1.blocks_per_zone = st.blocks_per_zone := by rw [← hst1]
  have e3 : st1.zns_num_zones = st.zns_num_zones := by rw [← hst1]
  have od : (merge_overlay st1 set dev1 buffer1).2.2 = dev2 := by rw [o1]
  have oz : (merge_overlay st1 set dev1 buffer1).1 = 0 := by rw [o1]
  obtain ⟨dev4, p1, -, p3, p4⟩ := merge_persist_replace st1 dev2 hc2
    (merge_overlay st1 set dev1 buffer1).2.1 lz j jo (by rw [e3]; exact hj2)
    (by rw [e3]; exact hjo2) hwj
  have p1' : merge_persist st1 dev2 (merge_overlay st1 set dev1 buffer1).2.1 lz
      ((j * st.blocks_per_zone : Nat) : Int) ((jo * st.blocks_per_zone : Nat) : Int) false =
      some (0, { st with
        data_mapping := map_assign st.data_mapping lz (j * st.blocks_per_zone)
        zone_states := set_state (set_state st.zone_states jo EMPTY) j FULL }, dev4) := by
    subst hst1; exact p1
  rw [e1] at p3 p4
  have hdec : decide (((j * st.blocks_per_zone : Nat) : Int) = -1) = false := by
    apply decide_eq_false; omega
  refine ⟨dev4, (merge_overlay st1 set dev1 buffer1).2.1, ?_, by rw [p4, hwp2], ?_⟩
  · unfold merge_zone
    simp only [hfound, hdec, r1, ne_eq, not_true_eq_false, if_false, oz, od,
      Bool.false_eq_true, p1']
  · intro l o hlo
    rw [p3]
    simp only []
    rw [if_pos hlo]

theorem merge_zone_in_place_form (st : FtlState) (dev : Nvme) (hc : Cfg st dev)
    (buffer : Buf) (lz : Nat) (set : UMap Nat) (hs : set_ok st set)
    (jo : Nat) (hsome : map_find st.data_mapping lz = some (jo * st.blocks_per_zone))
    (hjo2 : jo < st.zns_num_zones - 1)
    (hfound : find_next_empty_zone st = -1) :
    ∃ dev' buffer', merge_zone st dev buffer lz set =
        some (0,
          { st with zone_states := set_state (set_state st.zone_states jo EMPTY) jo FULL },
          dev', buffer') ∧
      dev'.wp = (fun z' => if z' = jo then st.blocks_per_zone else dev.wp z') := by
  have hl : 0 < st.lba_size_bytes := by have := hc.lsb4; omega
  obtain ⟨dev1, r1, r2⟩ := merge_old_image_some st dev hc buffer lz jo hsome hjo2
  obtain ⟨buffer1, hb1⟩ : ∃ b : Buf, (fun k => if k < st.blocks_per_zone * st.lba_size_bytes then
      dev.mem (jo * st.blocks_per_zone + k / st.lba_size_bytes) (k % st.lba_size_bytes)
      else buffer k) = b := ⟨_, rfl⟩
  obtain ⟨st1, hst1⟩ : ∃ s : FtlState,
      ({ st with zone_states := set_state st.zone_states jo EMPTY } : FtlState) = s := ⟨_, rfl⟩
  rw [hb1, hst1] at r1
  have hc1 : Cfg st1 dev1 := by
    rw [← hst1]
    exact cfg_update st dev dev1 st.data_mapping _ hc
      (same_geometry_of_same_data st dev dev1 hc.geo r2)
  have hl1 : 0 < st1.lba_size_bytes := by rw [← hst1]; exact hl
  have hs1 : set_ok st1 set := by rw [← hst1]; exact hs
  obtain ⟨dev2, o1, o2⟩ := merge_overlay_spec st1 hl1 set dev1 buffer1 hc1.geo.2.2 hs.1
    (overlay_bound _ dev1 hc1 set hs1)
  have hc2 : Cfg st1 dev2 := by
    rw [← hst1]
    exact cfg_update st dev dev2 st.data_mapping _ hc
      (same_geometry_of_same_data st dev dev2 hc.geo (same_data_trans _ _ _ r2 o2))
  have hwp2 : dev2.wp = dev.wp := by rw [o2.2.2.2.2, r2.2.2.2.2]
  have e1 : st1.blocks_per_zone = st.blocks_per_zone := by rw [← hst1]
  have e3 : st1.zns_num_zones = st.zns_num_zones := by rw [← hst1]
  have od : (merge_overlay st1 set dev1 buffer1).2.2 = dev2 := by rw [o1]
  have oz : (merge_overlay st1 set dev1 buffer1).1 = 0 := by rw [o1]
  obtain ⟨dev4, p1, -, -, p4⟩ := merge_persist_in_place st1 dev2 hc2
    (merge_overlay st1 set dev1 buffer1).2.1 lz jo
    (((st.log_zone_num_config : Int) - 1) * (st.blocks_per_zone : Int))
    (by rw [e3]; exact hjo2)
  have p1' : merge_persist st1 dev2 (merge_overlay st1 set dev1 buffer1).2.1 lz
      (((st.log_zone_num_config : Int) - 1) * (st.blocks_per_zone : Int))
      ((jo * st.blocks_per_zone : Nat) : Int) true =
      some (0, { st with zone_states := set_state (set_state st.zone_states jo EMPTY) jo FULL },
        dev4) := by
    subst hst1; exact p1
  rw [e1] at p4
  refine ⟨dev4, (merge_overlay st1 set dev1 buffer1).2.1, ?_, by rw [p4, hwp2]⟩
  unfold merge_zone
  simp only [hfound, decide_True, r1, ne_eq, not_true_eq_false, if_false, if_true, oz, od, p1']

theorem pass_end_invariant (st : FtlState) (dev : Nvme) (hc : Cfg st dev) (hd : DataInv st dev)
    (hm : st.mdts = MDTS) :
    Invariant (pass_end st dev).1 (pass_end st dev).2 ∧
    (∀ l o, st.log_zone_num_config ≤ l / st.blocks_per_zone →
      (pass_end st dev).2.mem l o = dev.mem l o) := by
  obtain ⟨k1, k2, k3⟩ := hc.geo
  obtain ⟨r1, r2, r3, r4, r5⟩ := reset_log_zones_spec st st.log_zone_num_config 0 dev
    (by rw [k1]; have := hc.zones_fit; omega) (by rw [k2]; exact hc.bpz_pos) k2.symm
  rw [k2] at r4
  simp only [Nat.zero_add] at r4 r5
  refine ⟨⟨?_, ?_, ?_, hm⟩, r4⟩
  · exact
      { geo := ⟨r1.trans k1, r2.trans k2, r3.trans k3⟩,
        lsb4 := hc.lsb4, lsb_dvd := hc.lsb_dvd, mdts_pos := hc.mdts_pos,
        mdts_blocks := hc.mdts_blocks, bpz_pos := hc.bpz_pos, zones_fit := hc.zones_fit,
        small := hc.small, wmark := hc.wmark, cap := hc.cap, start0 := hc.start0 }
  · refine ⟨hd.keys, hd.vals, hd.entries, ?_⟩
    intro j hj1 hj2
    rcases hd.zones j hj1 hj2 with h | h
    · left
      exact ⟨h.1, by
        show (reset_log_zones st st.log_zone_num_config 0 dev).wp j = 0
        rw [r5 j hj1]; exact h.2⟩
    · right
      exact h
  · refine ⟨?_, List.nodup_nil, fun e he => by simp [pass_end] at he⟩
    show st.log_zone_start ≤ _
    rw [hc.start0]
    exact Nat.zero_le _

/-- C24: from a state that satisfies the invariant, one iteration of `do_merge` for
a data zone `lz` with a well-formed staged set returns 0, and: (a) when
`find_next_empty_zone` returns -1 and `data_mapping[lz] = old` exists, the data
map is unchanged, zone `old / B` is `FULL` with its write pointer at `B`, and
the zone holds the merged image; (b) when `find_next_empty_zone` returns `zt`,
`data_mapping[lz] = zt`, zone `zt / B` is `FULL` with its write pointer at `B`
and holds the merged image, and an old image there was is reset (state
`EMPTY`, write pointer 0, blocks zero); (c) once the pass has ended, a read of
any block-aligned address of `lz` returns 0 and the merged data. -/
theorem merge_zone_targets (st : FtlState) (dev : Nvme) (hinv : Invariant st dev)
    (buffer : Buf) (lz : Nat) (set : UMap Nat)
    (hlz : st.log_zone_num_config ≤ lz ∧ lz < st.zns_num_zones - 1) (hs : set_ok st set) :
    ∃ st' dev' buffer', merge_zone st dev buffer lz set = some (0, st', dev', buffer') ∧
      (∀ old, find_next_empty_zone st = -1 → map_find st.data_mapping lz = some old →
        st'.data_mapping = st.data_mapping ∧
        st'.zone_states (old / st.blocks_per_zone) = FULL ∧
        dev'.wp (old / st.blocks_per_zone) = st.blocks_per_zone ∧
        ∀ off o, off < st.blocks_per_zone → o < st.lba_size_bytes →
          dev'.mem (old + off) o = merged_image st dev buffer lz set off o) ∧
      (∀ zt : Nat, find_next_empty_zone st = (zt : Int) →
        st'.data_mapping = map_assign st.data_mapping lz zt ∧
        st'.zone_states (zt / st.blocks_per_zone) = FULL ∧
        dev'.wp (zt / st.blocks_per_zone) = st.blocks_per_zone ∧
        (∀ off o, off < st.blocks_per_zone → o < st.lba_size_bytes →
          dev'.mem (zt + off) o = merged_image st dev buffer lz set off o) ∧
        ∀ old, map_find st.data_mapping lz = some old →
          st'.zone_states (old / st.blocks_per_zone) = EMPTY ∧
          dev'.wp (old / st.blocks_per_zone) = 0 ∧
          ∀ off o, off < st.blocks_per_zone → dev'.mem (old + off) o = 0) ∧
      (∀ a out, a % st.lba_size_bytes = 0 → a < st.capacity_bytes → address_2_zone st a = lz →
        (zns_udevice_read (pass_end st' dev').1 (pass_end st' dev').2 a out
          st.lba_size_bytes).1 = 0 ∧
        ∀ o, o < st.lba_size_bytes →
          (zns_udevice_read (pass_end st' dev').1 (pass_end st' dev').2 a out
            st.lba_size_bytes).2.1 o =
            merged_image st dev buffer lz set (address_2_offset st a) o) := by
  obtain ⟨hc, hd, hg, hm⟩ := hinv
  have hB := hc.bpz_pos
  obtain ⟨st', dev', buffer', hmz, hc', hd', hf, -, ⟨p', hp1, hp2⟩, -, -⟩ :=
    merge_zone_spec st dev hc hd buffer lz set hlz hs
  refine ⟨st', dev', buffer', hmz, ?_, ?_, ?_⟩
  · intro old hfound hsome
    obtain ⟨-, -, jo, q1, q2, q3, q4⟩ := data_entry_of_find st dev hd lz old hsome
    subst q1
    obtain ⟨devA, bufA, hA, hwp⟩ := merge_zone_in_place_form st dev hc buffer lz set hs jo hsome
      q3 hfound
    rw [hmz] at hA
    simp only [Option.some.injEq, Prod.mk.injEq, true_and] at hA
    obtain ⟨hst, hdev, -⟩ := hA
    have hdm : st'.data_mapping = st.data_mapping := by rw [hst]
    rw [Nat.mul_div_cancel _ hB]
    refine ⟨hdm, ?_, ?_, ?_⟩
    · rw [hst]; simp [set_state]
    · rw [hdev, hwp]; simp
    · intro off o hoff ho
      rw [hdm, hsome] at hp1
      simp only [Option.some.injEq] at hp1
      rw [hp1]
      exact hp2 off o hoff ho
  · intro zt hfound
    rcases find_next_empty_zone_spec st dev hc with ⟨j, h1, h2, h3, h4⟩ | ⟨h4, -⟩
    swap
    · rw [hfound] at h4; omega
    have hzt : zt = j * st.blocks_per_zone := by rw [hfound] at h4; exact_mod_cast h4
    subst hzt
    rw [Nat.mul_div_cancel _ hB]
    cases hsome : map_find st.data_mapping lz with
    | none =>
      obtain ⟨devA, bufA, hA, hwp⟩ := merge_zone_fresh_form st dev hc hd buffer lz set hs hsome
        j h1 h2 h3 h4
      rw [hmz] at hA
      simp only [Option.some.injEq, Prod.mk.injEq, true_and] at hA
      obtain ⟨hst, hdev, -⟩ := hA
      have hdm : st'.data_mapping = map_assign st.data_mapping lz (j * st.blocks_per_zone) := by
        rw [hst]
      refine ⟨hdm, ?_, ?_, ?_, ?_⟩
      · rw [hst]; simp [set_state]
      · rw [hdev, hwp]; simp
      · intro off o hoff ho
        rw [hdm, map_find_assign, if_pos rfl] at hp1
        simp only [Option.some.injEq] at hp1
        rw [hp1]
        exact hp2 off o hoff ho
      · intro old hold
        exact absurd hold (by simp)
    | some old0 =>
      obtain ⟨-, -, jo, q1, q2, q3, q4⟩ := data_entry_of_find st dev hd lz old0 hsome
      subst q1
      have hjj : jo ≠ j := by
        intro h; rw [h, h3] at q4; exact absurd q4 (by decide)
      obtain ⟨devA, bufA, hA, hwp, hmem⟩ := merge_zone_replace_form st dev hc hd buffer lz set hs
        jo hsome q3 j h1 h2 h3 h4
      rw [hmz] at hA
      simp only [Option.some.injEq, Prod.mk.injEq, true_and] at hA
      obtain ⟨hst, hdev, -⟩ := hA
      have hdm : st'.data_mapping = map_assign st.data_mapping lz (j * st.blocks_per_zone) := by
        rw [hst]
      refine ⟨hdm, ?_, ?_, ?_, ?_⟩
      · rw [hst]; simp [set_state]
      · rw [hdev, hwp]; simp [Ne.symm hjj]
      · intro off o hoff ho
        rw [hdm, map_find_assign, if_pos rfl] at hp1
        simp only [Option.some.injEq] at hp1
        rw [hp1]
        exact hp2 off o hoff ho
      · intro old hold
        simp only [Option.some.injEq] at hold
        subst hold
        rw [Nat.mul_div_cancel _ hB]
        refine ⟨?_, ?_, ?_⟩
        · rw [hst]; simp [set_state, hjj]
        · rw [hdev, hwp]; simp
        · intro off o hoff
          rw [hdev]
          exact hmem _ o (block_in_zone jo _ off hoff)
  · intro a out ha hcap hza
    have e1 : st'.blocks_per_zone = st.blocks_per_zone := by rw [hf]
    have e2 : st'.log_zone_num_config = st.log_zone_num_config := by rw [hf]
    have e4 : st'.lba_size_bytes = st.lba_size_bytes := by rw [hf]
    have e5 : st'.mdts = st.mdts := by rw [hf]
    have e6 : st'.capacity_bytes = st.capacity_bytes := by rw [hf]
    obtain ⟨hinv2, hframe⟩ := pass_end_invariant st' dev' hc' hd' (by rw [e5]; exact hm)
    obtain ⟨a1, a2, a3⟩ := address_in_data_zone st dev hc a hcap
    have hback : backing_block (pass_end st' dev').1 a = some (p' + address_2_offset st a) := by
      unfold backing_block
      have hz : address_2_zone (pass_end st' dev').1 a = lz := by
        rw [← hza]
        unfold address_2_zone
        show a / (st'.blocks_per_zone * st'.lba_size_bytes) + st'.log_zone_num_config = _
        rw [e1, e2, e4]
      have ho : address_2_offset (pass_end st' dev').1 a = address_2_offset st a := by
        unfold address_2_offset
        show a % (st'.blocks_per_zone * st'.lba_size_bytes) / st'.lba_size_bytes = _
        rw [e1, e4]
      rw [hz, ho]
      show (match map_find ([] : UMap Nat) a with
        | some v => some v
        | none =>
          match map_find st'.data_mapping lz with
          | some p => some (p + address_2_offset st a)
          | none => none) = _
      rw [hp1]
      rfl
    obtain ⟨b1, b2⟩ := read_backing (pass_end st' dev').1 (pass_end st' dev').2 hinv2.1 hinv2.2.1
      hinv2.2.2.1 hinv2.2.2.2 a out (by show a < st'.capacity_bytes; rw [e6]; exact hcap)
      (p' + address_2_offset st a) hback
    have el : (pass_end st' dev').1.lba_size_bytes = st.lba_size_bytes := e4
    rw [el] at b1 b2
    refine ⟨b1, ?_⟩
    intro o ho
    rw [b2]
    simp only []
    rw [if_pos ho]
    obtain ⟨-, -, j', t1, t2, -, -⟩ := data_entry_of_find st' dev' hd' lz p' hp1
    rw [hframe _ o (by rw [t1, block_in_zone j' _ _ (by rw [e1]; exact a3)]; exact t2)]
    exact hp2 _ o a3 ho

theorem scn_full_invariant : Invariant scn_full.1 scn_full.2 := by
  have h1 := after_write_invariant scn_one scn_one_invariant 16384 (scn_data 0xa1) 4096
    (by decide) (by decide)
  have h2 := after_write_invariant _ h1 32768 (scn_data 0xa2) 4096 (by decide) (by decide)
  have h3 := after_write_invariant _ h2 49152 (scn_data 0xa3) 4096 (by decide) (by decide)
  have h4 := after_gc_invariant _ h3
  exact after_write_invariant _ h4 0 (scn_data 0xb0) 4096 (by decide) (by decide)

set_option maxRecDepth 100000 in
theorem merge_zone_targets_witness :
    find_next_empty_zone scn_full.1 = -1 ∧
    map_find scn_full.1.data_mapping 3 = some 12 ∧
    gc_stage scn_full.1 scn_full.1.log_mapping [] = [(3, [(0, 0)])] ∧
    ∃ st' dev' buffer',
      merge_zone scn_full.1 scn_full.2 zero_buf 3 [(0, 0)] = some (0, st', dev', buffer') ∧
      st'.data_mapping = scn_full.1.data_mapping ∧
      st'.zone_states (12 / scn_full.1.blocks_per_zone) = FULL ∧
      dev'.wp (12 / scn_full.1.blocks_per_zone) = scn_full.1.blocks_per_zone ∧
      (∀ off o, off < scn_full.1.blocks_per_zone → o < scn_full.1.lba_size_bytes →
        dev'.mem (12 + off) o = merged_image scn_full.1 scn_full.2 zero_buf 3 [(0, 0)] off o) ∧
      (zns_udevice_read (pass_end st' dev').1 (pass_end st' dev').2 0 zero_buf
        scn_full.1.lba_size_bytes).1 = 0 := by
  obtain ⟨st', dev', buffer', h1, h2, -, h4⟩ :=
    merge_zone_targets scn_full.1 scn_full.2 scn_full_invariant zero_buf 3 [(0, 0)]
      (by decide) (by unfold set_ok; decide)
  have hf : find_next_empty_zone scn_full.1 = -1 := by decide
  have hm : map_find scn_full.1.data_mapping 3 = some 12 := by decide
  obtain ⟨a1, a2, a3, a4⟩ := h2 12 hf hm
  exact ⟨hf, hm, by decide, st', dev', buffer', h1, a1, a2, a3, a4,
    (h4 0 zero_buf (by decide) (by decide) (by decide)).1⟩

/-! ## The chunks of a transfer -/

theorem mdts_loop_plan (st : FtlState) (hm : 0 < st.mdts) (read : Bool) :
    ∀ (fuel : Nat) (dev : Nvme) (buffer : Buf) (size_left ptr wp : Nat) (ret : Int),
      size_left < fuel →
      mdts_loop st read fuel dev buffer size_left ptr wp ret =
        some (run_chunks read (chunk_plan st fuel size_left ptr wp) dev buffer ret) := by
  intro fuel
  induction fuel with
  | zero => intro dev buffer size_left ptr wp ret h; omega
  | succ fuel ih =>
    intro dev buffer size_left ptr wp ret h
    by_cases hs : 0 < size_left
    · rw [mdts_loop_step st read fuel dev buffer size_left ptr wp ret hs]
      have hio : 0 < chunk_bytes st size_left := by
        unfold chunk_bytes; split <;> omega
      simp only [chunk_plan, gt_iff_lt, hs, if_true, run_chunks]
      split
      · rfl
      · exact ih _ _ _ _ _ _ (by omega)
    · have h0 : size_left = 0 := by omega
      subst h0
      simp only [mdts_loop, chunk_plan, gt_iff_lt, Nat.lt_irrefl, if_false, run_chunks]

theorem chunk_command_trace (read : Bool) (dev : Nvme) (buffer : Buf)
    (ptr wp lba_num io_num : Nat) :
    (chunk_command read dev buffer ptr wp lba_num io_num).2.2.trace =
      chunk_cmd read (chunk_command read dev buffer ptr wp lba_num io_num).1
        { ptr := ptr, wp := wp, lba_num := lba_num, io_num := io_num } :: dev.trace := by
  unfold chunk_command chunk_cmd
  cases read with
  | true =>
    simp only [if_true, nvme_read]
    by_cases hs : read_status dev wp (lba_num % 65536) io_num = 0
    · simp only [hs, ne_eq, not_true_eq_false, if_false, Nvme.log]
    · simp only [hs, ne_eq, not_false_eq_true, if_true, Nvme.log]
  | false =>
    simp only [Bool.false_eq_true, if_false, nvme_write]
    by_cases hs : write_status dev wp (lba_num % 65536) io_num = 0
    · simp only [hs, ne_eq, not_true_eq_false, if_false, Nvme.log]
    · simp only [hs, ne_eq, not_false_eq_true, if_true, Nvme.log]

theorem chunk_command_accepted (read : Bool) (dev : Nvme) (buffer : Buf)
    (ptr wp lba_num io_num : Nat)
    (h : (chunk_command read dev buffer ptr wp lba_num io_num).1 = 0) :
    io_num = (lba_num % 65536 + 1) * dev.lba_size := by
  unfold chunk_command at h
  cases read with
  | true =>
    simp only [if_true, nvme_read] at h
    by_contra hne
    have hs : read_status dev wp (lba_num % 65536) io_num ≠ 0 := by
      unfold read_status
      split_ifs <;> decide
    rw [if_pos hs] at h
    exact hs h
  | false =>
    simp only [Bool.false_eq_true, if_false, nvme_write] at h
    by_contra hne
    have hs : write_status dev wp (lba_num % 65536) io_num ≠ 0 := by
      unfold write_status
      split_ifs <;> decide
    rw [if_pos hs] at h
    exact hs h

theorem run_chunks_accepted (read : Bool) : ∀ (plan : List Chunk) (dev : Nvme) (buffer : Buf)
    (ret : Int), (run_chunks read plan dev buffer ret).1 = 0 →
    (run_chunks read plan dev buffer ret).2.2.trace =
      (plan.reverse.map (chunk_cmd read 0)) ++ dev.trace := by
  intro plan
  induction plan with
  | nil => intro dev buffer ret _; rfl
  | cons c rest ih =>
    intro dev buffer ret h
    simp only [run_chunks] at h ⊢
    by_cases hr : (chunk_command read dev buffer c.ptr c.wp c.lba_num c.io_num).1 = 0
    · simp only [hr, ne_eq, not_true_eq_false, if_false] at h ⊢
      rw [ih _ _ _ h, chunk_command_trace, hr]
      simp only [List.reverse_cons, List.map_append, List.map_cons, List.map_nil,
        List.append_assoc, List.singleton_append]
    · rw [if_pos hr] at h
      exact absurd h hr

theorem run_chunks_refused (read : Bool) : ∀ (plan : List Chunk) (dev : Nvme) (buffer : Buf),
    (run_chunks read plan dev buffer 0).1 ≠ 0 →
    ∃ k c, plan[k]? = some c ∧
      (run_chunks read plan dev buffer 0).2.2.trace =
        chunk_cmd read (run_chunks read plan dev buffer 0).1 c ::
          (((plan.take k).reverse.map (chunk_cmd read 0)) ++ dev.trace) := by
  intro plan
  induction plan with
  | nil => intro dev buffer h; exact absurd rfl h
  | cons c rest ih =>
    intro dev buffer h
    simp only [run_chunks] at h ⊢
    by_cases hr : (chunk_command read dev buffer c.ptr c.wp c.lba_num c.io_num).1 = 0
    · simp only [hr, ne_eq, not_true_eq_false, if_false] at h ⊢
      obtain ⟨k, c', h1, h2⟩ := ih _ _ h
      refine ⟨k + 1, c', by simpa using h1, ?_⟩
      rw [h2, chunk_command_trace, hr]
      simp only [List.take_succ_cons, List.reverse_cons, List.map_append, List.map_cons,
        List.map_nil, List.append_assoc, List.singleton_append]
    · simp only [hr, ne_eq, not_false_eq_true, if_true]
      refine ⟨0, c, by simp, ?_⟩
      rw [chunk_command_trace]
      rfl

theorem chunk_bytes_facts (st : FtlState) (hm : 0 < st.mdts) (size_left : Nat)
    (hs : 0 < size_left) :
    0 < chunk_bytes st size_left ∧ chunk_bytes st size_left ≤ st.mdts ∧
    chunk_bytes st size_left ≤ size_left ∧
    (chunk_bytes st size_left < size_left → chunk_bytes st size_left = st.mdts) := by
  unfold chunk_bytes
  split <;> omega

theorem chunk_plan_facts (st : FtlState) (hm : 0 < st.mdts) :
    ∀ (fuel size_left ptr wp : Nat), size_left < fuel →
      (chunk_plan st fuel size_left ptr wp).length = (size_left + st.mdts - 1) / st.mdts ∧
      (∀ c ∈ chunk_plan st fuel size_left ptr wp, 0 < c.io_num ∧ c.io_num ≤ st.mdts) ∧
      ((chunk_plan st fuel size_left ptr wp).map Chunk.io_num).sum = size_left ∧
      (∀ k c, (chunk_plan st fuel size_left ptr wp)[k]? = some c →
        c.ptr = ptr + (((chunk_plan st fuel size_left ptr wp).take k).map Chunk.io_num).sum) := by
  intro fuel
  induction fuel with
  | zero => intro size_left ptr wp h; omega
  | succ fuel ih =>
    intro size_left ptr wp h
    by_cases hs : 0 < size_left
    · obtain ⟨b1, b2, b3, b4⟩ := chunk_bytes_facts st hm size_left hs
      obtain ⟨i1, i2, i3, i4⟩ := ih (size_left - chunk_bytes st size_left)
        (ptr + chunk_bytes st size_left)
        ((wp + chunk_lba_num st.lba_size_bytes (chunk_bytes st size_left) + 1) % 2 ^ 64)
        (by omega)
      simp only [chunk_plan, gt_iff_lt, hs, if_true]
      refine ⟨?_, ?_, ?_, ?_⟩
      · rw [List.length_cons, i1]
        by_cases hlt : chunk_bytes st size_left < size_left
        · rw [b4 hlt]
          have e : size_left + st.mdts - 1 = (size_left - st.mdts + st.mdts - 1) + st.mdts := by
            have := b4 hlt
            omega
          rw [e, Nat.add_div_right _ hm]
        · have e : size_left - chunk_bytes st size_left = 0 := by omega
          rw [e]
          have e1 : (0 + st.mdts - 1) / st.mdts = 0 := by
            apply Nat.div_eq_of_lt; omega
          have e2 : (size_left + st.mdts - 1) / st.mdts = 1 := by
            have h1 : size_left + st.mdts - 1 = (size_left - 1) + st.mdts := by omega
            rw [h1, Nat.add_div_right _ hm, Nat.div_eq_of_lt (by omega)]
          rw [e1, e2]
      · intro c hc
        rcases List.mem_cons.1 hc with h1 | h1
        · rw [h1]; exact ⟨b1, b2⟩
        · exact i2 c h1
      · rw [List.map_cons, List.sum_cons, i3]
        show chunk_bytes st size_left + (size_left - chunk_bytes st size_left) = size_left
        omega
      · intro k c hk
        cases k with
        | zero =>
          simp only [List.getElem?_cons_zero, Option.some.injEq] at hk
          rw [← hk]
          simp
        | succ k =>
          simp only [List.getElem?_cons_succ] at hk
          rw [i4 k c hk]
          simp only [List.take_succ_cons, List.map_cons, List.sum_cons]
          omega
    · have h0 : size_left = 0 := by omega
      subst h0
      simp only [chunk_plan, gt_iff_lt, Nat.lt_irrefl, if_false]
      refine ⟨?_, ?_, rfl, ?_⟩
      · rw [List.length_nil]
        symm
        apply Nat.div_eq_of_lt; omega
      · intro c hc; exact absurd hc (List.not_mem_nil c)
      · intro k c hk; simp at hk

theorem ceil_div_nat (n m : Nat) (hm : 0 < m) :
    ⌈((n : Nat) : ℚ) / ((m : Nat) : ℚ)⌉ = (((n + m - 1) / m : Nat) : Int) := by
  have hmq : (0 : ℚ) < ((m : Nat) : ℚ) := by exact_mod_cast hm
  rw [Int.ceil_eq_iff]
  have h1 := Nat.div_add_mod (n + m - 1) m
  have h2 := Nat.mod_lt (n + m - 1) hm
  obtain ⟨q, hq⟩ : ∃ q, (n + m - 1) / m = q := ⟨_, rfl⟩
  rw [hq] at h1 ⊢
  constructor
  · rw [lt_div_iff₀ hmq]
    have h3 : q * m < n + m := by rw [Nat.mul_comm]; omega
    have h4 : ((q : ℚ)) * (m : ℚ) < (n : ℚ) + (m : ℚ) := by exact_mod_cast h3
    push_cast
    linarith
  · rw [div_le_iff₀ hmq]
    have h3 : n ≤ q * m := by rw [Nat.mul_comm]; omega
    push_cast
    exact_mod_cast h3

theorem chunk_plan_aligned (st : FtlState) (hm : 0 < st.mdts) (hl : 0 < st.lba_size_bytes)
    (hd : st.lba_size_bytes ∣ st.mdts) :
    ∀ (fuel size_left ptr wp : Nat), size_left < fuel →
      st.lba_size_bytes ∣ size_left → wp + size_left / st.lba_size_bytes < 2 ^ 64 →
      ∀ k c, (chunk_plan st fuel size_left ptr wp)[k]? = some c →
        c.wp = wp + k * (st.mdts / st.lba_size_bytes) ∧
        c.lba_num + 1 = c.io_num / st.lba_size_bytes ∧
        c.wp + (c.lba_num + 1) =
          if k + 1 < (chunk_plan st fuel size_left ptr wp).length then
            wp + (k + 1) * (st.mdts / st.lba_size_bytes)
          else wp + size_left / st.lba_size_bytes := by
  intro fuel
  induction fuel with
  | zero => intro size_left ptr wp h; omega
  | succ fuel ih =>
    intro size_left ptr wp h hds h64 k c hk
    by_cases hs : 0 < size_left
    swap
    · have h0 : size_left = 0 := by omega
      subst h0
      simp [chunk_plan] at hk
    obtain ⟨b1, b2, b3, b4⟩ := chunk_bytes_facts st hm size_left hs
    obtain ⟨io, hio⟩ : ∃ io, chunk_bytes st size_left = io := ⟨_, rfl⟩
    rw [hio] at b1 b2 b3 b4
    obtain ⟨a, ha⟩ := hd
    obtain ⟨n, hn⟩ := hds
    have hmd : st.mdts / st.lba_size_bytes = a := by
      rw [ha]; exact Nat.mul_div_cancel_left a hl
    have hnd : size_left / st.lba_size_bytes = n := by
      rw [hn]; exact Nat.mul_div_cancel_left n hl
    have hdio : st.lba_size_bytes ∣ io := by
      by_cases hlt : io < size_left
      · rw [b4 hlt]; exact ⟨a, ha⟩
      · have : io = size_left := by omega
        rw [this]; exact ⟨n, hn⟩
    obtain ⟨m, hmio⟩ := hdio
    have hm0 : 0 < m := by
      rcases Nat.eq_zero_or_pos m with h0 | h0
      · rw [h0, Nat.mul_zero] at hmio; omega
      · exact h0
    have hiod : io / st.lba_size_bytes = m := by
      rw [hmio]; exact Nat.mul_div_cancel_left m hl
    have hmn : m ≤ n := by
      have : st.lba_size_bytes * m ≤ st.lba_size_bytes * n := by rw [← hmio, ← hn]; exact b3
      exact Nat.le_of_mul_le_mul_left this hl
    rw [hnd] at h64
    have hlba : chunk_lba_num st.lba_size_bytes io = m - 1 := by
      unfold chunk_lba_num
      rw [hiod, hmio, Nat.mul_mod_right, if_pos rfl]
      omega
    have hrest : (size_left - io) / st.lba_size_bytes = n - m := by
      rw [hn, hmio, ← Nat.mul_sub]
      exact Nat.mul_div_cancel_left _ hl
    have hdr : st.lba_size_bytes ∣ size_left - io := by
      rw [hn, hmio, ← Nat.mul_sub]
      exact Dvd.intro _ rfl
    have hwp : (wp + chunk_lba_num st.lba_size_bytes io + 1) % 2 ^ 64 = wp + m := by
      rw [hlba]
      have : wp + (m - 1) + 1 = wp + m := by omega
      rw [this]
      exact Nat.mod_eq_of_lt (by omega)
    simp only [chunk_plan, gt_iff_lt, hs, if_true, hio, hwp] at hk ⊢
    obtain ⟨r1, -, -, -⟩ := chunk_plan_facts st hm fuel (size_left - io) (ptr + io) (wp + m)
      (by omega)
    rw [hmd, hnd, List.length_cons]
    cases k with
    | zero =>
      simp only [List.getElem?_cons_zero, Option.some.injEq] at hk
      rw [← hk]
      simp only [hiod, hlba]
      refine ⟨by omega, by omega, ?_⟩
      by_cases hlt : io < size_left
      · have hne : 0 < (chunk_plan st fuel (size_left - io) (ptr + io) (wp + m)).length := by
          rw [r1]
          apply Nat.div_pos <;> omega
        rw [if_pos (by omega)]
        have : m = a := by
          have h1 := b4 hlt
          rw [hmio, ha] at h1
          exact Nat.eq_of_mul_eq_mul_left hl h1
        omega
      · have he : size_left - io = 0 := by omega
        have hz : (chunk_plan st fuel (size_left - io) (ptr + io) (wp + m)).length = 0 := by
          rw [r1, he]
          apply Nat.div_eq_of_lt; omega
        rw [if_neg (by omega)]
        have : m = n := by
          have h1 : io = size_left := by omega
          rw [hmio, hn] at h1
          exact Nat.eq_of_mul_eq_mul_left hl h1
        omega
    | succ k =>
      simp only [List.getElem?_cons_succ] at hk
      obtain ⟨i1, i2, i3⟩ := ih (size_left - io) (ptr + io) (wp + m) (by omega) hdr
        (by rw [hrest]; omega) k c hk
      rw [hmd, hrest] at i3
      rw [hmd] at i1
      have hlt : io < size_left := by
        by_contra hge
        have he : size_left - io = 0 := by omega
        have hz : (chunk_plan st fuel (size_left - io) (ptr + io) (wp + m)).length = 0 := by
          rw [r1, he]
          apply Nat.div_eq_of_lt; omega
        have := List.getElem?_eq_some_iff.1 hk
        obtain ⟨hlen, -⟩ := this
        omega
      have hma : m = a := by
        have h1 := b4 hlt
        rw [hmio, ha] at h1
        exact Nat.eq_of_mul_eq_mul_left hl h1
      subst hma
      refine ⟨by rw [i1]; ring, i2, ?_⟩
      rw [i3]
      by_cases hk1 : k + 1 < (chunk_plan st fuel (size_left - io) (ptr + io) (wp + m)).length
      · rw [if_pos hk1, if_pos (by omega)]; ring
      · rw [if_neg hk1, if_neg (by omega)]; omega

theorem chunk_command_lba_size (read : Bool) (dev : Nvme) (buffer : Buf)
    (ptr wp lba_num io_num : Nat) :
    (chunk_command read dev buffer ptr wp lba_num io_num).2.2.lba_size = dev.lba_size := by
  unfold chunk_command
  cases read with
  | true =>
    simp only [if_true, nvme_read]
    split <;> rfl
  | false =>
    simp only [Bool.false_eq_true, if_false, nvme_write]
    split <;> rfl

theorem run_chunks_lengths (read : Bool) : ∀ (plan : List Chunk) (dev : Nvme) (buffer : Buf)
    (ret : Int), (run_chunks read plan dev buffer ret).1 = 0 →
    ∀ c ∈ plan, c.io_num = (c.lba_num % 65536 + 1) * dev.lba_size := by
  intro plan
  induction plan with
  | nil => intro dev buffer ret _ c hc; exact absurd hc (List.not_mem_nil c)
  | cons c0 rest ih =>
    intro dev buffer ret h c hc
    simp only [run_chunks] at h
    by_cases hr : (chunk_command read dev buffer c0.ptr c0.wp c0.lba_num c0.io_num).1 = 0
    · rw [if_neg (by rw [hr]; exact fun h => h rfl)] at h
      rcases List.mem_cons.1 hc with h1 | h1
      · rw [h1]
        exact chunk_command_accepted read dev buffer _ _ _ _ hr
      · have := ih _ _ _ h c h1
        rw [chunk_command_lba_size] at this
        exact this
    · rw [if_pos hr] at h
      exact absurd h hr

/-- C29: for `buf_size > 0` and `mdts > 0`, `ss_nvme_device_io_with_mdts` returns, having
sent the commands of its chunks in order until one fails.  There are
`ceil(buf_size / mdts)` chunks, each of at most `mdts` bytes; their byte counts
sum to `buf_size` and the buffer offset of each is the sum of the byte counts
before it.  When `mdts` and `buf_size` are multiples of the block size (and
`slba + buf_size / lba_size` fits 64 bits), chunk `k` starts at block
`slba + k * (mdts / lba_size)`, holds `lba_num + 1 = io_num / lba_size`
blocks, and ends where the next chunk starts, the last at
`slba + buf_size / lba_size`.  When the status is 0 the device has received
exactly the commands of the chunks, each with a byte count of `nlb + 1`
blocks; when it is not 0, it is the status of the last command the device
received, and the commands before it are those of the chunks before. -/
theorem mdts_chunks_partition (st : FtlState) (dev : Nvme) (slba : Nat) (buffer : Buf)
    (buf_size : Nat) (read : Bool) (hm : 0 < st.mdts) (_hb : 0 < buf_size) :
    ss_nvme_device_io_with_mdts st dev slba buffer buf_size read =
      some (run_chunks read (io_chunks st slba buf_size) dev buffer 0) ∧
    (((io_chunks st slba buf_size).length : Nat) : Int) =
      ⌈((buf_size : Nat) : ℚ) / ((st.mdts : Nat) : ℚ)⌉ ∧
    (∀ c ∈ io_chunks st slba buf_size, 0 < c.io_num ∧ c.io_num ≤ st.mdts) ∧
    ((io_chunks st slba buf_size).map Chunk.io_num).sum = buf_size ∧
    (∀ k c, (io_chunks st slba buf_size)[k]? = some c →
      c.ptr = (((io_chunks st slba buf_size).take k).map Chunk.io_num).sum) ∧
    (0 < st.lba_size_bytes → st.lba_size_bytes ∣ st.mdts → st.lba_size_bytes ∣ buf_size →
      slba + buf_size / st.lba_size_bytes < 2 ^ 64 →
      ∀ k c, (io_chunks st slba buf_size)[k]? = some c →
        c.wp = slba + k * (st.mdts / st.lba_size_bytes) ∧
        c.lba_num + 1 = c.io_num / st.lba_size_bytes ∧
        c.wp + (c.lba_num + 1) =
          if k + 1 < (io_chunks st slba buf_size).length then
            slba + (k + 1) * (st.mdts / st.lba_size_bytes)
          else slba + buf_size / st.lba_size_bytes) ∧
    ((run_chunks read (io_chunks st slba buf_size) dev buffer 0).1 = 0 →
      (run_chunks read (io_chunks st slba buf_size) dev buffer 0).2.2.trace =
        ((io_chunks st slba buf_size).reverse.map (chunk_cmd read 0)) ++ dev.trace ∧
      ∀ c ∈ io_chunks st slba buf_size, c.io_num = (c.lba_num % 65536 + 1) * dev.lba_size) ∧
    ((run_chunks read (io_chunks st slba buf_size) dev buffer 0).1 ≠ 0 →
      ∃ k c, (io_chunks st slba buf_size)[k]? = some c ∧
        (run_chunks read (io_chunks st slba buf_size) dev buffer 0).2.2.trace =
          chunk_cmd read (run_chunks read (io_chunks st slba buf_size) dev buffer 0).1 c ::
            ((((io_chunks st slba buf_size).take k).reverse.map (chunk_cmd read 0)) ++
              dev.trace)) := by
  obtain ⟨f1, f2, f3, f4⟩ := chunk_plan_facts st hm (buf_size + 1) buf_size 0 slba
    (Nat.lt_succ_self _)
  refine ⟨?_, ?_, f2, f3, ?_, ?_, ?_, ?_⟩
  · exact mdts_loop_plan st hm read (buf_size + 1) dev buffer buf_size 0 slba 0
      (Nat.lt_succ_self _)
  · rw [ceil_div_nat buf_size st.mdts hm]
    unfold io_chunks
    rw [f1]
  · intro k c hk
    have := f4 k c hk
    rw [Nat.zero_add] at this
    exact this
  · intro hl hd hds h64
    exact chunk_plan_aligned st hm hl hd (buf_size + 1) buf_size 0 slba (Nat.lt_succ_self _)
      hds h64
  · intro h
    exact ⟨run_chunks_accepted read _ dev buffer 0 h, run_chunks_lengths read _ dev buffer 0 h⟩
  · intro h
    exact run_chunks_refused read _ dev buffer h

theorem mdts_chunks_partition_witness :
    io_chunks scn_small_mdts 0 20480 =
      [{ ptr := 0, wp := 0, lba_num := 1, io_num := 8192 },
       { ptr := 8192, wp := 2, lba_num := 1, io_num := 8192 },
       { ptr := 16384, wp := 4, lba_num := 0, io_num := 4096 }] ∧
    (ss_nvme_device_io_with_mdts scn_small_mdts scn_nvme 0 zero_buf 20480 true).map Prod.fst =
      some 0 ∧
    (((io_chunks scn_small_mdts 0 20480).length : Nat) : Int) =
      ⌈((20480 : Nat) : ℚ) / ((scn_small_mdts.mdts : Nat) : ℚ)⌉ ∧
    ((io_chunks scn_small_mdts 0 20480).map Chunk.io_num).sum = 20480 := by
  have h := mdts_chunks_partition scn_small_mdts scn_nvme 0 zero_buf 20480 true (by decide)
    (by decide)
  exact ⟨by decide, by decide, h.2.1, h.2.2.2.1⟩

/-! ## The decomposition of a logical address -/

/-- C31. Where the macros divide by positive values (`B > 0`, `lba_size > 0`): for
every block-aligned address `LA`,
`zone_2_address(address_2_zone(LA)) + address_2_offset(LA) * lba_size == LA`; two
block-aligned addresses with the same logical zone and the same offset are
equal; and for a log map of block-aligned addresses (every address once) the
pairs (zone, offset) of its entries are pairwise distinct and the staging loop
of `gc_loop` stages as many pairs as the log map has entries. -/
theorem address_decomposition_invertible (st : FtlState) (_hB : 0 < st.blocks_per_zone)
    (_hl : 0 < st.lba_size_bytes) :
    (∀ LA, LA % st.lba_size_bytes = 0 →
      zone_2_address st (address_2_zone st LA) + address_2_offset st LA * st.lba_size_bytes =
        LA) ∧
    (∀ LA LA', LA % st.lba_size_bytes = 0 → LA' % st.lba_size_bytes = 0 →
      address_2_zone st LA = address_2_zone st LA' →
      address_2_offset st LA = address_2_offset st LA' → LA = LA') ∧
    ((st.log_mapping.map Prod.fst).Nodup →
      (∀ e ∈ st.log_mapping, e.1 % st.lba_size_bytes = 0) →
      (st.log_mapping.map
        (fun e => (address_2_zone st e.1, address_2_offset st e.1))).Nodup ∧
      staged_pairs (gc_stage st st.log_mapping []) = st.log_mapping.length) := by
  refine ⟨?_, ?_, ?_⟩
  · intro LA ha
    unfold zone_2_address
    exact (address_of_zone_offset st LA ha).symm
  · intro LA LA' ha ha' hz ho
    exact address_eq_of_zone_offset st LA LA' ha ha' hz ho
  · intro hk ha
    have hinj : ∀ x ∈ st.log_mapping, ∀ y ∈ st.log_mapping,
        (address_2_zone st x.1, address_2_offset st x.1) =
          (address_2_zone st y.1, address_2_offset st y.1) → x = y := by
      intro x hx y hy hxy
      simp only [Prod.mk.injEq] at hxy
      have h1 := address_eq_of_zone_offset st x.1 y.1 (ha x hx) (ha y hy) hxy.1 hxy.2
      exact List.inj_on_of_nodup_map hk hx hy h1
    have hn := List.Nodup.map_on hinj (List.Nodup.of_map _ hk)
    refine ⟨hn, ?_⟩
    rw [gc_stage_pairs st st.log_mapping [] (fun e _ => rfl) hn]
    simp [staged_pairs]

/-- C31 at the boundary configuration after writes at the addresses 0 (zone 3,
offset 0) and 20480 (zone 4, offset 1). -/
theorem address_decomposition_invertible_witness :
    address_2_zone scn_zones.1 20480 = 4 ∧ address_2_offset scn_zones.1 20480 = 1 ∧
    zone_2_address scn_zones.1 4 = 16384 ∧
    zone_2_address scn_zones.1 (address_2_zone scn_zones.1 20480) +
      address_2_offset scn_zones.1 20480 * scn_zones.1.lba_size_bytes = 20480 ∧
    staged_pairs (gc_stage scn_zones.1 scn_zones.1.log_mapping []) =
      scn_zones.1.log_mapping.length := by
  have h := address_decomposition_invertible scn_zones.1 (by decide) (by decide)
  exact ⟨by decide, by decide, by decide, h.1 20480 (by decide),
    (h.2.2 (by decide) (by decide)).2⟩

/-! ## Writes at any address below the capacity -/

theorem write_locked_range (st : FtlState) (dev : Nvme) (hi : RangeInv st dev)
    (address : Nat) (buffer : Buf) (size : Nat) (ret : Int) (st' : FtlState) (dev' : Nvme)
    (hsz : address + size ≤ st.capacity_bytes)
    (hw : write_locked st dev address buffer size = Outcome.returned (ret, st', dev')) :
    RangeInv st' dev' := by
  obtain ⟨hc, hd, hg, hm⟩ := hi
  have hl : 0 < st.lba_size_bytes := by have := hc.lsb4; omega
  have hB := hc.bpz_pos
  have hsm := hc.small
  have hcs := capacity_small st dev hc hm
  obtain ⟨g1, g2, g3⟩ := hc.geo
  have hLB : st.log_zone_num_config * st.blocks_per_zone ≤
      st.zns_num_zones * st.blocks_per_zone :=
    Nat.mul_le_mul_right _ (by have := hc.zones_fit; omega)
  have hblocks : size / st.lba_size_bytes < 2 ^ 31 := by
    have h1 : size / st.lba_size_bytes ≤ st.capacity_bytes / st.lba_size_bytes :=
      Nat.div_le_div_right (by omega)
    rw [hc.cap, ← Nat.mul_assoc, Nat.mul_div_cancel _ hl] at h1
    have h2 : (st.zns_num_zones - st.log_zone_num_config - 1) * st.blocks_per_zone ≤
        st.zns_num_zones * st.blocks_per_zone := Nat.mul_le_mul_right _ (by omega)
    omega
  unfold write_locked at hw
  simp only [] at hw
  split at hw
  · exact absurd hw (by simp)
  · split at hw
    · exact absurd hw (by simp)
    · rename_i hmx hfree
      have hspace := free_log_space st dev hc _ hblocks hfree
      have hz : st.log_zone_end / st.blocks_per_zone < st.log_zone_num_config := by
        rw [Nat.div_lt_iff_lt_mul hB]
        exact lt_of_le_of_lt (Nat.le_add_right _ _) hspace
      have hzb := zone_bound st.log_zone_num_config st.blocks_per_zone _ hz
      have hzs : u64_of (int32_of (st.log_zone_end / st.blocks_per_zone) *
          (st.blocks_per_zone : Int)) =
          st.log_zone_end / st.blocks_per_zone * st.blocks_per_zone := by
        rw [int32_of_small _ (by
          have : st.log_zone_num_config ≤ st.zns_num_zones * st.blocks_per_zone :=
            le_trans (by have := hc.zones_fit; omega)
              (Nat.le_mul_of_pos_right _ hB)
          omega)]
        rw [← Int.ofNat_mul, u64_of_small _ (by omega)]
      rw [hzs] at hw
      obtain ⟨f1, f2, f3, f4, f5⟩ := append_facts dev
        (st.log_zone_end / st.blocks_per_zone * st.blocks_per_zone)
        (nlb_of (size / st.lba_size_bytes)) size buffer
      rw [g2, Nat.mul_div_cancel _ hB] at f4
      rw [g2] at f5
      have hgeo : same_geometry st (nvme_zns_append dev
          (st.log_zone_end / st.blocks_per_zone * st.blocks_per_zone)
          (nlb_of (size / st.lba_size_bytes)) size buffer).2.2 :=
        ⟨by rw [f1, g1], by rw [f2, g2], by rw [f3, g3]⟩
      have hzones : ∀ j, st.log_zone_num_config ≤ j → j < st.zns_num_zones - 1 →
          (st.zone_states j = EMPTY ∧ (nvme_zns_append dev
            (st.log_zone_end / st.blocks_per_zone * st.blocks_per_zone)
            (nlb_of (size / st.lba_size_bytes)) size buffer).2.2.wp j = 0) ∨
          (st.zone_states j = FULL ∧
            j * st.blocks_per_zone ∈ st.data_mapping.map Prod.snd) := by
        intro j hj1 hj2
        rw [f4 j (by omega)]
        exact hd.zones j hj1 hj2
      generalize nvme_zns_append dev
        (st.log_zone_end / st.blocks_per_zone * st.blocks_per_zone)
        (nlb_of (size / st.lba_size_bytes)) size buffer = r at hw f5 hgeo hzones
      split at hw
      · rename_i hr
        simp only [Outcome.returned.injEq, Prod.mk.injEq] at hw
        obtain ⟨w1, w2, w3⟩ := hw
        subst w2 w3
        refine ⟨?_, ⟨hd.keys, hd.vals, hd.entries, hzones⟩,
          ⟨hg.log_end, hg.keys, hg.entries⟩, hm⟩
        exact
          { geo := hgeo, lsb4 := hc.lsb4, lsb_dvd := hc.lsb_dvd, mdts_pos := hc.mdts_pos,
            mdts_blocks := hc.mdts_blocks, bpz_pos := hc.bpz_pos, zones_fit := hc.zones_fit,
            small := hc.small, wmark := hc.wmark, cap := hc.cap, start0 := hc.start0 }
      · rename_i hr
        have hr0 : r.1 = 0 := by
          by_contra h; exact hr h
        simp only [Outcome.returned.injEq, Prod.mk.injEq] at hw
        obtain ⟨w1, w2, w3⟩ := hw
        subst w2 w3
        have hkey : ∀ k, k < size / st.lba_size_bytes →
            (address + k * st.lba_size_bytes) % 2 ^ 64 = address + k * st.lba_size_bytes ∧
            address + k * st.lba_size_bytes < st.capacity_bytes := by
          intro k hk
          have h1 : (k + 1) * st.lba_size_bytes ≤ size / st.lba_size_bytes * st.lba_size_bytes :=
            Nat.mul_le_mul_right _ hk
          have h2 := Nat.div_mul_le_self size st.lba_size_bytes
          rw [Nat.add_mul, Nat.one_mul] at h1
          exact ⟨Nat.mod_eq_of_lt (by omega), by omega⟩
        refine ⟨?_, ⟨hd.keys, hd.vals, hd.entries, hzones⟩, ⟨?_, ?_, ?_⟩, hm⟩
        · exact
            { geo := hgeo, lsb4 := hc.lsb4, lsb_dvd := hc.lsb_dvd, mdts_pos := hc.mdts_pos,
              mdts_blocks := hc.mdts_blocks, bpz_pos := hc.bpz_pos, zones_fit := hc.zones_fit,
              small := hc.small, wmark := hc.wmark, cap := hc.cap, start0 := hc.start0 }
        · show r.2.1 + 1 ≤ st.log_zone_num_config * st.blocks_per_zone
          have := f5 hr0
          omega
        · exact write_log_entries_keys _ _ _ _ _ _ hg.keys
        · intro e he
          have hf := map_find_some_of_mem _ e.1 e.2
            (write_log_entries_keys st.lba_size_bytes address st.log_zone_end
              (size / st.lba_size_bytes) 0 st.log_mapping hg.keys) he
          show e.1 < st.capacity_bytes ∧ e.2 < st.log_zone_num_config * st.blocks_per_zone
          rcases write_log_entries_find _ _ _ _ _ _ _ _ hf with h | ⟨k, -, h2, h3, h4⟩
          · exact hg.entries (e.1, e.2) (mem_of_map_find _ _ _ h)
          · rw [Nat.zero_add] at h2
            obtain ⟨k1, k3⟩ := hkey k h2
            rw [h3, h4, k1]
            refine ⟨k3, ?_⟩
            rw [Nat.mod_eq_of_lt (by omega)]
            omega

theorem write_range (st : FtlState) (dev : Nvme) (hi : RangeInv st dev)
    (address : Nat) (buffer : Buf) (size : Nat) (ret : Int) (st' : FtlState) (dev' : Nvme)
    (hsz : address + size ≤ st.capacity_bytes)
    (hw : zns_udevice_write st dev address buffer size = Outcome.returned (ret, st', dev')) :
    RangeInv st' dev' := by
  unfold zns_udevice_write at hw
  split at hw
  · simp only [Outcome.returned.injEq, Prod.mk.injEq] at hw
    obtain ⟨-, w2, w3⟩ := hw
    subst w2 w3
    exact hi
  · exact write_locked_range st dev hi address buffer size ret st' dev' hsz hw

theorem wait_range (st : FtlState) (dev : Nvme) (hi : RangeInv st dev)
    (address : Nat) (buffer : Buf) (size : Nat) (st' : FtlState)
    (hw : zns_udevice_write st dev address buffer size = Outcome.blocked st') :
    RangeInv st' dev := by
  obtain ⟨hc, hd, hg, hm⟩ := hi
  have key : st' = st ∨ st' = { st with do_gc := true } := by
    unfold zns_udevice_write at hw
    split at hw
    · exact absurd hw (by simp)
    · unfold write_locked at hw
      simp only [] at hw
      split at hw
      · simp only [Outcome.blocked.injEq] at hw
        exact Or.inl hw.symm
      · split at hw
        · simp only [Outcome.blocked.injEq] at hw
          exact Or.inr hw.symm
        · split at hw <;> exact absurd hw (by simp)
  rcases key with h | h
  · rw [h]
    exact ⟨hc, hd, hg, hm⟩
  · rw [h]
    refine ⟨?_, ⟨hd.keys, hd.vals, hd.entries, hd.zones⟩,
      ⟨hg.log_end, hg.keys, hg.entries⟩, hm⟩
    exact
      { geo := hc.geo, lsb4 := hc.lsb4, lsb_dvd := hc.lsb_dvd, mdts_pos := hc.mdts_pos,
        mdts_blocks := hc.mdts_blocks, bpz_pos := hc.bpz_pos, zones_fit := hc.zones_fit,
        small := hc.small, wmark := hc.wmark, cap := hc.cap, start0 := hc.start0 }

theorem staged_sets_ok (st : FtlState) (dev : Nvme) (hc : Cfg st dev) (hg : LogRange st) :
    zone_sets_ok { st with log_mapping := gc_tag st.log_mapping }
      (gc_stage st st.log_mapping []) :=
  zone_sets_ok_frame st _ _ rfl rfl rfl
    (gc_stage_ok st dev hc st.log_mapping []
      ⟨List.nodup_nil, fun e he => absurd he (List.not_mem_nil e)⟩ hg.entries)

theorem cfg_tagged (st : FtlState) (dev : Nvme) (hc : Cfg st dev) :
    Cfg { st with log_mapping := gc_tag st.log_mapping } dev :=
  { geo := hc.geo, lsb4 := hc.lsb4, lsb_dvd := hc.lsb_dvd, mdts_pos := hc.mdts_pos,
    mdts_blocks := hc.mdts_blocks, bpz_pos := hc.bpz_pos, zones_fit := hc.zones_fit,
    small := hc.small, wmark := hc.wmark, cap := hc.cap, start0 := hc.start0 }

theorem gc_range (st : FtlState) (dev : Nvme) (hi : RangeInv st dev)
    (ret : Int) (st' : FtlState) (dev' : Nvme)
    (h : gc_pass st dev = some (ret, st', dev')) :
    ret = 0 ∧ RangeInv st' dev' := by
  obtain ⟨hc, hd, hg, hm⟩ := hi
  have hdT : DataInv { st with log_mapping := gc_tag st.log_mapping } dev :=
    ⟨hd.keys, hd.vals, hd.entries, hd.zones⟩
  obtain ⟨st1, dev1, b1, m1, c1, d1, f1, -, -⟩ := do_merge_loop_spec
    (gc_stage st st.log_mapping []) { st with log_mapping := gc_tag st.log_mapping } dev zero_buf
    (cfg_tagged st dev hc) hdT (staged_sets_ok st dev hc hg)
  have e5 : st1.mdts = st.mdts := by rw [f1]
  obtain ⟨⟨p1, p2, p3, p4⟩, -⟩ := pass_end_invariant st1 dev1 c1 d1 (by rw [e5]; exact hm)
  have hp : gc_pass st dev = some (0, (pass_end st1 dev1).1, (pass_end st1 dev1).2) := by
    unfold gc_pass do_merge
    simp only [m1]
    rfl
  rw [hp] at h
  simp only [Option.some.injEq, Prod.mk.injEq] at h
  obtain ⟨h0, h1, h2⟩ := h
  subst h1 h2
  exact ⟨h0.symm, p1, p2, ⟨p3.log_end, p3.keys, fun e he => ⟨(p3.entries e he).2.1,
    (p3.entries e he).2.2⟩⟩, p4⟩

theorem reached_range (params : zdev_init_params) (dev0 : Nvme)
    (hw : well_configured params dev0) (st : FtlState) (dev : Nvme)
    (hr : Reached params dev0 st dev) : RangeInv st dev := by
  induction hr with
  | init st dev h =>
    obtain ⟨⟨i1, i2, i3, i4⟩, -⟩ := init_invariant params dev0 hw st dev h
    exact ⟨i1, i2, ⟨i3.log_end, i3.keys, fun e he => ⟨(i3.entries e he).2.1,
      (i3.entries e he).2.2⟩⟩, i4⟩
  | write st dev address buffer size ret st' dev' _ hsz hwr ih =>
    exact write_range st dev ih address buffer size ret st' dev' hsz hwr
  | wait st dev address buffer size st' _ hwr ih =>
    exact wait_range st dev ih address buffer size st' hwr
  | gc st dev ret st' dev' _ hgc ih =>
    exact (gc_range st dev ih ret st' dev' hgc).2

/-! ## The old zone of the in-place branch -/

theorem full_iff_value (st : FtlState) (dev : Nvme) (hc : Cfg st dev) (hd : DataInv st dev)
    (i : Nat) (h1 : st.log_zone_num_config ≤ i) (h2 : i < st.zns_num_zones - 1) :
    st.zone_states i = FULL ↔ i * st.blocks_per_zone ∈ st.data_mapping.map Prod.snd := by
  constructor
  · intro hf
    rcases hd.zones i h1 h2 with h | h
    · rw [hf] at h; exact absurd h.1 (by decide)
    · exact h.2
  · intro hv
    obtain ⟨e, he, hev⟩ := List.mem_map.1 hv
    obtain ⟨-, -, j, q1, -, -, q4⟩ := hd.entries e he
    have : j = i := by
      rw [q1] at hev
      exact Nat.eq_of_mul_eq_mul_right hc.bpz_pos hev
    rw [← this]
    exact q4

theorem no_empty_zone_has_entry (st : FtlState) (dev : Nvme) (hc : Cfg st dev)
    (hd : DataInv st dev) (lz : Nat)
    (hlz : st.log_zone_num_config ≤ lz ∧ lz < st.zns_num_zones - 1)
    (hfound : find_next_empty_zone st = -1) :
    ∃ jo, map_find st.data_mapping lz = some (jo * st.blocks_per_zone) ∧
      jo < st.zns_num_zones - 1 := by
  have h2 : ∀ j, st.log_zone_num_config ≤ j → j < st.zns_num_zones - 1 →
      st.zone_states j ≠ EMPTY := by
    rcases find_next_empty_zone_spec st dev hc with ⟨j, -, -, -, h4⟩ | ⟨-, h2⟩
    · rw [hfound] at h4; omega
    · exact h2
  have hk := keys_of_full st.data_mapping st.log_zone_num_config (st.zns_num_zones - 1)
    st.blocks_per_zone hc.bpz_pos hd.keys
    (fun e he => ⟨(hd.entries e he).1, (hd.entries e he).2.1⟩)
    (fun j hj1 hj2 => by
      rcases hd.zones j hj1 hj2 with h | h
      · exact absurd h.1 (h2 j hj1 hj2)
      · exact h.2) lz hlz.1 hlz.2
  obtain ⟨e, he, hv⟩ := List.mem_map.1 hk
  have hf := map_find_some_of_mem _ _ _ hd.keys (show (e.1, e.2) ∈ st.data_mapping from he)
  rw [hv] at hf
  obtain ⟨-, -, jo, q1, -, q3, -⟩ := data_entry_of_find st dev hd lz e.2 hf
  rw [q1] at hf
  exact ⟨jo, hf, q3⟩

theorem do_merge_loop_append : ∀ (pre : UMap (UMap Nat)) (st : FtlState) (dev : Nvme)
    (buffer : Buf) (st1 : FtlState) (dev1 : Nvme) (buffer1 : Buf) (rest : UMap (UMap Nat)),
    do_merge_loop pre st dev buffer = some (0, st1, dev1, buffer1) →
    do_merge_loop (pre ++ rest) st dev buffer = do_merge_loop rest st1 dev1 buffer1 := by
  intro pre
  induction pre with
  | nil =>
    intro st dev buffer st1 dev1 buffer1 rest h
    simp only [do_merge_loop, Option.some.injEq, Prod.mk.injEq, true_and] at h
    obtain ⟨h1, h2, h3⟩ := h
    subst h1 h2 h3
    rfl
  | cons e pre ih =>
    intro st dev buffer st1 dev1 buffer1 rest h
    obtain ⟨lz, set⟩ := e
    simp only [List.cons_append, do_merge_loop] at h ⊢
    cases hm : merge_zone st dev buffer lz set with
    | none => rw [hm] at h; exact absurd h (by simp)
    | some r =>
      rw [hm] at h
      simp only [] at h ⊢
      by_cases hr : r.1 = 0
      · rw [if_neg (fun hne => hne hr)] at h ⊢
        exact ih _ _ _ _ _ _ rest h
      · rw [if_pos hr] at h
        simp only [Option.some.injEq] at h
        rw [h] at hr
        exact absurd rfl hr

theorem merge_iteration_has_old_zone (st : FtlState) (dev : Nvme) (hc : Cfg st dev)
    (hd : DataInv st dev) (buffer : Buf) (pre : UMap (UMap Nat)) (lz : Nat) (set : UMap Nat)
    (post : UMap (UMap Nat)) (hz : zone_sets_ok st (pre ++ (lz, set) :: post)) :
    ∃ st1 dev1 buffer1, do_merge_loop pre st dev buffer = some (0, st1, dev1, buffer1) ∧
      do_merge_loop (pre ++ (lz, set) :: post) st dev buffer =
        do_merge_loop ((lz, set) :: post) st1 dev1 buffer1 ∧
      Cfg st1 dev1 ∧ DataInv st1 dev1 ∧
      (find_next_empty_zone st1 = -1 →
        ∃ old : Nat, map_find st1.data_mapping lz = some old ∧
          ∃ st2 dev2 buffer2, merge_old_image st1 dev1 buffer1 lz =
            some (0, st2, dev2, buffer2, (old : Int))) := by
  have hzp : zone_sets_ok st pre := by
    refine ⟨?_, fun e he => hz.2 e (List.mem_append_left _ he)⟩
    have := hz.1
    rw [List.map_append] at this
    exact (List.nodup_append.1 this).1
  obtain ⟨st1, dev1, buffer1, m1, c1, d1, f1, -, -⟩ :=
    do_merge_loop_spec pre st dev buffer hc hd hzp
  refine ⟨st1, dev1, buffer1, m1, do_merge_loop_append pre st dev buffer st1 dev1 buffer1 _ m1,
    c1, d1, ?_⟩
  intro hfound
  have hlz := hz.2 (lz, set) (List.mem_append_right _ (List.mem_cons_self _ _))
  have e2 : st1.log_zone_num_config = st.log_zone_num_config := by rw [f1]
  have e3 : st1.zns_num_zones = st.zns_num_zones := by rw [f1]
  obtain ⟨jo, hjo, hjo2⟩ := no_empty_zone_has_entry st1 dev1 c1 d1 lz
    ⟨by rw [e2]; exact hlz.1, by rw [e3]; exact hlz.2.1⟩ hfound
  obtain ⟨dev2, h2, -⟩ := merge_old_image_some st1 dev1 c1 buffer1 lz jo hjo hjo2
  exact ⟨jo * st1.blocks_per_zone, hjo, _, dev2, _, h2⟩

/-- C32. In every state reachable from `init_ss_zns_device` with `force_reset` on a
well-configured device by writes whose blocks all lie below `capacity_bytes`
(at addresses block-aligned or not) and by GC passes: no key and no value
occurs twice in `data_mapping`; a data zone `i` in `[L, Z-1)` has state `FULL`
if and only if `i * B` is a value of `data_mapping`; and in a GC pass from the
state, every iteration of the loop of `do_merge` is reached with status 0 and,
when `find_next_empty_zone` returns -1 at its start, the logical zone it is
for has a `data_mapping` entry `old`, which is the `old_zone` (not -1) the
iteration goes on with after reading the old image. -/
theorem in_place_merge_has_old_zone (params : zdev_init_params) (dev0 : Nvme)
    (hw : well_configured params dev0) (st : FtlState) (dev : Nvme)
    (hr : Reached params dev0 st dev) :
    ((st.data_mapping.map Prod.fst).Nodup ∧ (st.data_mapping.map Prod.snd).Nodup) ∧
    (∀ i, st.log_zone_num_config ≤ i → i < st.zns_num_zones - 1 →
      (st.zone_states i = FULL ↔ i * st.blocks_per_zone ∈ st.data_mapping.map Prod.snd)) ∧
    (∀ pre lz set post, gc_stage st st.log_mapping [] = pre ++ (lz, set) :: post →
      ∃ st1 dev1 buffer1,
        do_merge_loop pre { st with log_mapping := gc_tag st.log_mapping } dev zero_buf =
          some (0, st1, dev1, buffer1) ∧
        do_merge_loop (gc_stage st st.log_mapping [])
            { st with log_mapping := gc_tag st.log_mapping } dev zero_buf =
          do_merge_loop ((lz, set) :: post) st1 dev1 buffer1 ∧
        (st1.data_mapping.map Prod.snd).Nodup ∧
        (∀ i, st1.log_zone_num_config ≤ i → i < st1.zns_num_zones - 1 →
          (st1.zone_states i = FULL ↔
            i * st1.blocks_per_zone ∈ st1.data_mapping.map Prod.snd)) ∧
        (find_next_empty_zone st1 = -1 →
          ∃ old : Nat, map_find st1.data_mapping lz = some old ∧
            ∃ st2 dev2 buffer2, merge_old_image st1 dev1 buffer1 lz =
              some (0, st2, dev2, buffer2, (old : Int)))) := by
  obtain ⟨hc, hd, hg, -⟩ := reached_range params dev0 hw st dev hr
  refine ⟨⟨hd.keys, hd.vals⟩, fun i h1 h2 => full_iff_value st dev hc hd i h1 h2, ?_⟩
  intro pre lz set post hsplit
  have hzs := staged_sets_ok st dev hc hg
  rw [hsplit] at hzs ⊢
  obtain ⟨st1, dev1, buffer1, m1, m2, c1, d1, m3⟩ := merge_iteration_has_old_zone
    { st with log_mapping := gc_tag st.log_mapping } dev (cfg_tagged st dev hc)
    ⟨hd.keys, hd.vals, hd.entries, hd.zones⟩ zero_buf pre lz set post hzs
  exact ⟨st1, dev1, buffer1, m1, m2, d1.vals,
    fun i h1 h2 => full_iff_value st1 dev1 c1 d1 i h1 h2, m3⟩

theorem reached_after_write (params : zdev_init_params) (dev0 : Nvme) (x : FtlState × Nvme)
    (h : Reached params dev0 x.1 x.2) (address : Nat) (buffer : Buf) (size : Nat)
    (hsz : address + size ≤ x.1.capacity_bytes) :
    Reached params dev0 (after_write x address buffer size).1
      (after_write x address buffer size).2 := by
  unfold after_write
  cases hw : zns_udevice_write x.1 x.2 address buffer size with
  | returned r =>
    obtain ⟨ret, st', dev'⟩ := r
    exact Reached.write x.1 x.2 address buffer size ret st' dev' h hsz hw
  | blocked st' =>
    exact Reached.wait x.1 x.2 address buffer size st' h hw

theorem reached_after_gc (params : zdev_init_params) (dev0 : Nvme) (x : FtlState × Nvme)
    (h : Reached params dev0 x.1 x.2) :
    Reached params dev0 (after_gc x).1 (after_gc x).2 := by
  unfold after_gc
  cases hg : gc_pass x.1 x.2 with
  | none => exact h
  | some r =>
    obtain ⟨ret, st', dev'⟩ := r
    exact Reached.gc x.1 x.2 ret st' dev' h hg

theorem scn_full_reached : Reached scn_params scn_dev scn_full.1 scn_full.2 := by
  have h0 : Reached scn_params scn_dev (scn_state, scn_nvme).1 (scn_state, scn_nvme).2 :=
    Reached.init scn_state scn_nvme rfl
  have h1 := reached_after_write _ _ _ h0 0 (scn_data 0xa0) 4096 (by decide)
  have h2 := reached_after_write _ _ _ h1 16384 (scn_data 0xa1) 4096 (by decide)
  have h3 := reached_after_write _ _ _ h2 32768 (scn_data 0xa2) 4096 (by decide)
  have h4 := reached_after_write _ _ _ h3 49152 (scn_data 0xa3) 4096 (by decide)
  have h5 := reached_after_gc _ _ _ h4
  exact reached_after_write _ _ _ h5 0 (scn_data 0xb0) 4096 (by decide)

set_option maxRecDepth 100000 in
/-- C32 at the boundary configuration with every data zone `FULL` and address 0
written again: the pass has one iteration, for logical zone 3;
`find_next_empty_zone` returns -1 and `old_zone` is block 12. -/
theorem in_place_merge_has_old_zone_witness :
    gc_stage scn_full.1 scn_full.1.log_mapping [] = [(3, [(0, 0)])] ∧
    find_next_empty_zone { scn_full.1 with log_mapping := gc_tag scn_full.1.log_mapping } = -1 ∧
    (∀ i, scn_full.1.log_zone_num_config ≤ i → i < scn_full.1.zns_num_zones - 1 →
      (scn_full.1.zone_states i = FULL ↔
        i * scn_full.1.blocks_per_zone ∈ scn_full.1.data_mapping.map Prod.snd)) ∧
    ∃ st2 dev2 buffer2,
      merge_old_image { scn_full.1 with log_mapping := gc_tag scn_full.1.log_mapping }
        scn_full.2 zero_buf 3 = some (0, st2, dev2, buffer2, 12) := by
  have h := in_place_merge_has_old_zone scn_params scn_dev
    ⟨rfl, by decide, by decide, by decide, by decide, by decide, by decide⟩
    scn_full.1 scn_full.2 scn_full_reached
  have hs : gc_stage scn_full.1 scn_full.1.log_mapping [] = [(3, [(0, 0)])] := by decide
  have hf : find_next_empty_zone
      { scn_full.1 with log_mapping := gc_tag scn_full.1.log_mapping } = -1 := by decide
  refine ⟨hs, hf, h.2.1, ?_⟩
  obtain ⟨st1, dev1, buffer1, m1, -, -, -, m3⟩ := h.2.2 [] 3 [(0, 0)] [] hs
  simp only [do_merge_loop, Option.some.injEq, Prod.mk.injEq, true_and] at m1
  obtain ⟨e1, e2, e3⟩ := m1
  subst e1 e2 e3
  obtain ⟨old, ho, st2, dev2, buffer2, h2⟩ := m3 hf
  have hold : old = 12 := by
    have h12 : map_find
        ({ scn_full.1 with log_mapping := gc_tag scn_full.1.log_mapping } : FtlState).data_mapping
        3 = some 12 := by decide
    rw [h12] at ho
    simp only [Option.some.injEq] at ho
    exact ho.symm
  subst hold
  exact ⟨st2, dev2, buffer2, h2⟩

set_option maxRecDepth 100000 in
/-- The bound on the writes is needed.  `zns_udevice_write` accepts a write that ends
beyond `capacity_bytes`; at the boundary configuration (capacity 65536 bytes),
after one block written to each of the four logical zones and two blocks
written at address 61440, the log map holds address 65536, of logical zone 7.
The pass merges five logical zones into four data zones: at the fifth
`find_next_empty_zone` returns -1, the data map has no entry for zone 7, and
the in-place branch writes at `old_zone == -1`, which the device refuses. -/
theorem write_past_capacity_merges_without_old_zone :
    scn_state.capacity_bytes = 65536 ∧
    map_find scn_past_capacity.1.log_mapping 65536 = some 5 ∧
    (gc_stage scn_past_capacity.1 scn_past_capacity.1.log_mapping []).map Prod.fst =
      [3, 4, 5, 6, 7] ∧
    (do_merge { scn_past_capacity.1 with log_mapping := gc_tag scn_past_capacity.1.log_mapping }
      scn_past_capacity.2
      (gc_stage scn_past_capacity.1 scn_past_capacity.1.log_mapping [])).map
        (fun r => (r.1, r.2.1.data_mapping.map Prod.fst, find_next_empty_zone r.2.1,
          r.2.2.trace.head?)) =
      some (NVME_SC_LBA_RANGE, [6, 5, 4, 3], -1,
        some { op := Opcode.write, slba := 2 ^ 64 - 1, nlb := 3, len := 16384,
               ret := NVME_SC_LBA_RANGE }) := by
  refine ⟨by decide, by decide, by decide, by decide⟩

end ZnsDevice
